import Mathlib

/-!
# SMACK: target-IR data model and lowering engine

A shallow embedding of the parts of `BoogieAst.h`, `BoogieAst.cpp` and
`SmackRep.cpp` that the properties below talk about.

Conventions of the embedding.

* A `const llvm::Value*` is an address, modelled as a natural number
  (`ValuePtr`).  Whatever the code reads through such a pointer (the alias
  oracle's answers, the type of the value, its lowering) is passed as a
  function of the address.
* An `ostream` write is modelled by the text it appends: every `print` method
  becomes a function to `String`.
* `unsigned` region indices are natural numbers; lists of more than `2^32`
  regions are outside the model.
* The lowering `expr` itself, with `lit` and `ptrArith`, is embedded over a
  tree of values (`Value`) that holds what these functions read from a value
  and from its operands; there the state is passed along, since `expr` advances
  the two placeholder counters.
-/

namespace smack

/-! ## Target-IR data model (`BoogieAst.h`, `BoogieAst.cpp`) -/

/-- `BinExpr::Binary`. -/
inductive Binary where
  | Iff | Imp | Or | And | Eq | Neq | Lt | Gt | Lte | Gte | Sub | Conc
  | Plus | Minus | Times | Div | Mod
  deriving DecidableEq, Repr

/-- The literal tags switched on by `LitExpr::print` in `BoogieAst.cpp` (the
header of this snapshot declares `BoolLit`, `IntLit` and `BvLit` instead; the
embedding follows the class that has the `print` method). -/
inductive Literal where
  | True | False | Num | Bv8 | Bv32 | Bv64
  deriving DecidableEq, Repr

/-- `QuantExpr::Quantifier`. -/
inductive Quantifier where
  | Exists | Forall
  deriving DecidableEq, Repr

/-- The expression nodes that have a `print` method in `BoogieAst.cpp`.
(`CodeExpr::print` is declared in the header and defined nowhere in the
sources, so `CodeExpr` has no constructor here.) -/
inductive Expr where
  | bin (op : Binary) (lhs rhs : Expr)
  | cond (c t e : Expr)
  | fn (f : String) (args : List Expr)
  | lit (l : Literal) (val : Int)
  | neg (e : Expr)
  | not (e : Expr)
  | quant (q : Quantifier) (vars : List (String × String)) (e : Expr)
  | sel (base : Expr) (idxs : List Expr)
  | upd (base : Expr) (idxs : List Expr) (val : Expr)
  | var (v : String)

/-- The loop of `print_seq` and `print_set`:
`for (i = ts.begin(); i != ts.end(); ++i) os << (i == ts.begin() ? "" : sep) << *i;`
The flag says whether `i == ts.begin()`. -/
def printLoop {α : Type} (pr : α → String) (sep : String) : List α → Bool → String
  | [], _ => ""
  | t :: ts, first => (if first then "" else sep) ++ pr t ++ printLoop pr sep ts false

/-- `print_seq(os, ts, init, sep, term)`. -/
def print_seq {α : Type} (pr : α → String) (ts : List α) (init sep term : String) : String :=
  init ++ printLoop pr sep ts true ++ term

/-- `print_set(os, ts, init, sep, term)`; the set is given by its iteration order. -/
def print_set {α : Type} (pr : α → String) (ts : List α) (init sep term : String) : String :=
  init ++ printLoop pr sep ts true ++ term

/-- The operator name written by the `switch` of `BinExpr::print`. -/
def Binary.text : Binary → String
  | .Iff => "Iff" | .Imp => "Implies" | .Or => "Or" | .And => "And"
  | .Eq => "Eq" | .Neq => "Neq" | .Lt => "LT" | .Gt => "GT" | .Lte => "LTE"
  | .Gte => "GTE" | .Sub => "<:" | .Conc => "Concat" | .Plus => "Plus"
  | .Minus => "Minus" | .Times => "Times" | .Div => "Div" | .Mod => "Mod"

mutual
/-- The `print` methods of the expression classes. -/
def Expr.print : Expr → String
  | .bin op lhs rhs => op.text ++ "(" ++ lhs.print ++ ", " ++ rhs.print ++ ")"
  | .cond c t e => "CondExpr(" ++ c.print ++ ", " ++ t.print ++ ", " ++ e.print ++ ")"
  | .fn f args => "FunExpr(\"" ++ f ++ "\", " ++ ("[" ++ Expr.printArgs ", " args true ++ "]") ++ ")"
  | .lit .True _ => "Bool(True)"
  | .lit .False _ => "Bool(False)"
  | .lit _ val => "Num(" ++ toString val ++ ")"
  | .neg e => "NegExpr(" ++ e.print ++ ")"
  | .not e => "NotExpr(" ++ e.print ++ ")"
  | .quant q _ _ =>
    "(" ++ (match q with | .Forall => "forall" | .Exists => "exists")
      ++ " -- ToDo: Implement quantified expressions. " ++ ")"
  | .sel base idxs =>
    "SelExpr(" ++ base.print ++ ", " ++ ("[" ++ Expr.printArgs ", " idxs true ++ "]") ++ ")"
  | .upd base idxs val =>
    "UpdExpr(\"" ++ base.print ++ "\", [" ++ ("" ++ Expr.printArgs ", " idxs true ++ "")
      ++ "], " ++ val.print ++ ")"
  | .var v => "VarExpr(\"" ++ v ++ "\")"
/-- The loop of `print_seq<const Expr*>` inside an expression. -/
def Expr.printArgs (sep : String) : List Expr → Bool → String
  | [], _ => ""
  | t :: ts, first => (if first then "" else sep) ++ t.print ++ Expr.printArgs sep ts false
end

/-- `AttrVal`: `StrVal` or `ExprVal`. -/
inductive AttrVal where
  | str (val : String)
  | expr (val : Expr)

/-- `StrVal::print` and `ExprVal::print`. -/
def AttrVal.print : AttrVal → String
  | .str val => "\"" ++ val ++ "\""
  | .expr val => val.print

/-- `Attr`. -/
structure Attr where
  name : String
  vals : List AttrVal

/-- `Attr::print`. -/
def Attr.print (a : Attr) : String :=
  "('" ++ a.name ++ "'"
    ++ (if a.vals.length > 0 then print_seq AttrVal.print a.vals ", [" ", " "]" else "")
    ++ ")"

/-- The statement classes. -/
inductive Stmt where
  | assert (expr : Expr)
  | assign (lhs rhs : List Expr)
  | assume (expr : Expr) (attrs : List Attr)
  | call (proc : String) (params : List Expr) (returns : List String) (attrs : List Attr)
  | comment (str : String)
  | goto (targets : List String)
  | havoc (vars : List String)
  | ret (expr : Option Expr)
  | code (text : String)

/-- The text `quote` of `BoogieAst.cpp`. -/
def quote : String := "\""

/-- The `print` methods of the statement classes. -/
def Stmt.print : Stmt → String
  | .assert expr => "AssertStmt(" ++ expr.print ++ ")"
  | .assign lhs rhs =>
    "AssignStmt([" ++ print_seq Expr.print lhs "" ", " "" ++ "], ["
      ++ print_seq Expr.print rhs "" ", " "" ++ "])"
  | .assume expr attrs =>
    "AssumeStmt(" ++ expr.print
      ++ (if attrs.length > 0 then print_seq Attr.print attrs ", attrs=[" ", " "]" else "")
      ++ ")"
  | .call proc params returns attrs =>
    "CallStmt(" ++ quote ++ proc ++ quote
      ++ print_seq Expr.print params ", [" ", " "]"
      ++ (if returns.length > 0 then print_seq id returns ", rets=[\"" "\", \"" "\"]" else "")
      ++ (if attrs.length > 0 then print_seq Attr.print attrs ", attrs=[" ", " "]" else "")
      ++ ")"
  | .comment str => "// " ++ str
  | .goto targets => "GotoStmt([" ++ print_seq id targets "\"" "\", \"" "\"" ++ "])"
  | .havoc vars => "HavocStmt([" ++ print_seq id vars "" ", " "" ++ "])"
  | .ret _ => "ReturnStmt()"
  | .code text => text

/-- `Block`. -/
structure Block where
  name : String
  stmts : List Stmt

/-- `Block::insert`: `stmts.insert(stmts.begin(), s)`. -/
def Block.insert (b : Block) (s : Stmt) : Block := { b with stmts := s :: b.stmts }

/-- `Block::addStmt`: `stmts.push_back(s)`. -/
def Block.addStmt (b : Block) (s : Stmt) : Block := { b with stmts := b.stmts ++ [s] }

/-- `Block::print`. -/
def Block.print (b : Block) : String :=
  "Block(" ++ print_seq Stmt.print b.stmts "[\n" ",\n  " "]"
    ++ (if b.name ≠ "" then ", name=\"" ++ b.name ++ "\"" else "")
    ++ ")"

/-- `Decl::kind`, in the order of the enumeration. -/
inductive Kind where
  | STOR | PROC | FUNC | TYPE | UNNAMED | CODE
  deriving DecidableEq, Repr

/-- The integer value of an enumerator of `Decl::kind`. -/
def Kind.toNat : Kind → Nat
  | .STOR => 0 | .PROC => 1 | .FUNC => 2 | .TYPE => 3 | .UNNAMED => 4 | .CODE => 5

/-- The declaration classes.  Every declaration carries the fields `id`, `name`
and `attrs` of the base class `Decl`; a `ProcDecl` also carries the members of
`CodeContainer` (`decls` by iteration order of the set). -/
inductive Decl where
  | typeDecl (id : Nat) (name : String) (attrs : List Attr) (aliasTy : String)
  | axiomDecl (id : Nat) (name : String) (attrs : List Attr) (expr : Expr)
  | constDecl (id : Nat) (name : String) (attrs : List Attr) (type : String) (unique : Bool)
  | funcDecl (id : Nat) (name : String) (attrs : List Attr)
      (params : List (String × String)) (type : String) (body : Expr)
  | varDecl (id : Nat) (name : String) (attrs : List Attr) (type : String)
  | procDecl (id : Nat) (name : String) (attrs : List Attr)
      (params rets : List (String × String)) (requires ensures : List Expr)
      (decls : List Decl) (blocks : List Block) (mods : List String)
  | codeDecl (id : Nat) (name : String) (attrs : List Attr)

/-- `Decl::getId`. -/
def Decl.getId : Decl → Nat
  | .typeDecl id .. | .axiomDecl id .. | .constDecl id .. | .funcDecl id ..
  | .varDecl id .. | .procDecl id .. | .codeDecl id .. => id

/-- `Decl::getName`. -/
def Decl.getName : Decl → String
  | .typeDecl _ name .. | .axiomDecl _ name .. | .constDecl _ name .. | .funcDecl _ name ..
  | .varDecl _ name .. | .procDecl _ name .. | .codeDecl _ name .. => name

/-- The overrides of `Decl::getKind`. -/
def Decl.getKind : Decl → Kind
  | .typeDecl .. => .TYPE
  | .axiomDecl .. => .UNNAMED
  | .constDecl .. => .STOR
  | .funcDecl .. => .FUNC
  | .varDecl .. => .STOR
  | .procDecl .. => .PROC
  | .codeDecl .. => .CODE

/-- `operator<` on `std::string`: compare character by character, the shorter
string first when one is a prefix of the other. -/
def strLess : List Char → List Char → Bool
  | [], [] => false
  | [], _ :: _ => true
  | _ :: _, [] => false
  | a :: as, b :: bs => if a < b then true else if b < a then false else strLess as bs

/-- `DeclCompare::operator()`. -/
def DeclCompare (a b : Decl) : Bool :=
  if a.getKind = b.getKind ∧ a.getKind ≠ Kind.UNNAMED then
    strLess a.getName.toList b.getName.toList
  else if a.getKind = b.getKind then
    decide (a.getId < b.getId)
  else
    decide (a.getKind.toNat < b.getKind.toNat)

/-- `std::set<Decl*,DeclCompare>::insert`, on the iteration order of the set:
the element goes before the first element it precedes, and is dropped when an
element equivalent to it (neither before the other) is met. -/
def setInsert (d : Decl) : List Decl → List Decl
  | [] => [d]
  | x :: xs =>
    if DeclCompare d x then d :: x :: xs
    else if DeclCompare x d then x :: setInsert d xs
    else x :: xs

/-- The loops of `FuncDecl::print` and `ProcDecl::print` over a parameter list:
each entry is followed by `", "` unless it is the last one. -/
def printParams (fmt : String × String → String) : List (String × String) → String
  | [] => ""
  | [p] => fmt p ++ ""
  | p :: q :: ps => fmt p ++ ", " ++ printParams fmt (q :: ps)

mutual
/-- The `print` methods of the declaration classes. -/
def Decl.print : Decl → String
  | .typeDecl _ name attrs aliasTy =>
    "type "
      ++ (if attrs.length > 0 then print_seq Attr.print attrs "" " " " " else "")
      ++ name
      ++ (if aliasTy ≠ "" then " = " ++ aliasTy ++ ";" else "")
      ++ ";"
  | .axiomDecl _ _ attrs expr =>
    "AxiomDecl(" ++ expr.print
      ++ (if attrs.length > 0 then print_seq Attr.print attrs ", attrs=[" ", " "]" else "")
      ++ ")"
  | .constDecl _ name attrs type unique =>
    "add_constant(" ++ quote ++ name ++ "\", \"" ++ type ++ "\", "
      ++ (if unique then "unique=True" else "unique=False")
      ++ (if attrs.length > 0 then print_seq Attr.print attrs ", attrs=[" " " "]" else "")
      ++ ")"
  | .funcDecl _ name attrs params type body =>
    "function " ++ name
      ++ (if attrs.length > 0 then print_seq Attr.print attrs "" " " " " else "")
      ++ printParams (fun p => p.1 ++ ": " ++ p.2) params
      ++ ": " ++ type ++ " \x7b " ++ body.print ++ " \x7d;"
  | .varDecl _ name attrs type =>
    "VarDecl(\"" ++ name ++ "\", \"" ++ type ++ "\""
      ++ (if attrs.length > 0 then print_seq Attr.print attrs ", [" ", " "]" else "")
      ++ ")"
  | .procDecl _ name attrs params rets requires ensures decls blocks _ =>
    "Procedure("
      ++ (if attrs.length > 0 then print_seq Attr.print attrs "[" ", " "]" else "")
      ++ "\"" ++ name ++ "\", "
      ++ "params=["
      ++ printParams (fun p => "(\"" ++ p.1 ++ "\", \"" ++ p.2 ++ "\")") params
      ++ "]"
      ++ (if rets.length > 0 then
            ", rets=[" ++ printParams (fun p => "(\"" ++ p.1 ++ "\", \"" ++ p.2 ++ "\")") rets
              ++ "]"
          else "")
      ++ (if requires.length > 0 then
            "\n" ++ print_seq Expr.print requires ", requires=[" ", " "]"
          else "")
      ++ (if ensures.length > 0 then
            "\n" ++ print_seq Expr.print ensures ", ensures=[" ", " "]"
          else "")
      ++ (if blocks.length > 0 then
            ", blocks=[" ++ "\n"
              ++ (if decls.length > 0 then "  " ++ Decl.printDecls ",\n  " decls true ++ ",\n"
                  else "")
              ++ print_seq Block.print blocks "" ",\n" ""
              ++ "\n" ++ "]"
          else "")
      ++ ")" ++ "\n"
  | .codeDecl _ name _ => name
/-- The loop of `print_set<Decl*>` inside a procedure declaration. -/
def Decl.printDecls (sep : String) : List Decl → Bool → String
  | [], _ => ""
  | t :: ts, first => (if first then "" else sep) ++ t.print ++ Decl.printDecls sep ts false
end

/-- The value of `Decl::uniqueId` after `uniqueId++` (an `unsigned`). -/
def nextUniqueId (uniqueId : Nat) : Nat := (uniqueId + 1) % 4294967296

/-- `Decl::axiom`: the new declaration and the new value of `Decl::uniqueId`. -/
def Decl.axiom_ (uniqueId : Nat) (e : Expr) : Decl × Nat :=
  (.axiomDecl uniqueId "" [] e, nextUniqueId uniqueId)

/-- `Decl::constant(name, type, ax, unique)`. -/
def Decl.constant (uniqueId : Nat) (name type : String) (ax : List Attr) (unique : Bool) :
    Decl × Nat :=
  (.constDecl uniqueId name ax type unique, nextUniqueId uniqueId)

/-- `Decl::variable`. -/
def Decl.variable (uniqueId : Nat) (name type : String) : Decl × Nat :=
  (.varDecl uniqueId name [] type, nextUniqueId uniqueId)

/-- `Decl::code`. -/
def Decl.code (uniqueId : Nat) (s : String) : Decl × Nat :=
  (.codeDecl uniqueId s [], nextUniqueId uniqueId)

/-- `Program`: the prelude text, the declaration set (by iteration order) and
the prelude declarations. -/
structure Program where
  prelude : String
  decls : List Decl
  preludeDecls : List Decl

/-- The program built by the constructor `Program()`. -/
def Program.empty : Program := { prelude := "", decls := [], preludeDecls := [] }

/-- `Program::addPreludeDecls`. -/
def Program.addPreludeDecls (p : Program) (decls : List Decl) : Program :=
  decls.foldl (fun q decl => { q with preludeDecls := q.preludeDecls ++ [decl] }) p

/-- `Program::addDecl(Decl*)`. -/
def Program.addDecl (p : Program) (d : Decl) : Program := { p with decls := setInsert d p.decls }

/-- `Program::addDecls(vector<Decl*>)`. -/
def Program.addDecls (p : Program) (ds : List Decl) : Program := ds.foldl Program.addDecl p

/-- `Program::appendPrelude`. -/
def Program.appendPrelude (p : Program) (s : String) : Program := { p with prelude := p.prelude ++ s }

/-- `Program::print`. -/
def Program.print (p : Program) : String :=
  "# BEGIN SMACK-GENERATED CODE" ++ "\n"
    ++ p.prelude
    ++ print_set Decl.print p.decls "" "\n" ""
    ++ "\n"
    ++ "# END SMACK-GENERATED CODE" ++ "\n"

/-! ## Memory region partitioner (`SmackRep.cpp`) -/

/-- The address of an `llvm::Value`. -/
abbrev ValuePtr := Nat

/-- The two queries of `DSAAliasAnalysis` that `SmackRep` consumes. -/
structure AliasOracle where
  isNoAlias : ValuePtr → ValuePtr → Bool
  isAlloced : ValuePtr → Bool

/-- Assignment `m[k] = x` on a `std::map<const llvm::Value*, unsigned>`, kept
as the key-ordered sequence of its entries (the iteration order of the map). -/
def mapAssign : List (ValuePtr × Nat) → ValuePtr → Nat → List (ValuePtr × Nat)
  | [], k, x => [(k, x)]
  | (k', x') :: m, k, x =>
    if k < k' then (k, x) :: (k', x') :: m
    else if k' < k then (k', x') :: mapAssign m k x
    else (k, x) :: m

/-- Lookup in the key-ordered entry sequence of a `std::map`. -/
def mapFind? : List (ValuePtr × Nat) → ValuePtr → Option Nat
  | [], _ => none
  | (k', x') :: m, k => if k = k' then some x' else mapFind? m k

/-- The mutable fields of a `SmackRep` (the oracle, the data layout and the
program are passed to the functions that use them). -/
structure SmackRep where
  bplGlobals : List String
  memoryRegions : List (ValuePtr × Bool)
  regionOfValue : List (ValuePtr × Nat)
  globalsBottom : Int
  staticInits : List Stmt
  uniqueFpNum : Nat
  uniqueUndefNum : Nat

/-- The state built by the constructor `SmackRep(aa)`. -/
def SmackRep.init : SmackRep :=
  { bplGlobals := [], memoryRegions := [], regionOfValue := [], globalsBottom := 0,
    staticInits := [], uniqueFpNum := 0, uniqueUndefNum := 0 }

/-- The loop `for (r=0; r<memoryRegions.size(); ++r) if (!isNoAlias(v, memoryRegions[r].first)) break;`
run on the entries from index `r` on; the result is the value of `r` at loop exit. -/
def scanRegions (O : AliasOracle) (v : ValuePtr) : List (ValuePtr × Bool) → Nat → Nat
  | [], r => r
  | m :: ms, r => if !O.isNoAlias v m.1 then r else scanRegions O v ms (r + 1)

/-- The statement `memoryRegions[r].second = memoryRegions[r].second || b`. -/
def markRegion (b : Bool) : List (ValuePtr × Bool) → Nat → List (ValuePtr × Bool)
  | [], _ => []
  | m :: ms, 0 => (m.1, m.2 || b) :: ms
  | m :: ms, r + 1 => m :: markRegion b ms r

/-- `SmackRep::getRegion`: the returned region id and the state after the call. -/
def getRegion (O : AliasOracle) (s : SmackRep) (v : ValuePtr) : Nat × SmackRep :=
  let r := scanRegions O v s.memoryRegions 0
  let regs := if r = s.memoryRegions.length then s.memoryRegions ++ [(v, false)]
              else s.memoryRegions
  (r, { s with memoryRegions := markRegion (O.isAlloced v) regs r,
               regionOfValue := mapAssign s.regionOfValue v r })

/-- The allocation flag `memoryRegions[r].second` (false outside the list). -/
def flagAt (s : SmackRep) (r : Nat) : Bool :=
  match s.memoryRegions[r]? with
  | some m => m.2
  | none => false

/-- `SmackRep::isExternal`; `isPointerTy v` stands for `v->getType()->isPointerTy()`.
The conjunction short-circuits, so `getRegion` runs only for pointer-typed values. -/
def isExternal (O : AliasOracle) (isPointerTy : ValuePtr → Bool) (s : SmackRep) (v : ValuePtr) :
    Bool × SmackRep :=
  if isPointerTy v then
    let res := getRegion O s v
    (!flagAt res.2 res.1, res.2)
  else (false, s)

/-- `SmackRep::memReg`. -/
def memReg (idx : Nat) : String := "$M." ++ toString idx

/-- `SmackRep::getPtrType`. -/
def getPtrType : String := "int"

/-- `SmackRep::getPrelude`.  `exprOf v` is the lowering `expr(v)` of the value at
address `v`; the `std::map` `regionOfValue` is walked in key order, that is, in
the order of the addresses.  (Values whose lowering draws a fresh placeholder
are outside this model: for them `expr` also advances a counter.) -/
def getPrelude (exprOf : ValuePtr → Expr) (s : SmackRep) : String :=
  "\n" ++ "# Memory region declarations"
    ++ ": " ++ toString s.memoryRegions.length ++ "\n"
    ++ String.join ((List.range s.memoryRegions.length).map fun i =>
        "add_memory_region(\"" ++ memReg i
          ++ "\", \"" ++ getPtrType ++ "\", \"" ++ getPtrType ++ "\")" ++ "\n")
    ++ String.join (s.regionOfValue.map fun it =>
        "add_ptr_to_region(\"" ++ memReg it.2 ++ "\", " ++ (exprOf it.1).print ++ ")" ++ "\n")
    ++ "\n"
    ++ (if s.uniqueUndefNum > 0 then
          "# Undefined values" ++ "\n"
            ++ String.join ((List.range s.uniqueUndefNum).map fun i =>
                "add_undef('$u." ++ toString i ++ "', '" ++ getPtrType ++ "')" ++ "\n")
            ++ "\n"
        else "")
    ++ "add_constant(\"$GLOBALS_BOTTOM\", \"int\")\n"
    ++ "add_axiom(Eq(\"$GLOBALS_BOTTOM\", Num(" ++ toString s.globalsBottom ++ ")))" ++ "\n"

/-- A sequence of `getRegion` calls: the ids returned, in order, and the final state. -/
def getRegions (O : AliasOracle) : SmackRep → List ValuePtr → List Nat × SmackRep
  | s, [] => ([], s)
  | s, v :: vs =>
    let res := getRegion O s v
    let rest := getRegions O res.2 vs
    (res.1 :: rest.1, rest.2)

/-- The representatives `memoryRegions[i].first`, in index order. -/
def representatives (s : SmackRep) : List ValuePtr := s.memoryRegions.map Prod.fst

/-! ## Auxiliary definitions for the properties -/

/-- What a call `getRegion(v)` that returned `r` establishes about the list `L`
of representatives: every representative before `r` is no-alias with `v`, and
the representative at `r` may-aliases `v` or is `v` itself. -/
def Placed (O : AliasOracle) (L : List ValuePtr) (v : ValuePtr) (r : Nat) : Prop :=
  (∀ i p, i < r → L[i]? = some p → O.isNoAlias v p = true)
  ∧ ∃ p, L[r]? = some p ∧ (O.isNoAlias v p = false ∨ p = v)

/-- The invariant of the region state: every entry of `regionOfValue` was
established by a scan of the current representatives. -/
def RegionInv (O : AliasOracle) (s : SmackRep) : Prop :=
  ∀ v r, mapFind? s.regionOfValue v = some r → Placed O (representatives s) v r

/-- An oracle whose may-alias relation is symmetric but not transitive:
1 and 2 are no-alias, 3 may-aliases both. -/
def chainOracle : AliasOracle :=
  { isNoAlias := fun x y => (x == 1 && y == 2) || (x == 2 && y == 1)
    isAlloced := fun _ => false }

/-- An oracle that reports no-alias exactly for pairs of different parity: its
may-alias relation is an equivalence. -/
def parityOracle : AliasOracle :=
  { isNoAlias := fun x y => decide (x % 2 ≠ y % 2)
    isAlloced := fun x => decide (x = 4) }

/-- An oracle that reports every pair no-alias, a value and itself included. -/
def noAliasOracle : AliasOracle :=
  { isNoAlias := fun _ _ => true
    isAlloced := fun _ => false }

/-- The fixed kind order named by the specification: storage, procedure,
function, type, unnamed (axiom), opaque code. -/
def specKindOrder : List Kind :=
  [Kind.STOR, Kind.PROC, Kind.FUNC, Kind.TYPE, Kind.UNNAMED, Kind.CODE]

/-- Two declarations that the comparator cannot tell apart: the same kind and,
for a named kind, the same name (for axioms, the same creation id). -/
def sameKey (a b : Decl) : Prop :=
  a.getKind = b.getKind
    ∧ (if a.getKind = Kind.UNNAMED then a.getId = b.getId else a.getName = b.getName)

/-- The way `generateProgram` fills a `Program`: declarations are added one by
one, then the prelude text is appended and the prelude declarations are added. -/
def assemble (added : List Decl) (prelude : String) (preludeDecls : List Decl) : Program :=
  (((Program.empty).addDecls added).appendPrelude prelude).addPreludeDecls preludeDecls

/-- The declaration sequence is in canonical order: each element is ordered
before its successor. -/
def Canonical (ds : List Decl) : Prop := ds.Chain' (fun a b => DeclCompare a b = true)

/-- The name of the value stored at address `p`, for a module whose named
values are laid out in memory as `heap` says (address, name). -/
def nameAt (heap : List (ValuePtr × String)) (p : ValuePtr) : String :=
  ((heap.find? (fun e => e.1 == p)).map Prod.snd).getD ""

/-- The alias oracle of a run: its answer for two addresses is the answer
`noAlias` for the two values stored there. -/
def runOracle (noAlias : String → String → Bool) (heap : List (ValuePtr × String)) :
    AliasOracle :=
  { isNoAlias := fun p q => noAlias (nameAt heap p) (nameAt heap q)
    isAlloced := fun _ => false }

/-- One translation run over named values: `getRegion` is called for the values
in the order in which `heap` lists them, `getPrelude` is appended to an empty
program and the program is printed.  A named value `v` lowers to
`Expr::id(id(v))`, the variable reference with its name. -/
def renderRun (noAlias : String → String → Bool) (heap : List (ValuePtr × String)) : String :=
  (assemble []
    (getPrelude (fun p => Expr.var (nameAt heap p))
      (getRegions (runOracle noAlias heap) SmackRep.init (heap.map Prod.fst)).2) []).print

/-! ## Types and casts (`SmackRep.cpp`) -/

/-- What the lowering reads through an `llvm::Type*`: the kind of the type, the
bit width of a primitive type, the element type of a pointer or array, the
element count of an array or struct, and whether a struct is sized.  Function,
label, metadata and vector types are `otherTy`. -/
inductive LType where
  | voidTy
  | integerTy (bits : Nat)
  | floatingPointTy (bits : Nat)
  | pointerTy (elem : LType)
  | arrayTy (numElements : Nat) (elem : LType)
  | structTy (tag : Nat) (numElements : Nat) (sized : Bool)
  | otherTy (tag : Nat)
  deriving DecidableEq, Repr

/-- `Type::isIntegerTy()`. -/
def LType.isIntegerTy : LType → Bool
  | .integerTy _ => true
  | _ => false

/-- `Type::isIntegerTy(1)`. -/
def LType.isIntegerTy1 : LType → Bool
  | .integerTy bits => bits == 1
  | _ => false

/-- `Type::isFloatingPointTy()`. -/
def LType.isFloatingPointTy : LType → Bool
  | .floatingPointTy _ => true
  | _ => false

/-- `Type::isPointerTy()`. -/
def LType.isPointerTy : LType → Bool
  | .pointerTy _ => true
  | _ => false

/-- `Type::isVoidTy()`. -/
def LType.isVoidTy : LType → Bool
  | .voidTy => true
  | _ => false

/-- `Type::getPrimitiveSizeInBits()` on the types modelled here. -/
def LType.getPrimitiveSizeInBits : LType → Nat
  | .integerTy bits => bits
  | .floatingPointTy bits => bits
  | _ => 0

/-- `Type::isSized()`: primitive and pointer types are sized, an array is sized
when its element type is, a struct carries the answer, other types are not. -/
def LType.isSized : LType → Bool
  | .integerTy _ => true
  | .floatingPointTy _ => true
  | .pointerTy _ => true
  | .arrayTy _ elem => elem.isSized
  | .structTy _ _ sized => sized
  | _ => false

/-- The value of an `unsigned` or 64-bit quantity after conversion to `int`. -/
def toInt32 (n : Nat) : Int :=
  if n % 4294967296 < 2147483648 then (n % 4294967296 : Nat) else (n % 4294967296 : Nat) - 4294967296

/-- `SmackRep::BOOL_TYPE`. -/
def BOOL_TYPE : String := "bool"

/-- `SmackRep::FLOAT_TYPE`. -/
def FLOAT_TYPE : String := "float"

/-- `SmackRep::TRUNC`. -/
def TRUNC : String := "$trunc"

/-- `SmackRep::B2P`. -/
def B2P : String := "$b2p"

/-- `SmackRep::I2B`. -/
def I2B : String := "$i2b"

/-- `SmackRep::B2I`. -/
def B2I : String := "$b2i"

/-- `SmackRep::width`. -/
def width : Nat := 0

/-- `SmackRep::isBool(llvm::Type*)`. -/
def isBool (t : LType) : Bool := t.isIntegerTy1

/-- `SmackRep::isFloat(llvm::Type*)`. -/
def isFloat (t : LType) : Bool := t.isFloatingPointTy

/-- `SmackRep::isInt(const llvm::Type*)`. -/
def isInt (t : LType) : Bool := t.isIntegerTy

/-- `SmackRep::type(llvm::Type*)`, with `getPtrType` of the base class. -/
def type (t : LType) : String :=
  if isBool t then BOOL_TYPE
  else if isFloat t then FLOAT_TYPE
  else getPtrType

/-- `Expr::lit(int i, unsigned w)` of `BoogieAst.cpp`; a width outside the
`switch` runs into `assert(false)`. -/
def Expr.litW (i : Int) (w : Nat) : Option Expr :=
  if w = 0 then some (.lit .Num i)
  else if w = 8 then some (.lit .Bv8 i)
  else if w = 32 then some (.lit .Bv32 i)
  else if w = 64 then some (.lit .Bv64 i)
  else none

/-- `SmackRep::lit(unsigned v)`. -/
def lit (v : Nat) : Option Expr := Expr.litW (toInt32 v) width

/-- `Expr::fn(f, x)`. -/
def Expr.fn1 (f : String) (x : Expr) : Expr := .fn f [x]

/-- `Expr::fn(f, x, y)`. -/
def Expr.fn2 (f : String) (x y : Expr) : Expr := .fn f [x, y]

/-- `Expr::fn(f, x, y, z)`. -/
def Expr.fn3 (f : String) (x y z : Expr) : Expr := .fn f [x, y, z]

/-- `SmackRep::b2p`.  Here and below `exprOf v` is the outcome of the lowering
`expr(v)` of the value at address `v`: its expression, or `none` when `expr`
aborts on the value.  (The counters that `expr` advances for undefined values
and floating-point constants are not part of this model.) -/
def b2p (exprOf : ValuePtr → Option Expr) (v : ValuePtr) : Option Expr :=
  (exprOf v).map (Expr.fn1 B2P)

/-- `SmackRep::i2b`. -/
def i2b (exprOf : ValuePtr → Option Expr) (v : ValuePtr) : Option Expr :=
  (exprOf v).map (Expr.fn1 I2B)

/-- `SmackRep::b2i`. -/
def b2i (exprOf : ValuePtr → Option Expr) (v : ValuePtr) : Option Expr :=
  (exprOf v).map (Expr.fn1 B2I)

/-- `SmackRep::trunc`; the failed assertion is the result `none`. -/
def trunc (exprOf : ValuePtr → Option Expr) (v : ValuePtr) (t : LType) : Option Expr :=
  if t.isIntegerTy then
    match exprOf v with
    | none => none
    | some e =>
      if isBool t then some (Expr.fn1 I2B e)
      else (lit t.getPrimitiveSizeInBits).map (Expr.fn2 TRUNC e)
  else none

/-- `SmackRep::zext`; `typeOf v` is `v->getType()`. -/
def zext (exprOf : ValuePtr → Option Expr) (typeOf : ValuePtr → LType) (v : ValuePtr)
    (_t : LType) : Option Expr :=
  if isBool (typeOf v) then b2p exprOf v else exprOf v

/-- `SmackRep::sext`. -/
def sext (exprOf : ValuePtr → Option Expr) (typeOf : ValuePtr → LType) (v : ValuePtr)
    (_t : LType) : Option Expr :=
  if isBool (typeOf v) then b2p exprOf v else exprOf v

/-- `SmackRep::bitcast`. -/
def bitcast (exprOf : ValuePtr → Option Expr) (v : ValuePtr) (_t : LType) : Option Expr :=
  exprOf v

/-- The opcodes of `llvm::Instruction` that `SmackRep::op` has a `case` for;
every other opcode is `Other`. -/
inductive Opcode where
  | Add | Sub | Mul | SDiv | UDiv | SRem | URem | And | Or | Xor | LShr | AShr | Shl
  | FAdd | FSub | FMul | FDiv | FRem
  | Other (code : Nat)
  deriving DecidableEq, Repr

/-- The `switch` of `SmackRep::op`: the function symbol of an opcode, `none`
for the `default` case (`assert(false)`). -/
def opName : Opcode → Option String
  | .Add => some "$add" | .Sub => some "$sub" | .Mul => some "$mul"
  | .SDiv => some "$sdiv" | .UDiv => some "$udiv" | .SRem => some "$srem"
  | .URem => some "$urem" | .And => some "$and" | .Or => some "$or"
  | .Xor => some "$xor" | .LShr => some "$lshr" | .AShr => some "$ashr"
  | .Shl => some "$shl"
  | .FAdd => some "$fadd" | .FSub => some "$fsub" | .FMul => some "$fmul"
  | .FDiv => some "$fdiv" | .FRem => some "$frem"
  | .Other _ => none

/-- What `SmackRep::op` reads through a `const llvm::User*`: the opcode when
the user is a `BinaryOperator` or a `ConstantExpr` (`none` otherwise), its
first two operands and its own address. -/
structure User where
  ptr : ValuePtr
  opcode : Option Opcode
  operand0 : ValuePtr
  operand1 : ValuePtr

/-- `SmackRep::op`. -/
def op (exprOf : ValuePtr → Option Expr) (typeOf : ValuePtr → LType) (v : User) : Option Expr :=
  match v.opcode with
  | none => none
  | some opcode =>
    match opName opcode with
    | none => none
    | some name =>
      let l := v.operand0
      let r := v.operand1
      match (if isBool (typeOf l) then b2i exprOf l else exprOf l),
            (if isBool (typeOf r) then b2i exprOf r else exprOf r) with
      | some x, some y =>
        let e := Expr.fn2 name x y
        some (if isBool (typeOf v.ptr) then Expr.fn1 "$i2b" e else e)
      | _, _ => none

/-! ## Program assembly (`SmackModuleGenerator.cpp`) -/

/-- `CodeContainer::insert`: `blocks.front()->insert(s)`.  `front()` of an empty
vector has no defined result, which is the outcome `none`. -/
def CodeContainer.insert (blocks : List Block) (s : Stmt) : Option (List Block) :=
  match blocks with
  | [] => none
  | b :: bs => some (b.insert s :: bs)

/-- `proc->insert(s)` on a procedure declaration (other declarations are not
code containers). -/
def Decl.insert (d : Decl) (s : Stmt) : Option Decl :=
  match d with
  | .procDecl id name attrs params rets requires ensures decls blocks mods =>
    (CodeContainer.insert blocks s).map
      (fun bs => .procDecl id name attrs params rets requires ensures decls bs mods)
  | _ => none

/-- The alternatives of the regular expression `BPL_KW`. -/
def BPL_KW : List String :=
  ["bool", "int", "false", "true", "old", "forall", "exists", "requires", "modifies",
   "ensures", "invariant", "free", "unique", "finite", "complete", "type", "const",
   "function", "axiom", "var", "procedure", "implementation", "where", "returns", "assume",
   "assert", "havoc", "call", "return", "while", "break", "goto", "if", "else", "div"]

/-- `isBplKeyword`: the whole string is one of the alternatives of `BPL_KW`. -/
def isBplKeyword (s : String) : Bool := BPL_KW.contains s

/-- `EscapeString`; `dotEscape` stands for `llvm::DOT::EscapeString`, which is
not part of the sources. -/
def EscapeString (dotEscape : String → String) (s : String) : String :=
  String.mk ((dotEscape s).toList.map
    (fun c => if c = Char.ofNat 1 then '_' else if c = '@' then '.' else c))

/-- `SmackRep::id`; `name` is the name of the value when `v->hasName()`.  An
unnamed value runs into `assert(false)`, the outcome `none`. -/
def SmackRep.id (dotEscape : String → String) (name : Option String) : Option String :=
  match name with
  | none => none
  | some n =>
    let name := EscapeString dotEscape n
    some (if isBplKeyword name then name ++ "_" else name)

/-- `indexedName`; the index is an `int`. -/
def indexedName (name : String) (idx : Int) : String := name ++ "#" ++ toString idx

/-- The queries of `llvm::DataLayout` that `SmackRep` consumes:
`getTypeStoreSize(t)` and `getStructLayout(t)->getElementOffset(fieldNo)`. -/
structure DataLayout where
  getTypeStoreSize : LType → Nat
  getElementOffset : LType → Nat → Nat

/-- `SmackRep::storageSize`: the store size converted to `unsigned`. -/
def storageSize (L : DataLayout) (t : LType) : Nat := L.getTypeStoreSize t % 4294967296

/-- `SmackRep::fieldOffset`: the element offset converted to `unsigned`. -/
def fieldOffset (L : DataLayout) (t : LType) (fieldNo : Nat) : Nat :=
  L.getElementOffset t fieldNo % 4294967296

/-- What the lowering reads through a `const llvm::Constant*`: its address, its
type, and its aggregate elements (`getAggregateElement(i)` is the `i`-th entry,
a null pointer when there is none). -/
inductive Constant where
  | mk (ptr : ValuePtr) (type : LType) (elems : List Constant)

/-- The address of a constant. -/
def Constant.ptr : Constant → ValuePtr
  | .mk ptr _ _ => ptr

/-- `Constant::getType`. -/
def Constant.type : Constant → LType
  | .mk _ type _ => type

/-- The aggregate elements of a constant. -/
def Constant.elems : Constant → List Constant
  | .mk _ _ elems => elems

/-- `SmackRep::PA`. -/
def PA : String := "$pa"

/-- `SmackRep::pa(base, int index, int size)`: the indices are turned into
literals by `Expr::lit(int)`. -/
def pa (base : Expr) (index size : Int) : Expr :=
  Expr.fn3 PA base (.lit .Num index) (.lit .Num size)

/-- `SmackRep::mem(unsigned region, const Expr* addr)`. -/
def mem (region : Nat) (addr : Expr) : Expr := .sel (.var (memReg region)) [addr]

/-- `Stmt::assign(e, f)`. -/
def Stmt.assign1 (e f : Expr) : Stmt := .assign [e] [f]

mutual
/-- `SmackRep::addInit(region, addr, val)`, on the buffer `staticInits`; the
result is the buffer after the call, `none` when the call aborts.  The lowering
of a leaf is the parameter `exprOf`; `SmackRep.addInit` below is the same
function with the calls of `expr` and the state they leave. -/
def addInit (exprOf : ValuePtr → Option Expr) (L : DataLayout) (staticInits : List Stmt)
    (region : Nat) (addr : Expr) : Constant → Option (List Stmt)
  | .mk ptr ty elems =>
    if isInt ty then
      (exprOf ptr).map (fun e => staticInits ++ [Stmt.assign1 (mem region addr) e])
    else if ty.isPointerTy then
      (exprOf ptr).map (fun e => staticInits ++ [Stmt.assign1 (mem region addr) e])
    else
      match ty with
      | .arrayTy n elemTy =>
        addInitArray exprOf L region addr (storageSize L elemTy) n 0 staticInits elems
      | .structTy tag n sized =>
        addInitStruct exprOf L region addr (.structTy tag n sized) n 0 staticInits elems
      | _ => none
/-- The loop of the array case of `addInit`, from index `i` on; the list holds
the elements from index `i` on. -/
def addInitArray (exprOf : ValuePtr → Option Expr) (L : DataLayout) (region : Nat)
    (addr : Expr) (size n i : Nat) (staticInits : List Stmt) :
    List Constant → Option (List Stmt)
  | [] => if i < n then none else some staticInits
  | elem :: rest =>
    if i < n then
      match addInit exprOf L staticInits region (pa addr (toInt32 i) (toInt32 size)) elem with
      | none => none
      | some inits => addInitArray exprOf L region addr size n (i + 1) inits rest
    else some staticInits
/-- The loop of the struct case of `addInit`, from index `i` on. -/
def addInitStruct (exprOf : ValuePtr → Option Expr) (L : DataLayout) (region : Nat)
    (addr : Expr) (st : LType) (n i : Nat) (staticInits : List Stmt) :
    List Constant → Option (List Stmt)
  | [] => if i < n then none else some staticInits
  | elem :: rest =>
    if i < n then
      match addInit exprOf L staticInits region (pa addr (toInt32 (fieldOffset L st i)) 1) elem with
      | none => none
      | some inits => addInitStruct exprOf L region addr st n (i + 1) inits rest
    else some staticInits
end

/-- `SmackRep::numElements`, an `unsigned`. -/
def numElements (v : Constant) : Nat :=
  match v.type with
  | .arrayTy n _ => n % 4294967296
  | _ => 1

/-- The regular expression `STRING_CONSTANT`, `^\.str[0-9]*$`. -/
def isStringConstant (s : String) : Bool :=
  match s.toList with
  | '.' :: 's' :: 't' :: 'r' :: rest => rest.all Char.isDigit
  | _ => false

/-- What `globalDecl` reads through its argument: the address, the name when
there is one, the type, whether the value is a `GlobalVariable`, and its
initializer when it has one. -/
structure GlobalValue where
  ptr : ValuePtr
  name : Option String
  type : LType
  isGlobalVariable : Bool
  initializer : Option Constant

/-- The value `size` that `globalDecl` computes for a global of type `t`. -/
def globalSize (L : DataLayout) (t : LType) : Nat :=
  match t with
  | .pointerTy elem => if elem.isSized then storageSize L elem else 1024
  | _ => storageSize L t

/-- The value of an `int` after an arithmetic result is stored into it. -/
def wrapInt (x : Int) : Int := (x + 2147483648) % 4294967296 - 2147483648

/-- `Attr::attr(string s, int v)`. -/
def Attr.attrInt (s : String) (v : Int) : Attr := { name := s, vals := [.expr (.lit .Num v)] }

/-- `SmackRep::declareIsExternal`. -/
def declareIsExternal (e : Expr) : Expr := Expr.fn1 "$isExternal" e

/-- `SmackRep::globalDecl`: the declarations returned, the state after the call
and the value of `Decl::uniqueId` after the call; `none` when the call aborts.
(The test of the `else if` after the string-constant test holds whenever that
branch is reached, so the branch is the plain `else` here.) -/
def globalDecl (O : AliasOracle) (L : DataLayout) (dotEscape : String → String)
    (exprOf : ValuePtr → Option Expr) (s : SmackRep) (uniqueId : Nat) (v : GlobalValue) :
    Option (List Decl × SmackRep × Nat) :=
  match v.name, SmackRep.id dotEscape v.name with
  | some rawName, some name =>
    if v.isGlobalVariable then
      match v.initializer with
      | some init =>
        let numElems := numElements init
        let size := globalSize L v.type
        let s1 := { s with globalsBottom := wrapInt (s.globalsBottom - size) }
        if !v.name.isSome || !isStringConstant rawName then
          let ax := if numElems > 1 then [Attr.attrInt "count" (toInt32 numElems)] else []
          let a := Decl.axiom_ uniqueId (.bin .Eq (.var name) (.lit .Num s1.globalsBottom))
          let reg := getRegion O s1 v.ptr
          match addInit exprOf L reg.2.staticInits reg.1 (.var name) init with
          | none => none
          | some inits =>
            let c := Decl.constant a.2 name getPtrType ax true
            some ([a.1, c.1], { reg.2 with staticInits := inits }, c.2)
        else
          let reg := getRegion O s1 v.ptr
          match addInit exprOf L reg.2.staticInits reg.1 (.var name) init with
          | none => none
          | some inits =>
            let c := Decl.constant uniqueId name getPtrType [] true
            some ([c.1], { reg.2 with staticInits := inits }, c.2)
      | none =>
        let a := Decl.axiom_ uniqueId (declareIsExternal (.var name))
        let c := Decl.constant a.2 name getPtrType [] true
        some ([a.1, c.1], s, c.2)
    else
      let c := Decl.constant uniqueId name getPtrType [] true
      some ([c.1], s, c.2)
  | _, _ => none

/-- The loop of `generateProgram` over the globals: `globalDecl` is called for
each one in turn; the result lists the declarations returned by each call. -/
def globalDecls (O : AliasOracle) (L : DataLayout) (dotEscape : String → String)
    (exprOf : ValuePtr → Option Expr) :
    SmackRep → Nat → List GlobalValue → Option (List (List Decl) × SmackRep × Nat)
  | s, uniqueId, [] => some ([], s, uniqueId)
  | s, uniqueId, v :: vs =>
    match globalDecl O L dotEscape exprOf s uniqueId v with
    | none => none
    | some (ds, s1, u1) =>
      match globalDecls O L dotEscape exprOf s1 u1 vs with
      | none => none
      | some (dss, s2, u2) => some (ds :: dss, s2, u2)

/-- The address stated by the address axiom at the head of the declarations
that `globalDecl` returns for a global, when they start with one. -/
def addressAxiom? : List Decl → Option Int
  | .axiomDecl _ _ _ (.bin .Eq (.var _) (.lit .Num a)) :: _ => some a
  | _ => none

/-- The number of bytes by which `globalDecl` lowers the counter for `v`: the
size of a global variable with an initializer, nothing for other values. -/
def reservedSize (L : DataLayout) (v : GlobalValue) : Nat :=
  if v.isGlobalVariable && v.initializer.isSome then globalSize L v.type else 0

/-- A data layout in which an integer of `b` bits is stored in `(b + 7) / 8`
bytes, an array of integers in the sum of its elements, and every other type
in 8 bytes; struct fields lie 4 bytes apart. -/
def sampleLayout : DataLayout :=
  { getTypeStoreSize := fun t =>
      match t with
      | .integerTy b => (b + 7) / 8
      | .arrayTy n (.integerTy b) => n * ((b + 7) / 8)
      | _ => 8
    getElementOffset := fun _ i => 4 * i }

/-- A lowering that turns the constant at address `p` into the literal `p`. -/
def sampleExprOf : ValuePtr → Option Expr := fun p => some (.lit .Num p)

/-- The global `int x = 5`, at address 1, its initializer at address 5. -/
def globalX : GlobalValue :=
  { ptr := 1, name := some "x", type := .pointerTy (.integerTy 32), isGlobalVariable := true
    initializer := some (.mk 5 (.integerTy 32) []) }

/-- A global `y` of type `[2 x i32]`, at address 2. -/
def globalY : GlobalValue :=
  { ptr := 2, name := some "y", type := .pointerTy (.arrayTy 2 (.integerTy 32))
    isGlobalVariable := true
    initializer := some (.mk 20 (.arrayTy 2 (.integerTy 32))
      [.mk 21 (.integerTy 32) [], .mk 22 (.integerTy 32) []]) }

/-- A global `z` of the empty array type `[0 x i32]`, at address 3. -/
def globalZ : GlobalValue :=
  { ptr := 3, name := some "z", type := .pointerTy (.arrayTy 0 (.integerTy 32))
    isGlobalVariable := true
    initializer := some (.mk 30 (.arrayTy 0 (.integerTy 32)) []) }

/-- The run of `globalDecl` over the globals `x`, `y`, `z` from the initial
state, with an oracle that reports every pair no-alias. -/
def sampleRun : Option (List (List Decl) × SmackRep × Nat) :=
  globalDecls noAliasOracle sampleLayout id sampleExprOf SmackRep.init 0
    [globalX, globalY, globalZ]

/-! ## Static-initializer flattening: auxiliary definitions -/

mutual
/-- The scalar leaves of an initializer (the constants of integer or pointer
type), depth first and left to right. -/
def Constant.leaves : Constant → List ValuePtr
  | .mk ptr ty elems =>
    if isInt ty || ty.isPointerTy then [ptr] else Constant.leavesOfList elems
/-- The scalar leaves of a sequence of initializers, in order. -/
def Constant.leavesOfList : List Constant → List ValuePtr
  | [] => []
  | c :: cs => c.leaves ++ Constant.leavesOfList cs
end

mutual
/-- An initializer built from integer and pointer scalars, arrays and structs,
in which every aggregate has as many elements as its type announces (and an
array fewer than `2^32`, the range of the loop counter). -/
def Constant.supported : Constant → Bool
  | .mk _ ty elems =>
    if isInt ty || ty.isPointerTy then true
    else
      match ty with
      | .arrayTy n _ =>
        decide (n = elems.length) && decide (n < 4294967296) && Constant.supportedList elems
      | .structTy _ n _ => decide (n = elems.length) && Constant.supportedList elems
      | _ => false
/-- Every initializer of the sequence is supported. -/
def Constant.supportedList : List Constant → Bool
  | [] => true
  | c :: cs => c.supported && Constant.supportedList cs
end

mutual
/-- For every scalar leaf, in the order of `leaves`, the index steps (index and
scale) from the root of the initializer down to the leaf. -/
def Constant.leafPaths (L : DataLayout) : Constant → List (List (Int × Int))
  | .mk _ ty elems =>
    if isInt ty || ty.isPointerTy then [[]]
    else
      match ty with
      | .arrayTy _ elemTy => Constant.arrayPaths L (storageSize L elemTy) 0 elems
      | .structTy tag n sized => Constant.structPaths L (.structTy tag n sized) 0 elems
      | _ => []
/-- The paths of the leaves of the elements of an array, from index `i` on. -/
def Constant.arrayPaths (L : DataLayout) (size i : Nat) :
    List Constant → List (List (Int × Int))
  | [] => []
  | c :: cs =>
    (c.leafPaths L).map (fun path => (toInt32 i, toInt32 size) :: path)
      ++ Constant.arrayPaths L size (i + 1) cs
/-- The paths of the leaves of the fields of a struct, from field `i` on. -/
def Constant.structPaths (L : DataLayout) (st : LType) (i : Nat) :
    List Constant → List (List (Int × Int))
  | [] => []
  | c :: cs =>
    (c.leafPaths L).map (fun path => (toInt32 (fieldOffset L st i), (1 : Int)) :: path)
      ++ Constant.structPaths L st (i + 1) cs
end

/-- The address reached from `addr` by the index steps of a path, each step an
application of `pa`. -/
def applyPath (addr : Expr) : List (Int × Int) → Expr
  | [] => addr
  | step :: rest => applyPath (pa addr step.1 step.2) rest

/-! ## Calls (`SmackRep.cpp`) -/

/-- `SmackRep::RET_VAR`. -/
def RET_VAR : String := "$r"

/-- `SmackRep::MALLOC`. -/
def MALLOC : String := "$malloc"

/-- `SmackRep::FREE`. -/
def FREE : String := "$free"

/-- `SmackRep::FP2SI`. -/
def FP2SI : String := "$fp2si"

/-- `SmackRep::isSmackName`: the regular expression `.*__SMACK_.*` matches when
the name contains `__SMACK_`. -/
def isSmackName (n : String) : Bool :=
  n.toList.tails.any (fun t => "__SMACK_".toList.isPrefixOf t)

/-- What `proc` reads through a formal argument: its name, when it has one, and
its type. -/
structure Argument where
  name : Option String
  type : LType

/-- What `proc` and `call` read through an `llvm::Function*`. -/
structure Function where
  name : Option String
  args : List Argument
  returnType : LType
  isVarArg : Bool
  isDeclaration : Bool

/-- What `call` reads through an `llvm::CallInst&`: the name and type of the
instruction and its operands, the last of which is the callee. -/
structure CallInst where
  name : Option String
  type : LType
  operands : List ValuePtr

/-- `Decl::procedure(p, name, args, rets)`. -/
def Decl.procedure (uniqueId : Nat) (name : String) (args rets : List (String × String)) :
    Decl × Nat :=
  (.procDecl uniqueId name [] args rets [] [] [] [] [], nextUniqueId uniqueId)

/-- The first loop of `SmackRep::proc`, over the formal arguments from position
`i` on: the parameter list built, and the arguments after the loop (an unnamed
argument is given the name `p#i` by `setName`). -/
def procArgs (dotEscape : String → String) (i : Int) :
    List Argument → List (String × String) × List Argument
  | [] => ([], [])
  | arg :: rest =>
    let name := match SmackRep.id dotEscape arg.name with
      | some n => n
      | none => indexedName "p" i
    let arg1 : Argument := match arg.name with
      | some _ => arg
      | none => { arg with name := some (indexedName "p" i) }
    let r := procArgs dotEscape (i + 1) rest
    ((name, type arg.type) :: r.1, arg1 :: r.2)

/-- The second loop of `SmackRep::proc`: `for (; i < nargs; i++)`, with `fuel`
bounding the number of rounds. -/
def procExtraArgs (nargs : Int) : Nat → Int → List (String × String)
  | 0, _ => []
  | fuel + 1, i =>
    if i < nargs then (indexedName "p" i, getPtrType) :: procExtraArgs nargs fuel (i + 1)
    else []

/-- `SmackRep::proc(f, nargs)`: the declaration built, the function after the
call and the new value of `Decl::uniqueId`; `none` when `id(f)` aborts. -/
def proc (dotEscape : String → String) (uniqueId : Nat) (f : Function) (nargs : Int) :
    Option (Decl × Function × Nat) :=
  let r := procArgs dotEscape 0 f.args
  let i : Int := f.args.length
  let args := r.1 ++ procExtraArgs nargs (nargs - i).toNat i
  let rets := if !f.returnType.isVoidTy then [(RET_VAR, type f.returnType)] else []
  match SmackRep.id dotEscape f.name with
  | none => none
  | some idf =>
    let d := Decl.procedure uniqueId (if f.isVarArg then indexedName idf nargs else idf) args rets
    some (d.1, { f with args := r.2 }, d.2)

/-- `SmackRep::fp2si`. -/
def fp2si (exprOf : ValuePtr → Option Expr) (v : ValuePtr) : Option Expr :=
  (exprOf v).map (Expr.fn1 FP2SI)

/-- `SmackRep::arg`; `f` is `none` for a null pointer. -/
def arg (exprOf : ValuePtr → Option Expr) (typeOf : ValuePtr → LType) (f : Option Function)
    (_pos : Nat) (v : ValuePtr) : Option Expr :=
  match f with
  | some fn => if fn.isVarArg && isFloat (typeOf v) then fp2si exprOf v else exprOf v
  | none => exprOf v

/-- The loop of `SmackRep::call` that lowers the operands before the callee, the
lowering of an operand being the parameter `exprOf`; `SmackRep.callArgs` below
is the same loop with the calls of `expr` and the state they leave. -/
def callArgs (exprOf : ValuePtr → Option Expr) (typeOf : ValuePtr → LType)
    (f : Option Function) (i : Nat) : List ValuePtr → Option (List Expr)
  | [] => some []
  | v :: vs =>
    match arg exprOf typeOf f i v, callArgs exprOf typeOf f (i + 1) vs with
    | some e, some es => some (e :: es)
    | _, _ => none

/-- `SmackRep::call(f, ci)`: the statement, the program after `addDecl`, the
function after the call and the new value of `Decl::uniqueId`; `none` when an
assertion fails or a lowering aborts. -/
def call (dotEscape : String → String) (exprOf : ValuePtr → Option Expr)
    (typeOf : ValuePtr → LType) (program : Program) (uniqueId : Nat) (f : Option Function)
    (ci : CallInst) : Option (Stmt × Program × Function × Nat) :=
  match f with
  | none => none
  | some fn =>
    match SmackRep.id dotEscape fn.name with
    | none => none
    | some name =>
      match callArgs exprOf typeOf f 0 ci.operands.dropLast with
      | none => none
      | some args =>
        let retsOpt : Option (List String) :=
          if !ci.type.isVoidTy then (SmackRep.id dotEscape ci.name).map (fun r => [r])
          else some []
        match retsOpt with
        | none => none
        | some rets =>
          if name = "malloc" then
            match args, rets with
            | [a], r :: _ => some (.call MALLOC [a] [r] [], program, fn, uniqueId)
            | _, _ => none
          else if name = "free_" then
            match args with
            | [a] => some (.call FREE [a] [] [], program, fn, uniqueId)
            | _ => none
          else if fn.isVarArg || (fn.isDeclaration && !isSmackName name) then
            match proc dotEscape uniqueId fn (toInt32 args.length) with
            | none => none
            | some (p, fn1, u1) => some (.call p.getName args rets [], program.addDecl p, fn1, u1)
          else some (.call name args rets [], program, fn, uniqueId)

/-- A sequence of calls of `f` lowered one after the other: the statements, the
final program, the function and the final value of `Decl::uniqueId`. -/
def lowerCalls (dotEscape : String → String) (exprOf : ValuePtr → Option Expr)
    (typeOf : ValuePtr → LType) :
    Program → Nat → Function → List CallInst → Option (List Stmt × Program × Function × Nat)
  | program, uniqueId, f, [] => some ([], program, f, uniqueId)
  | program, uniqueId, f, ci :: cis =>
    match call dotEscape exprOf typeOf program uniqueId (some f) ci with
    | none => none
    | some (st, p1, f1, u1) =>
      match lowerCalls dotEscape exprOf typeOf p1 u1 f1 cis with
      | none => none
      | some (sts, p2, f2, u2) => some (st :: sts, p2, f2, u2)

/-- The procedure that a statement calls, when it is a call. -/
def Stmt.callee? : Stmt → Option String
  | .call proc _ _ _ => some proc
  | _ => none

/-- The number of actual arguments of a call instruction. -/
def CallInst.argCount (ci : CallInst) : Nat := ci.operands.dropLast.length

/-- The variadic function `foo`, declared without formal arguments. -/
def fooFn : Function :=
  { name := some "foo", args := [], returnType := .voidTy, isVarArg := true,
    isDeclaration := true }

/-- A variadic function named `malloc` with one formal argument. -/
def variadicMalloc : Function :=
  { name := some "malloc", args := [{ name := some "n", type := .integerTy 64 }],
    returnType := .pointerTy (.integerTy 8), isVarArg := true, isDeclaration := true }

/-- A call with the given operands before the callee (at address 99) and no
result. -/
def voidCall (operands : List ValuePtr) : CallInst :=
  { name := none, type := .voidTy, operands := operands ++ [99] }

/-- A call instruction that `call` can lower: every operand before the callee
lowers to an expression, a call with a result has a name, and the number of
actual arguments fits the `int` parameter of `proc`. -/
def CallInst.lowers (dotEscape : String → String) (exprOf : ValuePtr → Option Expr)
    (ci : CallInst) : Prop :=
  (∀ v ∈ ci.operands.dropLast, (exprOf v).isSome = true)
    ∧ (ci.type.isVoidTy = false → (SmackRep.id dotEscape ci.name).isSome = true)
    ∧ ci.argCount < 2147483648

/-- A procedure declaration named from the identifier `idf` and the count `n`. -/
def synthesizedFor (idf : String) (n : Nat) (d : Decl) : Bool :=
  decide (d.getKind = Kind.PROC) && decide (d.getName = indexedName idf n)

/-- The three calls `foo(1,2)`, `foo(1)`, `foo(3,4)`. -/
def fooCalls : List CallInst := [voidCall [1, 2], voidCall [1], voidCall [3, 4]]

/-- The value of a decimal digit character. -/
def digitVal (c : Char) : Nat := c.toNat - 48

/-- The number that a list of decimal digits denotes, continuing from `acc`. -/
def decimalVal (acc : Nat) (l : List Char) : Nat := l.foldl (fun a c => a * 10 + digitVal c) acc

/-- A call `p = malloc(4)` with the callee at address 99. -/
def mallocCall : CallInst :=
  { name := some "p", type := .pointerTy (.integerTy 8), operands := [4, 99] }

/-- The lowering of `fooCalls` from the empty program. -/
def fooRun : Option (List Stmt × Program × Function × Nat) :=
  lowerCalls id sampleExprOf (fun _ => LType.integerTy 32) Program.empty 0 fooFn fooCalls

/-! ## Comparisons (`SmackRep.cpp`) -/

/-- `llvm::CmpInst::Predicate`: the sixteen floating-point predicates and the
ten integer predicates; every other value of the enumeration is `Other`. -/
inductive Predicate where
  | FCMP_FALSE | FCMP_OEQ | FCMP_OGT | FCMP_OGE | FCMP_OLT | FCMP_OLE | FCMP_ONE | FCMP_ORD
  | FCMP_UNO | FCMP_UEQ | FCMP_UGT | FCMP_UGE | FCMP_ULT | FCMP_ULE | FCMP_UNE | FCMP_TRUE
  | ICMP_EQ | ICMP_NE | ICMP_UGT | ICMP_UGE | ICMP_ULT | ICMP_ULE
  | ICMP_SGT | ICMP_SGE | ICMP_SLT | ICMP_SLE
  | Other (code : Nat)
  deriving DecidableEq, Repr

/-- `Expr::eq`. -/
def Expr.eq (l r : Expr) : Expr := .bin .Eq l r

/-- `Expr::neq`. -/
def Expr.neq (l r : Expr) : Expr := .bin .Neq l r

/-- The `switch` of `SmackRep::pred` on the lowered operands `l` and `r`: the
values of the locals `e` (`none` for `NULL`) and `o` after it, or `none` for the
`default` case (`assert(false)`). -/
def predSwitch (l r : Expr) : Predicate → Option (Option Expr × String)
  | .ICMP_EQ => some (some (Expr.eq l r), "")
  | .ICMP_NE => some (some (Expr.neq l r), "")
  | .ICMP_SGE => some (none, "$sge")
  | .ICMP_UGE => some (none, "$uge")
  | .ICMP_SLE => some (none, "$sle")
  | .ICMP_ULE => some (none, "$ule")
  | .ICMP_SLT => some (none, "$slt")
  | .ICMP_ULT => some (none, "$ult")
  | .ICMP_SGT => some (none, "$sgt")
  | .ICMP_UGT => some (none, "$ugt")
  | .FCMP_FALSE => some (none, "$ffalse")
  | .FCMP_OEQ => some (none, "$foeq")
  | .FCMP_OGE => some (none, "$foge")
  | .FCMP_OGT => some (none, "$fogt")
  | .FCMP_OLE => some (none, "$fole")
  | .FCMP_OLT => some (none, "$folt")
  | .FCMP_ONE => some (none, "$fone")
  | .FCMP_ORD => some (none, "$ford")
  | .FCMP_TRUE => some (none, "$ftrue")
  | .FCMP_UEQ => some (none, "$fueq")
  | .FCMP_UGE => some (none, "$fuge")
  | .FCMP_UGT => some (none, "$fugt")
  | .FCMP_ULE => some (none, "$fule")
  | .FCMP_ULT => some (none, "$fult")
  | .FCMP_UNE => some (none, "$fune")
  | .FCMP_UNO => some (none, "$funo")
  | .Other _ => none

/-- What `SmackRep::pred` reads through an `llvm::CmpInst&`. -/
structure CmpInst where
  predicate : Predicate
  operand0 : ValuePtr
  operand1 : ValuePtr

/-- `SmackRep::pred`. -/
def pred (exprOf : ValuePtr → Option Expr) (ci : CmpInst) : Option Expr :=
  match exprOf ci.operand0, exprOf ci.operand1 with
  | some l, some r =>
    match predSwitch l r ci.predicate with
    | none => none
    | some (e, o) =>
      some (match e with
        | none => Expr.fn2 o l r
        | some e => e)
  | _, _ => none

/-- The opcodes that `SmackRep::op` has a `case` for, in the order of the
`switch`. -/
def supportedOpcodes : List Opcode :=
  [.Add, .Sub, .Mul, .SDiv, .UDiv, .SRem, .URem, .And, .Or, .Xor, .LShr, .AShr, .Shl,
   .FAdd, .FSub, .FMul, .FDiv, .FRem]

/-- The integer predicates other than equality and inequality. -/
def integerPredicates : List Predicate :=
  [.ICMP_SGE, .ICMP_UGE, .ICMP_SLE, .ICMP_ULE, .ICMP_SLT, .ICMP_ULT, .ICMP_SGT, .ICMP_UGT]

/-- The floating-point predicates. -/
def floatPredicates : List Predicate :=
  [.FCMP_FALSE, .FCMP_OEQ, .FCMP_OGE, .FCMP_OGT, .FCMP_OLE, .FCMP_OLT, .FCMP_ONE, .FCMP_ORD,
   .FCMP_TRUE, .FCMP_UEQ, .FCMP_UGE, .FCMP_UGT, .FCMP_ULE, .FCMP_ULT, .FCMP_UNE, .FCMP_UNO]

/-- The name of the predicate function that `pred` applies, for the predicates
that have one. -/
def predName (p : Predicate) : Option String :=
  match predSwitch (.var "") (.var "") p with
  | some (none, o) => some o
  | _ => none

/-- The instruction `and i1 %a, %b`: the instruction at address 3, its operands
at 1 and 2. -/
def andInst : User := { ptr := 3, opcode := some .And, operand0 := 1, operand1 := 2 }

/-- A typing under which every value is of type `i1`. -/
def allBool : ValuePtr → LType := fun _ => .integerTy 1

/-! ## Lowering of values (`SmackRep.cpp`) -/

/-- The opcode of an `llvm::ConstantExpr`, as far as `SmackRep::expr` tells the
opcodes apart: the four it names, the binary operators
(`Instruction::isBinaryOp`, with their opcode), and every other one. -/
inductive ConstantExprOpcode where
  | GetElementPtr | BitCast | IntToPtr | PtrToInt
  | BinaryOp (opcode : Opcode)
  | Other (code : Nat)
  deriving DecidableEq, Repr

/-- What the lowering reads through a `const llvm::Value*`, by the class of the
value.  `GlobalValue`: a global, with its name when it has one.  `Local`: a
value that is no constant (an instruction, an argument), with its name when it
has one.  `ConstantExpr`: the operands, and for a `getelementptr` the types
that `gep_type_iterator` gives for the operands after the first.
`ConstantInt`: the bit width and the bits of the value, read as an unsigned
number.  `ConstantAggregateZero` and `ConstantPointerNull` are the constants
other than integers and floats for which `isNullValue()` holds.
`OtherConstant`: every other constant.  A constant that is no global has no
name. -/
inductive Value where
  | GlobalValue (name : Option String) (type : LType)
  | Local (name : Option String) (type : LType)
  | ConstantExpr (type : LType) (opcode : ConstantExprOpcode) (operands : List Value)
      (gepTypes : List LType)
  | ConstantInt (bitWidth : Nat) (bits : Nat)
  | ConstantFP (type : LType)
  | ConstantPointerNull (type : LType)
  | ConstantAggregateZero (type : LType)
  | UndefValue (type : LType)
  | OtherConstant (type : LType)

/-- `Value::getType`. -/
def Value.type : Value → LType
  | .GlobalValue _ type => type
  | .Local _ type => type
  | .ConstantExpr type _ _ _ => type
  | .ConstantInt bitWidth _ => .integerTy bitWidth
  | .ConstantFP type => type
  | .ConstantPointerNull type => type
  | .ConstantAggregateZero type => type
  | .UndefValue type => type
  | .OtherConstant type => type

/-- The bits of an integer constant of `bitWidth` bits as an unsigned number
(`ConstantInt::getZExtValue` for a width of at most 64). -/
def getZExtValue (bitWidth bits : Nat) : Nat := bits % 2 ^ bitWidth

/-- `ConstantInt::isZero`. -/
def isZero (bitWidth bits : Nat) : Bool := getZExtValue bitWidth bits == 0

/-- `ConstantInt::isNegative`: the sign bit is set. -/
def isNegative (bitWidth bits : Nat) : Bool :=
  decide (0 < bitWidth ∧ 2 ^ (bitWidth - 1) ≤ getZExtValue bitWidth bits)

/-- `ConstantInt::getLimitedValue()`: the unsigned value, or `2^64 - 1` when it
does not fit 64 bits. -/
def getLimitedValue (bitWidth bits : Nat) : Nat :=
  if getZExtValue bitWidth bits > 18446744073709551615 then 18446744073709551615
  else getZExtValue bitWidth bits

/-- The signed value of an integer constant (two's complement). -/
def signedValue (bitWidth bits : Nat) : Int :=
  if isNegative bitWidth bits then (getZExtValue bitWidth bits : Int) - 2 ^ bitWidth
  else getZExtValue bitWidth bits

/-- `Expr::lit(bool b)`.  The class `LitExpr` is not declared in the sources;
its `print` reads only the tag of a boolean literal, and the value field of
such a literal is taken to be 0. -/
def Expr.litBool (b : Bool) : Expr := if b then .lit .True 0 else .lit .False 0

/-- `Expr::lit(int i)`. -/
def Expr.litInt (i : Int) : Expr := .lit .Num i

/-- `SmackRep::SUB`. -/
def SUB : String := "$sub"

/-- `SmackRep::FP`. -/
def FP : String := "$fp"

/-- `SmackRep::I2P`. -/
def I2P : String := "$i2p"

/-- `SmackRep::P2I`. -/
def P2I : String := "$p2i"

/-- The `ConstantInt` branch of `SmackRep::lit(const llvm::Value*)`, with the
constant `SmackRep::width` as the parameter `w`.  `val` is a `uint64_t`, and
`Expr::lit(int i, unsigned w)` takes it as an `int`. -/
def litConstantInt (w : Int) (bitWidth bits : Nat) : Option Expr :=
  if bitWidth = 1 then some (Expr.litBool (!isZero bitWidth bits))
  else
    let val := getLimitedValue bitWidth bits
    if 0 < w ∧ isNegative bitWidth bits = true then
      match Expr.litW 0 (w % 4294967296).toNat,
            Expr.litW (toInt32 ((18446744073709551616 - val) % 18446744073709551616))
              (w % 4294967296).toNat with
      | some a, some b => some (Expr.fn2 SUB a b)
      | _, _ => none
    else Expr.litW (toInt32 val) (w % 4294967296).toNat

/-- The `ConstantFP` branch of `SmackRep::lit(const llvm::Value*)`:
`Expr::fn(FP, Expr::lit((int) uniqueFpNum++))`. -/
def litConstantFP (s : SmackRep) : Expr × SmackRep :=
  (Expr.fn1 FP (Expr.litInt (toInt32 s.uniqueFpNum)),
   { s with uniqueFpNum := (s.uniqueFpNum + 1) % 4294967296 })

/-- `SmackRep::undef`. -/
def SmackRep.undef (s : SmackRep) : Expr × SmackRep :=
  (Expr.var ("$u." ++ toString s.uniqueUndefNum),
   { s with uniqueUndefNum := (s.uniqueUndefNum + 1) % 4294967296 })

/-- The branches of `SmackRep::lit(const llvm::Value*)` before the last `else`:
their outcome for an integer constant, a floating-point constant and a null
pointer, `none` for a value that reaches the last `else`. -/
def litConstant (s : SmackRep) : Value → Option (Option (Expr × SmackRep))
  | .ConstantInt bitWidth bits => some ((litConstantInt width bitWidth bits).map (fun e => (e, s)))
  | .ConstantFP _ => some (some (litConstantFP s))
  | .ConstantPointerNull _ => some ((Expr.litW 0 width).map (fun e => (e, s)))
  | _ => none

/-- `SmackRep::pa(base, const Expr* index, int size)`. -/
def paExpr (base index : Expr) (size : Int) : Expr :=
  Expr.fn3 PA base index (Expr.litInt size)

/-- `cast<SequentialType>(t)->getElementType()` on the types modelled here:
pointers and arrays; the cast fails on another type. -/
def sequentialElementType : LType → Option LType
  | .pointerTy elem => some elem
  | .arrayTy _ elem => some elem
  | _ => none

mutual
/-- `SmackRep::expr`: the expression and the state after the call, `none` when
an assertion fails.  The calls of `ptrArith`, `i2p`, `p2i` and `op` are written
out, since they call `expr` again; where two operands are lowered inside one
argument list the first operand is lowered first. -/
def SmackRep.expr (dotEscape : String → String) (L : DataLayout) (s : SmackRep) :
    Value → Option (Expr × SmackRep)
  | .GlobalValue name _ => (SmackRep.id dotEscape name).map (fun n => (Expr.var n, s))
  | .Local name _ =>
    match name with
    | some n => (SmackRep.id dotEscape (some n)).map (fun n => (Expr.var n, s))
    | none => none
  | .ConstantExpr _ .GetElementPtr operands gepTypes =>
    match operands with
    | [] => none
    | p :: ps =>
      if 0 < ps.length ∧ ps.length = gepTypes.length then
        match SmackRep.expr dotEscape L s p with
        | none => none
        | some (e, s1) => SmackRep.ptrArithLoop dotEscape L s1 e ps gepTypes
      else none
  | .ConstantExpr _ .BitCast operands _ =>
    match operands with
    | [] => none
    | x :: _ => SmackRep.expr dotEscape L s x
  | .ConstantExpr _ .IntToPtr operands _ =>
    match operands with
    | [] => none
    | x :: _ => (SmackRep.expr dotEscape L s x).map (fun r => (Expr.fn1 I2P r.1, r.2))
  | .ConstantExpr _ .PtrToInt operands _ =>
    match operands with
    | [] => none
    | x :: _ => (SmackRep.expr dotEscape L s x).map (fun r => (Expr.fn1 P2I r.1, r.2))
  | .ConstantExpr type (.BinaryOp opcode) operands _ =>
    match opName opcode with
    | none => none
    | some name =>
      match operands with
      | l :: r :: _ =>
        match SmackRep.expr dotEscape L s l with
        | none => none
        | some (el, s1) =>
          match SmackRep.expr dotEscape L s1 r with
          | none => none
          | some (er, s2) =>
            let e := Expr.fn2 name (if isBool l.type then Expr.fn1 B2I el else el)
              (if isBool r.type then Expr.fn1 B2I er else er)
            some (if isBool type then Expr.fn1 "$i2b" e else e, s2)
      | _ => none
  | .ConstantExpr _ (.Other _) _ _ => none
  | .ConstantInt bitWidth bits =>
    if bitWidth = 1 then some (Expr.litBool (!isZero bitWidth bits), s)
    else (litConstantInt width bitWidth bits).map (fun e => (e, s))
  | .ConstantFP _ => some (litConstantFP s)
  | .ConstantPointerNull _ => (lit 0).map (fun e => (e, s))
  | .ConstantAggregateZero _ => (lit 0).map (fun e => (e, s))
  | .UndefValue _ => some s.undef
  | .OtherConstant _ => none
/-- The loop of `SmackRep::ptrArith` on the running address `e`, the indices
`ps` and the types `ts` that are still to come. -/
def SmackRep.ptrArithLoop (dotEscape : String → String) (L : DataLayout) (s : SmackRep)
    (e : Expr) : List Value → List LType → Option (Expr × SmackRep)
  | [], _ => some (e, s)
  | _ :: _, [] => none
  | idx :: ps, t :: ts =>
    match t with
    | .structTy tag n sized =>
      if idx.type.isIntegerTy && idx.type.getPrimitiveSizeInBits == 32 then
        match idx with
        | .ConstantInt bitWidth bits =>
          let fieldNo := getZExtValue bitWidth bits % 4294967296
          SmackRep.ptrArithLoop dotEscape L s
            (pa e (toInt32 (fieldOffset L (.structTy tag n sized) fieldNo)) 1) ps ts
        | _ => none
      else none
    | _ =>
      match sequentialElementType t with
      | none => none
      | some et =>
        match (match litConstant s idx with
               | some r => r
               | none => SmackRep.expr dotEscape L s idx) with
        | none => none
        | some (i, s1) =>
          SmackRep.ptrArithLoop dotEscape L s1 (paExpr e i (toInt32 (storageSize L et))) ps ts
end

/-- `SmackRep::lit(const llvm::Value*)`. -/
def SmackRep.lit (dotEscape : String → String) (L : DataLayout) (s : SmackRep) (v : Value) :
    Option (Expr × SmackRep) :=
  match litConstant s v with
  | some r => r
  | none => s.expr dotEscape L v

/-- `SmackRep::ptrArith`. -/
def SmackRep.ptrArith (dotEscape : String → String) (L : DataLayout) (s : SmackRep)
    (p : Value) (ps : List Value) (ts : List LType) : Option (Expr × SmackRep) :=
  if 0 < ps.length ∧ ps.length = ts.length then
    match s.expr dotEscape L p with
    | none => none
    | some (e, s1) => SmackRep.ptrArithLoop dotEscape L s1 e ps ts
  else none

/-- A request for a fresh placeholder: a call of `undef()` or a call of
`lit` on a floating-point constant. -/
inductive Placeholder where
  | undef
  | fp
  deriving DecidableEq, Repr

/-- One placeholder request served in the state `s`. -/
def SmackRep.placeholder (s : SmackRep) : Placeholder → Expr × SmackRep
  | .undef => s.undef
  | .fp => litConstantFP s

/-- A run of placeholder requests: the expressions returned, in order, and the
final state. -/
def SmackRep.placeholders : SmackRep → List Placeholder → List Expr × SmackRep
  | s, [] => ([], s)
  | s, r :: rs =>
    let res := s.placeholder r
    let rest := SmackRep.placeholders res.2 rs
    (res.1 :: rest.1, rest.2)

/-- One step of an index chain in the words of the specification: the index and
the size that the step passes to the pointer-arithmetic function.  A struct step
(its index a 32-bit integer constant) passes the byte offset of the field and 1;
a step into a pointer or an array passes the lowered index and the storage size
of the element type. -/
def stepArguments (dotEscape : String → String) (L : DataLayout) (s : SmackRep)
    (idx : Value) (t : LType) : Option ((Expr × Expr) × SmackRep) :=
  match t with
  | .structTy tag n sized =>
    match idx with
    | .ConstantInt bitWidth bits =>
      if bitWidth = 32 then
        some ((Expr.litInt (toInt32 (fieldOffset L (.structTy tag n sized)
          (getZExtValue bitWidth bits % 4294967296))), Expr.litInt 1), s)
      else none
    | _ => none
  | .pointerTy elem =>
    (s.lit dotEscape L idx).map
      (fun r => ((r.1, Expr.litInt (toInt32 (storageSize L elem))), r.2))
  | .arrayTy _ elem =>
    (s.lit dotEscape L idx).map
      (fun r => ((r.1, Expr.litInt (toInt32 (storageSize L elem))), r.2))
  | _ => none

/-- The arguments of all the steps of an index chain, from left to right. -/
def chainArguments (dotEscape : String → String) (L : DataLayout) :
    SmackRep → List Value → List LType → Option (List (Expr × Expr) × SmackRep)
  | s, [], [] => some ([], s)
  | s, idx :: ps, t :: ts =>
    match stepArguments dotEscape L s idx t with
    | none => none
    | some (a, s1) =>
      match chainArguments dotEscape L s1 ps ts with
      | none => none
      | some (as, s2) => some (a :: as, s2)
  | _, _, _ => none

/-- The left-to-right fold of the specification: every step wraps the running
address in one more application of the pointer-arithmetic function. -/
def foldChain (e : Expr) (args : List (Expr × Expr)) : Expr :=
  args.foldl (fun e a => Expr.fn PA [e, a.1, a.2]) e

/-- The global `g`, a pointer to a struct of two fields. -/
def globalG : Value := .GlobalValue (some "g") (.pointerTy (.structTy 0 2 true))

/-- The placeholder that `undef()` returns at the counter value `k`. -/
def undefName (k : Nat) : Expr := .var ("$u." ++ toString k)

/-- The placeholder that `lit` returns for a floating-point constant at the
counter value `k`. -/
def fpPlaceholder (k : Nat) : Expr := Expr.fn1 FP (Expr.litInt (toInt32 k))

/-- The placeholder that a request of kind `r` returns at the counter values
`u` (undefined values) and `f` (floating-point constants). -/
def Placeholder.result (r : Placeholder) (u f : Nat) : Expr :=
  match r with
  | .undef => undefName u
  | .fp => fpPlaceholder f

/-! ## Bulk copy and fill (`SmackRep.cpp`) -/

/-- `memReg(r)` for an `int` region `r`, which the call converts to `unsigned`. -/
def memRegInt (r : Int) : String := memReg (r % 4294967296).toNat

/-- `SmackRep::memcpyProc`; the parameter is the option
`SmackOptions::MemoryModelImpls`. -/
def memcpyProc (MemoryModelImpls : Bool) (dstReg srcReg : Int) : String :=
  if MemoryModelImpls then
    "procedure $memcpy." ++ toString dstReg ++ "." ++ toString srcReg
      ++ "(dest: int, src: int, len: int, align: int, isvolatile: bool)" ++ "\n"
      ++ "modifies " ++ memRegInt dstReg ++ ";" ++ "\n"
      ++ "\x7b" ++ "\n"
      ++ "  var $oldSrc: [" ++ getPtrType ++ "] " ++ getPtrType ++ ";" ++ "\n"
      ++ "  var $oldDst: [" ++ getPtrType ++ "] " ++ getPtrType ++ ";" ++ "\n"
      ++ "  $oldSrc := " ++ memRegInt srcReg ++ ";" ++ "\n"
      ++ "  $oldDst := " ++ memRegInt dstReg ++ ";" ++ "\n"
      ++ "  havoc " ++ memRegInt dstReg ++ ";" ++ "\n"
      ++ "  assume (forall x:int :: dest <= x && x < dest + len ==> "
      ++ memRegInt dstReg ++ "[x] == $oldSrc[src - dest + x]);" ++ "\n"
      ++ "  assume (forall x:int :: !(dest <= x && x < dest + len) ==> "
      ++ memRegInt dstReg ++ "[x] == $oldDst[x]);" ++ "\n"
      ++ "\x7d" ++ "\n"
  else
    "procedure $memcpy." ++ toString dstReg ++ "." ++ toString srcReg
      ++ "(dest: int, src: int, len: int, align: int, isvolatile: bool);" ++ "\n"
      ++ "modifies " ++ memRegInt dstReg ++ ";" ++ "\n"
      ++ "ensures (forall x:int :: dest <= x && x < dest + len ==> "
      ++ memRegInt dstReg ++ "[x] == old(" ++ memRegInt srcReg ++ ")[src - dest + x]);"
      ++ "\n"
      ++ "ensures (forall x:int :: !(dest <= x && x < dest + len) ==> "
      ++ memRegInt dstReg ++ "[x] == old(" ++ memRegInt dstReg ++ ")[x]);" ++ "\n"

/-- `SmackRep::memsetProc`. -/
def memsetProc (MemoryModelImpls : Bool) (dstReg : Int) : String :=
  if MemoryModelImpls then
    "procedure $memset." ++ toString dstReg
      ++ "(dest: int, val: int, len: int, align: int, isvolatile: bool)" ++ "\n"
      ++ "modifies " ++ memRegInt dstReg ++ ";" ++ "\n"
      ++ "\x7b" ++ "\n"
      ++ "  var $oldDst: [" ++ getPtrType ++ "] " ++ getPtrType ++ ";" ++ "\n"
      ++ "  $oldDst := " ++ memRegInt dstReg ++ ";" ++ "\n"
      ++ "  havoc " ++ memRegInt dstReg ++ ";" ++ "\n"
      ++ "  assume (forall x:int :: dest <= x && x < dest + len ==> "
      ++ memRegInt dstReg ++ "[x] == val);" ++ "\n"
      ++ "  assume (forall x:int :: !(dest <= x && x < dest + len) ==> "
      ++ memRegInt dstReg ++ "[x] == $oldDst[x]);" ++ "\n"
      ++ "\x7d" ++ "\n"
  else
    "Procedure(\"$memset." ++ toString dstReg
      ++ "\", params=[('dest', 'int'), ('val', 'int'), ('len', 'int'), ('align', 'int'), ('isvolatile', 'bool')])"

/-- `Program::addDecl(string s)`: `decls.insert(Decl::code(s))`. -/
def Program.addDeclCode (p : Program) (uniqueId : Nat) (s : String) : Program × Nat :=
  let d := Decl.code uniqueId s
  (p.addDecl d.1, d.2)

/-- The loops `args.push_back(expr(getOperand(i)))` of `memcpy` and `memset`. -/
def exprAll (exprOf : ValuePtr → Option Expr) : List ValuePtr → Option (List Expr)
  | [] => some []
  | v :: vs =>
    match exprOf v, exprAll exprOf vs with
    | some e, some es => some (e :: es)
    | _, _ => none

/-- `Stmt::call(string p, vector<const Expr*> ps)`. -/
def Stmt.callArgs (p : String) (ps : List Expr) : Stmt := .call p ps [] []

/-- `SmackRep::memcpy`, on the operands of the instruction (the callee is the
last one): the statement, the state, the program and the value of
`Decl::uniqueId` after the call. -/
def memcpy (O : AliasOracle) (MemoryModelImpls : Bool) (exprOf : ValuePtr → Option Expr)
    (s : SmackRep) (program : Program) (uniqueId : Nat) (operands : List ValuePtr) :
    Option (Stmt × SmackRep × Program × Nat) :=
  match operands with
  | op0 :: op1 :: _ =>
    let r0 := getRegion O s op0
    let dstRegion := toInt32 r0.1
    let r1 := getRegion O r0.2 op1
    let srcRegion := toInt32 r1.1
    let p := program.addDeclCode uniqueId (memcpyProc MemoryModelImpls dstRegion srcRegion)
    let name := "$memcpy." ++ toString dstRegion ++ "." ++ toString srcRegion
    match exprAll exprOf operands.dropLast with
    | none => none
    | some args => some (Stmt.callArgs name args, r1.2, p.1, p.2)
  | _ => none

/-- `SmackRep::memset`. -/
def memset (O : AliasOracle) (MemoryModelImpls : Bool) (exprOf : ValuePtr → Option Expr)
    (s : SmackRep) (program : Program) (uniqueId : Nat) (operands : List ValuePtr) :
    Option (Stmt × SmackRep × Program × Nat) :=
  match operands with
  | op0 :: _ =>
    let r0 := getRegion O s op0
    let region := toInt32 r0.1
    let p := program.addDeclCode uniqueId (memsetProc MemoryModelImpls region)
    let name := "$memset." ++ toString region
    match exprAll exprOf operands.dropLast with
    | none => none
    | some args => some (Stmt.callArgs name args, r0.2, p.1, p.2)
  | _ => none

/-- The constraint inside the range of a fill: the new value of `D` at `x` is
`val`. -/
def fillInsideRange (D : String) : String :=
  "(forall x:int :: dest <= x && x < dest + len ==> " ++ D ++ "[x] == val)"

/-- The constraint outside the range: for every other address `x`, the new
value of the map `D` at `x` is the value of the map `oldDst` at `x`. -/
def outsideRange (D oldDst : String) : String :=
  "(forall x:int :: !(dest <= x && x < dest + len) ==> " ++ D ++ "[x] == " ++ oldDst ++ "[x])"

/-- The operands of a copy of `len` bytes from `src` to `dest`: destination,
source, length, alignment, volatility flag, callee. -/
def copyOperands (dest src len : ValuePtr) : List ValuePtr := [dest, src, len, 101, 102, 199]

/-- Whether the text `piece` occurs in the text `text`. -/
def containsText (text piece : String) : Bool :=
  text.toList.tails.any (fun t => piece.toList.isPrefixOf t)

/-- A bulk intrinsic call with its operands (the callee is the last one): a
copy (`llvm::MemCpyInst`) or a fill (`llvm::MemSetInst`). -/
inductive MemIntrinsic where
  | copy (operands : List ValuePtr)
  | fill (operands : List ValuePtr)

/-- The lowering of one bulk intrinsic call, by `memcpy` or by `memset`. -/
def lowerIntrinsic (O : AliasOracle) (MemoryModelImpls : Bool)
    (exprOf : ValuePtr → Option Expr) (s : SmackRep) (program : Program) (uniqueId : Nat) :
    MemIntrinsic → Option (Stmt × SmackRep × Program × Nat)
  | .copy operands => memcpy O MemoryModelImpls exprOf s program uniqueId operands
  | .fill operands => memset O MemoryModelImpls exprOf s program uniqueId operands

/-- A sequence of bulk intrinsic calls lowered one after the other: the
statements, the final state, the final program and the final value of
`Decl::uniqueId`. -/
def lowerIntrinsics (O : AliasOracle) (MemoryModelImpls : Bool)
    (exprOf : ValuePtr → Option Expr) :
    SmackRep → Program → Nat → List MemIntrinsic → Option (List Stmt × SmackRep × Program × Nat)
  | s, program, uniqueId, [] => some ([], s, program, uniqueId)
  | s, program, uniqueId, i :: is =>
    match lowerIntrinsic O MemoryModelImpls exprOf s program uniqueId i with
    | none => none
    | some (st, s1, p1, u1) =>
      match lowerIntrinsics O MemoryModelImpls exprOf s1 p1 u1 is with
      | none => none
      | some (sts, s2, p2, u2) => some (st :: sts, s2, p2, u2)

/-- The region key of a synthesized procedure: destination and source region
of a copy, destination region of a fill. -/
inductive RegionKey where
  | copy (dst src : Nat)
  | fill (dst : Nat)
  deriving DecidableEq, Repr

/-- The text declared for a region key. -/
def RegionKey.text (MemoryModelImpls : Bool) : RegionKey → String
  | .copy dst src => memcpyProc MemoryModelImpls (toInt32 dst) (toInt32 src)
  | .fill dst => memsetProc MemoryModelImpls (toInt32 dst)

/-- The regions of a key are below `2^31`, so that they keep their value as
`int`. -/
def RegionKey.small : RegionKey → Bool
  | .copy dst src => decide (dst < 2147483648) && decide (src < 2147483648)
  | .fill dst => decide (dst < 2147483648)

/-- The region key of a bulk intrinsic call in the state `s`, with the state
after the `getRegion` calls that find it (destination first); `none` when the
operands that name the regions are missing. -/
def MemIntrinsic.key (O : AliasOracle) (s : SmackRep) : MemIntrinsic → Option (RegionKey × SmackRep)
  | .copy (op0 :: op1 :: _) =>
    let r0 := getRegion O s op0
    let r1 := getRegion O r0.2 op1
    some (.copy r0.1 r1.1, r1.2)
  | .fill (op0 :: _) =>
    let r0 := getRegion O s op0
    some (.fill r0.1, r0.2)
  | _ => none

/-- The region keys used by a sequence of bulk intrinsic calls from the state
`s`, in order. -/
def usedKeys (O : AliasOracle) : SmackRep → List MemIntrinsic → List RegionKey
  | _, [] => []
  | s, i :: is =>
    match i.key O s with
    | none => []
    | some (k, s1) => k :: usedKeys O s1 is

/-- The operands of a bulk intrinsic call. -/
def MemIntrinsic.operands : MemIntrinsic → List ValuePtr
  | .copy operands => operands
  | .fill operands => operands

/-- A bulk intrinsic call that `memcpy` or `memset` can lower: every operand
before the callee lowers to an expression, and the operands that name the
regions are there (two for a copy, one for a fill). -/
def MemIntrinsic.lowers (exprOf : ValuePtr → Option Expr) (i : MemIntrinsic) : Prop :=
  (∀ v ∈ i.operands.dropLast, (exprOf v).isSome = true)
    ∧ (match i with
       | .copy operands => 2 ≤ operands.length
       | .fill operands => 1 ≤ operands.length)

/-- A declaration that holds the text `text` as opaque code. -/
def declaresText (text : String) (d : Decl) : Bool :=
  decide (d.getKind = Kind.CODE) && decide (d.getName = text)

/-- Three copies and two fills: copies from 20 to 10, from 10 to 20 and again
from 20 to 10, and fills of 10 and of 10 again. -/
def sampleIntrinsics : List MemIntrinsic :=
  [.copy (copyOperands 10 20 30), .copy (copyOperands 20 10 30), .fill (copyOperands 10 40 30),
   .copy (copyOperands 10 20 31), .fill (copyOperands 10 41 32)]

/-- An oracle under which a value may alias itself and nothing else. -/
def distinctOracle : AliasOracle :=
  { isNoAlias := fun a b => decide (a ≠ b)
    isAlloced := fun _ => false }

/-- The lowering of `sampleIntrinsics` from the initial state and the empty
program. -/
def sampleIntrinsicsRun : Option (List Stmt × SmackRep × Program × Nat) :=
  lowerIntrinsics distinctOracle false sampleExprOf SmackRep.init Program.empty 0 sampleIntrinsics

/-! ## Auxiliary definitions for calls and identifiers -/

/-- The arguments that a call statement passes. -/
def Stmt.args : Stmt → List Expr
  | .call _ params _ _ => params
  | _ => []

/-- A function named `malloc` that is declared with two parameters, not
variadic and without a body. -/
def mallocTwoParams : Function :=
  { name := some "malloc"
    args := [{ name := some "n", type := .integerTy 64 }, { name := some "m", type := .integerTy 64 }]
    returnType := .pointerTy (.integerTy 8), isVarArg := false, isDeclaration := true }

/-- The call `p = malloc(4, 5)` with the callee at address 99. -/
def mallocCallTwoArgs : CallInst :=
  { name := some "p", type := .pointerTy (.integerTy 8), operands := [4, 5, 99] }

/-- A function named `free` that is defined in the module with one parameter. -/
def freeFn : Function :=
  { name := some "free", args := [{ name := some "q", type := .pointerTy (.integerTy 8) }]
    returnType := .voidTy, isVarArg := false, isDeclaration := false }

/-! ## Auxiliary definitions for static initializers -/

mutual
/-- Every aggregate of the initializer has as many elements as its type
announces (`getAggregateElement(i)` is there for every index of the loop), and
an array has fewer than `2^32` elements, the range of the loop counter. -/
def Constant.complete : Constant → Bool
  | .mk _ ty elems =>
    if isInt ty || ty.isPointerTy then true
    else
      match ty with
      | .arrayTy n _ =>
        decide (n = elems.length) && decide (n < 4294967296) && Constant.completeList elems
      | .structTy _ n _ => decide (n = elems.length) && Constant.completeList elems
      | _ => true
/-- `complete` for every initializer of the sequence. -/
def Constant.completeList : List Constant → Bool
  | [] => true
  | c :: cs => c.complete && Constant.completeList cs
end

mutual
/-- The initializer holds a value whose type is none of integer, pointer, array
and struct. -/
def Constant.hasUnsupportedLeaf : Constant → Bool
  | .mk _ ty elems =>
    if isInt ty || ty.isPointerTy then false
    else
      match ty with
      | .arrayTy _ _ => Constant.anyUnsupportedLeaf elems
      | .structTy _ _ _ => Constant.anyUnsupportedLeaf elems
      | _ => true
/-- One of the initializers of the sequence holds such a value. -/
def Constant.anyUnsupportedLeaf : List Constant → Bool
  | [] => false
  | c :: cs => c.hasUnsupportedLeaf || Constant.anyUnsupportedLeaf cs
end

/-- A struct of an integer and a floating-point value: `{ i32 1, float 2.0 }`,
the struct at address 40, its fields at 41 and 42. -/
def structWithFloat : Constant :=
  .mk 40 (.structTy 1 2 true)
    [.mk 41 (.integerTy 32) [], .mk 42 (.floatingPointTy 32) []]

/-! ## Sample declarations for the order of the declaration set -/

/-- Three declarations with different keys: the axiom created with id 5, the
axiom created with id 2 and the variable `x`. -/
def sampleAdded : List Decl :=
  [.axiomDecl 5 "" [] (Expr.var "q"), .axiomDecl 2 "" [] (Expr.var "p"), .varDecl 1 "x" [] "int"]

/-- The same three declarations, in another order. -/
def sampleAddedRotated : List Decl :=
  [.varDecl 1 "x" [] "int", .axiomDecl 5 "" [] (Expr.var "q"), .axiomDecl 2 "" [] (Expr.var "p")]

/-! ## The prelude with the lowering of the resolved values (`SmackRep.cpp`) -/

/-- The second loop of `SmackRep::getPrelude`, on the entries of `regionOfValue`
that are still to come (`valueAt p` is the value stored at address `p`): the
text written and the state after the loop, `none` when a call of `expr` fails. -/
def SmackRep.preludeHints (dotEscape : String → String) (L : DataLayout)
    (valueAt : ValuePtr → Value) : SmackRep → List (ValuePtr × Nat) → Option (String × SmackRep)
  | s, [] => some ("", s)
  | s, it :: rest =>
    match s.expr dotEscape L (valueAt it.1) with
    | none => none
    | some (e, s1) =>
      match SmackRep.preludeHints dotEscape L valueAt s1 rest with
      | none => none
      | some (text, s2) =>
        some ("add_ptr_to_region(\"" ++ memReg it.2 ++ "\", " ++ e.print ++ ")" ++ "\n" ++ text,
          s2)

/-- `SmackRep::getPrelude` with the calls of `expr` that its second loop makes:
the text and the state after the call.  The regions are written before the
second loop; the counter of undefined values and `globalsBottom` are read after
it.  The map is walked in key order. -/
def SmackRep.getPrelude (dotEscape : String → String) (L : DataLayout)
    (valueAt : ValuePtr → Value) (s : SmackRep) : Option (String × SmackRep) :=
  match SmackRep.preludeHints dotEscape L valueAt s s.regionOfValue with
  | none => none
  | some (hints, s1) =>
    some ("\n" ++ "# Memory region declarations"
      ++ ": " ++ toString s.memoryRegions.length ++ "\n"
      ++ String.join ((List.range s.memoryRegions.length).map fun i =>
          "add_memory_region(\"" ++ memReg i
            ++ "\", \"" ++ getPtrType ++ "\", \"" ++ getPtrType ++ "\")" ++ "\n")
      ++ hints
      ++ "\n"
      ++ (if s1.uniqueUndefNum > 0 then
            "# Undefined values" ++ "\n"
              ++ String.join ((List.range s1.uniqueUndefNum).map fun i =>
                  "add_undef('$u." ++ toString i ++ "', '" ++ getPtrType ++ "')" ++ "\n")
              ++ "\n"
          else "")
      ++ "add_constant(\"$GLOBALS_BOTTOM\", \"int\")\n"
      ++ "add_axiom(Eq(\"$GLOBALS_BOTTOM\", Num(" ++ toString s1.globalsBottom ++ ")))" ++ "\n",
      s1)

/-- The values of a sequence lowered with `expr` one after the other: the
expressions and the state after the last call. -/
def SmackRep.exprs (dotEscape : String → String) (L : DataLayout) :
    SmackRep → List Value → Option (List Expr × SmackRep)
  | s, [] => some ([], s)
  | s, v :: vs =>
    match s.expr dotEscape L v with
    | none => none
    | some (e, s1) =>
      match SmackRep.exprs dotEscape L s1 vs with
      | none => none
      | some (es, s2) => some (e :: es, s2)

/-- The prelude as its description lays it out: the count `n` of regions and
the declarations of the regions `$M.0` to `$M.(n-1)`, one hint for every pair
of a region and an expression, the declarations of the placeholders `$u.0` to
`$u.(u-1)` under their heading (nothing when `u = 0`), the constant
`$GLOBALS_BOTTOM` and the axiom that equates it to `bottom`. -/
def preludeLayout (n : Nat) (hints : List (Nat × Expr)) (u : Nat) (bottom : Int) : String :=
  "\n" ++ "# Memory region declarations"
    ++ ": " ++ toString n ++ "\n"
    ++ String.join ((List.range n).map fun i =>
        "add_memory_region(\"" ++ ("$M." ++ toString i) ++ "\", \"int\", \"int\")" ++ "\n")
    ++ String.join (hints.map fun h =>
        "add_ptr_to_region(\"" ++ ("$M." ++ toString h.1) ++ "\", " ++ h.2.print ++ ")" ++ "\n")
    ++ "\n"
    ++ (if u = 0 then ""
        else "# Undefined values" ++ "\n"
          ++ String.join ((List.range u).map fun i =>
              "add_undef('$u." ++ toString i ++ "', 'int')" ++ "\n")
          ++ "\n")
    ++ "add_constant(\"$GLOBALS_BOTTOM\", \"int\")\n"
    ++ "add_axiom(Eq(\"$GLOBALS_BOTTOM\", Num(" ++ toString bottom ++ ")))" ++ "\n"

/-- The fields of the state that lowering a value does not write are the same
in both states. -/
def SmackRep.sameButCounters (s s' : SmackRep) : Prop :=
  s'.bplGlobals = s.bplGlobals ∧ s'.memoryRegions = s.memoryRegions
    ∧ s'.regionOfValue = s.regionOfValue ∧ s'.globalsBottom = s.globalsBottom
    ∧ s'.staticInits = s.staticInits

/-- The value is a global or a local value that has a name. -/
def Value.isNamed : Value → Bool
  | .GlobalValue (some _) _ => true
  | .Local (some _) _ => true
  | _ => false

/-- A state with one region and one resolved value, the value at address 7,
before any placeholder was issued. -/
def undefHintState : SmackRep :=
  { SmackRep.init with memoryRegions := [(7, false)], regionOfValue := [(7, 0)] }

/-- A module in which the value at every address is an undefined pointer. -/
def undefValueAt : ValuePtr → Value := fun _ => .UndefValue (.pointerTy (.integerTy 32))

/-! ## The pruning pass (`PruneFunctionPass.cpp`) -/

/-- What the pass reads of an instruction: for a `CallInst` the result of
`getCalledFunction()`, the called function or `none` for an indirect call;
nothing of an instruction of another class.  A function is referred to by its
name, which is unique in a module. -/
inductive Instruction where
  | callInst (calledFunction : Option String)
  | other
  deriving DecidableEq, Repr

/-- What the pass reads of a function of the module: its name and its
instructions in the order of `inst_iterator`, `none` for a function without a
body. -/
structure ModuleFunction where
  name : String
  body : Option (List Instruction)
  deriving DecidableEq, Repr

/-- `Function::deleteBody`. -/
def ModuleFunction.deleteBody (f : ModuleFunction) : ModuleFunction := { f with body := none }

/-- The functions of an `llvm::Module`, in the order of `Module::iterator`. -/
structure Module where
  functions : List ModuleFunction
  deriving DecidableEq, Repr

/-- `Module::getFunction`: the function of that name, `none` (the null pointer)
when the module has no such function. -/
def Module.getFunction (M : Module) (name : String) : Option String :=
  (M.functions.find? (fun f => f.name == name)).map (fun f => f.name)

/-- The instructions from `inst_begin(F)` to `inst_end(F)`: none for a function
without a body. -/
def Module.insts (M : Module) (F : String) : List Instruction :=
  match M.functions.find? (fun f => f.name == F) with
  | some f => f.body.getD []
  | none => []

/-- The variables `stack`, `seen` and `keepers` of `runOnModule`; the sets as
lists without repetition, the back of the vector `stack` at the end of the
list.  An entry `none` of `keepers` is the null pointer. -/
structure PruneState where
  stack : List String
  seen : List String
  keepers : List (Option String)
  deriving DecidableEq, Repr

/-- The set `critical` of `runOnModule`. -/
def PruneFunctionPass.critical (M : Module) : List (Option String) :=
  (((([] : List (Option String)).insert (M.getFunction "SSL_library_init")).insert
    (M.getFunction "SSL_CTX_new")).insert (M.getFunction "SSL_CTX_ctrl")).insert
    (M.getFunction "SSL_CTX_set_verify")

/-- The set `keepers` before the search: every element of `critical`. -/
def PruneFunctionPass.initialKeepers (M : Module) : List (Option String) :=
  (PruneFunctionPass.critical M).foldl (fun k f => k.insert f) []

/-- The `for` loop over the instructions of `stack.back()` that are still to
come, and the end of the iteration of the `while` loop: `stack.pop_back()` when
the `for` loop runs to its end, nothing when it is left by `goto done`. -/
def PruneFunctionPass.forInsts (stack : List String) :
    List Instruction → List String → List (Option String) → PruneState
  | [], seen, keepers => { stack := stack.dropLast, seen := seen, keepers := keepers }
  | .other :: rest, seen, keepers => PruneFunctionPass.forInsts stack rest seen keepers
  | .callInst none :: rest, seen, keepers => PruneFunctionPass.forInsts stack rest seen keepers
  | .callInst (some callee) :: rest, seen, keepers =>
    if callee ∈ seen then PruneFunctionPass.forInsts stack rest seen keepers
    else if some callee ∈ keepers then
      PruneFunctionPass.forInsts stack rest (seen.insert callee)
        (stack.foldl (fun k f => k.insert (some f)) keepers)
    else { stack := stack ++ [callee], seen := seen.insert callee, keepers := keepers }

/-- One iteration of the `while` loop, entered with a stack that is not empty. -/
def PruneFunctionPass.iteration (M : Module) (st : PruneState) : PruneState :=
  match st.stack.getLast? with
  | none => st
  | some F => PruneFunctionPass.forInsts st.stack (M.insts F) st.seen st.keepers

/-- The loop `while (stack.size() > 0)`, cut off after `fuel` iterations: the
state at the exit of the loop, `none` when the loop is still running after
`fuel` iterations. -/
def PruneFunctionPass.whileLoop (M : Module) : Nat → PruneState → Option PruneState
  | 0, st => if st.stack.length > 0 then none else some st
  | fuel + 1, st =>
    if st.stack.length > 0 then
      PruneFunctionPass.whileLoop M fuel (PruneFunctionPass.iteration M st)
    else some st

/-- The state in which the `while` loop is entered:
`stack.push_back(main), seen.insert(main)`. -/
def PruneFunctionPass.initialState (M : Module) (main : String) : PruneState :=
  { stack := [main], seen := ([] : List String).insert main,
    keepers := PruneFunctionPass.initialKeepers M }

/-- `PruneFunctionPass::runOnModule`, its `while` loop cut off after `fuel`
iterations: the module after the pass and the value returned.  Without a
function `main` the first iteration reads the instructions of a null pointer,
the outcome `none`. -/
def PruneFunctionPass.runOnModule (fuel : Nat) (M : Module) : Option (Module × Bool) :=
  match M.getFunction "main" with
  | none => none
  | some main =>
    match PruneFunctionPass.whileLoop M fuel (PruneFunctionPass.initialState M main) with
    | none => none
    | some st =>
      some ({ functions := M.functions.map fun f =>
                if some f.name ∈ st.keepers then f else f.deleteBody },
            M.functions.any fun f => decide (some f.name ∉ st.keepers))

/-! ## Auxiliary definitions for the pruning pass -/

/-- The function `f` has a direct call of the function `g`. -/
def Module.calls (M : Module) (f g : String) : Prop :=
  Instruction.callInst (some g) ∈ M.insts f

/-- A chain of direct calls leads from `f` to `g`. -/
def Module.reaches (M : Module) (f g : String) : Prop := Relation.ReflTransGen M.calls f g

/-- The pass keeps what reaches a critical function: a function of `M` that is
critical, or that is reached from `main` and reaches a critical function, is in
`result` with its body. -/
def PruneFunctionPass.keepsReaching (M result : Module) : Prop :=
  ∀ f ∈ M.functions,
    (some f.name ∈ PruneFunctionPass.critical M
      ∨ (M.reaches "main" f.name
          ∧ ∃ c, some c ∈ PruneFunctionPass.critical M ∧ M.reaches f.name c)) →
    f ∈ result.functions

/-- The called functions of all direct calls of the module, one entry per call
instruction. -/
def Module.callees (M : Module) : List String :=
  M.functions.flatMap fun f =>
    (f.body.getD []).filterMap fun i =>
      match i with
      | .callInst c => c
      | .other => none

/-- The function that an iteration pushed on the stack, when the stack after
the iteration is longer than before it. -/
def PruneFunctionPass.pushed (st st' : PruneState) : Option String :=
  if st.stack.length < st'.stack.length then st'.stack.getLast? else none

/-- The functions pushed by the first `n` iterations of the `while` loop from
the state `st`, in the order of the pushes. -/
def PruneFunctionPass.pushes (M : Module) : Nat → PruneState → List String
  | 0, _ => []
  | n + 1, st =>
    if st.stack.length > 0 then
      (PruneFunctionPass.pushed st (PruneFunctionPass.iteration M st)).toList
        ++ PruneFunctionPass.pushes M n (PruneFunctionPass.iteration M st)
    else []

/-- A module in which `main` calls `A` and `B`, and `A` and `B` both call the
critical function `SSL_CTX_new`, which is declared without a body. -/
def diamondModule : Module :=
  { functions :=
      [ { name := "main", body := some [.callInst (some "A"), .other, .callInst (some "B")] },
        { name := "A", body := some [.callInst (some "SSL_CTX_new"), .other] },
        { name := "B", body := some [.callInst (some "SSL_CTX_new"), .other] },
        { name := "SSL_CTX_new", body := none } ] }

/-! ## Static initializers, calls and globals with the lowering of their values (`SmackRep.cpp`) -/

mutual
/-- `SmackRep::addInit(region, addr, val)` with the calls of `expr` that it
makes (`valueAt p` is the value stored at address `p`): the state after the
call, with the buffer `staticInits` and the counters of the placeholders,
`none` when the call aborts. -/
def SmackRep.addInit (dotEscape : String → String) (L : DataLayout)
    (valueAt : ValuePtr → Value) (s : SmackRep) (region : Nat) (addr : Expr) :
    Constant → Option SmackRep
  | .mk ptr ty elems =>
    if isInt ty then
      (s.expr dotEscape L (valueAt ptr)).map fun r =>
        { r.2 with staticInits := r.2.staticInits ++ [Stmt.assign1 (mem region addr) r.1] }
    else if ty.isPointerTy then
      (s.expr dotEscape L (valueAt ptr)).map fun r =>
        { r.2 with staticInits := r.2.staticInits ++ [Stmt.assign1 (mem region addr) r.1] }
    else
      match ty with
      | .arrayTy n elemTy =>
        SmackRep.addInitArray dotEscape L valueAt region addr (storageSize L elemTy) n 0 s elems
      | .structTy tag n sized =>
        SmackRep.addInitStruct dotEscape L valueAt region addr (.structTy tag n sized) n 0 s
          elems
      | _ => none
/-- The loop of the array case of `SmackRep::addInit`, from index `i` on; the
list holds the elements from index `i` on. -/
def SmackRep.addInitArray (dotEscape : String → String) (L : DataLayout)
    (valueAt : ValuePtr → Value) (region : Nat) (addr : Expr) (size n i : Nat)
    (s : SmackRep) : List Constant → Option SmackRep
  | [] => if i < n then none else some s
  | elem :: rest =>
    if i < n then
      match SmackRep.addInit dotEscape L valueAt s region
          (pa addr (toInt32 i) (toInt32 size)) elem with
      | none => none
      | some s1 =>
        SmackRep.addInitArray dotEscape L valueAt region addr size n (i + 1) s1 rest
    else some s
/-- The loop of the struct case of `SmackRep::addInit`, from index `i` on. -/
def SmackRep.addInitStruct (dotEscape : String → String) (L : DataLayout)
    (valueAt : ValuePtr → Value) (region : Nat) (addr : Expr) (st : LType) (n i : Nat)
    (s : SmackRep) : List Constant → Option SmackRep
  | [] => if i < n then none else some s
  | elem :: rest =>
    if i < n then
      match SmackRep.addInit dotEscape L valueAt s region
          (pa addr (toInt32 (fieldOffset L st i)) 1) elem with
      | none => none
      | some s1 =>
        SmackRep.addInitStruct dotEscape L valueAt region addr st n (i + 1) s1 rest
    else some s
end

/-- `SmackRep::fp2si` with the call of `expr` that it makes. -/
def SmackRep.fp2si (dotEscape : String → String) (L : DataLayout) (s : SmackRep) (v : Value) :
    Option (Expr × SmackRep) :=
  (s.expr dotEscape L v).map fun r => (Expr.fn1 FP2SI r.1, r.2)

/-- `SmackRep::arg` with the call of `expr` that it makes; `f` is `none` for a
null pointer. -/
def SmackRep.arg (dotEscape : String → String) (L : DataLayout) (s : SmackRep)
    (f : Option Function) (_pos : Nat) (v : Value) : Option (Expr × SmackRep) :=
  match f with
  | some fn =>
    if fn.isVarArg && isFloat v.type then s.fp2si dotEscape L v else s.expr dotEscape L v
  | none => s.expr dotEscape L v

/-- The loop of `SmackRep::call` that lowers the operands before the callee, one
after the other, from position `i` on. -/
def SmackRep.callArgs (dotEscape : String → String) (L : DataLayout) (f : Option Function) :
    SmackRep → Nat → List Value → Option (List Expr × SmackRep)
  | s, _, [] => some ([], s)
  | s, i, v :: vs =>
    match s.arg dotEscape L f i v with
    | none => none
    | some (e, s1) =>
      match SmackRep.callArgs dotEscape L f s1 (i + 1) vs with
      | none => none
      | some (es, s2) => some (e :: es, s2)

/-- `SmackRep::call(f, ci)` with the lowering of the operands: the statement,
the program after `addDecl`, the function after the call, the new value of
`Decl::uniqueId` and the state after the call; `none` when an assertion fails
or a lowering aborts. -/
def SmackRep.call (dotEscape : String → String) (L : DataLayout) (valueAt : ValuePtr → Value)
    (s : SmackRep) (program : Program) (uniqueId : Nat) (f : Option Function) (ci : CallInst) :
    Option (Stmt × Program × Function × Nat × SmackRep) :=
  match f with
  | none => none
  | some fn =>
    match SmackRep.id dotEscape fn.name with
    | none => none
    | some name =>
      match SmackRep.callArgs dotEscape L f s 0 (ci.operands.dropLast.map valueAt) with
      | none => none
      | some (args, s1) =>
        let retsOpt : Option (List String) :=
          if !ci.type.isVoidTy then (SmackRep.id dotEscape ci.name).map (fun r => [r])
          else some []
        match retsOpt with
        | none => none
        | some rets =>
          if name = "malloc" then
            match args, rets with
            | [a], r :: _ => some (.call MALLOC [a] [r] [], program, fn, uniqueId, s1)
            | _, _ => none
          else if name = "free_" then
            match args with
            | [a] => some (.call FREE [a] [] [], program, fn, uniqueId, s1)
            | _ => none
          else if fn.isVarArg || (fn.isDeclaration && !isSmackName name) then
            match proc dotEscape uniqueId fn (toInt32 args.length) with
            | none => none
            | some (p, fn1, u1) =>
              some (.call p.getName args rets [], program.addDecl p, fn1, u1, s1)
          else some (.call name args rets [], program, fn, uniqueId, s1)

/-- `SmackRep::globalDecl` with the lowering of the initializer: the
declarations returned, the state after the call and the value of
`Decl::uniqueId` after the call; `none` when the call aborts.  The address
passed to `addInit` is `expr(g)`, the identifier of the global.  (The test of
the `else if` after the string-constant test holds whenever that branch is
reached, so the branch is the plain `else` here.) -/
def SmackRep.globalDecl (O : AliasOracle) (L : DataLayout) (dotEscape : String → String)
    (valueAt : ValuePtr → Value) (s : SmackRep) (uniqueId : Nat) (v : GlobalValue) :
    Option (List Decl × SmackRep × Nat) :=
  match v.name, SmackRep.id dotEscape v.name with
  | some rawName, some name =>
    if v.isGlobalVariable then
      match v.initializer with
      | some init =>
        let numElems := numElements init
        let size := globalSize L v.type
        let s1 := { s with globalsBottom := wrapInt (s.globalsBottom - size) }
        if !v.name.isSome || !isStringConstant rawName then
          let ax := if numElems > 1 then [Attr.attrInt "count" (toInt32 numElems)] else []
          let a := Decl.axiom_ uniqueId (.bin .Eq (.var name) (.lit .Num s1.globalsBottom))
          let reg := getRegion O s1 v.ptr
          match reg.2.addInit dotEscape L valueAt reg.1 (.var name) init with
          | none => none
          | some s2 =>
            let c := Decl.constant a.2 name getPtrType ax true
            some ([a.1, c.1], s2, c.2)
        else
          let reg := getRegion O s1 v.ptr
          match reg.2.addInit dotEscape L valueAt reg.1 (.var name) init with
          | none => none
          | some s2 =>
            let c := Decl.constant uniqueId name getPtrType [] true
            some ([c.1], s2, c.2)
      | none =>
        let a := Decl.axiom_ uniqueId (declareIsExternal (.var name))
        let c := Decl.constant a.2 name getPtrType [] true
        some ([a.1, c.1], s, c.2)
    else
      let c := Decl.constant uniqueId name getPtrType [] true
      some ([c.1], s, c.2)
  | _, _ => none

/-! ## Auxiliary definitions for the stateful lowering -/

/-- The offset that the index steps of a path add up to, an application
`$pa(base, index, size)` read as the address `base + index * size`. -/
def pathOffset : List (Int × Int) → Int
  | [] => 0
  | step :: rest => step.1 * step.2 + pathOffset rest

mutual
/-- The data layout lays the initializer out without overlap: a scalar takes at
least one byte; the elements of an array have the element type of the array,
and the array takes at least as many bytes as its elements at the stride
`storageSize(element type)` that `addInit` uses; a field of a struct ends
before the next field starts, and the last field ends inside the struct. -/
def Constant.laidOut (L : DataLayout) : Constant → Bool
  | .mk _ ty elems =>
    if isInt ty || ty.isPointerTy then decide (0 < storageSize L ty)
    else
      match ty with
      | .arrayTy n elemTy =>
        decide (n * storageSize L elemTy ≤ storageSize L (.arrayTy n elemTy))
          && Constant.laidOutArray L elemTy elems
      | .structTy tag n sized =>
        Constant.laidOutStruct L (.structTy tag n sized)
          (storageSize L (.structTy tag n sized)) 0 elems
      | _ => true
/-- The elements of an array of element type `elemTy` are laid out. -/
def Constant.laidOutArray (L : DataLayout) (elemTy : LType) : List Constant → Bool
  | [] => true
  | c :: cs => decide (c.type = elemTy) && c.laidOut L && Constant.laidOutArray L elemTy cs
/-- The fields of the struct `st` of `total` bytes are laid out, from field `i`
on. -/
def Constant.laidOutStruct (L : DataLayout) (st : LType) (total i : Nat) :
    List Constant → Bool
  | [] => true
  | c :: cs =>
    decide (fieldOffset L st i + storageSize L c.type
        ≤ (if cs.length = 0 then total else fieldOffset L st (i + 1)))
      && c.laidOut L && Constant.laidOutStruct L st total (i + 1) cs
end

/-- A data layout in which an integer of `b` bits takes `(b + 7) / 8` bytes, a
pointer 8 bytes, an array the bytes of its elements and a struct 4 bytes for
each field. -/
def packedSize : LType → Nat
  | .integerTy b => (b + 7) / 8
  | .pointerTy _ => 8
  | .arrayTy n t => n * packedSize t
  | .structTy _ n _ => 4 * n
  | _ => 0

/-- The data layout with the sizes `packedSize`, the fields of a struct 4 bytes
apart. -/
def packedLayout : DataLayout :=
  { getTypeStoreSize := packedSize
    getElementOffset := fun _ i => 4 * i }

/-- The initializer of an array of two structs with two `i32` fields each; the
first field of both structs is the constant at address 7. -/
def twoStructs : Constant :=
  .mk 100 (.arrayTy 2 (.structTy 0 2 true))
    [.mk 101 (.structTy 0 2 true) [.mk 7 (.integerTy 32) [], .mk 8 (.integerTy 32) []],
     .mk 102 (.structTy 0 2 true) [.mk 7 (.integerTy 32) [], .mk 10 (.integerTy 32) []]]

/-- A module in which the constant at address 7 is `i32 undef` and the constant
at any other address `p` is the integer `i32 p`. -/
def undefAtSeven : ValuePtr → Value := fun p =>
  if p = 7 then .UndefValue (.integerTy 32) else .ConstantInt 32 p

/-- An `i32` initializer, the constant at address 5. -/
def intLeaf : Constant := .mk 5 (.integerTy 32) []

/-- A module in which the value at every address is the constant expression
`trunc (i64 ptrtoint (i8* @g to i64) to i32)`. -/
def truncValueAt : ValuePtr → Value := fun _ =>
  .ConstantExpr (.integerTy 32) (.Other 0)
    [.ConstantExpr (.integerTy 64) .PtrToInt
      [.GlobalValue (some "g") (.pointerTy (.integerTy 8))] []] []

/-- A pointer initializer, the constant at address 6. -/
def pointerLeaf : Constant := .mk 6 (.pointerTy (.integerTy 8)) []

/-- A module in which the value at every address is a `blockaddress` constant. -/
def blockAddressValueAt : ValuePtr → Value := fun _ => .OtherConstant (.pointerTy (.integerTy 8))

/-- A module in which the value at every address is the constant `double 1.5`. -/
def doubleValueAt : ValuePtr → Value := fun _ => .ConstantFP (.floatingPointTy 64)

/-- A module in which the value at every address `p` is the integer `i32 p`. -/
def intValueAt : ValuePtr → Value := fun p => .ConstantInt 32 p

/-! ## Properties of the region partitioner -/

/-- The loop of `getRegion` stops at the first representative that the oracle
does not report no-alias with `v`. -/
theorem scanRegions_eq_findIdx (O : AliasOracle) (v : ValuePtr) (ms : List (ValuePtr × Bool))
    (r : Nat) :
    scanRegions O v ms r = r + (ms.map Prod.fst).findIdx (fun p => !O.isNoAlias v p) := by
  induction ms generalizing r with
  | nil => simp [scanRegions]
  | cons m ms ih =>
    simp only [scanRegions, List.map_cons, List.findIdx_cons]
    cases h : O.isNoAlias v m.1
    · simp
    · simp [ih]; omega

theorem markRegion_map_fst (b : Bool) (ms : List (ValuePtr × Bool)) (r : Nat) :
    (markRegion b ms r).map Prod.fst = ms.map Prod.fst := by
  induction ms generalizing r with
  | nil => simp [markRegion]
  | cons m ms ih =>
    cases r with
    | zero => simp [markRegion]
    | succ r => simp [markRegion, ih]

theorem markRegion_length (b : Bool) (ms : List (ValuePtr × Bool)) (r : Nat) :
    (markRegion b ms r).length = ms.length := by
  have h := congrArg List.length (markRegion_map_fst b ms r)
  simpa using h

theorem markRegion_getElem? (b : Bool) (ms : List (ValuePtr × Bool)) (r i : Nat) :
    (markRegion b ms r)[i]? =
      if i = r then (ms[i]?).map (fun m => (m.1, m.2 || b)) else ms[i]? := by
  induction ms generalizing r i with
  | nil => simp [markRegion]
  | cons m ms ih =>
    cases r with
    | zero =>
      cases i with
      | zero => simp [markRegion]
      | succ i => simp [markRegion]
    | succ r =>
      cases i with
      | zero => simp [markRegion]
      | succ i => simp [markRegion, ih]

/-- The id returned by `getRegion`, as a search over the representatives. -/
theorem getRegion_fst (O : AliasOracle) (s : SmackRep) (v : ValuePtr) :
    (getRegion O s v).1 = (representatives s).findIdx (fun p => !O.isNoAlias v p) := by
  simp [getRegion, representatives, scanRegions_eq_findIdx]

/-- The representatives after `getRegion`. -/
theorem getRegion_representatives (O : AliasOracle) (s : SmackRep) (v : ValuePtr) :
    representatives (getRegion O s v).2 =
      if (getRegion O s v).1 = (representatives s).length then representatives s ++ [v]
      else representatives s := by
  simp only [getRegion, representatives, markRegion_map_fst, List.length_map]
  split <;> simp

theorem getRegion_fst_le (O : AliasOracle) (s : SmackRep) (v : ValuePtr) :
    (getRegion O s v).1 ≤ (representatives s).length := by
  rw [getRegion_fst]; exact List.findIdx_le_length _

theorem getRegion_regionOfValue (O : AliasOracle) (s : SmackRep) (v : ValuePtr) :
    (getRegion O s v).2.regionOfValue = mapAssign s.regionOfValue v (getRegion O s v).1 := rfl

theorem mapFind?_mapAssign (m : List (ValuePtr × Nat)) (k : ValuePtr) (x : Nat) (k' : ValuePtr) :
    mapFind? (mapAssign m k x) k' = if k' = k then some x else mapFind? m k' := by
  induction m with
  | nil => simp [mapAssign, mapFind?]
  | cons e m ih =>
    obtain ⟨k0, x0⟩ := e
    simp only [mapAssign]
    by_cases hlt : k < k0
    · simp [hlt, mapFind?]
    · by_cases hgt : k0 < k
      · simp only [hlt, hgt, if_true, if_false, mapFind?, ih]
        by_cases h1 : k' = k0
        · have h2 : k0 ≠ k := Nat.ne_of_lt hgt
          simp [h1, h2]
        · simp [h1]
      · have hk : k0 = k := Nat.le_antisymm (Nat.not_lt.1 hlt) (Nat.not_lt.1 hgt)
        subst hk
        simp only [hlt, if_false, mapFind?]
        by_cases h1 : k' = k0 <;> simp [h1]

theorem markRegion_append_last (b : Bool) (ms : List (ValuePtr × Bool)) (m : ValuePtr × Bool) :
    markRegion b (ms ++ [m]) ms.length = ms ++ [(m.1, m.2 || b)] := by
  induction ms with
  | nil => simp [markRegion]
  | cons x xs ih => simp [markRegion, ih]

theorem getRegion_memoryRegions_length (O : AliasOracle) (s : SmackRep) (v : ValuePtr) :
    (getRegion O s v).2.memoryRegions.length =
      if (getRegion O s v).1 = s.memoryRegions.length then s.memoryRegions.length + 1
      else s.memoryRegions.length := by
  simp only [getRegion, markRegion_length]
  split <;> simp

theorem representatives_length (s : SmackRep) :
    (representatives s).length = s.memoryRegions.length := by
  simp [representatives]

/-- No representative before the returned index may-aliases the query. -/
theorem getRegion_noAlias_before (O : AliasOracle) (s : SmackRep) (v : ValuePtr) (i : Nat)
    (p : ValuePtr) (hi : i < (getRegion O s v).1) (hp : (representatives s)[i]? = some p) :
    O.isNoAlias v p = true := by
  rw [getRegion_fst] at hi
  have h := List.not_of_lt_findIdx hi
  obtain ⟨hlen, hget⟩ := List.getElem?_eq_some.1 hp
  rw [hget] at h
  simpa using h

/-- When the returned index lies inside the old list, its representative
may-aliases the query. -/
theorem getRegion_hit (O : AliasOracle) (s : SmackRep) (v : ValuePtr)
    (h : (getRegion O s v).1 < s.memoryRegions.length) :
    ∃ p, (representatives s)[(getRegion O s v).1]? = some p ∧ O.isNoAlias v p = false := by
  rw [getRegion_fst] at h ⊢
  rw [← representatives_length] at h
  refine ⟨(representatives s)[(representatives s).findIdx (fun p => !O.isNoAlias v p)], ?_, ?_⟩
  · exact List.getElem?_eq_getElem h
  · have := @List.findIdx_getElem _ (fun p => !O.isNoAlias v p) (representatives s) h
    simpa using this

/-- Claim C2: `getRegion(v)` returns the smallest index whose representative is
not reported no-alias with `v`; when there is none it appends one entry with
representative `v` and returns the old length.  The returned index is valid in
the new list and the old representatives are unchanged. -/
theorem getRegion_first_match (O : AliasOracle) (s : SmackRep) (v : ValuePtr) :
    (∀ i p, i < (getRegion O s v).1 → (representatives s)[i]? = some p →
        O.isNoAlias v p = true)
    ∧ ((∃ p ∈ representatives s, O.isNoAlias v p = false) →
        (∃ p, (representatives s)[(getRegion O s v).1]? = some p ∧ O.isNoAlias v p = false)
        ∧ (getRegion O s v).2.memoryRegions.length = s.memoryRegions.length)
    ∧ ((∀ p ∈ representatives s, O.isNoAlias v p = true) →
        (getRegion O s v).1 = s.memoryRegions.length
        ∧ (getRegion O s v).2.memoryRegions = s.memoryRegions ++ [(v, O.isAlloced v)])
    ∧ (getRegion O s v).1 < (getRegion O s v).2.memoryRegions.length
    ∧ (∀ i, i < s.memoryRegions.length →
        (representatives (getRegion O s v).2)[i]? = (representatives s)[i]?) := by
  have hle := getRegion_fst_le O s v
  rw [representatives_length] at hle
  refine ⟨fun i p hi hp => getRegion_noAlias_before O s v i p hi hp, ?_, ?_, ?_, ?_⟩
  · intro hex
    have hlt : (getRegion O s v).1 < s.memoryRegions.length := by
      rw [getRegion_fst, ← representatives_length]
      apply List.findIdx_lt_length.2
      obtain ⟨p, hp, hna⟩ := hex
      exact ⟨p, hp, by simp [hna]⟩
    refine ⟨getRegion_hit O s v hlt, ?_⟩
    rw [getRegion_memoryRegions_length, if_neg (Nat.ne_of_lt hlt)]
  · intro hall
    have heq : (getRegion O s v).1 = s.memoryRegions.length := by
      rw [getRegion_fst, ← representatives_length]
      apply List.findIdx_eq_length.2
      intro x hx
      simp [hall x hx]
    refine ⟨heq, ?_⟩
    have h1 : scanRegions O v s.memoryRegions 0 = s.memoryRegions.length := heq
    simp only [getRegion, h1, if_true, markRegion_append_last, Bool.false_or]
  · rw [getRegion_memoryRegions_length]
    split <;> omega
  · intro i hi
    rw [getRegion_representatives]
    split
    · rw [List.getElem?_append_left (by rw [representatives_length]; exact hi)]
    · rfl

theorem placed_append {O : AliasOracle} {L : List ValuePtr} {v : ValuePtr} {r : Nat}
    (h : Placed O L v r) (ex : List ValuePtr) : Placed O (L ++ ex) v r := by
  obtain ⟨h1, p, hp, h2⟩ := h
  have hr : r < L.length := (List.getElem?_eq_some.1 hp).1
  refine ⟨fun i q hi hq => h1 i q hi ?_, p, ?_, h2⟩
  · rwa [List.getElem?_append_left (Nat.lt_trans hi hr)] at hq
  · rwa [List.getElem?_append_left hr]

/-- The representatives only grow, at the end. -/
theorem getRegion_representatives_grow (O : AliasOracle) (s : SmackRep) (v : ValuePtr) :
    ∃ ex, representatives (getRegion O s v).2 = representatives s ++ ex := by
  rw [getRegion_representatives]
  split
  · exact ⟨[v], rfl⟩
  · exact ⟨[], by simp⟩

theorem getRegions_representatives_grow (O : AliasOracle) (s : SmackRep) (qs : List ValuePtr) :
    ∃ ex, representatives (getRegions O s qs).2 = representatives s ++ ex := by
  induction qs generalizing s with
  | nil => exact ⟨[], by simp [getRegions]⟩
  | cons q qs ih =>
    obtain ⟨e1, h1⟩ := getRegion_representatives_grow O s q
    obtain ⟨e2, h2⟩ := ih (getRegion O s q).2
    exact ⟨e1 ++ e2, by simp only [getRegions, h2, h1, List.append_assoc]⟩

theorem getRegion_placed (O : AliasOracle) (s : SmackRep) (v : ValuePtr) :
    Placed O (representatives (getRegion O s v).2) v (getRegion O s v).1 := by
  obtain ⟨ex, hex⟩ := getRegion_representatives_grow O s v
  have hle := getRegion_fst_le O s v
  refine ⟨fun i p hi hp => ?_, ?_⟩
  · apply getRegion_noAlias_before O s v i p hi
    rw [hex, List.getElem?_append_left (Nat.lt_of_lt_of_le hi hle)] at hp
    exact hp
  · by_cases hlt : (getRegion O s v).1 < s.memoryRegions.length
    · obtain ⟨p, hp, hna⟩ := getRegion_hit O s v hlt
      refine ⟨p, ?_, Or.inl hna⟩
      rw [hex, List.getElem?_append_left (by rw [representatives_length]; exact hlt)]
      exact hp
    · have heq : (getRegion O s v).1 = (representatives s).length :=
        Nat.le_antisymm hle (by rw [representatives_length]; exact Nat.not_lt.1 hlt)
      refine ⟨v, ?_, Or.inr rfl⟩
      rw [getRegion_representatives, if_pos heq, heq]
      simp

theorem regionInv_init (O : AliasOracle) : RegionInv O SmackRep.init := by
  intro v r h
  simp [SmackRep.init, mapFind?] at h

theorem regionInv_getRegion {O : AliasOracle} {s : SmackRep} (h : RegionInv O s) (q : ValuePtr) :
    RegionInv O (getRegion O s q).2 := by
  intro v r hv
  rw [getRegion_regionOfValue, mapFind?_mapAssign] at hv
  by_cases hq : v = q
  · subst hq
    simp only [if_true, Option.some.injEq] at hv
    subst hv
    exact getRegion_placed O s v
  · rw [if_neg hq] at hv
    obtain ⟨ex, hex⟩ := getRegion_representatives_grow O s q
    rw [hex]
    exact placed_append (h v r hv) ex

theorem regionInv_getRegions {O : AliasOracle} {s : SmackRep} (h : RegionInv O s)
    (qs : List ValuePtr) : RegionInv O (getRegions O s qs).2 := by
  induction qs generalizing s with
  | nil => simpa [getRegions] using h
  | cons q qs ih => exact ih (regionInv_getRegion h q)

/-- A value that is in the map stays in the map. -/
theorem getRegions_keeps_key (O : AliasOracle) (s : SmackRep) (qs : List ValuePtr) (v : ValuePtr)
    (h : ∃ r, mapFind? s.regionOfValue v = some r) :
    ∃ r, mapFind? (getRegions O s qs).2.regionOfValue v = some r := by
  induction qs generalizing s with
  | nil => simpa [getRegions] using h
  | cons q qs ih =>
    apply ih
    rw [getRegion_regionOfValue, mapFind?_mapAssign]
    by_cases hq : v = q
    · exact ⟨_, by rw [if_pos hq]⟩
    · rw [if_neg hq]; exact h

/-- Every queried value has an entry in `regionOfValue`. -/
theorem getRegions_records (O : AliasOracle) (s : SmackRep) (qs : List ValuePtr) (v : ValuePtr)
    (h : v ∈ qs) : ∃ r, mapFind? (getRegions O s qs).2.regionOfValue v = some r := by
  induction qs generalizing s with
  | nil => simp at h
  | cons q qs ih =>
    by_cases hq : v = q
    · show ∃ r, mapFind? (getRegions O (getRegion O s q).2 qs).2.regionOfValue v = some r
      apply getRegions_keeps_key
      rw [getRegion_regionOfValue, mapFind?_mapAssign]
      exact ⟨_, by rw [if_pos hq]⟩
    · have hmem : v ∈ qs := by
        cases h with
        | head => exact absurd rfl hq
        | tail _ h' => exact h'
      exact ih (getRegion O s q).2 hmem

/-- Claim C1 fails as stated: with `chainOracle` and the queries 1, 2, 3 the
values 3 and 2 end up in regions 0 and 1, yet the oracle does not report
no-alias for the pair. -/
theorem region_disjointness_counterexample :
    ¬ (∀ (O : AliasOracle) (qs : List ValuePtr) (u v : ValuePtr) (ru rv : Nat),
        mapFind? (getRegions O SmackRep.init qs).2.regionOfValue u = some ru →
        mapFind? (getRegions O SmackRep.init qs).2.regionOfValue v = some rv →
        ru ≠ rv → O.isNoAlias u v = true) := by
  intro h
  have h1 := h chainOracle [1, 2, 3] 3 2 0 1 (by decide) (by decide) (by decide)
  exact absurd h1 (by decide)

/-- Claim C1, amended: for an oracle whose may-alias relation is symmetric and
transitive, after any sequence of `getRegion` queries from the empty state every
queried value has a region id, and two queried values whose final region ids
differ are reported no-alias by the oracle. -/
theorem region_disjointness (O : AliasOracle)
    (hsym : ∀ a b, O.isNoAlias a b = O.isNoAlias b a)
    (htrans : ∀ a b c, O.isNoAlias a b = false → O.isNoAlias b c = false →
      O.isNoAlias a c = false)
    (qs : List ValuePtr) (u v : ValuePtr) (hu : u ∈ qs) (hv : v ∈ qs) :
    ∃ ru rv,
      mapFind? (getRegions O SmackRep.init qs).2.regionOfValue u = some ru
      ∧ mapFind? (getRegions O SmackRep.init qs).2.regionOfValue v = some rv
      ∧ (ru ≠ rv → O.isNoAlias u v = true) := by
  obtain ⟨ru, hru⟩ := getRegions_records O SmackRep.init qs u hu
  obtain ⟨rv, hrv⟩ := getRegions_records O SmackRep.init qs v hv
  refine ⟨ru, rv, hru, hrv, fun hne => ?_⟩
  have hinv := regionInv_getRegions (regionInv_init O) qs
  obtain ⟨bu, pu, hpu, hu2⟩ := hinv u ru hru
  obtain ⟨bv, pv, hpv, hv2⟩ := hinv v rv hrv
  cases hcase : O.isNoAlias u v with
  | true => rfl
  | false =>
    exfalso
    rcases Nat.lt_or_gt_of_ne hne with hlt | hgt
    · have h1 : O.isNoAlias v pu = true := bv ru pu hlt hpu
      rcases hu2 with h2 | h2
      · have h3 : O.isNoAlias v u = false := by rw [hsym]; exact hcase
        rw [htrans v u pu h3 h2] at h1
        exact Bool.noConfusion h1
      · subst h2
        rw [hsym, hcase] at h1
        exact Bool.noConfusion h1
    · have h1 : O.isNoAlias u pv = true := bu rv pv hgt hpv
      rcases hv2 with h2 | h2
      · rw [htrans u v pv hcase h2] at h1
        exact Bool.noConfusion h1
      · subst h2
        rw [hcase] at h1
        exact Bool.noConfusion h1

/-- The amended claim C1 at the parity oracle and the queries 1, 2, 3. -/
theorem region_disjointness_witness :
    ∃ ru rv,
      mapFind? (getRegions parityOracle SmackRep.init [1, 2, 3]).2.regionOfValue 3 = some ru
      ∧ mapFind? (getRegions parityOracle SmackRep.init [1, 2, 3]).2.regionOfValue 2 = some rv
      ∧ (ru ≠ rv → parityOracle.isNoAlias 3 2 = true) :=
  region_disjointness parityOracle
    (by intro a b; simp only [parityOracle]; rw [decide_eq_decide]; exact ne_comm)
    (by
      intro a b c h1 h2
      simp only [parityOracle, decide_eq_false_iff_not, not_not] at h1 h2 ⊢
      exact h1.trans h2)
    [1, 2, 3] 3 2 (by decide) (by decide)

/-- Claim C3 fails as stated: when the oracle reports a value no-alias with
itself, querying the same value twice creates two regions for one value. -/
theorem region_monotonicity_counterexample :
    ¬ (∀ (O : AliasOracle) (qs : List ValuePtr),
        (getRegions O SmackRep.init qs).2.memoryRegions.length ≤ qs.dedup.length) := by
  intro h
  have h1 := h noAliasOracle [7, 7]
  exact absurd h1 (by decide)

/-- With an oracle under which every value may-alias itself, the
representatives are pairwise distinct and each one is a queried value. -/
theorem getRegions_representatives_nodup (O : AliasOracle)
    (hrefl : ∀ v, O.isNoAlias v v = false) (s : SmackRep) (qs A : List ValuePtr)
    (hnd : (representatives s).Nodup) (hsub : ∀ p ∈ representatives s, p ∈ A) :
    (representatives (getRegions O s qs).2).Nodup
    ∧ ∀ p ∈ representatives (getRegions O s qs).2, p ∈ A ++ qs := by
  induction qs generalizing s A with
  | nil => simpa [getRegions] using ⟨hnd, hsub⟩
  | cons q qs ih =>
    have hstep : (representatives (getRegion O s q).2).Nodup
        ∧ ∀ p ∈ representatives (getRegion O s q).2, p ∈ A ++ [q] := by
      rw [getRegion_representatives]
      split
      · rename_i heq
        rw [getRegion_fst] at heq
        have hall := List.findIdx_eq_length.1 heq
        have hnotin : q ∉ representatives s := by
          intro hq
          have := hall q hq
          simp [hrefl q] at this
        refine ⟨List.nodup_append.2 ⟨hnd, List.nodup_singleton q, ?_⟩, ?_⟩
        · intro a ha hb
          rw [List.mem_singleton] at hb
          exact hnotin (hb ▸ ha)
        · intro p hp
          rcases List.mem_append.1 hp with h | h
          · exact List.mem_append_left _ (hsub p h)
          · exact List.mem_append_right _ h
      · exact ⟨hnd, fun p hp => List.mem_append_left _ (hsub p hp)⟩
    have := ih (getRegion O s q).2 (A ++ [q]) hstep.1 hstep.2
    simpa [getRegions] using this

/-- Claim C3, amended: for an oracle under which every value may-alias itself,
after any sequence of `getRegion` queries from the empty state the number of
regions is at most the number of distinct values queried. -/
theorem region_monotonicity (O : AliasOracle) (hrefl : ∀ v, O.isNoAlias v v = false)
    (qs : List ValuePtr) :
    (getRegions O SmackRep.init qs).2.memoryRegions.length ≤ qs.dedup.length := by
  obtain ⟨hnd, hsub⟩ := getRegions_representatives_nodup O hrefl SmackRep.init qs []
    (by simp [representatives, SmackRep.init]) (by simp [representatives, SmackRep.init])
  rw [← representatives_length]
  have hsp : List.Subperm (representatives (getRegions O SmackRep.init qs).2) qs.dedup := by
    apply List.subperm_of_subset hnd
    intro p hp
    exact List.mem_dedup.2 (by simpa using hsub p hp)
  exact hsp.length_le

/-- The amended claim C3 at the parity oracle and the queries 1, 3, 1, 2. -/
theorem region_monotonicity_witness :
    (getRegions parityOracle SmackRep.init [1, 3, 1, 2]).2.memoryRegions.length
      ≤ [1, 3, 1, 2].dedup.length :=
  region_monotonicity parityOracle (by intro v; simp [parityOracle]) [1, 3, 1, 2]

/-- A scan that is known to stop at `r` is the search result `r`. -/
theorem findIdx_of_placed (O : AliasOracle) (L : List ValuePtr) (v : ValuePtr) (r : Nat)
    (h1 : ∀ i p, i < r → L[i]? = some p → O.isNoAlias v p = true)
    (p : ValuePtr) (hp : L[r]? = some p) (hna : O.isNoAlias v p = false) :
    L.findIdx (fun p => !O.isNoAlias v p) = r := by
  obtain ⟨hr, hget⟩ := List.getElem?_eq_some.1 hp
  apply (List.findIdx_eq hr).2
  refine ⟨by simp [hget, hna], fun j hj => ?_⟩
  have := h1 j (L[j]) hj (List.getElem?_eq_getElem (Nat.lt_trans hj hr))
  simp [this]

/-- Claim C4: for an oracle under which every value may-alias itself, a later
`getRegion(v)`, after any other queries, returns the id that the first query of
`v` returned and does not add a region. -/
theorem getRegion_stable (O : AliasOracle) (hrefl : ∀ v, O.isNoAlias v v = false)
    (s : SmackRep) (v : ValuePtr) (qs : List ValuePtr) :
    (getRegion O (getRegions O (getRegion O s v).2 qs).2 v).1 = (getRegion O s v).1
    ∧ (getRegion O (getRegions O (getRegion O s v).2 qs).2 v).2.memoryRegions.length
        = (getRegions O (getRegion O s v).2 qs).2.memoryRegions.length := by
  obtain ⟨h1, p, hp, h2⟩ := getRegion_placed O s v
  have hna : O.isNoAlias v p = false := by
    rcases h2 with h | h
    · exact h
    · rw [h]; exact hrefl v
  have hidx := findIdx_of_placed O _ v _ h1 p hp hna
  have hr : (getRegion O s v).1 < (representatives (getRegion O s v).2).length :=
    (List.getElem?_eq_some.1 hp).1
  obtain ⟨ex, hex⟩ := getRegions_representatives_grow O (getRegion O s v).2 qs
  have hfst : (getRegion O (getRegions O (getRegion O s v).2 qs).2 v).1 = (getRegion O s v).1 := by
    rw [getRegion_fst, hex, List.findIdx_append, hidx, if_pos hr]
  refine ⟨hfst, ?_⟩
  rw [getRegion_memoryRegions_length, hfst, if_neg]
  have hlen := congrArg List.length hex
  rw [List.length_append, representatives_length] at hlen
  rw [hlen]
  omega

/-- Claim C4 at the parity oracle: 5 is queried, then 2, 4, 7, then 5 again. -/
theorem getRegion_stable_witness :
    (getRegion parityOracle
        (getRegions parityOracle (getRegion parityOracle SmackRep.init 5).2 [2, 4, 7]).2 5).1
      = (getRegion parityOracle SmackRep.init 5).1
    ∧ (getRegion parityOracle
        (getRegions parityOracle (getRegion parityOracle SmackRep.init 5).2 [2, 4, 7]).2
          5).2.memoryRegions.length
      = (getRegions parityOracle (getRegion parityOracle SmackRep.init 5).2
          [2, 4, 7]).2.memoryRegions.length :=
  getRegion_stable parityOracle (by intro v; simp [parityOracle]) SmackRep.init 5 [2, 4, 7]

theorem flag_markRegion (ms : List (ValuePtr × Bool)) (v : ValuePtr) (b : Bool) (k r : Nat)
    (hle : k ≤ ms.length) :
    (match (markRegion b (if k = ms.length then ms ++ [(v, false)] else ms) k)[r]? with
      | some m => m.2
      | none => false)
      = ((match ms[r]? with
          | some m => m.2
          | none => false) || (decide (r = k) && b)) := by
  simp only [markRegion_getElem?]
  by_cases hr : r = k
  · subst hr
    by_cases hlen : r = ms.length
    · simp [hlen]
    · have hlt : r < ms.length := by omega
      simp [hlen, List.getElem?_eq_getElem hlt]
  · simp only [hr, if_false, decide_False, Bool.false_and, Bool.or_false]
    by_cases hlen : k = ms.length
    · rw [if_pos hlen]
      by_cases hlt : r < ms.length
      · rw [List.getElem?_append_left hlt]
      · have hgt : ms.length < r := by omega
        have h1 : (ms ++ [(v, false)])[r]? = none := by
          apply List.getElem?_eq_none
          simp; omega
        have h2 : ms[r]? = none := List.getElem?_eq_none (by omega)
        rw [h1, h2]
    · rw [if_neg hlen]

/-- The effect of one `getRegion` call on the allocation flags. -/
theorem flagAt_getRegion (O : AliasOracle) (s : SmackRep) (v : ValuePtr) (r : Nat) :
    flagAt (getRegion O s v).2 r
      = (flagAt s r || (decide (r = (getRegion O s v).1) && O.isAlloced v)) := by
  have hle : scanRegions O v s.memoryRegions 0 ≤ s.memoryRegions.length := by
    have h := getRegion_fst_le O s v
    rw [representatives_length] at h
    exact h
  exact flag_markRegion s.memoryRegions v (O.isAlloced v) _ r hle

/-- The flags after a sequence of queries: a flag is set when it was set before
or some query with an allocated value returned that region. -/
theorem flagAt_getRegions (O : AliasOracle) (s : SmackRep) (qs : List ValuePtr) (r : Nat) :
    flagAt (getRegions O s qs).2 r = true ↔
      flagAt s r = true
        ∨ ∃ q, (q, r) ∈ qs.zip (getRegions O s qs).1 ∧ O.isAlloced q = true := by
  induction qs generalizing s with
  | nil => simp [getRegions]
  | cons q qs ih =>
    simp only [getRegions, List.zip_cons_cons, List.mem_cons, Prod.mk.injEq]
    rw [ih, flagAt_getRegion]
    constructor
    · rintro (h | ⟨x, hx, ha⟩)
      · rcases Bool.or_eq_true _ _ ▸ h with h' | h'
        · exact Or.inl h'
        · simp only [Bool.and_eq_true, decide_eq_true_eq] at h'
          exact Or.inr ⟨q, Or.inl ⟨rfl, h'.1⟩, h'.2⟩
      · exact Or.inr ⟨x, Or.inr hx, ha⟩
    · rintro (h | ⟨x, (⟨hx, hr⟩ | hx), ha⟩)
      · exact Or.inl (by simp [h])
      · subst hx
        exact Or.inl (by simp [hr, ha])
      · exact Or.inr ⟨x, hx, ha⟩

/-- Claim C5: after any sequence of queries from the empty state, the flag of a
region is set exactly when some query whose value the oracle reports allocated
returned that region; a set flag stays set; and `isExternal(v)` holds exactly
when `v` is pointer-typed and the flag of the region returned for `v` is unset
after the call. -/
theorem externality (O : AliasOracle) (isPointerTy : ValuePtr → Bool) :
    (∀ qs r, flagAt (getRegions O SmackRep.init qs).2 r = true ↔
        ∃ q, (q, r) ∈ qs.zip (getRegions O SmackRep.init qs).1 ∧ O.isAlloced q = true)
    ∧ (∀ s qs r, flagAt s r = true → flagAt (getRegions O s qs).2 r = true)
    ∧ (∀ s v, (isExternal O isPointerTy s v).1 = true ↔
        (isPointerTy v = true
          ∧ flagAt (getRegion O s v).2 (getRegion O s v).1 = false)) := by
  refine ⟨fun qs r => ?_, fun s qs r h => ?_, fun s v => ?_⟩
  · rw [flagAt_getRegions]
    have h0 : flagAt SmackRep.init r = false := by simp [flagAt, SmackRep.init]
    simp [h0]
  · exact (flagAt_getRegions O s qs r).2 (Or.inl h)
  · unfold isExternal
    cases hp : isPointerTy v <;> simp

/-! ## Properties of the declaration order -/

/-- The model of `operator<` on `std::string` is the lexicographic order. -/
theorem strLess_iff (l₁ l₂ : List Char) : strLess l₁ l₂ = true ↔ l₁ < l₂ := by
  induction l₁ generalizing l₂ with
  | nil =>
    cases l₂ with
    | nil =>
      simp only [strLess, Bool.false_eq_true, false_iff]
      intro h
      cases h
    | cons b bs =>
      simp only [strLess, true_iff]
      exact List.Lex.nil
  | cons a as ih =>
    cases l₂ with
    | nil =>
      simp only [strLess, Bool.false_eq_true, false_iff]
      intro h
      cases h
    | cons b bs =>
      simp only [strLess]
      by_cases hab : a < b
      · simp only [hab, if_true, true_iff]
        exact List.Lex.rel hab
      · by_cases hba : b < a
        · simp only [hab, hba, if_false, if_true, Bool.false_eq_true, false_iff]
          intro h
          cases h with
          | cons h' => exact lt_irrefl _ hba
          | rel h' => exact hab h'
        · have heq : a = b := le_antisymm (not_lt.1 hba) (not_lt.1 hab)
          subst heq
          simp only [hab, if_false, ih]
          constructor
          · intro h
            exact List.Lex.cons h
          · intro h
            cases h with
            | cons h' => exact h'
            | rel h' => exact absurd h' hab

theorem kind_toNat_eq_indexOf (k : Kind) : k.toNat = specKindOrder.indexOf k := by
  cases k <;> decide

theorem kind_toNat_injective (k₁ k₂ : Kind) (h : k₁.toNat = k₂.toNat) : k₁ = k₂ := by
  cases k₁ <;> cases k₂ <;> first | rfl | exact absurd h (by decide)

/-- Claim C6: the comparator orders `a` before `b` exactly when the kind of `a`
precedes the kind of `b` in the fixed kind order, or the kinds are equal and
named and the name of `a` is lexicographically less, or both are unnamed and
the creation id of `a` is less. -/
theorem declCompare_iff (a b : Decl) :
    DeclCompare a b = true ↔
      specKindOrder.indexOf a.getKind < specKindOrder.indexOf b.getKind
      ∨ (a.getKind = b.getKind ∧ a.getKind ≠ Kind.UNNAMED ∧ a.getName < b.getName)
      ∨ (a.getKind = Kind.UNNAMED ∧ b.getKind = Kind.UNNAMED ∧ a.getId < b.getId) := by
  rw [← kind_toNat_eq_indexOf, ← kind_toNat_eq_indexOf]
  unfold DeclCompare
  by_cases hk : a.getKind = b.getKind
  · have hnlt : ¬ a.getKind.toNat < b.getKind.toNat := by rw [hk]; exact Nat.lt_irrefl _
    by_cases hu : a.getKind = Kind.UNNAMED
    · have hb : b.getKind = Kind.UNNAMED := hk ▸ hu
      simp [hk, hb]
    · have hb : b.getKind ≠ Kind.UNNAMED := hk ▸ hu
      rw [if_pos ⟨hk, hu⟩, strLess_iff, ← String.lt_iff_toList_lt]
      simp [hk, hb]
  · simp only [hk, false_and, if_false, decide_eq_true_eq]
    constructor
    · intro h0; exact Or.inl h0
    · rintro (h0 | h0 | ⟨h1, h2, _⟩)
      · exact h0
      · exact absurd h0 id
      · exact absurd (h1.trans h2.symm) hk

/-- Two declarations are ordered one way or the other unless they have the
same key. -/
theorem declCompare_trichotomy (a b : Decl) :
    DeclCompare a b = true ∨ DeclCompare b a = true ∨ sameKey a b := by
  unfold DeclCompare sameKey
  by_cases hk : a.getKind = b.getKind
  · by_cases hu : a.getKind = Kind.UNNAMED
    · have hb : b.getKind = Kind.UNNAMED := hk ▸ hu
      simp only [hk, hb, ne_eq, not_true_eq_false, and_false, if_false, if_true,
        decide_eq_true_eq, true_and]
      rcases Nat.lt_trichotomy a.getId b.getId with h | h | h
      · exact Or.inl h
      · exact Or.inr (Or.inr h)
      · exact Or.inr (Or.inl h)
    · have hb : b.getKind ≠ Kind.UNNAMED := hk ▸ hu
      rw [if_pos ⟨hk, hu⟩, if_pos ⟨hk.symm, hb⟩, if_neg hu, strLess_iff, strLess_iff,
        ← String.lt_iff_toList_lt, ← String.lt_iff_toList_lt]
      rcases lt_trichotomy a.getName b.getName with h | h | h
      · exact Or.inl h
      · exact Or.inr (Or.inr ⟨hk, h⟩)
      · exact Or.inr (Or.inl h)
  · have hk' : ¬ b.getKind = a.getKind := fun h => hk h.symm
    have hne : a.getKind.toNat ≠ b.getKind.toNat := fun h => hk (kind_toNat_injective _ _ h)
    simp only [hk, hk', false_and, if_false, decide_eq_true_eq]
    rcases Nat.lt_or_gt_of_ne hne with h | h
    · exact Or.inl h
    · exact Or.inr (Or.inl h)

/-- Insertion into the ordered set keeps the members of the set. -/
theorem setInsert_keeps (d : Decl) (s : List Decl) : ∀ x ∈ s, x ∈ setInsert d s := by
  induction s with
  | nil => intro x hx; cases hx
  | cons y ys ih =>
    intro x hx
    simp only [setInsert]
    split
    · exact List.mem_cons_of_mem _ hx
    · split
      · rcases List.mem_cons.1 hx with h | h
        · exact h ▸ List.mem_cons_self _ _
        · exact List.mem_cons_of_mem _ (ih x h)
      · exact hx

/-- Insertion adds the declaration, or meets an element equivalent to it and
leaves the set as it was. -/
theorem setInsert_adds_or_meets (d : Decl) (s : List Decl) :
    d ∈ setInsert d s
      ∨ ((∃ x ∈ s, DeclCompare d x = false ∧ DeclCompare x d = false) ∧ setInsert d s = s) := by
  induction s with
  | nil => exact Or.inl (by simp [setInsert])
  | cons y ys ih =>
    simp only [setInsert]
    by_cases h1 : DeclCompare d y = true
    · exact Or.inl (by simp [h1])
    · by_cases h2 : DeclCompare y d = true
      · rw [if_neg h1, if_pos h2]
        rcases ih with h | ⟨⟨x, hx, hx1, hx2⟩, heq⟩
        · exact Or.inl (List.mem_cons_of_mem _ h)
        · exact Or.inr ⟨⟨x, List.mem_cons_of_mem _ hx, hx1, hx2⟩, by rw [heq]⟩
      · rw [if_neg h1, if_neg h2]
        refine Or.inr ⟨⟨y, List.mem_cons_self _ _, ?_, ?_⟩, rfl⟩
        · simpa using h1
        · simpa using h2

/-- Claim C7 fails as stated: a constant and a variable, both of the storage
kind and both named `x`, have distinct creation ids, yet neither is ordered
before the other, and adding both to a program keeps only the first. -/
theorem declOrder_total_counterexample :
    (Decl.constDecl 0 "x" [] "int" true).getId ≠ (Decl.varDecl 1 "x" [] "int").getId
    ∧ DeclCompare (Decl.constDecl 0 "x" [] "int" true) (Decl.varDecl 1 "x" [] "int") = false
    ∧ DeclCompare (Decl.varDecl 1 "x" [] "int") (Decl.constDecl 0 "x" [] "int" true) = false
    ∧ ((Program.empty.addDecl (Decl.constDecl 0 "x" [] "int" true)).addDecl
        (Decl.varDecl 1 "x" [] "int")).decls.map Decl.getId = [0] := by
  decide

/-- Claim C7, amended: the declaration order is total up to the key (kind, and
name for named kinds or creation id for axioms): two declarations are ordered
one way or the other unless they have the same key.  Insertion into the ordered
set keeps every member, and adds the new declaration unless the set already
holds one with the same key, in which case the set is unchanged.  Two axioms
with distinct creation ids are always ordered. -/
theorem declOrder_total_up_to_key (a b : Decl) (s : List Decl) :
    (DeclCompare a b = true ∨ DeclCompare b a = true ∨ sameKey a b)
    ∧ (∀ x ∈ s, x ∈ setInsert a s)
    ∧ (a ∈ setInsert a s ∨ ((∃ x ∈ s, sameKey a x) ∧ setInsert a s = s))
    ∧ (a.getKind = Kind.UNNAMED → b.getKind = Kind.UNNAMED → a.getId ≠ b.getId →
        DeclCompare a b = true ∨ DeclCompare b a = true) := by
  refine ⟨declCompare_trichotomy a b, setInsert_keeps a s, ?_, ?_⟩
  · rcases setInsert_adds_or_meets a s with h | ⟨⟨x, hx, h1, h2⟩, heq⟩
    · exact Or.inl h
    · refine Or.inr ⟨⟨x, hx, ?_⟩, heq⟩
      rcases declCompare_trichotomy a x with h | h | h
      · rw [h1] at h; exact Bool.noConfusion h
      · rw [h2] at h; exact Bool.noConfusion h
      · exact h
  · intro ha hb hne
    rcases declCompare_trichotomy a b with h | h | h
    · exact Or.inl h
    · exact Or.inr h
    · exfalso
      have h2 := h.2
      rw [if_pos ha] at h2
      exact hne h2

/-! ## Properties of rendering -/

theorem intercalate_go_eq {α : Type} (pr : α → String) (sep : String) (ts : List α)
    (acc : String) :
    String.intercalate.go acc sep (ts.map pr) = acc ++ printLoop pr sep ts false := by
  induction ts generalizing acc with
  | nil => simp [String.intercalate.go, printLoop]
  | cons t ts ih =>
    simp only [List.map_cons, String.intercalate.go, ih, printLoop, Bool.false_eq_true, if_false,
      String.append_assoc]

/-- The loop of `print_seq` writes the elements in list order, separated by `sep`. -/
theorem printLoop_eq_intercalate {α : Type} (pr : α → String) (sep : String) (ts : List α) :
    printLoop pr sep ts true = String.intercalate sep (ts.map pr) := by
  cases ts with
  | nil => simp [printLoop, String.intercalate]
  | cons t ts =>
    simp only [printLoop, if_true, List.map_cons, String.intercalate, intercalate_go_eq,
      String.empty_append]

/-- Inside an expression the arguments are written by the loop of `print_seq`. -/
theorem printArgs_eq_printLoop (sep : String) (ts : List Expr) (first : Bool) :
    Expr.printArgs sep ts first = printLoop Expr.print sep ts first := by
  induction ts generalizing first with
  | nil => simp [Expr.printArgs, printLoop]
  | cons t ts ih => simp [Expr.printArgs, printLoop, ih]

/-- Inside a procedure the local declarations are written by the loop of `print_set`. -/
theorem printDecls_eq_printLoop (sep : String) (ts : List Decl) (first : Bool) :
    Decl.printDecls sep ts first = printLoop Decl.print sep ts first := by
  induction ts generalizing first with
  | nil => simp [Decl.printDecls, printLoop]
  | cons t ts ih => simp [Decl.printDecls, printLoop, ih]

/-- Claim C10: `Block::addStmt(s)` turns the statement list `L` into `L ++ [s]`,
`Block::insert(s)` turns it into `[s] ++ L`, `Block::print` writes the statements
in list order, and `CallStmt::print` writes the arguments in the order given. -/
theorem block_order (b : Block) (s : Stmt) (proc : String) (params : List Expr)
    (returns : List String) (attrs : List Attr) :
    (b.addStmt s).stmts = b.stmts ++ [s]
    ∧ (b.insert s).stmts = [s] ++ b.stmts
    ∧ b.print = "Block(" ++ ("[\n" ++ String.intercalate ",\n  " (b.stmts.map Stmt.print) ++ "]")
        ++ (if b.name ≠ "" then ", name=\"" ++ b.name ++ "\"" else "") ++ ")"
    ∧ (Stmt.call proc params returns attrs).print
        = "CallStmt(" ++ "\"" ++ proc ++ "\""
          ++ (", [" ++ String.intercalate ", " (params.map Expr.print) ++ "]")
          ++ (if returns.length > 0 then
                ", rets=[\"" ++ String.intercalate "\", \"" returns ++ "\"]"
              else "")
          ++ (if attrs.length > 0 then
                ", attrs=[" ++ String.intercalate ", " (attrs.map Attr.print) ++ "]"
              else "")
          ++ ")" := by
  refine ⟨rfl, rfl, ?_, ?_⟩
  · simp only [Block.print, print_seq, printLoop_eq_intercalate]
  · simp only [Stmt.print, print_seq, printLoop_eq_intercalate, quote, List.map_id]

theorem setInsert_head? (d : Decl) (s : List Decl) :
    ∀ z ∈ (setInsert d s).head?, z = d ∨ z ∈ s.head? := by
  intro z hz
  cases s with
  | nil =>
    simp only [setInsert, List.head?_cons, Option.mem_def, Option.some.injEq] at hz
    exact Or.inl hz.symm
  | cons y ys =>
    simp only [setInsert] at hz
    split at hz
    · simp only [List.head?_cons, Option.mem_def, Option.some.injEq] at hz
      exact Or.inl hz.symm
    · split at hz <;> exact Or.inr hz

/-- Insertion keeps the set in canonical order. -/
theorem setInsert_canonical (d : Decl) (s : List Decl) (h : Canonical s) :
    Canonical (setInsert d s) := by
  unfold Canonical at h ⊢
  induction s with
  | nil => simp [setInsert]
  | cons y ys ih =>
    simp only [setInsert]
    by_cases h1 : DeclCompare d y = true
    · rw [if_pos h1]
      exact List.Chain'.cons h1 h
    · rw [if_neg h1]
      by_cases h2 : DeclCompare y d = true
      · rw [if_pos h2]
        apply List.Chain'.cons' (ih h.tail)
        intro z hz
        rcases setInsert_head? d ys z hz with hzd | hzy
        · rw [hzd]; exact h2
        · exact h.rel_head? hzy
      · rw [if_neg h2]
        exact h

theorem addDecls_canonical (ds : List Decl) (p : Program) (h : Canonical p.decls) :
    Canonical (p.addDecls ds).decls := by
  induction ds generalizing p with
  | nil => exact h
  | cons d ds ih => exact ih (p.addDecl d) (setInsert_canonical d p.decls h)

theorem addPreludeDecls_eq (p : Program) (ds : List Decl) :
    p.addPreludeDecls ds = { p with preludeDecls := p.preludeDecls ++ ds } := by
  induction ds generalizing p with
  | nil => simp [Program.addPreludeDecls]
  | cons d ds ih =>
    have := ih { p with preludeDecls := p.preludeDecls ++ [d] }
    simp only [Program.addPreludeDecls, List.foldl_cons] at this ⊢
    rw [this]
    simp

theorem addDecls_prelude (ds : List Decl) (p : Program) :
    (p.addDecls ds).prelude = p.prelude ∧ (p.addDecls ds).preludeDecls = p.preludeDecls := by
  induction ds generalizing p with
  | nil => exact ⟨rfl, rfl⟩
  | cons d ds ih => exact ih (p.addDecl d)

/-- Claim C9 fails as stated: the rendering of a program to which the prelude
declaration `type T;` was added does not contain the text of that declaration. -/
theorem print_preludeDecls_counterexample :
    ¬ (∀ (p : Program) (ds : List Decl), ∀ d ∈ ds,
        d.print.toList <:+: (p.addPreludeDecls ds).print.toList) := by
  intro h
  have h1 := h Program.empty [Decl.typeDecl 0 "T" [] ""] _ (List.mem_singleton.2 rfl)
  exact absurd h1 (by decide)

/-- Claim C9, amended: rendering a program emits the begin marker, the prelude
text, the declaration set in canonical order with the declarations separated
by newlines, and the end marker.  Prelude declarations added with
`addPreludeDecls` are stored in the order given and are not part of the
rendered text. -/
theorem program_print_layout (added : List Decl) (prelude : String) (pds : List Decl) :
    (assemble added prelude pds).print
      = "# BEGIN SMACK-GENERATED CODE" ++ "\n" ++ prelude
        ++ String.intercalate "\n" ((assemble added prelude pds).decls.map Decl.print)
        ++ "\n" ++ "# END SMACK-GENERATED CODE" ++ "\n"
    ∧ Canonical (assemble added prelude pds).decls
    ∧ (assemble added prelude pds).preludeDecls = pds
    ∧ (assemble added prelude pds).print = (assemble added prelude []).print := by
  have hp1 : (Program.empty.addDecls added).prelude = "" := (addDecls_prelude added _).1
  have hp2 : (Program.empty.addDecls added).preludeDecls = [] := (addDecls_prelude added _).2
  have hcan : Canonical (Program.empty.addDecls added).decls :=
    addDecls_canonical added Program.empty (by simp [Canonical, Program.empty])
  refine ⟨?_, ?_, ?_, ?_⟩
  · simp only [assemble, addPreludeDecls_eq, Program.appendPrelude, Program.print, print_set,
      printLoop_eq_intercalate, hp1, String.empty_append, String.append_empty]
  · simpa only [assemble, addPreludeDecls_eq, Program.appendPrelude] using hcan
  · simp only [assemble, addPreludeDecls_eq, Program.appendPrelude, hp2, List.nil_append]
  · simp only [assemble, addPreludeDecls_eq, Program.appendPrelude, Program.print]

set_option maxRecDepth 1000000 in
/-- Claim C8 does not hold of the code: two runs over the same two values `a`
and `b` (no-alias with each other), visited in the same order, print their
pointer-to-region hints in different orders when the addresses of `a` and `b`
are exchanged, because `getPrelude` walks `regionOfValue` in address order. -/
theorem render_depends_on_addresses :
    renderRun (fun x y => x != y) [(1, "a"), (2, "b")]
      = "# BEGIN SMACK-GENERATED CODE\n\n# Memory region declarations: 2\nadd_memory_region(\"$M.0\", \"int\", \"int\")\nadd_memory_region(\"$M.1\", \"int\", \"int\")\nadd_ptr_to_region(\"$M.0\", VarExpr(\"a\"))\nadd_ptr_to_region(\"$M.1\", VarExpr(\"b\"))\n\nadd_constant(\"$GLOBALS_BOTTOM\", \"int\")\nadd_axiom(Eq(\"$GLOBALS_BOTTOM\", Num(0)))\n\n# END SMACK-GENERATED CODE\n"
    ∧ renderRun (fun x y => x != y) [(2, "a"), (1, "b")]
      = "# BEGIN SMACK-GENERATED CODE\n\n# Memory region declarations: 2\nadd_memory_region(\"$M.0\", \"int\", \"int\")\nadd_memory_region(\"$M.1\", \"int\", \"int\")\nadd_ptr_to_region(\"$M.1\", VarExpr(\"b\"))\nadd_ptr_to_region(\"$M.0\", VarExpr(\"a\"))\n\nadd_constant(\"$GLOBALS_BOTTOM\", \"int\")\nadd_axiom(Eq(\"$GLOBALS_BOTTOM\", Num(0)))\n\n# END SMACK-GENERATED CODE\n"
    ∧ renderRun (fun x y => x != y) [(1, "a"), (2, "b")]
      ≠ renderRun (fun x y => x != y) [(2, "a"), (1, "b")] := by
  decide

/-! ## Properties of type and cast lowering -/

/-- Claim C18: `type(T)` is total with three outcomes: the boolean type exactly
for the 1-bit integer type, the float placeholder type exactly for the
floating-point types, and the pointer type exactly for every other type, among
them every pointer type and every integer type wider than one bit. -/
theorem type_three_outcomes (t : LType) :
    (type t = BOOL_TYPE ↔ t = LType.integerTy 1)
    ∧ (type t = FLOAT_TYPE ↔ ∃ bits, t = LType.floatingPointTy bits)
    ∧ (type t = getPtrType ↔ (t ≠ LType.integerTy 1 ∧ ∀ bits, t ≠ LType.floatingPointTy bits))
    ∧ (∀ elem, type (LType.pointerTy elem) = getPtrType)
    ∧ (∀ bits, bits ≠ 1 → type (LType.integerTy bits) = getPtrType) := by
  have hbf : BOOL_TYPE ≠ FLOAT_TYPE := by decide
  have hbp : BOOL_TYPE ≠ getPtrType := by decide
  have hfp : FLOAT_TYPE ≠ getPtrType := by decide
  refine ⟨?_, ?_, ?_, fun elem => rfl, fun bits hb => ?_⟩
  · cases t with
    | integerTy bits =>
      by_cases h : bits = 1 <;>
        simp [type, isBool, isFloat, LType.isIntegerTy1, LType.isFloatingPointTy, h, hbp.symm]
    | _ =>
      simp [type, isBool, isFloat, LType.isIntegerTy1, LType.isFloatingPointTy,
        hbf.symm, hbp.symm]
  · cases t with
    | integerTy bits =>
      by_cases h : bits = 1 <;>
        simp [type, isBool, isFloat, LType.isIntegerTy1, LType.isFloatingPointTy, h, hbf,
          hfp.symm]
    | _ =>
      simp [type, isBool, isFloat, LType.isIntegerTy1, LType.isFloatingPointTy, hfp.symm]
  · cases t with
    | integerTy bits =>
      by_cases h : bits = 1 <;>
        simp [type, isBool, isFloat, LType.isIntegerTy1, LType.isFloatingPointTy, h, hbp]
    | _ =>
      simp [type, isBool, isFloat, LType.isIntegerTy1, LType.isFloatingPointTy, hfp]
  · simp [type, isBool, isFloat, LType.isIntegerTy1, LType.isFloatingPointTy, hb]

theorem toInt32_of_lt (n : Nat) (h : n < 2147483648) : toInt32 n = n := by
  unfold toInt32
  have h1 : n % 4294967296 = n := Nat.mod_eq_of_lt (by omega)
  rw [h1, if_pos h]

/-- Claim C19: for an operand `v` that lowers to `e`, `trunc(v, T)` is the
integer-to-boolean conversion of `e` when `T` is the 1-bit type, the truncate
function applied to `e` and the literal bit width of `T` when `T` is a wider
integer type, and it fails exactly when `T` is not an integer type. -/
theorem trunc_lowering (exprOf : ValuePtr → Option Expr) (v : ValuePtr) (e : Expr)
    (hv : exprOf v = some e) :
    trunc exprOf v (LType.integerTy 1) = some (Expr.fn I2B [e])
    ∧ (∀ bits, bits ≠ 1 → bits < 2147483648 →
        trunc exprOf v (LType.integerTy bits)
          = some (Expr.fn TRUNC [e, Expr.lit Literal.Num (bits : Int)]))
    ∧ (∀ t, trunc exprOf v t = none ↔ t.isIntegerTy = false) := by
  refine ⟨?_, ?_, ?_⟩
  · simp [trunc, hv, isBool, LType.isIntegerTy, LType.isIntegerTy1, Expr.fn1]
  · intro bits hb hlt
    simp [trunc, hv, isBool, LType.isIntegerTy, LType.isIntegerTy1, hb, lit, Expr.litW, width,
      LType.getPrimitiveSizeInBits, toInt32_of_lt bits hlt, Expr.fn2]
  · intro t
    cases t <;> simp [trunc, hv, LType.isIntegerTy, lit, Expr.litW, width]
    split <;> simp

/-- Claim C19 at an operand that lowers to the variable `x`, for the types
`i1`, `i8` and `float`. -/
theorem trunc_lowering_witness :
    trunc (fun _ => some (Expr.var "x")) 0 (LType.integerTy 1)
      = some (Expr.fn I2B [Expr.var "x"])
    ∧ (∀ bits, bits ≠ 1 → bits < 2147483648 →
        trunc (fun _ => some (Expr.var "x")) 0 (LType.integerTy bits)
          = some (Expr.fn TRUNC [Expr.var "x", Expr.lit Literal.Num (bits : Int)]))
    ∧ (∀ t, trunc (fun _ => some (Expr.var "x")) 0 t = none ↔ t.isIntegerTy = false) :=
  trunc_lowering (fun _ => some (Expr.var "x")) 0 (Expr.var "x") rfl

/-- Claim C20: `zext` and `sext` give the same result for every operand: the
boolean-to-pointer conversion of `expr(v)` when `v` is boolean-typed, `expr(v)`
itself otherwise; `bitcast(v, T)` is `expr(v)`. -/
theorem ext_bitcast_lowering (exprOf : ValuePtr → Option Expr) (typeOf : ValuePtr → LType)
    (v : ValuePtr) (t : LType) :
    zext exprOf typeOf v t = sext exprOf typeOf v t
    ∧ (typeOf v = LType.integerTy 1 →
        zext exprOf typeOf v t = (exprOf v).map (fun e => Expr.fn B2P [e]))
    ∧ (typeOf v ≠ LType.integerTy 1 → zext exprOf typeOf v t = exprOf v)
    ∧ bitcast exprOf v t = exprOf v := by
  refine ⟨rfl, ?_, ?_, rfl⟩
  · intro h
    simp [zext, h, isBool, LType.isIntegerTy1, b2p]
    rfl
  · intro h
    have hb : isBool (typeOf v) = false := by
      cases hty : typeOf v <;> simp [isBool, LType.isIntegerTy1]
      rename_i bits
      intro hbits
      exact h (by rw [hty, hbits])
    simp [zext, hb]

/-- Claim C17: for a supported operator with symbol `name` whose operands lower
to `el` and `er`, `op` applies `name` to the two operands in order, an operand
being wrapped in the boolean-to-integer conversion exactly when it is
boolean-typed, and wraps the application in one integer-to-boolean conversion
exactly when the result is boolean-typed. -/
theorem op_boolean_bridging (exprOf : ValuePtr → Option Expr) (typeOf : ValuePtr → LType)
    (v : User) (opcode : Opcode) (name : String) (el er : Expr)
    (hop : v.opcode = some opcode) (hname : opName opcode = some name)
    (hl : exprOf v.operand0 = some el) (hr : exprOf v.operand1 = some er) :
    op exprOf typeOf v
      = some
          (if typeOf v.ptr = LType.integerTy 1 then
            Expr.fn I2B
              [Expr.fn name
                [if typeOf v.operand0 = LType.integerTy 1 then Expr.fn B2I [el] else el,
                 if typeOf v.operand1 = LType.integerTy 1 then Expr.fn B2I [er] else er]]
          else
            Expr.fn name
              [if typeOf v.operand0 = LType.integerTy 1 then Expr.fn B2I [el] else el,
               if typeOf v.operand1 = LType.integerTy 1 then Expr.fn B2I [er] else er]) := by
  have hb : ∀ t : LType, isBool t = decide (t = LType.integerTy 1) := by
    intro t
    cases t <;> simp [isBool, LType.isIntegerTy1]
    rename_i bits
    by_cases hbits : bits = 1 <;> simp [hbits]
  simp only [op, hop, hname, b2i, hl, hr, Option.map_some', Expr.fn1, Expr.fn2, I2B, hb]
  by_cases h0 : typeOf v.operand0 = LType.integerTy 1 <;>
    by_cases h1 : typeOf v.operand1 = LType.integerTy 1 <;>
    by_cases h2 : typeOf v.ptr = LType.integerTy 1 <;>
    simp [h0, h1, h2]

/-- Claim C17 at `and i1 %a, %b`: two boolean operands and a boolean result. -/
theorem op_boolean_bridging_witness :
    op (fun p => some (Expr.var (toString p))) (fun _ => LType.integerTy 1)
        { ptr := 3, opcode := some Opcode.And, operand0 := 1, operand1 := 2 }
      = some (Expr.fn I2B
          [Expr.fn "$and" [Expr.fn B2I [Expr.var "1"], Expr.fn B2I [Expr.var "2"]]]) :=
  op_boolean_bridging (fun p => some (Expr.var (toString p))) (fun _ => LType.integerTy 1)
    { ptr := 3, opcode := some Opcode.And, operand0 := 1, operand1 := 2 } Opcode.And "$and"
    (Expr.var "1") (Expr.var "2") rfl rfl rfl rfl

/-! ## Properties of program assembly -/

theorem wrapInt_of_range (x : Int) (h1 : -2147483648 ≤ x) (h2 : x < 2147483648) :
    wrapInt x = x := by
  unfold wrapInt
  omega

/-- The effect of one `globalDecl` call on the counter, and where an address
axiom comes from. -/
theorem globalDecl_step (O : AliasOracle) (L : DataLayout) (dotEscape : String → String)
    (exprOf : ValuePtr → Option Expr) (s : SmackRep) (u : Nat) (v : GlobalValue)
    (ds : List Decl) (s' : SmackRep) (u' : Nat)
    (hrun : globalDecl O L dotEscape exprOf s u v = some (ds, s', u')) :
    ((v.isGlobalVariable && v.initializer.isSome) = true →
        s'.globalsBottom = wrapInt (s.globalsBottom - globalSize L v.type))
    ∧ ((v.isGlobalVariable && v.initializer.isSome) = false →
        s'.globalsBottom = s.globalsBottom)
    ∧ (∀ a, addressAxiom? ds = some a →
        a = s'.globalsBottom ∧ (v.isGlobalVariable && v.initializer.isSome) = true) := by
  unfold globalDecl at hrun
  split at hrun
  · rename_i rawName name hname hid
    by_cases hgv : v.isGlobalVariable = true
    · rw [if_pos hgv] at hrun
      cases hinit : v.initializer with
      | none =>
        rw [hinit] at hrun
        simp only [Option.some.injEq, Prod.mk.injEq] at hrun
        obtain ⟨hds, hs, _⟩ := hrun
        subst hds hs
        refine ⟨by simp, fun _ => rfl, ?_⟩
        intro a ha
        simp [addressAxiom?, Decl.axiom_, declareIsExternal, Expr.fn1] at ha
      | some init =>
        rw [hinit] at hrun
        simp only at hrun
        split at hrun
        · split at hrun
          · exact absurd hrun (by simp)
          · simp only [Option.some.injEq, Prod.mk.injEq] at hrun
            obtain ⟨hds, hs, _⟩ := hrun
            subst hds hs
            refine ⟨fun _ => rfl, by simp [hgv], ?_⟩
            intro a ha
            simp only [addressAxiom?, Decl.axiom_, Option.some.injEq] at ha
            exact ⟨ha.symm, by simp [hgv]⟩
        · split at hrun
          · exact absurd hrun (by simp)
          · simp only [Option.some.injEq, Prod.mk.injEq] at hrun
            obtain ⟨hds, hs, _⟩ := hrun
            subst hds hs
            refine ⟨fun _ => rfl, by simp [hgv], ?_⟩
            intro a ha
            simp [addressAxiom?, Decl.constant] at ha
    · rw [if_neg hgv] at hrun
      simp only [Option.some.injEq, Prod.mk.injEq] at hrun
      obtain ⟨hds, hs, _⟩ := hrun
      subst hds hs
      refine ⟨by simp [hgv], fun _ => rfl, ?_⟩
      intro a ha
      simp [addressAxiom?, Decl.constant] at ha
  · exact absurd hrun (by simp)

/-- Along a run of `globalDecl` that does not wrap the counter, the byte range
of every global with an address axiom ends at or below the counter value the
run started from, and the range of a later global ends at or below the start
of the range of an earlier one. -/
theorem globalDecls_below (O : AliasOracle) (L : DataLayout) (dotEscape : String → String)
    (exprOf : ValuePtr → Option Expr) (gs : List GlobalValue) (s : SmackRep) (u : Nat)
    (dss : List (List Decl)) (s' : SmackRep) (u' : Nat)
    (hrun : globalDecls O L dotEscape exprOf s u gs = some (dss, s', u'))
    (hhi : s.globalsBottom ≤ 0)
    (hlo : -2147483648 ≤ s.globalsBottom - ((gs.map (reservedSize L)).sum : Nat)) :
    (∀ x ∈ gs.zip dss, ∀ a, addressAxiom? x.2 = some a →
        a + globalSize L x.1.type ≤ s.globalsBottom)
    ∧ (gs.zip dss).Pairwise (fun x y => ∀ ax ay, addressAxiom? x.2 = some ax →
        addressAxiom? y.2 = some ay → ay + globalSize L y.1.type ≤ ax) := by
  induction gs generalizing s u dss s' u' with
  | nil =>
    simp only [globalDecls, Option.some.injEq, Prod.mk.injEq] at hrun
    obtain ⟨hd, _, _⟩ := hrun
    subst hd
    simp
  | cons g gs ih =>
    simp only [globalDecls] at hrun
    cases h1 : globalDecl O L dotEscape exprOf s u g with
    | none => rw [h1] at hrun; exact absurd hrun (by simp)
    | some r1 =>
      obtain ⟨ds, s1, u1⟩ := r1
      rw [h1] at hrun
      simp only at hrun
      cases h2 : globalDecls O L dotEscape exprOf s1 u1 gs with
      | none => rw [h2] at hrun; exact absurd hrun (by simp)
      | some r2 =>
        obtain ⟨dss2, s2, u2⟩ := r2
        rw [h2] at hrun
        simp only [Option.some.injEq, Prod.mk.injEq] at hrun
        obtain ⟨hd, _, _⟩ := hrun
        subst hd
        simp only [List.map_cons, List.sum_cons, Nat.cast_add] at hlo
        obtain ⟨hstepA, hstepB, haddr⟩ := globalDecl_step O L dotEscape exprOf s u g ds s1 u1 h1
        have hs1 : s1.globalsBottom = s.globalsBottom - (reservedSize L g : Nat) := by
          cases hi : (g.isGlobalVariable && g.initializer.isSome) with
          | false =>
            rw [hstepB hi]
            simp [reservedSize, hi]
          | true =>
            have hres : reservedSize L g = globalSize L g.type := by simp [reservedSize, hi]
            rw [hstepA hi, hres]
            apply wrapInt_of_range
            · rw [← hres]; omega
            · omega
        have hhi1 : s1.globalsBottom ≤ 0 := by rw [hs1]; omega
        have hlo1 : -2147483648 ≤ s1.globalsBottom - ((gs.map (reservedSize L)).sum : Nat) := by
          rw [hs1]; omega
        obtain ⟨ihb, ihp⟩ := ih s1 u1 dss2 s2 u2 h2 hhi1 hlo1
        have hhead : ∀ a, addressAxiom? ds = some a →
            a = s1.globalsBottom ∧ a + globalSize L g.type = s.globalsBottom := by
          intro a ha
          obtain ⟨e1, e2⟩ := haddr a ha
          have hres : reservedSize L g = globalSize L g.type := by simp [reservedSize, e2]
          refine ⟨e1, ?_⟩
          rw [e1, hs1, hres]; omega
        refine ⟨?_, ?_⟩
        · intro x hx a ha
          simp only [List.zip_cons_cons, List.mem_cons] at hx
          rcases hx with hx | hx
          · subst hx
            exact le_of_eq (hhead a ha).2
          · have := ihb x hx a ha
            rw [hs1] at this
            omega
        · simp only [List.zip_cons_cons, List.pairwise_cons]
          refine ⟨?_, ihp⟩
          intro y hy ax ay hax hay
          have h3 := ihb y hy ay hay
          rw [← (hhead ax hax).1] at h3
          exact h3

/-- Claim C13: for a run of `globalDecl` over a sequence of globals from the
counter value 0 that does not wrap the counter (the sizes reserved add up to at
most `2^31`), any two distinct globals of the sequence that receive an address
axiom have disjoint byte ranges `[addr, addr + size)`. -/
theorem global_ranges_disjoint (O : AliasOracle) (L : DataLayout)
    (dotEscape : String → String) (exprOf : ValuePtr → Option Expr) (gs : List GlobalValue)
    (u : Nat) (dss : List (List Decl)) (s' : SmackRep) (u' : Nat)
    (hrun : globalDecls O L dotEscape exprOf SmackRep.init u gs = some (dss, s', u'))
    (hnowrap : (gs.map (reservedSize L)).sum ≤ 2147483648) :
    (gs.zip dss).Pairwise (fun x y => ∀ ax ay, addressAxiom? x.2 = some ax →
        addressAxiom? y.2 = some ay →
        ax + globalSize L x.1.type ≤ ay ∨ ay + globalSize L y.1.type ≤ ax) := by
  have h := (globalDecls_below O L dotEscape exprOf gs SmackRep.init u dss s' u' hrun
    (by simp [SmackRep.init]) (by simp only [SmackRep.init]; omega)).2
  exact h.imp (fun hxy ax ay hax hay => Or.inr (hxy ax ay hax hay))

theorem sampleRun_isSome : sampleRun.isSome = true := by decide

/-- Claim C13 on the globals `x` (4 bytes), `y` (8 bytes) and `z` (0 bytes):
their address axioms state -4, -12 and -12. -/
theorem global_ranges_disjoint_witness :
    ((sampleRun.get sampleRun_isSome).1.map addressAxiom?)
        = [some (-4), some (-12), some (-12)]
    ∧ ([globalX, globalY, globalZ].zip (sampleRun.get sampleRun_isSome).1).Pairwise
        (fun x y => ∀ ax ay, addressAxiom? x.2 = some ax → addressAxiom? y.2 = some ay →
          ax + globalSize sampleLayout x.1.type ≤ ay
            ∨ ay + globalSize sampleLayout y.1.type ≤ ax) :=
  ⟨by decide,
    global_ranges_disjoint noAliasOracle sampleLayout id sampleExprOf
      [globalX, globalY, globalZ] 0 (sampleRun.get sampleRun_isSome).1
      (sampleRun.get sampleRun_isSome).2.1 (sampleRun.get sampleRun_isSome).2.2
      (Option.some_get sampleRun_isSome).symm (by decide)⟩

theorem globalZ_run_isSome :
    (globalDecl noAliasOracle sampleLayout id sampleExprOf SmackRep.init 0 globalZ).isSome
      = true := by decide

/-- Claim C14 fails as stated.  The global `z` of the empty array type
`[0 x i32]` is initialized, its storage size is 0 and `globalDecl` leaves the
counter at 0, so the counter is not strictly decreasing.  And from the counter
value `-2^31` the 4 bytes of `x` wrap the counter around to `2^31 - 4`. -/
theorem globalDecl_counter_counterexample :
    ¬ (∀ (O : AliasOracle) (L : DataLayout) (dotEscape : String → String)
        (exprOf : ValuePtr → Option Expr) (s : SmackRep) (u : Nat) (v : GlobalValue)
        (init : Constant) (ds : List Decl) (s' : SmackRep) (u' : Nat),
        v.isGlobalVariable = true → v.initializer = some init →
        globalDecl O L dotEscape exprOf s u v = some (ds, s', u') →
        s'.globalsBottom = s.globalsBottom - globalSize L v.type
          ∧ s'.globalsBottom < s.globalsBottom)
    ∧ (globalDecl noAliasOracle sampleLayout id sampleExprOf SmackRep.init 0 globalZ).map
        (fun r => r.2.1.globalsBottom) = some 0
    ∧ (globalDecl noAliasOracle sampleLayout id sampleExprOf
        { SmackRep.init with globalsBottom := -2147483648 } 0 globalX).map
        (fun r => r.2.1.globalsBottom) = some 2147483644 := by
  refine ⟨?_, by decide, by decide⟩
  intro h
  have h1 := h noAliasOracle sampleLayout id sampleExprOf SmackRep.init 0 globalZ
    (.mk 30 (.arrayTy 0 (.integerTy 32)) [])
    ((globalDecl noAliasOracle sampleLayout id sampleExprOf SmackRep.init 0 globalZ).get
      globalZ_run_isSome).1
    ((globalDecl noAliasOracle sampleLayout id sampleExprOf SmackRep.init 0 globalZ).get
      globalZ_run_isSome).2.1
    ((globalDecl noAliasOracle sampleLayout id sampleExprOf SmackRep.init 0 globalZ).get
      globalZ_run_isSome).2.2
    rfl rfl (Option.some_get globalZ_run_isSome).symm
  exact absurd h1.2 (by decide)

/-- For an initialized global variable whose name is not a string-constant
name, the first declaration returned is the address axiom for its identifier. -/
theorem globalDecl_axiom (O : AliasOracle) (L : DataLayout) (dotEscape : String → String)
    (exprOf : ValuePtr → Option Expr) (s : SmackRep) (u : Nat) (v : GlobalValue)
    (init : Constant) (ds : List Decl) (s' : SmackRep) (u' : Nat) (rawName name : String)
    (hgv : v.isGlobalVariable = true) (hinit : v.initializer = some init)
    (hraw : v.name = some rawName) (hid : SmackRep.id dotEscape v.name = some name)
    (hstr : isStringConstant rawName = false)
    (hrun : globalDecl O L dotEscape exprOf s u v = some (ds, s', u')) :
    ∃ c, ds = [Decl.axiomDecl u "" []
      (Expr.bin Binary.Eq (Expr.var name) (Expr.lit Literal.Num s'.globalsBottom)), c] := by
  unfold globalDecl at hrun
  rw [hid, hraw] at hrun
  simp only [if_pos hgv, hinit, hstr, Bool.not_false, Bool.or_true, if_true] at hrun
  split at hrun
  · exact absurd hrun (by simp)
  · simp only [Option.some.injEq, Prod.mk.injEq] at hrun
    obtain ⟨hds, hs, _⟩ := hrun
    subst hds hs
    exact ⟨_, rfl⟩

/-- Claim C14, amended: for a global variable with an initializer, `globalDecl`
lowers the counter by the storage size of the global's element type, by 1024
when that type is unsized, in 32-bit arithmetic; an address axiom that is emitted
states the counter value after that step.  As long as the step does not wrap,
the new value is the old one minus the size, it is never above the old value,
and it is strictly below it exactly when the size is not 0. -/
theorem globalDecl_counter (O : AliasOracle) (L : DataLayout) (dotEscape : String → String)
    (exprOf : ValuePtr → Option Expr) (s : SmackRep) (u : Nat) (v : GlobalValue)
    (init : Constant) (ds : List Decl) (s' : SmackRep) (u' : Nat)
    (hgv : v.isGlobalVariable = true) (hinit : v.initializer = some init)
    (hrun : globalDecl O L dotEscape exprOf s u v = some (ds, s', u')) :
    s'.globalsBottom = wrapInt (s.globalsBottom - globalSize L v.type)
    ∧ (∀ elem, v.type = LType.pointerTy elem →
        globalSize L v.type = if elem.isSized then storageSize L elem else 1024)
    ∧ (∀ a, addressAxiom? ds = some a → a = s'.globalsBottom)
    ∧ (∀ rawName name, v.name = some rawName → SmackRep.id dotEscape v.name = some name →
        isStringConstant rawName = false →
        ∃ c, ds = [Decl.axiomDecl u "" []
          (Expr.bin Binary.Eq (Expr.var name) (Expr.lit Literal.Num s'.globalsBottom)), c])
    ∧ (-2147483648 ≤ s.globalsBottom - globalSize L v.type → s.globalsBottom < 2147483648 →
        s'.globalsBottom = s.globalsBottom - globalSize L v.type
        ∧ s'.globalsBottom ≤ s.globalsBottom
        ∧ (s'.globalsBottom < s.globalsBottom ↔ 0 < globalSize L v.type)) := by
  obtain ⟨hstepA, _, haddr⟩ := globalDecl_step O L dotEscape exprOf s u v ds s' u' hrun
  have hb : s'.globalsBottom = wrapInt (s.globalsBottom - globalSize L v.type) :=
    hstepA (by simp [hgv, hinit])
  refine ⟨hb, ?_, fun a ha => (haddr a ha).1, ?_, ?_⟩
  · intro elem hty
    simp [globalSize, hty]
  · intro rawName name hraw hid hstr
    exact globalDecl_axiom O L dotEscape exprOf s u v init ds s' u' rawName name hgv hinit
      hraw hid hstr hrun
  · intro h1 h2
    have h3 : s'.globalsBottom = s.globalsBottom - globalSize L v.type := by
      rw [hb]
      exact wrapInt_of_range _ h1 (by omega)
    refine ⟨h3, by omega, by omega⟩

theorem globalX_run_isSome :
    (globalDecl noAliasOracle sampleLayout id sampleExprOf SmackRep.init 0 globalX).isSome
      = true := by decide

/-- The amended claim C14 on the global `int x = 5` from the initial state: the
counter goes from 0 to -4 and the address axiom states -4. -/
theorem globalDecl_counter_witness :
    ((globalDecl noAliasOracle sampleLayout id sampleExprOf SmackRep.init 0 globalX).get
        globalX_run_isSome).2.1.globalsBottom = -4
    ∧ addressAxiom? ((globalDecl noAliasOracle sampleLayout id sampleExprOf SmackRep.init 0
        globalX).get globalX_run_isSome).1 = some (-4)
    ∧ ((globalDecl noAliasOracle sampleLayout id sampleExprOf SmackRep.init 0 globalX).get
        globalX_run_isSome).2.1.globalsBottom
      = wrapInt (SmackRep.init.globalsBottom - globalSize sampleLayout globalX.type) :=
  ⟨by decide, by decide,
    (globalDecl_counter noAliasOracle sampleLayout id sampleExprOf SmackRep.init 0 globalX
      (.mk 5 (.integerTy 32) []) _ _ _ rfl rfl (Option.some_get globalX_run_isSome).symm).1⟩

/-! ## Properties of static-initializer flattening -/

mutual
theorem leafPaths_length (L : DataLayout) :
    ∀ c : Constant, c.supported = true → (c.leafPaths L).length = c.leaves.length
  | .mk ptr ty elems, h => by
    simp only [Constant.leafPaths, Constant.leaves]
    by_cases hs : (isInt ty || ty.isPointerTy) = true
    · simp [hs]
    · simp only [hs, if_false, Bool.false_eq_true]
      simp only [Constant.supported, hs, if_false, Bool.false_eq_true] at h
      cases ty with
      | arrayTy n elemTy =>
        simp only [Bool.and_eq_true] at h
        exact arrayPaths_length L _ elems 0 h.2
      | structTy tag n sized =>
        simp only [Bool.and_eq_true] at h
        exact structPaths_length L _ elems 0 h.2
      | _ => simp at h
theorem arrayPaths_length (L : DataLayout) (size : Nat) :
    ∀ (elems : List Constant) (i : Nat), Constant.supportedList elems = true →
      (Constant.arrayPaths L size i elems).length = (Constant.leavesOfList elems).length
  | [], _, _ => by simp [Constant.arrayPaths, Constant.leavesOfList]
  | c :: cs, i, h => by
    simp only [Constant.supportedList, Bool.and_eq_true] at h
    simp only [Constant.arrayPaths, Constant.leavesOfList, List.length_append, List.length_map,
      leafPaths_length L c h.1, arrayPaths_length L size cs (i + 1) h.2]
theorem structPaths_length (L : DataLayout) (st : LType) :
    ∀ (elems : List Constant) (i : Nat), Constant.supportedList elems = true →
      (Constant.structPaths L st i elems).length = (Constant.leavesOfList elems).length
  | [], _, _ => by simp [Constant.structPaths, Constant.leavesOfList]
  | c :: cs, i, h => by
    simp only [Constant.supportedList, Bool.and_eq_true] at h
    simp only [Constant.structPaths, Constant.leavesOfList, List.length_append, List.length_map,
      leafPaths_length L c h.1, structPaths_length L st cs (i + 1) h.2]
end

theorem zipWith_append_of_length {α β γ : Type} (f : α → β → γ) (a₁ a₂ : List α)
    (b₁ b₂ : List β) (h : a₁.length = b₁.length) :
    List.zipWith f (a₁ ++ a₂) (b₁ ++ b₂) = List.zipWith f a₁ b₁ ++ List.zipWith f a₂ b₂ := by
  induction a₁ generalizing b₁ with
  | nil =>
    cases b₁ with
    | nil => simp
    | cons b bs => simp at h
  | cons a as ih =>
    cases b₁ with
    | nil => simp at h
    | cons b bs =>
      simp only [List.length_cons, Nat.add_right_cancel_iff] at h
      simp [ih bs h]

theorem zipWith_map_cons {β γ : Type} (g : List (Int × Int) → β → γ) (step : Int × Int)
    (paths : List (List (Int × Int))) (bs : List β) :
    List.zipWith g (paths.map (fun path => step :: path)) bs
      = List.zipWith (fun path b => g (step :: path) b) paths bs := by
  induction paths generalizing bs with
  | nil => simp
  | cons p ps ih =>
    cases bs with
    | nil => simp
    | cons b bs => simp [ih]

theorem sizeOf_pa_gt (e : Expr) (i s : Int) : sizeOf e < sizeOf (pa e i s) := by
  simp only [pa, Expr.fn3, Expr.fn.sizeOf_spec, List.cons.sizeOf_spec]
  omega

theorem sizeOf_applyPath_ge (addr : Expr) (p : List (Int × Int)) :
    sizeOf addr ≤ sizeOf (applyPath addr p) := by
  induction p generalizing addr with
  | nil => exact Nat.le_refl _
  | cons st rest ih =>
    exact Nat.le_trans (Nat.le_of_lt (sizeOf_pa_gt addr st.1 st.2)) (ih _)

theorem applyPath_append (addr : Expr) (p : List (Int × Int)) (x : Int × Int) :
    applyPath addr (p ++ [x]) = pa (applyPath addr p) x.1 x.2 := by
  induction p generalizing addr with
  | nil => rfl
  | cons st rest ih =>
    show applyPath (pa addr st.1 st.2) (rest ++ [x]) = pa (applyPath (pa addr st.1 st.2) rest) x.1 x.2
    exact ih _

theorem pa_injective (e e' : Expr) (i s i' s' : Int) (h : pa e i s = pa e' i' s') :
    e = e' ∧ i = i' ∧ s = s' := by
  simp only [pa, Expr.fn3, Expr.fn.injEq, List.cons.injEq, Expr.lit.injEq, true_and,
    and_true] at h
  exact ⟨h.1, h.2.1, h.2.2⟩

/-- Different paths from the same address lead to different address
expressions. -/
theorem applyPath_injective (addr : Expr) :
    ∀ p q : List (Int × Int), applyPath addr p = applyPath addr q → p = q := by
  intro p
  induction p using List.reverseRecOn with
  | nil =>
    intro q h
    rcases List.eq_nil_or_concat q with hq | ⟨q', y, hq⟩
    · exact hq.symm
    · exfalso
      rw [List.concat_eq_append] at hq
      rw [hq, applyPath_append] at h
      have h1 := sizeOf_pa_gt (applyPath addr q') y.1 y.2
      have h2 := sizeOf_applyPath_ge addr q'
      have h3 : sizeOf (applyPath addr []) = sizeOf (pa (applyPath addr q') y.1 y.2) := by
        rw [h]
      simp only [applyPath] at h3
      omega
  | append_singleton p' x ih =>
    intro q h
    rcases List.eq_nil_or_concat q with hq | ⟨q', y, hq⟩
    · exfalso
      rw [hq, applyPath_append] at h
      have h1 := sizeOf_pa_gt (applyPath addr p') x.1 x.2
      have h2 := sizeOf_applyPath_ge addr p'
      have h3 : sizeOf (pa (applyPath addr p') x.1 x.2) = sizeOf (applyPath addr []) := by
        rw [h]
      simp only [applyPath] at h3
      omega
    · rw [List.concat_eq_append] at hq
      rw [hq, applyPath_append, applyPath_append] at h
      obtain ⟨h1, h2, h3⟩ := pa_injective _ _ _ _ _ _ h
      rw [hq, ih q' h1]
      congr 1
      exact congrArg (fun z => [z]) (Prod.ext h2 h3)

theorem toInt32_injective (a b : Nat) (ha : a < 4294967296) (hb : b < 4294967296)
    (h : toInt32 a = toInt32 b) : a = b := by
  unfold toInt32 at h
  rw [Nat.mod_eq_of_lt ha, Nat.mod_eq_of_lt hb] at h
  split at h <;> split at h <;> omega

/-! ## Calls to variadic functions -/

theorem strLess_asymm (a b : List Char) (h : strLess a b = true) : strLess b a = false := by
  rw [strLess_iff] at h
  have := lt_asymm h
  rw [← strLess_iff] at this
  simpa using this

theorem strLess_trans (a b c : List Char) (h₁ : strLess a b = true) (h₂ : strLess b c = true) :
    strLess a c = true := by
  rw [strLess_iff] at h₁ h₂ ⊢
  exact lt_trans h₁ h₂

theorem declCompare_asymm (a b : Decl) (h : DeclCompare a b = true) : DeclCompare b a = false := by
  unfold DeclCompare at h ⊢
  by_cases hk : a.getKind = b.getKind
  · by_cases hu : a.getKind = Kind.UNNAMED
    · have hb : b.getKind = Kind.UNNAMED := hk ▸ hu
      simp only [hk, hb, ne_eq, not_true_eq_false, and_false, if_false, if_true,
        decide_eq_true_eq, decide_eq_false_iff_not] at h ⊢
      omega
    · have hb : ¬ b.getKind = Kind.UNNAMED := hk ▸ hu
      simp only [hk, hb, ne_eq, not_false_eq_true, and_self, if_true] at h ⊢
      exact strLess_asymm _ _ h
  · have hk2 : ¬ b.getKind = a.getKind := fun e => hk e.symm
    simp only [hk, hk2, false_and, if_false, decide_eq_true_eq, decide_eq_false_iff_not] at h ⊢
    omega

theorem declCompare_trans (a b c : Decl) (h₁ : DeclCompare a b = true)
    (h₂ : DeclCompare b c = true) : DeclCompare a c = true := by
  unfold DeclCompare at h₁ h₂ ⊢
  by_cases hab : a.getKind = b.getKind
  · by_cases hbc : b.getKind = c.getKind
    · have hac : a.getKind = c.getKind := hab.trans hbc
      by_cases hu : c.getKind = Kind.UNNAMED
      · simp only [hab, hbc, hu, ne_eq, not_true_eq_false, and_false, if_false, if_true,
          decide_eq_true_eq] at h₁ h₂ ⊢
        omega
      · simp only [hab, hbc, hu, ne_eq, not_false_eq_true, and_self, if_true] at h₁ h₂ ⊢
        exact strLess_trans _ _ _ h₁ h₂
    · have hac : ¬ a.getKind = c.getKind := fun e => hbc (hab.symm.trans e)
      simp only [hbc, false_and, if_false, decide_eq_true_eq] at h₂
      simp only [hac, false_and, if_false, decide_eq_true_eq]
      rw [hab]
      exact h₂
  · simp only [hab, false_and, if_false, decide_eq_true_eq] at h₁
    by_cases hbc : b.getKind = c.getKind
    · have hac : ¬ a.getKind = c.getKind := fun e => hab (e.trans hbc.symm)
      simp only [hac, false_and, if_false, decide_eq_true_eq]
      rw [← hbc]
      exact h₁
    · simp only [hbc, false_and, if_false, decide_eq_true_eq] at h₂
      have hac : ¬ a.getKind = c.getKind := by
        intro e
        rw [e] at h₁
        omega
      simp only [hac, false_and, if_false, decide_eq_true_eq]
      omega

theorem declCompare_congr (d x y : Decl) (h : sameKey d x) :
    DeclCompare d y = DeclCompare x y ∧ DeclCompare y d = DeclCompare y x := by
  obtain ⟨hk, hn⟩ := h
  unfold DeclCompare
  by_cases hu : d.getKind = Kind.UNNAMED
  · rw [if_pos hu] at hn
    have hx : x.getKind = Kind.UNNAMED := hk ▸ hu
    simp only [← hk, hu, ← hn, ne_eq, not_true_eq_false, and_false, if_false, and_self]
    refine ⟨trivial, ?_⟩
    by_cases hy : y.getKind = Kind.UNNAMED <;> simp [hy]
  · rw [if_neg hu] at hn
    have hx : ¬ x.getKind = Kind.UNNAMED := hk ▸ hu
    by_cases hy : d.getKind = y.getKind
    · have hy2 : ¬ y.getKind = Kind.UNNAMED := hy ▸ hu
      simp only [← hk, ← hn, hy, ne_eq, hy2, not_false_eq_true, and_self, if_true]
    · have hy2 : ¬ y.getKind = d.getKind := fun e => hy e.symm
      simp only [← hk, hy, hy2, false_and, if_false, and_self]

theorem sameKey_of_incomparable (a b : Decl) (h₁ : DeclCompare a b = false)
    (h₂ : DeclCompare b a = false) : sameKey a b := by
  rcases declCompare_trichotomy a b with h | h | h
  · rw [h₁] at h; cases h
  · rw [h₂] at h; cases h
  · exact h

theorem sameKey_incomparable (a b : Decl) (h : sameKey a b) :
    DeclCompare a b = false ∧ DeclCompare b a = false := by
  obtain ⟨hk, hn⟩ := h
  unfold DeclCompare
  by_cases hu : a.getKind = Kind.UNNAMED
  · rw [if_pos hu] at hn
    have hb : b.getKind = Kind.UNNAMED := hk ▸ hu
    simp [hu, hb, hn]
  · rw [if_neg hu] at hn
    have hb : ¬ b.getKind = Kind.UNNAMED := hk ▸ hu
    have hirr : strLess b.getName.toList b.getName.toList = false := by
      cases hs : strLess b.getName.toList b.getName.toList with
      | false => rfl
      | true => exact (strLess_asymm _ _ hs).symm.trans hs |>.symm ▸ rfl
    simp only [String.toList] at hirr
    simp [← hk, hu, hn, hirr]

theorem canonical_pairwise (s : List Decl) (h : Canonical s) :
    s.Pairwise (fun a b => DeclCompare a b = true) := by
  haveI : IsTrans Decl (fun a b => DeclCompare a b = true) := ⟨declCompare_trans⟩
  exact List.chain'_iff_pairwise.1 h

theorem setInsert_of_sameKey (d x : Decl) (s : List Decl)
    (hp : s.Pairwise (fun a b => DeclCompare a b = true)) (hx : x ∈ s) (hk : sameKey d x) :
    setInsert d s = s := by
  induction s with
  | nil => cases hx
  | cons y ys ih =>
    rw [List.pairwise_cons] at hp
    simp only [setInsert]
    rcases List.mem_cons.1 hx with rfl | hx
    · have := sameKey_incomparable d x hk
      simp [this.1, this.2]
    · have hyx := hp.1 x hx
      have hc := declCompare_congr d x y hk
      have h1 : DeclCompare d y = false := by rw [hc.1]; exact declCompare_asymm _ _ hyx
      have h2 : DeclCompare y d = true := by rw [hc.2]; exact hyx
      simp [h1, h2, ih hp.2 hx]

theorem digitVal_digitChar (m : Nat) (h : m < 10) : digitVal (Nat.digitChar m) = m := by
  interval_cases m <;> decide

theorem decimalVal_toDigitsCore (fuel n : Nat) (ds : List Char) (h : n < fuel) :
    decimalVal 0 (Nat.toDigitsCore 10 fuel n ds) = decimalVal n ds := by
  induction fuel generalizing n ds with
  | zero => omega
  | succ fuel ih =>
    simp only [Nat.toDigitsCore]
    have hd : digitVal (Nat.digitChar (n % 10)) = n % 10 :=
      digitVal_digitChar _ (Nat.mod_lt _ (by decide))
    by_cases h0 : n / 10 = 0
    · rw [if_pos h0]
      simp only [decimalVal, List.foldl_cons, hd]
      have : n % 10 = n := by omega
      rw [this]
      simp
    · rw [if_neg h0, ih (n / 10) _ (by omega)]
      simp only [decimalVal, List.foldl_cons, hd]
      have : n / 10 * 10 + n % 10 = n := by omega
      rw [this]

theorem nat_repr_injective (a b : Nat) (h : Nat.repr a = Nat.repr b) : a = b := by
  have h1 : Nat.toDigits 10 a = Nat.toDigits 10 b := by
    have := congrArg String.data h
    simpa [Nat.repr, List.asString] using this
  have ha := decimalVal_toDigitsCore (a + 1) a [] (Nat.lt_succ_self a)
  have hb := decimalVal_toDigitsCore (b + 1) b [] (Nat.lt_succ_self b)
  simp only [decimalVal, List.foldl_nil] at ha hb
  rw [← ha, ← hb]
  exact congrArg (decimalVal 0) h1

theorem indexedName_injective (name : String) (a b : Nat)
    (h : indexedName name a = indexedName name b) : a = b := by
  unfold indexedName at h
  have h1 := congrArg String.data h
  simp only [String.data_append, List.append_assoc, List.append_cancel_left_eq] at h1
  apply nat_repr_injective
  exact String.ext h1

theorem arg_isSome (exprOf : ValuePtr → Option Expr) (typeOf : ValuePtr → LType)
    (f : Option Function) (i : Nat) (v : ValuePtr) (h : (exprOf v).isSome = true) :
    (arg exprOf typeOf f i v).isSome = true := by
  unfold arg
  cases f with
  | none => exact h
  | some fn =>
    simp only
    split
    · simp [fp2si, h]
    · exact h

theorem callArgs_some (exprOf : ValuePtr → Option Expr) (typeOf : ValuePtr → LType)
    (f : Option Function) (i : Nat) (vs : List ValuePtr)
    (h : ∀ v ∈ vs, (exprOf v).isSome = true) :
    ∃ es, callArgs exprOf typeOf f i vs = some es ∧ es.length = vs.length := by
  induction vs generalizing i with
  | nil => exact ⟨[], rfl, rfl⟩
  | cons v vs ih =>
    obtain ⟨es, hes, hlen⟩ := ih (i + 1) (fun w hw => h w (List.mem_cons_of_mem _ hw))
    obtain ⟨e, he⟩ := Option.isSome_iff_exists.1
      (arg_isSome exprOf typeOf f i v (h v (List.mem_cons_self _ _)))
    exact ⟨e :: es, by simp [callArgs, he, hes], by simp [hlen]⟩

theorem call_variadic (dotEscape : String → String) (exprOf : ValuePtr → Option Expr)
    (typeOf : ValuePtr → LType) (program : Program) (uniqueId : Nat) (f : Function)
    (idf : String) (ci : CallInst) (hva : f.isVarArg = true)
    (hid : SmackRep.id dotEscape f.name = some idf) (hm : idf ≠ "malloc") (hf : idf ≠ "free_")
    (hci : ci.lowers dotEscape exprOf) :
    ∃ st d f1 u1,
      call dotEscape exprOf typeOf program uniqueId (some f) ci
        = some (st, program.addDecl d, f1, u1)
      ∧ st.callee? = some (indexedName idf ci.argCount)
      ∧ synthesizedFor idf ci.argCount d = true
      ∧ f1.isVarArg = true ∧ f1.name = f.name := by
  obtain ⟨hops, hret, hcount⟩ := hci
  obtain ⟨es, hes, hlen⟩ := callArgs_some exprOf typeOf (some f) 0 ci.operands.dropLast hops
  have hn : toInt32 es.length = (ci.argCount : Int) := by
    rw [hlen]
    exact toInt32_of_lt _ hcount
  have hrets : ∃ rets, (if (!ci.type.isVoidTy) = true
      then (SmackRep.id dotEscape ci.name).map (fun r => [r]) else some []) = some rets := by
    cases hv : ci.type.isVoidTy with
    | true => exact ⟨[], by simp⟩
    | false =>
      obtain ⟨r, hr⟩ := Option.isSome_iff_exists.1 (hret hv)
      exact ⟨[r], by simp [hr]⟩
  obtain ⟨rets, hrets⟩ := hrets
  simp only [call, hid, hes, hrets, if_neg hm, if_neg hf, hva, Bool.true_or, if_true, proc, hn,
    Decl.procedure]
  refine ⟨_, _, _, _, rfl, ?_, ?_, rfl, rfl⟩
  · simp [Stmt.callee?, Decl.getName]
  · simp [synthesizedFor, Decl.getKind, Decl.getName]

theorem synthesizedFor_sameKey (idf : String) (n : Nat) (d x : Decl)
    (hd : synthesizedFor idf n d = true) (hx : synthesizedFor idf n x = true) : sameKey d x := by
  simp only [synthesizedFor, Bool.and_eq_true, decide_eq_true_eq] at hd hx
  refine ⟨hd.1.trans hx.1.symm, ?_⟩
  rw [if_neg (by rw [hd.1]; decide)]
  exact hd.2.trans hx.2.symm

theorem setInsert_subset (d : Decl) (s : List Decl) : ∀ z ∈ setInsert d s, z = d ∨ z ∈ s := by
  induction s with
  | nil => intro z hz; simpa [setInsert] using hz
  | cons y ys ihs =>
    intro z hz
    simp only [setInsert] at hz
    split at hz
    · rcases List.mem_cons.1 hz with h | h
      · exact Or.inl h
      · exact Or.inr h
    · split at hz
      · rcases List.mem_cons.1 hz with h | h
        · exact Or.inr (h ▸ List.mem_cons_self _ _)
        · rcases ihs z h with h | h
          · exact Or.inl h
          · exact Or.inr (List.mem_cons_of_mem _ h)
      · exact Or.inr hz

theorem lowerCalls_variadic (dotEscape : String → String) (exprOf : ValuePtr → Option Expr)
    (typeOf : ValuePtr → LType) (idf : String) (hm : idf ≠ "malloc") (hf : idf ≠ "free_")
    (cis : List CallInst) (hcis : ∀ ci ∈ cis, ci.lowers dotEscape exprOf)
    (program : Program) (uniqueId : Nat) (f : Function) (hva : f.isVarArg = true)
    (hid : SmackRep.id dotEscape f.name = some idf) (hcanon : Canonical program.decls) :
    ∃ sts p1 f1 u1,
      lowerCalls dotEscape exprOf typeOf program uniqueId f cis = some (sts, p1, f1, u1)
      ∧ sts.map Stmt.callee? = cis.map (fun ci => some (indexedName idf ci.argCount))
      ∧ f1.isVarArg = true ∧ f1.name = f.name
      ∧ Canonical p1.decls
      ∧ (∀ d ∈ program.decls, d ∈ p1.decls)
      ∧ (∀ ci ∈ cis, ∃ d ∈ p1.decls, synthesizedFor idf ci.argCount d = true)
      ∧ (∀ d ∈ p1.decls,
          d ∈ program.decls ∨ ∃ ci ∈ cis, synthesizedFor idf ci.argCount d = true) := by
  induction cis generalizing program uniqueId f with
  | nil =>
    exact ⟨[], program, f, uniqueId, rfl, rfl, hva, rfl, hcanon, fun d hd => hd,
      fun ci hci => (by cases hci), fun d hd => Or.inl hd⟩
  | cons ci cis ih =>
    obtain ⟨st, d, f1, u1, hcall, hst, hd, hva1, hname1⟩ :=
      call_variadic dotEscape exprOf typeOf program uniqueId f idf ci hva hid hm hf
        (hcis ci (List.mem_cons_self _ _))
    have hcanon1 : Canonical (program.addDecl d).decls := setInsert_canonical d _ hcanon
    obtain ⟨sts, p2, f2, u2, hrun, hsts, hva2, hname2, hcanon2, hkeep, hex, hnew⟩ :=
      ih (fun c hc => hcis c (List.mem_cons_of_mem _ hc)) (program.addDecl d) u1 f1 hva1
        (by rw [hname1]; exact hid) hcanon1
    refine ⟨st :: sts, p2, f2, u2, ?_, ?_, hva2, hname2.trans hname1, hcanon2, ?_, ?_, ?_⟩
    · simp [lowerCalls, hcall, hrun]
    · simp [hst, hsts]
    · intro x hx
      exact hkeep x (setInsert_keeps d _ x hx)
    · intro c hc
      rcases List.mem_cons.1 hc with rfl | hc
      · rcases setInsert_adds_or_meets d program.decls with h | ⟨⟨x, hx, h1, h2⟩, _⟩
        · exact ⟨d, hkeep d h, hd⟩
        · have hk := sameKey_of_incomparable d x h1 h2
          refine ⟨x, hkeep x (setInsert_keeps d _ x hx), ?_⟩
          simp only [synthesizedFor, Bool.and_eq_true, decide_eq_true_eq] at hd ⊢
          have hnu : ¬ d.getKind = Kind.UNNAMED := by rw [hd.1]; decide
          have hkn := hk.2
          rw [if_neg hnu] at hkn
          exact ⟨hk.1.symm.trans hd.1, hkn.symm.trans hd.2⟩
      · exact hex c hc
    · intro x hx
      rcases hnew x hx with h | ⟨c, hc, h⟩
      · rcases setInsert_adds_or_meets d program.decls with h1 | ⟨_, h1⟩
        · by_cases hxd : x = d
          · exact Or.inr ⟨ci, List.mem_cons_self _ _, hxd ▸ hd⟩
          · left
            rcases setInsert_subset d _ x h with h | h
            · exact absurd h hxd
            · exact h
        · left
          have : (program.addDecl d).decls = program.decls := h1
          rw [← this]
          exact h
      · exact Or.inr ⟨c, List.mem_cons_of_mem _ hc, h⟩

theorem pairwise_countP_le_one (idf : String) (n : Nat) (s : List Decl)
    (hp : s.Pairwise (fun a b => DeclCompare a b = true)) :
    s.countP (synthesizedFor idf n) ≤ 1 := by
  induction s with
  | nil => simp
  | cons y ys ih =>
    rw [List.pairwise_cons] at hp
    rw [List.countP_cons]
    by_cases hy : synthesizedFor idf n y = true
    · have h0 : ys.countP (synthesizedFor idf n) = 0 := by
        rw [List.countP_eq_zero]
        intro z hz hsz
        have hk := sameKey_incomparable y z (synthesizedFor_sameKey idf n y z hy hsz)
        have := hp.1 z hz
        rw [hk.1] at this
        cases this
      simp [h0, hy]
    · have := ih hp.2
      simp [hy, this]

/-- Claim C16 fails as stated: the variadic callee whose identifier is `malloc`
is lowered to a call of `$malloc`, and the program is left without any
declaration for the argument count used. -/
theorem variadic_synthesis_counterexample :
    variadicMalloc.isVarArg = true
      ∧ mallocCall.argCount = 1
      ∧ (call id sampleExprOf (fun _ => LType.integerTy 64) Program.empty 0
            (some variadicMalloc) mallocCall).map (fun r => (r.1, r.2.1.decls))
          = some (Stmt.call "$malloc" [Expr.lit .Num 4] ["p"] [], []) :=
  ⟨rfl, rfl, rfl⟩

/-- Claim C16, amended: for a variadic callee whose identifier is neither
`malloc` nor `free_`, lowering any sequence of calls that lower, from a program
whose declaration set is in comparator order, succeeds; each call statement
targets the name built from the identifier and the count of its own actual
arguments; the program then holds exactly one procedure declaration of that
name for every count used; every declaration of the program was there before or
is one of these; different counts give different names, so that from the empty
program the number of declarations is the number of distinct counts; and one
more call with a count already used leaves the declaration set unchanged. -/
theorem variadic_synthesis (dotEscape : String → String) (exprOf : ValuePtr → Option Expr)
    (typeOf : ValuePtr → LType) (program : Program) (uniqueId : Nat) (f : Function)
    (idf : String) (cis : List CallInst) (hva : f.isVarArg = true)
    (hid : SmackRep.id dotEscape f.name = some idf) (hm : idf ≠ "malloc") (hf : idf ≠ "free_")
    (hcanon : Canonical program.decls) (hcis : ∀ ci ∈ cis, ci.lowers dotEscape exprOf) :
    ∃ sts p1 f1 u1,
      lowerCalls dotEscape exprOf typeOf program uniqueId f cis = some (sts, p1, f1, u1)
      ∧ sts.map Stmt.callee? = cis.map (fun ci => some (indexedName idf ci.argCount))
      ∧ (∀ ci ∈ cis, p1.decls.countP (synthesizedFor idf ci.argCount) = 1)
      ∧ (∀ d ∈ p1.decls,
          d ∈ program.decls ∨ ∃ ci ∈ cis, synthesizedFor idf ci.argCount d = true)
      ∧ (∀ ci ∈ cis, ∀ cj ∈ cis,
          indexedName idf ci.argCount = indexedName idf cj.argCount → ci.argCount = cj.argCount)
      ∧ (program.decls = [] → p1.decls.length = (cis.map CallInst.argCount).dedup.length)
      ∧ (∀ ci, ci.lowers dotEscape exprOf → ci.argCount ∈ cis.map CallInst.argCount →
          ∃ st p2 f2 u2,
            call dotEscape exprOf typeOf p1 u1 (some f1) ci = some (st, p2, f2, u2)
            ∧ p2.decls = p1.decls
            ∧ st.callee? = some (indexedName idf ci.argCount)) := by
  obtain ⟨sts, p1, f1, u1, hrun, hsts, hva1, hname1, hcanon1, _, hex, hnew⟩ :=
    lowerCalls_variadic dotEscape exprOf typeOf idf hm hf cis hcis program uniqueId f hva hid
      hcanon
  have hpw := canonical_pairwise _ hcanon1
  refine ⟨sts, p1, f1, u1, hrun, hsts, ?_, hnew, ?_, ?_, ?_⟩
  · intro ci hci
    apply Nat.le_antisymm (pairwise_countP_le_one idf _ _ hpw)
    exact List.countP_pos_iff.2 (hex ci hci)
  · intro ci _ cj _ h
    exact indexedName_injective idf _ _ h
  · intro hempty
    have hall : ∀ d ∈ p1.decls, ∃ ci ∈ cis, synthesizedFor idf ci.argCount d = true := by
      intro d hd
      rcases hnew d hd with h | h
      · rw [hempty] at h; cases h
      · exact h
    have hnd1 : (p1.decls.map Decl.getName).Nodup := by
      rw [List.Nodup, List.pairwise_map]
      refine hpw.imp_of_mem ?_
      intro a b ha hb hab hn
      obtain ⟨ci, _, hsa⟩ := hall a ha
      have hsb : synthesizedFor idf ci.argCount b = true := by
        obtain ⟨cj, _, hsb⟩ := hall b hb
        simp only [synthesizedFor, Bool.and_eq_true, decide_eq_true_eq] at hsa hsb ⊢
        exact ⟨hsb.1, hn ▸ hsa.2⟩
      have := (sameKey_incomparable a b (synthesizedFor_sameKey idf _ a b hsa hsb)).1
      rw [hab] at this
      cases this
    have hnd2 : (((cis.map CallInst.argCount).dedup).map
        (fun n : Nat => indexedName idf n)).Nodup :=
      (List.nodup_dedup _).map (fun a b h => indexedName_injective idf a b h)
    have hmem : ∀ x, x ∈ p1.decls.map Decl.getName
        ↔ x ∈ ((cis.map CallInst.argCount).dedup).map (fun n : Nat => indexedName idf n) := by
      intro x
      simp only [List.mem_map, List.mem_dedup]
      constructor
      · rintro ⟨d, hd, rfl⟩
        obtain ⟨ci, hci, hs⟩ := hall d hd
        simp only [synthesizedFor, Bool.and_eq_true, decide_eq_true_eq] at hs
        exact ⟨ci.argCount, ⟨ci, hci, rfl⟩, hs.2.symm⟩
      · rintro ⟨n, ⟨ci, hci, rfl⟩, rfl⟩
        obtain ⟨d, hd, hs⟩ := hex ci hci
        simp only [synthesizedFor, Bool.and_eq_true, decide_eq_true_eq] at hs
        exact ⟨d, hd, hs.2⟩
    have := ((List.perm_ext_iff_of_nodup hnd1 hnd2).2 hmem).length_eq
    simpa using this
  · intro ci hci hseen
    obtain ⟨st, d, f2, u2, hcall, hst, hd, _, _⟩ :=
      call_variadic dotEscape exprOf typeOf p1 u1 f1 idf ci hva1 (by rw [hname1]; exact hid) hm hf
        hci
    refine ⟨st, p1.addDecl d, f2, u2, hcall, ?_, hst⟩
    obtain ⟨cj, hcj, hcount⟩ := List.mem_map.1 hseen
    obtain ⟨x, hx, hsx⟩ := hex cj hcj
    rw [hcount] at hsx
    exact setInsert_of_sameKey d x p1.decls hpw hx (synthesizedFor_sameKey idf _ d x hd hsx)

theorem fooRun_isSome : fooRun.isSome = true := by decide

theorem fooCalls_lower : ∀ ci ∈ fooCalls, ci.lowers id sampleExprOf := by
  intro ci hci
  simp only [fooCalls, List.mem_cons, List.mem_singleton, List.not_mem_nil, or_false] at hci
  rcases hci with rfl | rfl | rfl <;>
    exact ⟨fun v _ => rfl, fun h => absurd h (by decide), by decide⟩

/-- Claim C16 on `foo(1,2)`, `foo(1)`, `foo(3,4)` from the empty program: the
program ends with the two declarations `foo#1` and `foo#2`. -/
theorem variadic_synthesis_witness :
    (fooRun.map (fun r => (r.1.map Stmt.callee?, r.2.1.decls.map Decl.getName)))
        = some ([some "foo#2", some "foo#1", some "foo#2"], ["foo#1", "foo#2"])
      ∧ ∃ sts p1 f1 u1,
        lowerCalls id sampleExprOf (fun _ => LType.integerTy 32) Program.empty 0 fooFn fooCalls
          = some (sts, p1, f1, u1)
        ∧ sts.map Stmt.callee? = fooCalls.map (fun ci => some (indexedName "foo" ci.argCount))
        ∧ (∀ ci ∈ fooCalls, p1.decls.countP (synthesizedFor "foo" ci.argCount) = 1)
        ∧ (∀ d ∈ p1.decls,
            d ∈ Program.empty.decls
              ∨ ∃ ci ∈ fooCalls, synthesizedFor "foo" ci.argCount d = true)
        ∧ (∀ ci ∈ fooCalls, ∀ cj ∈ fooCalls,
            indexedName "foo" ci.argCount = indexedName "foo" cj.argCount
              → ci.argCount = cj.argCount)
        ∧ (Program.empty.decls = []
            → p1.decls.length = (fooCalls.map CallInst.argCount).dedup.length)
        ∧ (∀ ci, ci.lowers id sampleExprOf → ci.argCount ∈ fooCalls.map CallInst.argCount →
            ∃ st p2 f2 u2,
              call id sampleExprOf (fun _ => LType.integerTy 32) p1 u1 (some f1) ci
                = some (st, p2, f2, u2)
              ∧ p2.decls = p1.decls
              ∧ st.callee? = some (indexedName "foo" ci.argCount)) :=
  ⟨by decide,
    variadic_synthesis id sampleExprOf (fun _ => LType.integerTy 32) Program.empty 0 fooFn "foo"
      fooCalls rfl (by decide) (by decide) (by decide) List.chain'_nil fooCalls_lower⟩

/-! ## Operators and comparisons -/

/-- Claim C21 fails as stated: for the boolean-typed instruction
`and i1 %a, %b` the result of `op` is an application of `$i2b` to one argument,
the application of `$and` being that argument. -/
theorem op_lowering_counterexample :
    op sampleExprOf allBool andInst
      = some (Expr.fn "$i2b"
          [Expr.fn "$and" [Expr.fn "$b2i" [Expr.lit .Num 1], Expr.fn "$b2i" [Expr.lit .Num 2]]])
    ∧ ∀ x y, op sampleExprOf allBool andInst ≠ some (Expr.fn "$and" [x, y]) := by
  have h : op sampleExprOf allBool andInst
      = some (Expr.fn "$i2b"
          [Expr.fn "$and" [Expr.fn "$b2i" [Expr.lit .Num 1], Expr.fn "$b2i" [Expr.lit .Num 2]]]) :=
    rfl
  refine ⟨h, ?_⟩
  intro x y hxy
  rw [h] at hxy
  injection hxy with hxy
  injection hxy with hf _
  exact absurd hf (by decide)

/-- Claim C21, amended: each of the 18 opcodes of the `switch` has its own
function symbol, different opcodes have different symbols, and every other
opcode has none.  For an instruction with a supported opcode whose operands
lower, the result is the application of the symbol to two arguments, the first
built from the first operand and the second from the second (the operand's
expression, inside `$b2i` for a boolean operand); this application is the
result when the instruction is not boolean-typed and the argument of `$i2b`
when it is.  An instruction that is no operator, or whose opcode is none of the
18, makes `op` fail. -/
theorem op_lowering (exprOf : ValuePtr → Option Expr) (typeOf : ValuePtr → LType) (v : User) :
    supportedOpcodes.map opName
        = [some "$add", some "$sub", some "$mul", some "$sdiv", some "$udiv", some "$srem",
           some "$urem", some "$and", some "$or", some "$xor", some "$lshr", some "$ashr",
           some "$shl", some "$fadd", some "$fsub", some "$fmul", some "$fdiv", some "$frem"]
    ∧ supportedOpcodes.length = 18
    ∧ (∀ o, (opName o).isSome = true ↔ o ∈ supportedOpcodes)
    ∧ (∀ o₁ o₂ n, opName o₁ = some n → opName o₂ = some n → o₁ = o₂)
    ∧ (∀ o n el er, v.opcode = some o → opName o = some n →
        exprOf v.operand0 = some el → exprOf v.operand1 = some er →
        ∃ x y, (x = el ∨ x = Expr.fn B2I [el]) ∧ (y = er ∨ y = Expr.fn B2I [er])
          ∧ (typeOf v.ptr ≠ LType.integerTy 1 → op exprOf typeOf v = some (Expr.fn n [x, y]))
          ∧ (typeOf v.ptr = LType.integerTy 1 →
              op exprOf typeOf v = some (Expr.fn I2B [Expr.fn n [x, y]])))
    ∧ (v.opcode = none → op exprOf typeOf v = none)
    ∧ (∀ o, v.opcode = some o → opName o = none → op exprOf typeOf v = none) := by
  have hb : ∀ t : LType, isBool t = decide (t = LType.integerTy 1) := by
    intro t
    cases t with
    | integerTy bits =>
      by_cases hbits : bits = 1 <;> simp [isBool, LType.isIntegerTy1, hbits]
    | _ => simp [isBool, LType.isIntegerTy1]
  refine ⟨rfl, rfl, ?_, ?_, ?_, ?_, ?_⟩
  · intro o
    cases o <;> simp [opName, supportedOpcodes]
  · intro o₁ o₂ n h₁ h₂
    cases o₁ <;> cases o₂ <;> simp only [opName] at h₁ h₂ <;>
      first
        | rfl
        | exact absurd (h₁.trans h₂.symm) (by decide)
        | exact absurd h₁ (by simp)
  · intro o n el er ho hn hl hr
    refine ⟨if typeOf v.operand0 = LType.integerTy 1 then Expr.fn B2I [el] else el,
      if typeOf v.operand1 = LType.integerTy 1 then Expr.fn B2I [er] else er, ?_, ?_, ?_, ?_⟩
    · by_cases h : typeOf v.operand0 = LType.integerTy 1 <;> simp [h]
    · by_cases h : typeOf v.operand1 = LType.integerTy 1 <;> simp [h]
    · intro hv
      by_cases h0 : typeOf v.operand0 = LType.integerTy 1 <;>
        by_cases h1 : typeOf v.operand1 = LType.integerTy 1 <;>
        simp [op, ho, hn, hl, hr, hb, b2i, Expr.fn1, Expr.fn2, h0, h1, hv]
    · intro hv
      by_cases h0 : typeOf v.operand0 = LType.integerTy 1 <;>
        by_cases h1 : typeOf v.operand1 = LType.integerTy 1 <;>
        simp [op, ho, hn, hl, hr, hb, b2i, Expr.fn1, Expr.fn2, h0, h1, hv, I2B]
  · intro ho
    simp [op, ho]
  · intro o ho hn
    simp [op, ho, hn]

/-- Claim C22 fails as stated: sixteen pairwise different floating-point
predicates, `FCMP_FALSE` and `FCMP_TRUE` among them, are lowered to sixteen
pairwise different predicate functions. -/
theorem pred_lowering_counterexample :
    floatPredicates.Nodup
      ∧ floatPredicates.length = 16
      ∧ (floatPredicates.map predName).Nodup
      ∧ (∀ p ∈ floatPredicates, ∃ o, predName p = some o
          ∧ pred sampleExprOf { predicate := p, operand0 := 1, operand1 := 2 }
              = some (Expr.fn o [Expr.lit .Num 1, Expr.lit .Num 2]))
      ∧ pred sampleExprOf { predicate := .FCMP_TRUE, operand0 := 1, operand1 := 2 }
          = some (Expr.fn "$ftrue" [Expr.lit .Num 1, Expr.lit .Num 2])
      ∧ pred sampleExprOf { predicate := .FCMP_FALSE, operand0 := 1, operand1 := 2 }
          = some (Expr.fn "$ffalse" [Expr.lit .Num 1, Expr.lit .Num 2]) := by
  refine ⟨by decide, rfl, by decide, ?_, rfl, rfl⟩
  intro p hp
  simp only [floatPredicates, List.mem_cons, List.mem_singleton, List.not_mem_nil,
    or_false] at hp
  rcases hp with h | h | h | h | h | h | h | h | h | h | h | h | h | h | h | h <;>
    subst h <;> exact ⟨_, rfl, rfl⟩

/-- Claim C22, amended: for operands that lower to `l` and `r`, integer equality
is lowered to the equality expression and integer inequality to the inequality
expression over `l` and `r`; each of the 8 other integer predicates and each of
the 16 floating-point predicates is lowered to the application of its own
predicate function to `l` and `r`, and the 24 function names are pairwise
different; any other predicate makes `pred` fail. -/
theorem pred_lowering (exprOf : ValuePtr → Option Expr) (ci : CmpInst) (l r : Expr)
    (hl : exprOf ci.operand0 = some l) (hr : exprOf ci.operand1 = some r) :
    (ci.predicate = Predicate.ICMP_EQ → pred exprOf ci = some (Expr.bin Binary.Eq l r))
    ∧ (ci.predicate = Predicate.ICMP_NE → pred exprOf ci = some (Expr.bin Binary.Neq l r))
    ∧ (∀ o, predName ci.predicate = some o → pred exprOf ci = some (Expr.fn o [l, r]))
    ∧ (∀ p, (predName p).isSome = true ↔ p ∈ integerPredicates ++ floatPredicates)
    ∧ integerPredicates.length = 8 ∧ floatPredicates.length = 16
    ∧ ((integerPredicates ++ floatPredicates).map predName).Nodup
    ∧ (pred exprOf ci = none ↔ ∃ code, ci.predicate = Predicate.Other code) := by
  refine ⟨?_, ?_, ?_, ?_, rfl, rfl, by decide, ?_⟩
  · intro h
    simp [pred, hl, hr, h, predSwitch, Expr.eq]
  · intro h
    simp [pred, hl, hr, h, predSwitch, Expr.neq]
  · intro o ho
    cases hp : ci.predicate <;> rw [hp] at ho <;> simp only [predName, predSwitch] at ho <;>
      first
        | (simp only [Option.some.injEq] at ho
           subst ho
           simp [pred, hl, hr, hp, predSwitch, Expr.fn2])
        | cases ho
  · intro p
    cases p <;> simp [predName, predSwitch, integerPredicates, floatPredicates]
  · cases hp : ci.predicate <;> simp [pred, hl, hr, hp, predSwitch]

/-- Claim C22 at the comparison `icmp slt` of two operands that lower to the
literals 1 and 2. -/
theorem pred_lowering_witness :
    pred sampleExprOf { predicate := .ICMP_SLT, operand0 := 1, operand1 := 2 }
      = some (Expr.fn "$slt" [Expr.lit .Num 1, Expr.lit .Num 2]) :=
  (pred_lowering sampleExprOf { predicate := .ICMP_SLT, operand0 := 1, operand1 := 2 }
    (Expr.lit .Num 1) (Expr.lit .Num 2) rfl rfl).2.2.1 "$slt" rfl

/-! ## Lowering of constants -/

theorem litW_width (i : Int) : Expr.litW i width = some (Expr.lit Literal.Num i) := rfl

/-- Claim C23: a 1-bit integer constant is lowered, by `lit` and by `expr`
alike, to the boolean literal that is true exactly when the constant is not
zero, which no integer literal is; a null pointer constant is lowered, by both,
to the literal 0 of the configured width.  The state is left as it was. -/
theorem constant_shapes (dotEscape : String → String) (L : DataLayout) (s : SmackRep)
    (bits : Nat) (t : LType) :
    s.lit dotEscape L (Value.ConstantInt 1 bits) = some (Expr.litBool (!isZero 1 bits), s)
    ∧ s.expr dotEscape L (Value.ConstantInt 1 bits) = some (Expr.litBool (!isZero 1 bits), s)
    ∧ (isZero 1 bits = true ↔ bits % 2 = 0)
    ∧ (Expr.litBool (!isZero 1 bits)).print
        = (if bits % 2 = 0 then "Bool(False)" else "Bool(True)")
    ∧ (∀ l i, Expr.litBool (!isZero 1 bits) = Expr.lit l i →
        l = Literal.True ∨ l = Literal.False)
    ∧ s.lit dotEscape L (Value.ConstantPointerNull t) = some (Expr.lit Literal.Num 0, s)
    ∧ s.expr dotEscape L (Value.ConstantPointerNull t) = some (Expr.lit Literal.Num 0, s)
    ∧ Expr.litW 0 width = some (Expr.lit Literal.Num 0) := by
  have hz : isZero 1 bits = true ↔ bits % 2 = 0 := by
    simp [isZero, getZExtValue]
  refine ⟨?_, ?_, hz, ?_, ?_, ?_, ?_, rfl⟩
  · simp [SmackRep.lit, litConstant, litConstantInt]
  · simp [SmackRep.expr]
  · by_cases h : bits % 2 = 0
    · have : isZero 1 bits = true := hz.2 h
      simp [Expr.litBool, this, h, Expr.print]
    · have : isZero 1 bits = false := by
        cases hb : isZero 1 bits with
        | false => rfl
        | true => exact absurd (hz.1 hb) h
      simp [Expr.litBool, this, h, Expr.print]
  · intro l i h
    unfold Expr.litBool at h
    split at h
    · injection h with h1 _
      exact Or.inl h1.symm
    · injection h with h1 _
      exact Or.inr h1.symm
  · simp [SmackRep.lit, litConstant, litW_width]
  · simp [SmackRep.expr, lit, litW_width, toInt32]

theorem expr_constantInt_narrow (dotEscape : String → String) (L : DataLayout) (s : SmackRep)
    (bitWidth bits : Nat) (h1 : bitWidth ≠ 1) (h32 : bitWidth < 32) :
    s.expr dotEscape L (Value.ConstantInt bitWidth bits)
      = some (Expr.lit Literal.Num (getZExtValue bitWidth bits), s) := by
  have hlt : getZExtValue bitWidth bits < 2147483648 := by
    unfold getZExtValue
    by_cases h0 : bitWidth = 0
    · subst h0
      simp [Nat.mod_one]
    · have h2 : 2 ^ bitWidth ≤ 2 ^ 31 := Nat.pow_le_pow_right (by decide) (by omega)
      have h3 : bits % 2 ^ bitWidth < 2 ^ bitWidth := Nat.mod_lt _ (Nat.pow_pos (by decide))
      have h4 : (2 : Nat) ^ 31 = 2147483648 := by norm_num
      omega
  have hlim : getLimitedValue bitWidth bits = getZExtValue bitWidth bits := by
    unfold getLimitedValue
    rw [if_neg (by omega)]
  simp [SmackRep.expr, h1, litConstantInt, width, hlim, Expr.litW, toInt32_of_lt _ hlt]

theorem expr_constantInt_32 (dotEscape : String → String) (L : DataLayout) (s : SmackRep)
    (bits : Nat) :
    s.expr dotEscape L (Value.ConstantInt 32 bits)
      = some (Expr.lit Literal.Num (signedValue 32 bits), s) := by
  have h3 : bits % 4294967296 < 4294967296 := Nat.mod_lt _ (by decide)
  have hz : getZExtValue 32 bits = bits % 4294967296 := by
    simp [getZExtValue]
  have hlim : getLimitedValue 32 bits = bits % 4294967296 := by
    unfold getLimitedValue
    rw [hz, if_neg (by omega)]
  have hval : toInt32 (bits % 4294967296) = signedValue 32 bits := by
    unfold toInt32 signedValue isNegative
    rw [hz, Nat.mod_mod]
    have hp : (2 : Nat) ^ (32 - 1) = 2147483648 := by norm_num
    have hq : ((2 : Int) ^ 32) = 4294967296 := by norm_num
    rw [hp, hq]
    by_cases hneg : bits % 4294967296 < 2147483648
    · have hn : ¬ (0 < 32 ∧ 2147483648 ≤ bits % 4294967296) := by omega
      rw [if_pos hneg]
      simp only [hn, decide_False, Bool.false_eq_true, if_false]
    · have hn : (0 < 32 ∧ 2147483648 ≤ bits % 4294967296) := by omega
      rw [if_neg hneg]
      simp only [hn, and_self, decide_True, if_true]
  simp [SmackRep.expr, litConstantInt, width, hlim, Expr.litW, hval]

/-- Claim C24 does not hold of the code.  The 8-bit constant `-5` (bits 251) is
lowered, at the configured width 0, to the literal `251`: `lit` reads the
constant zero-extended (`getLimitedValue`) and never looks at its sign.  Every
constant narrower than 32 bits is lowered to its unsigned value, so every
negative one is off by `2^bitWidth`.  The 64-bit constant `2^32` is lowered to
`0`, the value being narrowed to `int`.  At a fixed width 8 the same 8-bit
constant becomes `0 - (-251)`, not `0 - 5`.  Constants of 32 bits are lowered to
their signed value, and `Expr::lit` rejects every width other than 0, 8, 32 and
64. -/
theorem constant_value_lost (dotEscape : String → String) (L : DataLayout) (s : SmackRep) :
    signedValue 8 251 = -5
    ∧ s.expr dotEscape L (Value.ConstantInt 8 251) = some (Expr.lit Literal.Num 251, s)
    ∧ (Expr.lit Literal.Num 251).print = "Num(251)"
    ∧ (∀ bitWidth bits, bitWidth ≠ 1 → bitWidth < 32 →
        s.expr dotEscape L (Value.ConstantInt bitWidth bits)
          = some (Expr.lit Literal.Num (getZExtValue bitWidth bits), s)
        ∧ (isNegative bitWidth bits = true →
            (getZExtValue bitWidth bits : Int) = signedValue bitWidth bits + 2 ^ bitWidth))
    ∧ signedValue 64 4294967296 = 4294967296
    ∧ s.expr dotEscape L (Value.ConstantInt 64 4294967296) = some (Expr.lit Literal.Num 0, s)
    ∧ litConstantInt 8 8 251
        = some (Expr.fn "$sub" [Expr.lit Literal.Bv8 0, Expr.lit Literal.Bv8 (-251)])
    ∧ (∀ bits, s.expr dotEscape L (Value.ConstantInt 32 bits)
        = some (Expr.lit Literal.Num (signedValue 32 bits), s))
    ∧ (∀ i w, w ≠ 0 → w ≠ 8 → w ≠ 32 → w ≠ 64 → Expr.litW i w = none) := by
  refine ⟨by decide, ?_, by decide, ?_, by decide, ?_, rfl, ?_,
    fun i w h0 h8 h32 h64 => by simp [Expr.litW, h0, h8, h32, h64]⟩
  · exact expr_constantInt_narrow dotEscape L s 8 251 (by decide) (by decide)
  · intro bitWidth bits h1 h32
    refine ⟨expr_constantInt_narrow dotEscape L s bitWidth bits h1 h32, ?_⟩
    intro hneg
    simp [signedValue, hneg]
  · have h : litConstantInt (width : Nat) 64 4294967296 = some (Expr.lit Literal.Num 0) := by
      rfl
    simp [SmackRep.expr, h]
  · exact expr_constantInt_32 dotEscape L s

/-! ## Fresh placeholders -/

theorem undefName_injective (a b : Nat) (h : undefName a = undefName b) : a = b := by
  unfold undefName at h
  injection h with h
  have h1 := congrArg String.data h
  simp only [String.data_append, List.append_cancel_left_eq] at h1
  exact nat_repr_injective a b (String.ext h1)

theorem fpPlaceholder_injective (a b : Nat) (ha : a < 4294967296) (hb : b < 4294967296)
    (h : fpPlaceholder a = fpPlaceholder b) : a = b := by
  unfold fpPlaceholder Expr.fn1 Expr.litInt at h
  injection h with _ h
  injection h with h _
  injection h with _ h
  exact toInt32_injective a b ha hb h

theorem placeholders_length (s : SmackRep) (ops : List Placeholder) :
    (s.placeholders ops).1.length = ops.length := by
  induction ops generalizing s with
  | nil => rfl
  | cons r rs ih => simp [SmackRep.placeholders, ih]

theorem count_undef_cons (r : Placeholder) (rs : List Placeholder) :
    (r :: rs).count Placeholder.undef
      = rs.count Placeholder.undef + (if r = Placeholder.undef then 1 else 0) := by
  cases r <;> simp

theorem count_fp_cons (r : Placeholder) (rs : List Placeholder) :
    (r :: rs).count Placeholder.fp
      = rs.count Placeholder.fp + (if r = Placeholder.fp then 1 else 0) := by
  cases r <;> simp

theorem placeholder_step (s : SmackRep) (r : Placeholder)
    (hu : s.uniqueUndefNum + (if r = Placeholder.undef then 1 else 0) < 4294967296)
    (hf : s.uniqueFpNum + (if r = Placeholder.fp then 1 else 0) < 4294967296) :
    (s.placeholder r).2.uniqueUndefNum
        = s.uniqueUndefNum + (if r = Placeholder.undef then 1 else 0)
    ∧ (s.placeholder r).2.uniqueFpNum
        = s.uniqueFpNum + (if r = Placeholder.fp then 1 else 0)
    ∧ (s.placeholder r).1 = r.result s.uniqueUndefNum s.uniqueFpNum := by
  cases r with
  | undef =>
    simp only [if_true] at hu
    simp [SmackRep.placeholder, SmackRep.undef, undefName, Nat.mod_eq_of_lt hu,
      Placeholder.result]
  | fp =>
    simp only [if_true] at hf
    simp [SmackRep.placeholder, litConstantFP, fpPlaceholder, Nat.mod_eq_of_lt hf,
      Placeholder.result]

theorem placeholders_counters (s : SmackRep) (ops : List Placeholder)
    (hu : s.uniqueUndefNum + ops.count Placeholder.undef < 4294967296)
    (hf : s.uniqueFpNum + ops.count Placeholder.fp < 4294967296) :
    (s.placeholders ops).2.uniqueUndefNum = s.uniqueUndefNum + ops.count Placeholder.undef
    ∧ (s.placeholders ops).2.uniqueFpNum = s.uniqueFpNum + ops.count Placeholder.fp := by
  induction ops generalizing s with
  | nil => simp [SmackRep.placeholders]
  | cons r rs ih =>
    rw [count_undef_cons] at hu ⊢
    rw [count_fp_cons] at hf ⊢
    obtain ⟨h1, h2, _⟩ := placeholder_step s r (by omega) (by omega)
    have := ih (s.placeholder r).2 (by omega) (by omega)
    simp only [SmackRep.placeholders, this, h1, h2]
    omega

theorem placeholders_get (s : SmackRep) (ops : List Placeholder)
    (hu : s.uniqueUndefNum + ops.count Placeholder.undef < 4294967296)
    (hf : s.uniqueFpNum + ops.count Placeholder.fp < 4294967296) (i : Nat) (r : Placeholder)
    (hr : ops[i]? = some r) :
    (s.placeholders ops).1[i]?
      = some (r.result (s.uniqueUndefNum + (ops.take i).count Placeholder.undef)
          (s.uniqueFpNum + (ops.take i).count Placeholder.fp)) := by
  induction ops generalizing s i with
  | nil => simp at hr
  | cons r0 rs ih =>
    rw [count_undef_cons] at hu
    rw [count_fp_cons] at hf
    obtain ⟨h1, h2, h3⟩ := placeholder_step s r0 (by omega) (by omega)
    cases i with
    | zero =>
      simp only [List.getElem?_cons_zero, Option.some.injEq] at hr
      subst hr
      simp only [SmackRep.placeholders, List.getElem?_cons_zero, h3, List.take_zero,
        List.count_nil, Nat.add_zero]
    | succ k =>
      simp only [List.getElem?_cons_succ] at hr
      have := ih (s.placeholder r0).2 (by omega) (by omega) k hr
      simp only [SmackRep.placeholders, List.getElem?_cons_succ, this, h1, h2,
        List.take_succ_cons, count_undef_cons, count_fp_cons]
      simp only [Option.some.injEq]
      congr 1 <;> omega

theorem count_take_le (a : Placeholder) (ops : List Placeholder) (n : Nat) :
    (ops.take n).count a ≤ ops.count a :=
  (List.take_sublist n ops).count_le a

theorem count_take_lt (a : Placeholder) (ops : List Placeholder) (i j : Nat) (hij : i < j)
    (hi : ops[i]? = some a) : (ops.take i).count a < (ops.take j).count a := by
  have h1 : ops.take (i + 1) = ops.take i ++ [a] := by
    rw [List.take_succ, hi]
    rfl
  have h2 : (ops.take j).take (i + 1) = ops.take (i + 1) := by
    rw [List.take_take, Nat.min_eq_left (by omega)]
  have h3 : ((ops.take j).take (i + 1)).count a ≤ (ops.take j).count a :=
    count_take_le a _ _
  rw [h2, h1, List.count_append] at h3
  simp only [List.count_singleton_self] at h3
  omega

/-- Claim C25: in a run of placeholder requests that does not exhaust either
32-bit counter, every request for an undefined value returns `$u.k`, `k` being
the counter value at the start plus the number of earlier such requests (from
the initial state: the number of earlier requests), every floating-point
constant returns `$fp` of the same count for its kind, no expression is
returned twice, and after every prefix of the run each counter is its starting
value plus the number of requests of its kind.  `expr` serves an undefined
value by `undef()` and a floating-point constant by the `ConstantFP` branch of
`lit`. -/
theorem fresh_placeholders (dotEscape : String → String) (L : DataLayout) (s : SmackRep)
    (ops : List Placeholder)
    (hu : s.uniqueUndefNum + ops.count Placeholder.undef < 4294967296)
    (hf : s.uniqueFpNum + ops.count Placeholder.fp < 4294967296) :
    (s.placeholders ops).1.length = ops.length
    ∧ (∀ i, ops[i]? = some Placeholder.undef →
        (s.placeholders ops).1[i]?
          = some (Expr.var ("$u."
              ++ toString (s.uniqueUndefNum + (ops.take i).count Placeholder.undef))))
    ∧ (∀ i, ops[i]? = some Placeholder.fp →
        (s.placeholders ops).1[i]?
          = some (Expr.fn "$fp" [Expr.lit Literal.Num
              (toInt32 (s.uniqueFpNum + (ops.take i).count Placeholder.fp))]))
    ∧ (s.placeholders ops).1.Nodup
    ∧ (∀ n, (s.placeholders (ops.take n)).2.uniqueUndefNum
            = s.uniqueUndefNum + (ops.take n).count Placeholder.undef
          ∧ (s.placeholders (ops.take n)).2.uniqueFpNum
            = s.uniqueFpNum + (ops.take n).count Placeholder.fp)
    ∧ (∀ t, s.expr dotEscape L (Value.UndefValue t) = some (s.placeholder Placeholder.undef))
    ∧ (∀ t, s.expr dotEscape L (Value.ConstantFP t) = some (s.placeholder Placeholder.fp)
          ∧ s.lit dotEscape L (Value.ConstantFP t) = some (s.placeholder Placeholder.fp)) := by
  refine ⟨placeholders_length s ops, ?_, ?_, ?_, ?_, ?_, ?_⟩
  · intro i hi
    exact placeholders_get s ops hu hf i _ hi
  · intro i hi
    exact placeholders_get s ops hu hf i _ hi
  · rw [List.nodup_iff_getElem?_ne_getElem?]
    intro i j hij hj
    rw [placeholders_length] at hj
    have hi : i < ops.length := by omega
    have hgi : ops[i]? = some ops[i] := List.getElem?_eq_getElem hi
    have hgj : ops[j]? = some ops[j] := List.getElem?_eq_getElem hj
    rw [placeholders_get s ops hu hf i _ hgi, placeholders_get s ops hu hf j _ hgj]
    intro heq
    simp only [Option.some.injEq] at heq
    have hcu := count_take_le Placeholder.undef ops j
    have hcf := count_take_le Placeholder.fp ops j
    cases hri : ops[i] <;> cases hrj : ops[j] <;> rw [hri, hrj] at heq <;>
      simp only [Placeholder.result] at heq
    · have := undefName_injective _ _ heq
      have := count_take_lt Placeholder.undef ops i j hij (hri ▸ hgi)
      omega
    · cases heq
    · cases heq
    · have hcfi := count_take_le Placeholder.fp ops i
      have := fpPlaceholder_injective _ _ (by omega) (by omega) heq
      have := count_take_lt Placeholder.fp ops i j hij (hri ▸ hgi)
      omega
  · intro n
    exact placeholders_counters s (ops.take n)
      (by have := count_take_le Placeholder.undef ops n; omega)
      (by have := count_take_le Placeholder.fp ops n; omega)
  · intro t
    simp [SmackRep.expr, SmackRep.placeholder]
  · intro t
    simp [SmackRep.expr, SmackRep.lit, litConstant, SmackRep.placeholder]

/-- Claim C25 on the run `undef`, floating-point constant, `undef` from the
initial state: the results are `$u.0`, `$fp(0)` and `$u.1`. -/
theorem fresh_placeholders_witness :
    (SmackRep.init.placeholders [.undef, .fp, .undef]).1
        = [Expr.var "$u.0", Expr.fn "$fp" [Expr.lit Literal.Num 0], Expr.var "$u.1"]
      ∧ (SmackRep.init.placeholders [.undef, .fp, .undef]).1.Nodup :=
  ⟨rfl, (fresh_placeholders id sampleLayout SmackRep.init [.undef, .fp, .undef]
    (by decide) (by decide)).2.2.2.1⟩

/-! ## Pointer arithmetic -/

theorem ptrArithLoop_eq (dotEscape : String → String) (L : DataLayout) (ps : List Value) :
    ∀ (s : SmackRep) (e : Expr) (ts : List LType), ps.length = ts.length →
      SmackRep.ptrArithLoop dotEscape L s e ps ts
        = (chainArguments dotEscape L s ps ts).map (fun r => (foldChain e r.1, r.2)) := by
  induction ps with
  | nil =>
    intro s e ts hlen
    cases ts with
    | nil => simp [SmackRep.ptrArithLoop, chainArguments, foldChain]
    | cons t ts => simp at hlen
  | cons idx ps ih =>
    intro s e ts hlen
    cases ts with
    | nil => simp at hlen
    | cons t ts =>
      have hlen' : ps.length = ts.length := by simpa using hlen
      cases t with
      | structTy tag n sized =>
        cases idx with
        | ConstantInt bitWidth bits =>
          by_cases hb : bitWidth = 32
          · subst hb
            simp [SmackRep.ptrArithLoop, chainArguments, stepArguments, Value.type,
              LType.isIntegerTy, LType.getPrimitiveSizeInBits, ih _ _ ts hlen']
            cases chainArguments dotEscape L s ps ts with
            | none => rfl
            | some r => simp [foldChain, pa, Expr.fn3, Expr.litInt]
          · simp [SmackRep.ptrArithLoop, chainArguments, stepArguments, Value.type,
              LType.isIntegerTy, LType.getPrimitiveSizeInBits, hb]
        | _ =>
          simp [SmackRep.ptrArithLoop, chainArguments, stepArguments]
      | pointerTy elem =>
        simp only [SmackRep.ptrArithLoop, chainArguments, stepArguments, sequentialElementType,
          SmackRep.lit]
        cases (match litConstant s idx with
          | some r => r
          | none => SmackRep.expr dotEscape L s idx) with
        | none => rfl
        | some r =>
          simp only [Option.map_some']
          rw [ih _ _ ts hlen']
          cases chainArguments dotEscape L r.2 ps ts with
          | none => rfl
          | some q => simp [foldChain, paExpr, Expr.fn3]
      | arrayTy k elem =>
        simp only [SmackRep.ptrArithLoop, chainArguments, stepArguments, sequentialElementType,
          SmackRep.lit]
        cases (match litConstant s idx with
          | some r => r
          | none => SmackRep.expr dotEscape L s idx) with
        | none => rfl
        | some r =>
          simp only [Option.map_some']
          rw [ih _ _ ts hlen']
          cases chainArguments dotEscape L r.2 ps ts with
          | none => rfl
          | some q => simp [foldChain, paExpr, Expr.fn3]
      | _ =>
        simp [SmackRep.ptrArithLoop, chainArguments, stepArguments, sequentialElementType]

theorem chainArguments_length (dotEscape : String → String) (L : DataLayout)
    (ps : List Value) :
    ∀ (s : SmackRep) (ts : List LType) (args : List (Expr × Expr)) (s1 : SmackRep),
      chainArguments dotEscape L s ps ts = some (args, s1) → args.length = ps.length := by
  induction ps with
  | nil =>
    intro s ts args s1 h
    cases ts with
    | nil =>
      simp only [chainArguments, Option.some.injEq, Prod.mk.injEq] at h
      rw [← h.1]
      rfl
    | cons t ts => simp [chainArguments] at h
  | cons idx ps ih =>
    intro s ts args s1 h
    cases ts with
    | nil => simp [chainArguments] at h
    | cons t ts =>
      simp only [chainArguments] at h
      cases h1 : stepArguments dotEscape L s idx t with
      | none => simp [h1] at h
      | some a =>
        obtain ⟨a, s2⟩ := a
        simp only [h1] at h
        cases h2 : chainArguments dotEscape L s2 ps ts with
        | none => simp [h2] at h
        | some r =>
          obtain ⟨as, s3⟩ := r
          simp only [h2, Option.some.injEq, Prod.mk.injEq] at h
          rw [← h.1, List.length_cons, ih s2 ts as s3 h2]
          rfl

/-- Claim C26 fails as stated: a chain of one struct step whose index is a
64-bit constant is not empty, its index list and its type list have the same
length, its base lowers, and `ptrArith` fails on it (the assertion
`Illegal struct idx`). -/
theorem ptrArith_counterexample :
    SmackRep.init.ptrArith id sampleLayout globalG [Value.ConstantInt 64 0]
        [LType.structTy 0 2 true] = none
      ∧ [Value.ConstantInt 64 0] ≠ []
      ∧ [Value.ConstantInt 64 0].length = [LType.structTy 0 2 true].length
      ∧ SmackRep.init.expr id sampleLayout globalG = some (Expr.var "g", SmackRep.init) :=
  ⟨rfl, by simp, rfl, rfl⟩

/-- Claim C26, amended: `ptrArith` fails when the chain is empty or the index
list and the type list differ in length; otherwise it lowers the base and then
the steps from left to right, and fails when the base or a step fails (a struct
step whose index is not a 32-bit integer constant, a step into a type that is
neither a struct, a pointer nor an array, an index that does not lower);
otherwise its result is the left-to-right fold of the steps over `expr(base)`:
a struct step wraps the running address `e` into `$pa(e, fieldOffset, 1)`, a
step into a pointer or an array into `$pa(e, lit(index), storageSize(elem))`.
A chain of `n` steps gives `n` nested applications, the first step innermost.
`expr` lowers a constant `getelementptr` expression by `ptrArith`. -/
theorem ptrArith_fold (dotEscape : String → String) (L : DataLayout) (s : SmackRep)
    (p : Value) (ps : List Value) (ts : List LType) :
    s.ptrArith dotEscape L p ps ts
        = (if ps.length = 0 ∨ ps.length ≠ ts.length then none
           else
             match s.expr dotEscape L p with
             | none => none
             | some (e0, s0) =>
               (chainArguments dotEscape L s0 ps ts).map
                 (fun r => (foldChain e0 r.1, r.2)))
    ∧ (∀ s0 args s1, chainArguments dotEscape L s0 ps ts = some (args, s1) →
        args.length = ps.length)
    ∧ (∀ e, foldChain e [] = e)
    ∧ (∀ e args a, foldChain e (args ++ [a]) = Expr.fn PA [foldChain e args, a.1, a.2])
    ∧ (∀ type, s.expr dotEscape L (Value.ConstantExpr type .GetElementPtr (p :: ps) ts)
        = s.ptrArith dotEscape L p ps ts) := by
  refine ⟨?_, fun s0 args s1 h => chainArguments_length dotEscape L ps s0 ts args s1 h,
    fun e => rfl, ?_, ?_⟩
  · unfold SmackRep.ptrArith
    by_cases h : 0 < ps.length ∧ ps.length = ts.length
    · have hne : ¬ (ps.length = 0 ∨ ps.length ≠ ts.length) := by
        intro hc
        rcases hc with hc | hc
        · omega
        · exact hc h.2
      rw [if_pos h, if_neg hne]
      cases s.expr dotEscape L p with
      | none => rfl
      | some r =>
        obtain ⟨e0, s0⟩ := r
        exact ptrArithLoop_eq dotEscape L ps s0 e0 ts h.2
    · have hc : ps.length = 0 ∨ ps.length ≠ ts.length := by
        by_cases hl : ps.length = ts.length
        · left
          have : ¬ 0 < ps.length := fun h0 => h ⟨h0, hl⟩
          omega
        · exact Or.inr hl
      rw [if_neg h, if_pos hc]
  · intro e args a
    simp [foldChain, List.foldl_append]
  · intro type
    simp [SmackRep.expr, SmackRep.ptrArith]

/-- Claim C26 on the chain `g, 0, 1` into a pointer to a struct: the result is
`$pa($pa(g, 0, 8), 4, 1)`. -/
theorem ptrArith_fold_witness :
    SmackRep.init.ptrArith id sampleLayout globalG [Value.ConstantInt 64 0, Value.ConstantInt 32 1]
        [LType.pointerTy (LType.structTy 0 2 true), LType.structTy 0 2 true]
      = some (Expr.fn "$pa" [Expr.fn "$pa" [Expr.var "g", Expr.lit Literal.Num 0,
          Expr.lit Literal.Num 8], Expr.lit Literal.Num 4, Expr.lit Literal.Num 1],
          SmackRep.init) :=
  ((ptrArith_fold id sampleLayout SmackRep.init globalG
    [Value.ConstantInt 64 0, Value.ConstantInt 32 1]
    [LType.pointerTy (LType.structTy 0 2 true), LType.structTy 0 2 true]).1).trans rfl

/-! ## Bulk copy and fill -/

theorem exprAll_eq_some (exprOf : ValuePtr → Option Expr) (vs : List ValuePtr)
    (es : List Expr) : exprAll exprOf vs = some es ↔ vs.map exprOf = es.map some := by
  induction vs generalizing es with
  | nil =>
    cases es <;> simp [exprAll]
  | cons v vs ih =>
    cases es with
    | nil =>
      simp only [exprAll, List.map_cons, List.map_nil]
      cases exprOf v <;> cases exprAll exprOf vs <;> simp
    | cons e es =>
      simp only [exprAll, List.map_cons, List.cons.injEq]
      cases hv : exprOf v with
      | none => simp
      | some e' =>
        cases hr : exprAll exprOf vs with
        | none =>
          have := (ih es).not.1 (by rw [hr]; simp)
          simp [this]
        | some es' =>
          simp only [Option.some.injEq, List.cons.injEq]
          constructor
          · rintro ⟨h1, h2⟩
            exact ⟨h1, (ih es).1 (by rw [hr, h2])⟩
          · rintro ⟨h1, h2⟩
            have := (ih es).2 h2
            rw [hr] at this
            exact ⟨h1, Option.some.inj this⟩

/-- Claim C27 fails as stated: for a copy whose destination is in region 0 and
whose source is in region 1 the callee is `$memcpy.0.1`, the destination region
first and the source region second. -/
theorem memcpy_forwarding_counterexample :
    (getRegion noAliasOracle SmackRep.init 10).1 = 0
      ∧ (getRegion noAliasOracle (getRegion noAliasOracle SmackRep.init 10).2 20).1 = 1
      ∧ (memcpy noAliasOracle false sampleExprOf SmackRep.init Program.empty 0
            (copyOperands 10 20 30)).map (fun r => r.1.callee?)
          = some (some "$memcpy.0.1")
      ∧ "$memcpy.0.1" ≠ "$memcpy.1.0" := by
  decide

/-- Claim C27, amended: a copy whose destination operand is in region `B` and
whose source operand is in region `A` (both found by `getRegion`, the
destination first) is lowered to a call of `$memcpy.B.A`, the destination
region first; the declaration added to the program is the text of
`memcpyProc`, which declares a procedure of exactly that name in both styles;
and the arguments of the call are the lowered operands in their order, the
callee left out. -/
theorem memcpy_forwarding (O : AliasOracle) (MemoryModelImpls : Bool)
    (exprOf : ValuePtr → Option Expr) (s : SmackRep) (program : Program) (uniqueId : Nat)
    (dest src : ValuePtr) (rest : List ValuePtr) (args : List Expr)
    (hargs : exprAll exprOf (dest :: src :: rest).dropLast = some args) :
    memcpy O MemoryModelImpls exprOf s program uniqueId (dest :: src :: rest)
      = some (Stmt.call
          ("$memcpy." ++ toString (toInt32 (getRegion O s dest).1) ++ "."
            ++ toString (toInt32 (getRegion O (getRegion O s dest).2 src).1)) args [] [],
          (getRegion O (getRegion O s dest).2 src).2,
          program.addDecl (Decl.codeDecl uniqueId
            (memcpyProc MemoryModelImpls (toInt32 (getRegion O s dest).1)
              (toInt32 (getRegion O (getRegion O s dest).2 src).1)) []),
          nextUniqueId uniqueId)
    ∧ (∃ tail, memcpyProc MemoryModelImpls (toInt32 (getRegion O s dest).1)
          (toInt32 (getRegion O (getRegion O s dest).2 src).1)
        = "procedure "
          ++ ("$memcpy." ++ toString (toInt32 (getRegion O s dest).1) ++ "."
            ++ toString (toInt32 (getRegion O (getRegion O s dest).2 src).1))
          ++ "(dest: int, src: int, len: int, align: int, isvolatile: bool)" ++ tail)
    ∧ (dest :: src :: rest).dropLast.map exprOf = args.map some
    ∧ (∀ r : Nat, r < 2147483648 → toString (toInt32 r) = toString r) := by
  refine ⟨?_, ?_, (exprAll_eq_some exprOf _ args).1 hargs, ?_⟩
  · simp only [memcpy, hargs, Program.addDeclCode, Decl.code, Stmt.callArgs]
  · have hsplit : "(dest: int, src: int, len: int, align: int, isvolatile: bool);"
        = "(dest: int, src: int, len: int, align: int, isvolatile: bool)" ++ ";" := by
      decide
    have hhead : "procedure $memcpy." = "procedure " ++ "$memcpy." := by decide
    cases MemoryModelImpls
    · simp only [memcpyProc, Bool.false_eq_true, if_false, hsplit, hhead, String.append_assoc]
      exact ⟨_, rfl⟩
    · simp only [memcpyProc, if_true, hhead, String.append_assoc]
      exact ⟨_, rfl⟩
  · intro r hr
    rw [toInt32_of_lt r hr]
    rfl

/-- Claim C27 on a copy from the value 20 to the value 10 under an oracle that
reports every pair no-alias: the callee is `$memcpy.0.1`. -/
theorem memcpy_forwarding_witness :
    (memcpy noAliasOracle false sampleExprOf SmackRep.init Program.empty 0
        (copyOperands 10 20 30)).map (fun r => r.1.print)
      = some "CallStmt(\"$memcpy.0.1\", [Num(10), Num(20), Num(30), Num(101), Num(102)])" := by
  rw [show copyOperands 10 20 30 = 10 :: 20 :: [30, 101, 102, 199] from rfl,
    (memcpy_forwarding noAliasOracle false sampleExprOf SmackRep.init Program.empty 0 10 20
      [30, 101, 102, 199]
      [Expr.lit .Num 10, Expr.lit .Num 20, Expr.lit .Num 30, Expr.lit .Num 101,
        Expr.lit .Num 102] rfl).1]
  decide

set_option maxRecDepth 100000 in
/-- Claim C29 does not hold of the code.  In the opaque style the text that
`memsetProc` gives is the bare line `Procedure("$memset.D", params=[...])`: it
has no `modifies` clause and no postcondition, so it states nothing about the
destination region.  Only the explicit body carries the two constraints, the
fill value inside the range and the old `D[x]` outside. -/
theorem memsetProc_opaque_states_nothing (dstReg : Int) :
    memsetProc false dstReg
      = "Procedure(\"$memset." ++ toString dstReg
        ++ "\", params=[('dest', 'int'), ('val', 'int'), ('len', 'int'), ('align', 'int'), ('isvolatile', 'bool')])"
    ∧ memsetProc true dstReg
      = "procedure $memset." ++ toString dstReg
        ++ "(dest: int, val: int, len: int, align: int, isvolatile: bool)\n"
        ++ "modifies " ++ memRegInt dstReg ++ ";\n"
        ++ "\x7b\n"
        ++ "  var $oldDst: [int] int;\n"
        ++ "  $oldDst := " ++ memRegInt dstReg ++ ";\n"
        ++ "  havoc " ++ memRegInt dstReg ++ ";\n"
        ++ "  assume " ++ fillInsideRange (memRegInt dstReg) ++ ";\n"
        ++ "  assume " ++ outsideRange (memRegInt dstReg) "$oldDst" ++ ";\n"
        ++ "\x7d\n"
    ∧ containsText (memsetProc false 0) "modifies" = false
    ∧ containsText (memsetProc false 0) "ensures" = false
    ∧ containsText (memsetProc false 0) "==" = false
    ∧ containsText (memsetProc true 0) (fillInsideRange "$M.0") = true
    ∧ containsText (memsetProc true 0) (outsideRange "$M.0" "$oldDst") = true := by
  refine ⟨rfl, ?_, by decide, by decide, by decide, by decide, by decide⟩
  apply String.ext
  simp only [memsetProc, fillInsideRange, outsideRange, if_true, getPtrType,
    String.data_append, List.append_assoc]
  rfl

theorem digitChar_isDigit (m : Nat) (h : m < 10) : (Nat.digitChar m).isDigit = true := by
  interval_cases m <;> decide

theorem toDigitsCore_isDigit (fuel n : Nat) (ds : List Char)
    (hds : ∀ c ∈ ds, c.isDigit = true) :
    ∀ c ∈ Nat.toDigitsCore 10 fuel n ds, c.isDigit = true := by
  induction fuel generalizing n ds with
  | zero => simpa [Nat.toDigitsCore] using hds
  | succ fuel ih =>
    have hd : ∀ c ∈ Nat.digitChar (n % 10) :: ds, c.isDigit = true := by
      intro c hc
      rcases List.mem_cons.1 hc with rfl | hc
      · exact digitChar_isDigit _ (Nat.mod_lt _ (by decide))
      · exact hds c hc
    simp only [Nat.toDigitsCore]
    split
    · exact hd
    · exact ih _ _ hd

theorem repr_isDigit (n : Nat) : ∀ c ∈ (Nat.repr n).data, c.isDigit = true := by
  simp only [Nat.repr, List.asString, Nat.toDigits]
  exact toDigitsCore_isDigit _ _ [] (fun c hc => by cases hc)

theorem append_sep_cancel (c : Char) (D D' X X' : List Char) (hD : c ∉ D) (hD' : c ∉ D')
    (h : D ++ c :: X = D' ++ c :: X') : D = D' ∧ X = X' := by
  induction D generalizing D' with
  | nil =>
    cases D' with
    | nil => exact ⟨rfl, (List.cons.inj h).2⟩
    | cons b D' =>
      have := (List.cons.inj h).1
      exact absurd (this ▸ List.mem_cons_self _ _) hD'
  | cons a D ih =>
    cases D' with
    | nil =>
      have := (List.cons.inj h).1
      exact absurd (this ▸ List.mem_cons_self _ _) hD
    | cons b D' =>
      have h1 := List.cons.inj h
      obtain ⟨h2, h3⟩ := ih D' (fun hc => hD (List.mem_cons_of_mem _ hc))
        (fun hc => hD' (List.mem_cons_of_mem _ hc)) h1.2
      exact ⟨by rw [h1.1, h2], h3⟩

theorem repr_sep_cancel (c : Char) (hc : c.isDigit = false) (a b : Nat) (X X' : List Char)
    (h : (Nat.repr a).data ++ c :: X = (Nat.repr b).data ++ c :: X') : a = b ∧ X = X' := by
  have hn : ∀ n, c ∉ (Nat.repr n).data := by
    intro n hmem
    have := repr_isDigit n c hmem
    rw [hc] at this
    cases this
  obtain ⟨h1, h2⟩ := append_sep_cancel c _ _ X X' (hn a) (hn b) h
  exact ⟨nat_repr_injective a b (String.ext h1), h2⟩

theorem toString_natCast (n : Nat) : toString ((n : Nat) : Int) = Nat.repr n := rfl

set_option maxRecDepth 100000 in
theorem memcpyProc_injective (impls : Bool) (d s d' s' : Nat)
    (h : memcpyProc impls d s = memcpyProc impls d' s') : d = d' ∧ s = s' := by
  have h1 := congrArg String.data h
  cases impls
  · simp only [memcpyProc, Bool.false_eq_true, if_false, String.data_append,
      List.append_assoc, toString_natCast] at h1
    have h2 := List.append_cancel_left h1
    obtain ⟨hd, h3⟩ := repr_sep_cancel '.' (by decide) d d' _ _ h2
    obtain ⟨hs, _⟩ := repr_sep_cancel '(' (by decide) s s' _ _ h3
    exact ⟨hd, hs⟩
  · simp only [memcpyProc, if_true, String.data_append, List.append_assoc,
      toString_natCast] at h1
    have h2 := List.append_cancel_left h1
    obtain ⟨hd, h3⟩ := repr_sep_cancel '.' (by decide) d d' _ _ h2
    obtain ⟨hs, _⟩ := repr_sep_cancel '(' (by decide) s s' _ _ h3
    exact ⟨hd, hs⟩

set_option maxRecDepth 100000 in
theorem memsetProc_injective (impls : Bool) (d d' : Nat)
    (h : memsetProc impls d = memsetProc impls d') : d = d' := by
  have h1 := congrArg String.data h
  cases impls
  · simp only [memsetProc, Bool.false_eq_true, if_false, String.data_append,
      List.append_assoc, toString_natCast] at h1
    have h2 := List.append_cancel_left h1
    exact (repr_sep_cancel '"' (by decide) d d' _ _ h2).1
  · simp only [memsetProc, if_true, String.data_append, List.append_assoc,
      toString_natCast] at h1
    have h2 := List.append_cancel_left h1
    exact (repr_sep_cancel '(' (by decide) d d' _ _ h2).1

set_option maxRecDepth 100000 in
theorem memcpyProc_ne_memsetProc (impls : Bool) (d s d' : Int) :
    memcpyProc impls d s ≠ memsetProc impls d' := by
  intro h
  have h1 := congrArg String.data h
  cases impls
  · simp only [memcpyProc, memsetProc, Bool.false_eq_true, if_false, String.data_append,
      List.append_assoc] at h1
    have h2 := congrArg (List.take 17) h1
    rw [List.take_append_of_le_length (by decide),
      List.take_append_of_le_length (by decide)] at h2
    exact absurd h2 (by decide)
  · simp only [memcpyProc, memsetProc, if_true, String.data_append, List.append_assoc] at h1
    have h2 := congrArg (List.take 17) h1
    rw [List.take_append_of_le_length (by decide),
      List.take_append_of_le_length (by decide)] at h2
    exact absurd h2 (by decide)

theorem regionKey_text_injective (impls : Bool) (k₁ k₂ : RegionKey) (h₁ : k₁.small = true)
    (h₂ : k₂.small = true) (h : k₁.text impls = k₂.text impls) : k₁ = k₂ := by
  cases k₁ with
  | copy d s =>
    cases k₂ with
    | copy d' s' =>
      simp only [RegionKey.small, Bool.and_eq_true, decide_eq_true_eq] at h₁ h₂
      simp only [RegionKey.text, toInt32_of_lt _ h₁.1, toInt32_of_lt _ h₁.2,
        toInt32_of_lt _ h₂.1, toInt32_of_lt _ h₂.2] at h
      obtain ⟨hd, hs⟩ := memcpyProc_injective impls d s d' s' h
      rw [hd, hs]
    | fill d' =>
      exact absurd h (memcpyProc_ne_memsetProc impls _ _ _)
  | fill d =>
    cases k₂ with
    | copy d' s' =>
      exact absurd h.symm (memcpyProc_ne_memsetProc impls _ _ _)
    | fill d' =>
      simp only [RegionKey.small, Bool.and_eq_true, decide_eq_true_eq] at h₁ h₂
      simp only [RegionKey.text, toInt32_of_lt _ h₁, toInt32_of_lt _ h₂] at h
      rw [memsetProc_injective impls d d' h]

theorem declaresText_sameKey (text : String) (d x : Decl) (hd : declaresText text d = true)
    (hx : declaresText text x = true) : sameKey d x := by
  simp only [declaresText, Bool.and_eq_true, decide_eq_true_eq] at hd hx
  refine ⟨hd.1.trans hx.1.symm, ?_⟩
  rw [if_neg (by rw [hd.1]; decide)]
  exact hd.2.trans hx.2.symm

theorem declaresText_of_sameKey (text : String) (d x : Decl) (hd : declaresText text d = true)
    (hk : sameKey d x) : declaresText text x = true := by
  simp only [declaresText, Bool.and_eq_true, decide_eq_true_eq] at hd ⊢
  have hnu : ¬ d.getKind = Kind.UNNAMED := by rw [hd.1]; decide
  have hkn := hk.2
  rw [if_neg hnu] at hkn
  exact ⟨hk.1.symm.trans hd.1, hkn.symm.trans hd.2⟩

theorem pairwise_countP_declaresText_le_one (text : String) (s : List Decl)
    (hp : s.Pairwise (fun a b => DeclCompare a b = true)) :
    s.countP (declaresText text) ≤ 1 := by
  induction s with
  | nil => simp
  | cons y ys ih =>
    rw [List.pairwise_cons] at hp
    rw [List.countP_cons]
    by_cases hy : declaresText text y = true
    · have h0 : ys.countP (declaresText text) = 0 := by
        rw [List.countP_eq_zero]
        intro z hz hsz
        have hk := sameKey_incomparable y z (declaresText_sameKey text y z hy hsz)
        have := hp.1 z hz
        rw [hk.1] at this
        cases this
      simp [h0, hy]
    · have := ih hp.2
      simp [hy, this]

theorem exprAll_some (exprOf : ValuePtr → Option Expr) (vs : List ValuePtr)
    (h : ∀ v ∈ vs, (exprOf v).isSome = true) : ∃ es, exprAll exprOf vs = some es := by
  induction vs with
  | nil => exact ⟨[], rfl⟩
  | cons v vs ih =>
    obtain ⟨es, hes⟩ := ih (fun w hw => h w (List.mem_cons_of_mem _ hw))
    obtain ⟨e, he⟩ := Option.isSome_iff_exists.1 (h v (List.mem_cons_self _ _))
    exact ⟨e :: es, by simp [exprAll, he, hes]⟩

theorem lowerIntrinsic_step (O : AliasOracle) (impls : Bool) (exprOf : ValuePtr → Option Expr)
    (s : SmackRep) (program : Program) (uniqueId : Nat) (i : MemIntrinsic)
    (hi : i.lowers exprOf) :
    ∃ k s1 st d u1, i.key O s = some (k, s1)
      ∧ lowerIntrinsic O impls exprOf s program uniqueId i
          = some (st, s1, program.addDecl d, u1)
      ∧ declaresText (k.text impls) d = true := by
  obtain ⟨hops, hlen⟩ := hi
  cases i with
  | copy operands =>
    simp only [MemIntrinsic.operands] at hops
    obtain ⟨es, hes⟩ := exprAll_some exprOf _ hops
    match operands, hlen, hes with
    | op0 :: op1 :: rest, _, hes =>
      refine ⟨.copy (getRegion O s op0).1 (getRegion O (getRegion O s op0).2 op1).1,
        (getRegion O (getRegion O s op0).2 op1).2,
        Stmt.callArgs ("$memcpy." ++ toString (toInt32 (getRegion O s op0).1) ++ "."
          ++ toString (toInt32 (getRegion O (getRegion O s op0).2 op1).1)) es,
        Decl.codeDecl uniqueId (memcpyProc impls (toInt32 (getRegion O s op0).1)
          (toInt32 (getRegion O (getRegion O s op0).2 op1).1)) [],
        nextUniqueId uniqueId, rfl, ?_, ?_⟩
      · simp only [lowerIntrinsic, memcpy, hes, Program.addDeclCode, Decl.code]
      · simp [declaresText, Decl.getKind, Decl.getName, RegionKey.text]
  | fill operands =>
    simp only [MemIntrinsic.operands] at hops
    obtain ⟨es, hes⟩ := exprAll_some exprOf _ hops
    match operands, hlen, hes with
    | op0 :: rest, _, hes =>
      refine ⟨.fill (getRegion O s op0).1, (getRegion O s op0).2,
        Stmt.callArgs ("$memset." ++ toString (toInt32 (getRegion O s op0).1)) es,
        Decl.codeDecl uniqueId (memsetProc impls (toInt32 (getRegion O s op0).1)) [],
        nextUniqueId uniqueId, rfl, ?_, ?_⟩
      · simp only [lowerIntrinsic, memset, hes, Program.addDeclCode, Decl.code]
      · simp [declaresText, Decl.getKind, Decl.getName, RegionKey.text]

theorem lowerIntrinsics_spec (O : AliasOracle) (impls : Bool)
    (exprOf : ValuePtr → Option Expr) (is : List MemIntrinsic)
    (his : ∀ i ∈ is, i.lowers exprOf) (s : SmackRep) (program : Program) (uniqueId : Nat)
    (hcanon : Canonical program.decls) :
    ∃ sts s1 p1 u1,
      lowerIntrinsics O impls exprOf s program uniqueId is = some (sts, s1, p1, u1)
      ∧ sts.length = is.length
      ∧ (usedKeys O s is).length = is.length
      ∧ Canonical p1.decls
      ∧ (∀ d ∈ program.decls, d ∈ p1.decls)
      ∧ (∀ k ∈ usedKeys O s is, ∃ d ∈ p1.decls, declaresText (k.text impls) d = true)
      ∧ (∀ d ∈ p1.decls,
          d ∈ program.decls ∨ ∃ k ∈ usedKeys O s is, declaresText (k.text impls) d = true) := by
  induction is generalizing s program uniqueId with
  | nil =>
    exact ⟨[], s, program, uniqueId, rfl, rfl, rfl, hcanon, fun d hd => hd,
      fun k hk => (by cases hk), fun d hd => Or.inl hd⟩
  | cons i is ih =>
    obtain ⟨k, s1, st, d, u1, hkey, hstep, hd⟩ :=
      lowerIntrinsic_step O impls exprOf s program uniqueId i (his i (List.mem_cons_self _ _))
    have hcanon1 : Canonical (program.addDecl d).decls := setInsert_canonical d _ hcanon
    obtain ⟨sts, s2, p2, u2, hrun, hlen, hklen, hcanon2, hkeep, hex, hnew⟩ :=
      ih (fun c hc => his c (List.mem_cons_of_mem _ hc)) s1 (program.addDecl d) u1 hcanon1
    have hkeys : usedKeys O s (i :: is) = k :: usedKeys O s1 is := by
      simp [usedKeys, hkey]
    refine ⟨st :: sts, s2, p2, u2, ?_, ?_, ?_, hcanon2, ?_, ?_, ?_⟩
    · simp [lowerIntrinsics, hstep, hrun]
    · simp [hlen]
    · simp [hkeys, hklen]
    · intro x hx
      exact hkeep x (setInsert_keeps d _ x hx)
    · intro c hc
      rw [hkeys] at hc
      rcases List.mem_cons.1 hc with rfl | hc
      · rcases setInsert_adds_or_meets d program.decls with h | ⟨⟨x, hx, h1, h2⟩, _⟩
        · exact ⟨d, hkeep d h, hd⟩
        · exact ⟨x, hkeep x (setInsert_keeps d _ x hx),
            declaresText_of_sameKey _ d x hd (sameKey_of_incomparable d x h1 h2)⟩
      · exact hex c hc
    · intro x hx
      rw [hkeys]
      rcases hnew x hx with h | ⟨c, hc, h⟩
      · rcases setInsert_subset d program.decls x h with h | h
        · exact Or.inr ⟨k, List.mem_cons_self _ _, h ▸ hd⟩
        · exact Or.inl h
      · exact Or.inr ⟨c, List.mem_cons_of_mem _ hc, h⟩

/-- Claim C30: lowering any sequence of copies and fills that lower, from a
program whose declaration set is in comparator order and with region numbers
below `2^31`, succeeds and leaves the program with exactly one declaration of
the text for every region key used (destination and source region of a copy,
destination region of a fill); every declaration of the program was there
before or is one of these; different keys have different texts, so that from
the empty program the number of declarations is the number of distinct keys;
and lowering one more copy or fill whose key was already used leaves the
declaration set unchanged. -/
theorem intrinsic_decls_once (O : AliasOracle) (MemoryModelImpls : Bool)
    (exprOf : ValuePtr → Option Expr) (s : SmackRep) (program : Program) (uniqueId : Nat)
    (is : List MemIntrinsic) (hcanon : Canonical program.decls)
    (his : ∀ i ∈ is, i.lowers exprOf) (hsmall : ∀ k ∈ usedKeys O s is, k.small = true) :
    ∃ sts s1 p1 u1,
      lowerIntrinsics O MemoryModelImpls exprOf s program uniqueId is = some (sts, s1, p1, u1)
      ∧ (usedKeys O s is).length = is.length
      ∧ (∀ k ∈ usedKeys O s is,
          p1.decls.countP (declaresText (k.text MemoryModelImpls)) = 1)
      ∧ (∀ d ∈ p1.decls, d ∈ program.decls
          ∨ ∃ k ∈ usedKeys O s is, declaresText (k.text MemoryModelImpls) d = true)
      ∧ (∀ k₁ ∈ usedKeys O s is, ∀ k₂ ∈ usedKeys O s is,
          k₁.text MemoryModelImpls = k₂.text MemoryModelImpls → k₁ = k₂)
      ∧ (program.decls = [] → p1.decls.length = (usedKeys O s is).dedup.length)
      ∧ (∀ i k s2, i.lowers exprOf → i.key O s1 = some (k, s2) → k ∈ usedKeys O s is →
          ∃ st p2 u2,
            lowerIntrinsic O MemoryModelImpls exprOf s1 p1 u1 i = some (st, s2, p2, u2)
            ∧ p2.decls = p1.decls) := by
  obtain ⟨sts, s1, p1, u1, hrun, _, hklen, hcanon1, _, hex, hnew⟩ :=
    lowerIntrinsics_spec O MemoryModelImpls exprOf is his s program uniqueId hcanon
  have hpw := canonical_pairwise _ hcanon1
  have hinj : ∀ k₁ ∈ usedKeys O s is, ∀ k₂ ∈ usedKeys O s is,
      k₁.text MemoryModelImpls = k₂.text MemoryModelImpls → k₁ = k₂ :=
    fun k₁ h₁ k₂ h₂ h =>
      regionKey_text_injective MemoryModelImpls k₁ k₂ (hsmall k₁ h₁) (hsmall k₂ h₂) h
  refine ⟨sts, s1, p1, u1, hrun, hklen, ?_, hnew, hinj, ?_, ?_⟩
  · intro k hk
    apply Nat.le_antisymm (pairwise_countP_declaresText_le_one _ _ hpw)
    exact List.countP_pos_iff.2 (hex k hk)
  · intro hempty
    have hall : ∀ d ∈ p1.decls,
        ∃ k ∈ usedKeys O s is, declaresText (k.text MemoryModelImpls) d = true := by
      intro d hd
      rcases hnew d hd with h | h
      · rw [hempty] at h; cases h
      · exact h
    have hnd1 : (p1.decls.map Decl.getName).Nodup := by
      rw [List.Nodup, List.pairwise_map]
      refine hpw.imp_of_mem ?_
      intro a b ha hb hab hn
      obtain ⟨k, _, hsa⟩ := hall a ha
      have hsb : declaresText (k.text MemoryModelImpls) b = true := by
        obtain ⟨k', _, hsb⟩ := hall b hb
        simp only [declaresText, Bool.and_eq_true, decide_eq_true_eq] at hsa hsb ⊢
        exact ⟨hsb.1, hn ▸ hsa.2⟩
      have := (sameKey_incomparable a b (declaresText_sameKey _ a b hsa hsb)).1
      rw [hab] at this
      cases this
    have hnd2 : ((usedKeys O s is).dedup.map (RegionKey.text MemoryModelImpls)).Nodup := by
      refine (List.nodup_dedup _).map_on ?_
      intro a ha b hb h
      exact hinj a (List.mem_dedup.1 ha) b (List.mem_dedup.1 hb) h
    have hmem : ∀ x, x ∈ p1.decls.map Decl.getName
        ↔ x ∈ (usedKeys O s is).dedup.map (RegionKey.text MemoryModelImpls) := by
      intro x
      simp only [List.mem_map, List.mem_dedup]
      constructor
      · rintro ⟨d, hd, rfl⟩
        obtain ⟨k, hk, hs⟩ := hall d hd
        simp only [declaresText, Bool.and_eq_true, decide_eq_true_eq] at hs
        exact ⟨k, hk, hs.2.symm⟩
      · rintro ⟨k, hk, rfl⟩
        obtain ⟨d, hd, hs⟩ := hex k hk
        simp only [declaresText, Bool.and_eq_true, decide_eq_true_eq] at hs
        exact ⟨d, hd, hs.2⟩
    have := ((List.perm_ext_iff_of_nodup hnd1 hnd2).2 hmem).length_eq
    simpa using this
  · intro i k s2 hi hkey hk
    obtain ⟨k', s2', st, d, u2, hkey', hstep, hd⟩ :=
      lowerIntrinsic_step O MemoryModelImpls exprOf s1 p1 u1 i hi
    rw [hkey] at hkey'
    simp only [Option.some.injEq, Prod.mk.injEq] at hkey'
    obtain ⟨rfl, rfl⟩ := hkey'
    refine ⟨st, p1.addDecl d, u2, hstep, ?_⟩
    obtain ⟨x, hx, hsx⟩ := hex k hk
    exact setInsert_of_sameKey d x p1.decls hpw hx (declaresText_sameKey _ d x hd hsx)

theorem sampleIntrinsics_lower : ∀ i ∈ sampleIntrinsics, i.lowers sampleExprOf := by
  intro i hi
  simp only [sampleIntrinsics, List.mem_cons, List.mem_singleton, List.not_mem_nil,
    or_false] at hi
  rcases hi with rfl | rfl | rfl | rfl | rfl <;>
    exact ⟨fun v _ => rfl, by decide⟩

set_option maxRecDepth 1000000 in
/-- Claim C30 on three copies and two fills from the empty program, under an
oracle that keeps every value in a region of its own: the keys used are the
copy keys (0, 1), (1, 0), (0, 1) and the fill key 0 twice, and the program ends
with three declarations. -/
theorem intrinsic_decls_once_witness :
    usedKeys distinctOracle SmackRep.init sampleIntrinsics
        = [.copy 0 1, .copy 1 0, .fill 0, .copy 0 1, .fill 0]
      ∧ sampleIntrinsicsRun.map (fun r => r.2.2.1.decls.length) = some 3
      ∧ ∃ sts s1 p1 u1,
        lowerIntrinsics distinctOracle false sampleExprOf SmackRep.init Program.empty 0
            sampleIntrinsics = some (sts, s1, p1, u1)
        ∧ (usedKeys distinctOracle SmackRep.init sampleIntrinsics).length
            = sampleIntrinsics.length
        ∧ (∀ k ∈ usedKeys distinctOracle SmackRep.init sampleIntrinsics,
            p1.decls.countP (declaresText (k.text false)) = 1)
        ∧ (∀ d ∈ p1.decls, d ∈ Program.empty.decls
            ∨ ∃ k ∈ usedKeys distinctOracle SmackRep.init sampleIntrinsics,
                declaresText (k.text false) d = true)
        ∧ (∀ k₁ ∈ usedKeys distinctOracle SmackRep.init sampleIntrinsics,
            ∀ k₂ ∈ usedKeys distinctOracle SmackRep.init sampleIntrinsics,
            k₁.text false = k₂.text false → k₁ = k₂)
        ∧ (Program.empty.decls = [] → p1.decls.length
            = (usedKeys distinctOracle SmackRep.init sampleIntrinsics).dedup.length)
        ∧ (∀ i k s2, i.lowers sampleExprOf → i.key distinctOracle s1 = some (k, s2) →
            k ∈ usedKeys distinctOracle SmackRep.init sampleIntrinsics →
            ∃ st p2 u2,
              lowerIntrinsic distinctOracle false sampleExprOf s1 p1 u1 i
                = some (st, s2, p2, u2)
              ∧ p2.decls = p1.decls) :=
  ⟨by decide, by decide,
    intrinsic_decls_once distinctOracle false sampleExprOf SmackRep.init Program.empty 0
      sampleIntrinsics List.chain'_nil sampleIntrinsics_lower (by decide)⟩

/-! ## Allocation primitives, variadic arguments, comparisons -/

/-- Claim C31 fails as stated: a callee named `malloc` that is declared with two
parameters and called with two arguments, both of which lower, is not lowered
to a call of `$malloc`; `call` fails on the assertion `args.size() == 1`. -/
theorem malloc_free_counterexample :
    SmackRep.id id mallocTwoParams.name = some "malloc"
      ∧ (callArgs sampleExprOf (fun _ => LType.integerTy 64) (some mallocTwoParams) 0
            mallocCallTwoArgs.operands.dropLast).map List.length = some 2
      ∧ SmackRep.id id mallocCallTwoArgs.name = some "p"
      ∧ (call id sampleExprOf (fun _ => LType.integerTy 64) Program.empty 0
            (some mallocTwoParams) mallocCallTwoArgs).isNone = true := by
  decide

/-- Claim C31, amended: for a callee whose identifier is `malloc`, whatever its
parameters, its return type, and whether it is variadic or only declared, a
call that passes one argument and has a named result is lowered to a call of
`$malloc` with that argument and that result, and the program and the
declaration counter are left as they were; `call` returns nothing else for such
a callee: when it returns, the call has exactly one argument.  The same holds
for the identifier `free_` and the procedure `$free`, without a result. -/
theorem malloc_free_lowering (dotEscape : String → String) (exprOf : ValuePtr → Option Expr)
    (typeOf : ValuePtr → LType) (program : Program) (uniqueId : Nat) (fn : Function)
    (ci : CallInst) (name : String) (hid : SmackRep.id dotEscape fn.name = some name)
    (hname : name = "malloc" ∨ name = "free_") :
    (∀ a r, name = "malloc" →
        callArgs exprOf typeOf (some fn) 0 ci.operands.dropLast = some [a] →
        ci.type.isVoidTy = false → SmackRep.id dotEscape ci.name = some r →
        call dotEscape exprOf typeOf program uniqueId (some fn) ci
          = some (Stmt.call "$malloc" [a] [r] [], program, fn, uniqueId))
    ∧ (∀ a, name = "free_" →
        callArgs exprOf typeOf (some fn) 0 ci.operands.dropLast = some [a] →
        (ci.type.isVoidTy = false → (SmackRep.id dotEscape ci.name).isSome = true) →
        call dotEscape exprOf typeOf program uniqueId (some fn) ci
          = some (Stmt.call "$free" [a] [] [], program, fn, uniqueId))
    ∧ (∀ st p f1 u1,
        call dotEscape exprOf typeOf program uniqueId (some fn) ci = some (st, p, f1, u1) →
        st.callee? = some (if name = "malloc" then "$malloc" else "$free")
          ∧ p = program ∧ u1 = uniqueId
          ∧ ∃ a, callArgs exprOf typeOf (some fn) 0 ci.operands.dropLast = some [a]
              ∧ st.args = [a]) := by
  refine ⟨?_, ?_, ?_⟩
  · intro a r hm hargs hvoid hr
    simp [call, hid, hm, hargs, hvoid, hr, MALLOC]
  · intro a hf hargs hret
    have hne : ¬ name = "malloc" := by rw [hf]; decide
    cases hv : ci.type.isVoidTy with
    | true => simp [call, hid, hf, hargs, hv, FREE]
    | false =>
      obtain ⟨r, hr⟩ := Option.isSome_iff_exists.1 (hret hv)
      simp [call, hid, hf, hargs, hv, hr, FREE]
  · intro st p f1 u1 hcall
    simp only [call, hid] at hcall
    cases hargs : callArgs exprOf typeOf (some fn) 0 ci.operands.dropLast with
    | none => simp [hargs] at hcall
    | some args =>
      simp only [hargs] at hcall
      split at hcall
      · cases hcall
      · rename_i rets _
        rcases hname with hm | hf
        · simp only [hm, if_true] at hcall ⊢
          match args, rets, hcall with
          | [a], r :: _, hcall =>
            simp only [Option.some.injEq, Prod.mk.injEq] at hcall
            obtain ⟨h1, h2, _, h4⟩ := hcall
            subst h1
            exact ⟨rfl, h2.symm, h4.symm, a, rfl, rfl⟩
        · simp only [hf, if_true, if_neg (by decide : ¬ "free_" = "malloc")] at hcall ⊢
          match args, hcall with
          | [a], hcall =>
            simp only [Option.some.injEq, Prod.mk.injEq] at hcall
            obtain ⟨h1, h2, _, h4⟩ := hcall
            subst h1
            exact ⟨rfl, h2.symm, h4.symm, a, rfl, rfl⟩

/-- Claim C31 on the source function `free`, whose identifier is `free_`,
defined in the module and called with one argument. -/
theorem malloc_free_lowering_witness :
    call id sampleExprOf (fun _ => LType.integerTy 64) Program.empty 0 (some freeFn)
        (voidCall [7])
      = some (Stmt.call "$free" [Expr.lit Literal.Num 7] [] [], Program.empty, freeFn, 0) :=
  (malloc_free_lowering id sampleExprOf (fun _ => LType.integerTy 64) Program.empty 0 freeFn
    (voidCall [7]) "free_" (by decide) (Or.inr rfl)).2.1 (Expr.lit Literal.Num 7) rfl rfl
    (fun h => absurd h (by decide))

/-- Claim C34 fails as stated: the comparison `icmp slt` of two operands, whatever
their types, is lowered to `$slt` applied to the expressions of the operands
as they are; no operand is converted and the result is no application of the
integer-to-boolean conversion. -/
theorem pred_bridging_counterexample :
    pred sampleExprOf { predicate := .ICMP_SLT, operand0 := 1, operand1 := 2 }
        = some (Expr.fn "$slt" [Expr.lit .Num 1, Expr.lit .Num 2])
      ∧ (∀ e, pred sampleExprOf { predicate := .ICMP_SLT, operand0 := 1, operand1 := 2 }
          ≠ some (Expr.fn "$i2b" [e]))
      ∧ pred sampleExprOf { predicate := .ICMP_EQ, operand0 := 1, operand1 := 2 }
        = some (Expr.bin .Eq (Expr.lit .Num 1) (Expr.lit .Num 2)) := by
  have h : pred sampleExprOf { predicate := .ICMP_SLT, operand0 := 1, operand1 := 2 }
      = some (Expr.fn "$slt" [Expr.lit .Num 1, Expr.lit .Num 2]) := rfl
  refine ⟨h, ?_, rfl⟩
  intro e he
  rw [h] at he
  injection he with he
  injection he with hf _
  exact absurd hf (by decide)

/-- Claim C34, amended: `pred` does not bridge booleans.  It reads no type; for
operands that lower to `l` and `r` its result, when it has one, is the equality
or the inequality of `l` and `r` or a predicate function applied to `l` and `r`
themselves, and that function is never the integer-to-boolean conversion. -/
theorem pred_without_bridging (exprOf : ValuePtr → Option Expr) (ci : CmpInst) (l r e : Expr)
    (hl : exprOf ci.operand0 = some l) (hr : exprOf ci.operand1 = some r)
    (he : pred exprOf ci = some e) :
    e = Expr.bin Binary.Eq l r ∨ e = Expr.bin Binary.Neq l r
      ∨ ∃ o, e = Expr.fn o [l, r] ∧ o ≠ I2B ∧ o ≠ B2I ∧ predName ci.predicate = some o := by
  simp only [pred, hl, hr] at he
  cases hp : ci.predicate <;> rw [hp] at he <;>
    simp only [predSwitch, Option.some.injEq, Expr.eq, Expr.neq, Expr.fn2] at he <;>
    first
      | exact Or.inl he.symm
      | exact Or.inr (Or.inl he.symm)
      | exact Or.inr (Or.inr ⟨_, he.symm, by decide, by decide, rfl⟩)
      | cases he

/-- Claim C34 at the comparison `icmp slt` of two operands that lower to the
literals 1 and 2. -/
theorem pred_without_bridging_witness :
    Expr.fn "$slt" [Expr.lit .Num 1, Expr.lit .Num 2]
        = Expr.bin Binary.Eq (Expr.lit .Num 1) (Expr.lit .Num 2)
      ∨ Expr.fn "$slt" [Expr.lit .Num 1, Expr.lit .Num 2]
        = Expr.bin Binary.Neq (Expr.lit .Num 1) (Expr.lit .Num 2)
      ∨ ∃ o, Expr.fn "$slt" [Expr.lit .Num 1, Expr.lit .Num 2]
          = Expr.fn o [Expr.lit .Num 1, Expr.lit .Num 2]
          ∧ o ≠ I2B ∧ o ≠ B2I ∧ predName Predicate.ICMP_SLT = some o :=
  pred_without_bridging sampleExprOf { predicate := .ICMP_SLT, operand0 := 1, operand1 := 2 }
    (Expr.lit .Num 1) (Expr.lit .Num 2) _ rfl rfl rfl

/-! ## The comparator as an order, identifiers -/

theorem sameKey_trans (a b c : Decl) (h₁ : sameKey a b) (h₂ : sameKey b c) : sameKey a c := by
  obtain ⟨hk1, hn1⟩ := h₁
  obtain ⟨hk2, hn2⟩ := h₂
  refine ⟨hk1.trans hk2, ?_⟩
  by_cases hu : a.getKind = Kind.UNNAMED
  · have hb : b.getKind = Kind.UNNAMED := hk1 ▸ hu
    rw [if_pos hu] at hn1 ⊢
    rw [if_pos hb] at hn2
    exact hn1.trans hn2
  · have hb : ¬ b.getKind = Kind.UNNAMED := hk1 ▸ hu
    rw [if_neg hu] at hn1 ⊢
    rw [if_neg hb] at hn2
    exact hn1.trans hn2

theorem declCompare_irrefl (a : Decl) : DeclCompare a a = false := by
  cases h : DeclCompare a a with
  | false => rfl
  | true => exact (declCompare_asymm a a h).symm.trans h |>.symm ▸ rfl

/-- Claim C36: the comparator is irreflexive, asymmetric and transitive, its
incomparability relation is transitive, and two declarations are incomparable
exactly when they have the same kind and that kind is named and they have the
same name, or both are unnamed and have the same creation id. -/
theorem declCompare_strict_weak_order :
    (∀ a, DeclCompare a a = false)
    ∧ (∀ a b, DeclCompare a b = true → DeclCompare b a = false)
    ∧ (∀ a b c, DeclCompare a b = true → DeclCompare b c = true → DeclCompare a c = true)
    ∧ (∀ a b c, (DeclCompare a b = false ∧ DeclCompare b a = false) →
        (DeclCompare b c = false ∧ DeclCompare c b = false) →
        (DeclCompare a c = false ∧ DeclCompare c a = false))
    ∧ (∀ a b, (DeclCompare a b = false ∧ DeclCompare b a = false) ↔
        ((a.getKind = b.getKind ∧ a.getKind ≠ Kind.UNNAMED ∧ a.getName = b.getName)
          ∨ (a.getKind = Kind.UNNAMED ∧ b.getKind = Kind.UNNAMED ∧ a.getId = b.getId))) := by
  refine ⟨declCompare_irrefl, declCompare_asymm, declCompare_trans, ?_, ?_⟩
  · intro a b c h₁ h₂
    exact sameKey_incomparable a c
      (sameKey_trans a b c (sameKey_of_incomparable a b h₁.1 h₁.2)
        (sameKey_of_incomparable b c h₂.1 h₂.2))
  · intro a b
    constructor
    · intro h
      obtain ⟨hk, hn⟩ := sameKey_of_incomparable a b h.1 h.2
      by_cases hu : a.getKind = Kind.UNNAMED
      · rw [if_pos hu] at hn
        exact Or.inr ⟨hu, hk ▸ hu, hn⟩
      · rw [if_neg hu] at hn
        exact Or.inl ⟨hk, hu, hn⟩
    · intro h
      apply sameKey_incomparable
      rcases h with ⟨hk, hu, hn⟩ | ⟨hu, hb, hn⟩
      · exact ⟨hk, by rw [if_neg hu]; exact hn⟩
      · exact ⟨hu.trans hb.symm, by rw [if_pos hu]; exact hn⟩

theorem keyword_underscore : ∀ k ∈ BPL_KW, isBplKeyword (k ++ "_") = false := by
  decide

/-- Claim C38: for a named value `id` returns a name that is no keyword of the
reserved list: the escaped name followed by an underscore when the escaped name
is a keyword, the escaped name itself otherwise; for an unnamed value it fails.
The source name `free`, which escaping leaves as it is, becomes `free_`. -/
theorem id_never_keyword (dotEscape : String → String) (n : String) :
    (∃ r, SmackRep.id dotEscape (some n) = some r
      ∧ isBplKeyword r = false
      ∧ (isBplKeyword (EscapeString dotEscape n) = true → r = EscapeString dotEscape n ++ "_")
      ∧ (isBplKeyword (EscapeString dotEscape n) = false → r = EscapeString dotEscape n))
    ∧ SmackRep.id dotEscape none = none
    ∧ (dotEscape "free" = "free" → SmackRep.id dotEscape (some "free") = some "free_") := by
  refine ⟨?_, rfl, ?_⟩
  · by_cases hk : isBplKeyword (EscapeString dotEscape n) = true
    · refine ⟨EscapeString dotEscape n ++ "_", by simp [SmackRep.id, hk], ?_, fun _ => rfl,
        fun h => by rw [hk] at h; cases h⟩
      have hmem : EscapeString dotEscape n ∈ BPL_KW := by
        simpa [isBplKeyword] using hk
      exact keyword_underscore _ hmem
    · have hk' : isBplKeyword (EscapeString dotEscape n) = false := by
        cases h : isBplKeyword (EscapeString dotEscape n) with
        | false => rfl
        | true => exact absurd h hk
      exact ⟨EscapeString dotEscape n, by simp [SmackRep.id, hk'], hk', fun h => absurd h hk,
        fun _ => rfl⟩
  · intro h
    have he : EscapeString dotEscape "free" = "free" := by
      simp only [EscapeString, h]
      decide
    simp only [SmackRep.id, he]
    decide

/-! ## Independence of the insertion order -/

theorem sameKey_symm (a b : Decl) (h : sameKey a b) : sameKey b a :=
  sameKey_of_incomparable b a (sameKey_incomparable a b h).2 (sameKey_incomparable a b h).1

theorem mem_setInsert (d z : Decl) (s : List Decl)
    (hp : s.Pairwise (fun a b => DeclCompare a b = true)) :
    z ∈ setInsert d s ↔ z ∈ s ∨ (z = d ∧ ∀ x ∈ s, ¬ sameKey d x) := by
  constructor
  · intro hz
    by_cases hex : ∃ x ∈ s, sameKey d x
    · obtain ⟨x, hx, hk⟩ := hex
      rw [setInsert_of_sameKey d x s hp hx hk] at hz
      exact Or.inl hz
    · rcases setInsert_subset d s z hz with h | h
      · exact Or.inr ⟨h, fun x hx hk => hex ⟨x, hx, hk⟩⟩
      · exact Or.inl h
  · rintro (hz | ⟨rfl, hno⟩)
    · exact setInsert_keeps d s z hz
    · rcases setInsert_adds_or_meets z s with h | ⟨⟨x, hx, h1, h2⟩, _⟩
      · exact h
      · exact absurd (sameKey_of_incomparable z x h1 h2) (hno x hx)

theorem mem_addDecls (z : Decl) :
    ∀ (ds : List Decl) (p : Program), Canonical p.decls →
      ds.Pairwise (fun a b => ¬ sameKey a b) →
      (z ∈ (p.addDecls ds).decls ↔ z ∈ p.decls ∨ (z ∈ ds ∧ ∀ x ∈ p.decls, ¬ sameKey z x))
  | [], p, _, _ => by simp [Program.addDecls]
  | d :: ds, p, hc, hd => by
    rw [List.pairwise_cons] at hd
    have hp := canonical_pairwise p.decls hc
    have ih := mem_addDecls z ds (p.addDecl d) (setInsert_canonical d p.decls hc) hd.2
    have hstep : p.addDecls (d :: ds) = (p.addDecl d).addDecls ds := rfl
    rw [hstep, ih]
    simp only [Program.addDecl]
    constructor
    · rintro (hz | ⟨hz, hno⟩)
      · rcases (mem_setInsert d z p.decls hp).1 hz with h | ⟨rfl, h⟩
        · exact Or.inl h
        · exact Or.inr ⟨List.mem_cons_self _ _, h⟩
      · exact Or.inr ⟨List.mem_cons_of_mem _ hz,
          fun x hx => hno x (setInsert_keeps d p.decls x hx)⟩
    · rintro (hz | ⟨hz, hno⟩)
      · exact Or.inl (setInsert_keeps d p.decls z hz)
      · rcases List.mem_cons.1 hz with hzd | hzs
        · subst hzd
          exact Or.inl ((mem_setInsert z z p.decls hp).2 (Or.inr ⟨rfl, hno⟩))
        · refine Or.inr ⟨hzs, fun x hx => ?_⟩
          rcases setInsert_subset d p.decls x hx with hxd | hxs
          · subst hxd
            exact fun hk => hd.1 z hzs (sameKey_symm z x hk)
          · exact hno x hxs

theorem pairwise_declCompare_unique (l₁ l₂ : List Decl)
    (h₁ : l₁.Pairwise (fun a b => DeclCompare a b = true))
    (h₂ : l₂.Pairwise (fun a b => DeclCompare a b = true))
    (hm : ∀ z, z ∈ l₁ ↔ z ∈ l₂) : l₁ = l₂ := by
  haveI : IsAntisymm Decl (fun a b => DeclCompare a b = true) :=
    ⟨fun a b hab hba => by rw [declCompare_asymm a b hab] at hba; cases hba⟩
  have hne : ∀ a b : Decl, DeclCompare a b = true → a ≠ b := fun a b hab he => by
    subst he
    rw [declCompare_irrefl a] at hab
    cases hab
  have n₁ : l₁.Nodup := h₁.imp (fun {a b} h => hne a b h)
  have n₂ : l₂.Nodup := h₂.imp (fun {a b} h => hne a b h)
  exact List.eq_of_perm_of_sorted ((List.perm_ext_iff_of_nodup n₁ n₂).2 hm) h₁ h₂

theorem axioms_by_id (l : List Decl) (h : l.Pairwise (fun a b => DeclCompare a b = true)) :
    (l.filter (fun d => decide (d.getKind = Kind.UNNAMED))).Pairwise
      (fun a b => a.getId < b.getId) := by
  rw [List.pairwise_filter]
  refine h.imp ?_
  intro a b hab ha hb
  have ha' : a.getKind = Kind.UNNAMED := by simpa using ha
  have hb' : b.getKind = Kind.UNNAMED := by simpa using hb
  simpa [DeclCompare, ha', hb'] using hab

/-- Claim C37: declarations with pairwise different keys (kind and name, the
creation id for an axiom), added to a program in two different orders, give the
same declaration sequence and the same rendered text; in that sequence the
axioms stand in the order of their creation ids. -/
theorem insertion_order_independent (p : Program) (ds ds' : List Decl)
    (hp : Canonical p.decls) (hd : ds.Pairwise (fun a b => ¬ sameKey a b))
    (hperm : ds'.Perm ds) :
    (p.addDecls ds').decls = (p.addDecls ds).decls
    ∧ (p.addDecls ds').print = (p.addDecls ds).print
    ∧ ((p.addDecls ds).decls.filter (fun d => decide (d.getKind = Kind.UNNAMED))).Pairwise
        (fun a b => a.getId < b.getId) := by
  have hd' : ds'.Pairwise (fun a b => ¬ sameKey a b) :=
    (List.Perm.pairwise_iff (fun {a b} h hk => h (sameKey_symm b a hk)) hperm).2 hd
  have heq : (p.addDecls ds').decls = (p.addDecls ds).decls := by
    apply pairwise_declCompare_unique
    · exact canonical_pairwise _ (addDecls_canonical ds' p hp)
    · exact canonical_pairwise _ (addDecls_canonical ds p hp)
    · intro z
      rw [mem_addDecls z ds' p hp hd', mem_addDecls z ds p hp hd, hperm.mem_iff]
  refine ⟨heq, ?_, axioms_by_id _ (canonical_pairwise _ (addDecls_canonical ds p hp))⟩
  simp only [Program.print, heq, (addDecls_prelude ds' p).1, (addDecls_prelude ds p).1]

/-- Claim C37 on two axioms and a variable added to the empty program: both
orders give the variable, then the axiom with id 2, then the axiom with id 5. -/
theorem insertion_order_independent_witness :
    ((Program.empty).addDecls sampleAdded).decls.map Decl.getId = [1, 2, 5]
    ∧ ((Program.empty).addDecls sampleAddedRotated).decls
        = ((Program.empty).addDecls sampleAdded).decls
    ∧ ((Program.empty).addDecls sampleAddedRotated).print
        = ((Program.empty).addDecls sampleAdded).print :=
  ⟨by decide,
    (insertion_order_independent Program.empty sampleAdded sampleAddedRotated
      (by simp [Canonical, Program.empty])
      (by simp [sampleAdded, sameKey, Decl.getKind, Decl.getId, Decl.getName])
      (@List.perm_append_comm _ [Decl.varDecl 1 "x" [] "int"]
        [Decl.axiomDecl 5 "" [] (Expr.var "q"), Decl.axiomDecl 2 "" [] (Expr.var "p")])).1,
    (insertion_order_independent Program.empty sampleAdded sampleAddedRotated
      (by simp [Canonical, Program.empty])
      (by simp [sampleAdded, sameKey, Decl.getKind, Decl.getId, Decl.getName])
      (@List.perm_append_comm _ [Decl.varDecl 1 "x" [] "int"]
        [Decl.axiomDecl 5 "" [] (Expr.var "q"), Decl.axiomDecl 2 "" [] (Expr.var "p")])).2.1⟩

/-! ## The prelude -/

theorem sameButCounters_refl (s : SmackRep) : s.sameButCounters s := ⟨rfl, rfl, rfl, rfl, rfl⟩

theorem sameButCounters_trans (a b c : SmackRep) (h₁ : a.sameButCounters b)
    (h₂ : b.sameButCounters c) : a.sameButCounters c :=
  ⟨h₂.1.trans h₁.1, h₂.2.1.trans h₁.2.1, h₂.2.2.1.trans h₁.2.2.1,
    h₂.2.2.2.1.trans h₁.2.2.2.1, h₂.2.2.2.2.trans h₁.2.2.2.2⟩

theorem litConstant_frame (s : SmackRep) (v : Value) (e : Expr) (s' : SmackRep)
    (h : litConstant s v = some (some (e, s'))) : s.sameButCounters s' := by
  cases v with
  | ConstantInt bitWidth bits =>
    simp only [litConstant, Option.some.injEq, Option.map_eq_some'] at h
    obtain ⟨a, _, h⟩ := h
    cases h
    exact sameButCounters_refl s
  | ConstantFP t =>
    simp only [litConstant, litConstantFP, Option.some.injEq, Prod.mk.injEq] at h
    rw [← h.2]
    exact ⟨rfl, rfl, rfl, rfl, rfl⟩
  | ConstantPointerNull t =>
    simp only [litConstant, Option.some.injEq, Option.map_eq_some'] at h
    obtain ⟨a, _, h⟩ := h
    cases h
    exact sameButCounters_refl s
  | _ => simp [litConstant] at h

mutual
theorem expr_frame (dotEscape : String → String) (L : DataLayout) :
    ∀ (v : Value) (s : SmackRep) (e : Expr) (s' : SmackRep),
      s.expr dotEscape L v = some (e, s') → s.sameButCounters s'
  | .GlobalValue name _, s, e, s', h => by
    simp only [SmackRep.expr, Option.map_eq_some'] at h
    obtain ⟨a, _, h⟩ := h
    cases h
    exact sameButCounters_refl s
  | .Local none _, s, e, s', h => by simp [SmackRep.expr] at h
  | .Local (some n) _, s, e, s', h => by
    simp only [SmackRep.expr, Option.map_eq_some'] at h
    obtain ⟨a, _, h⟩ := h
    cases h
    exact sameButCounters_refl s
  | .ConstantExpr _ .GetElementPtr [] _, s, e, s', h => by simp [SmackRep.expr] at h
  | .ConstantExpr _ .GetElementPtr (p :: ps) gepTypes, s, e, s', h => by
    simp only [SmackRep.expr] at h
    split at h
    · cases hp : SmackRep.expr dotEscape L s p with
      | none => simp [hp] at h
      | some r =>
        obtain ⟨e1, s1⟩ := r
        simp only [hp] at h
        exact sameButCounters_trans _ _ _ (expr_frame dotEscape L p s e1 s1 hp)
          (ptrArithLoop_frame dotEscape L ps gepTypes s1 e1 e s' h)
    · cases h
  | .ConstantExpr _ .BitCast [] _, s, e, s', h => by simp [SmackRep.expr] at h
  | .ConstantExpr _ .BitCast (x :: _) _, s, e, s', h => by
    simp only [SmackRep.expr] at h
    exact expr_frame dotEscape L x s e s' h
  | .ConstantExpr _ .IntToPtr [] _, s, e, s', h => by simp [SmackRep.expr] at h
  | .ConstantExpr _ .IntToPtr (x :: _) _, s, e, s', h => by
    simp only [SmackRep.expr, Option.map_eq_some'] at h
    obtain ⟨r, hr, h⟩ := h
    cases h
    exact expr_frame dotEscape L x s r.1 r.2 hr
  | .ConstantExpr _ .PtrToInt [] _, s, e, s', h => by simp [SmackRep.expr] at h
  | .ConstantExpr _ .PtrToInt (x :: _) _, s, e, s', h => by
    simp only [SmackRep.expr, Option.map_eq_some'] at h
    obtain ⟨r, hr, h⟩ := h
    cases h
    exact expr_frame dotEscape L x s r.1 r.2 hr
  | .ConstantExpr _ (.BinaryOp opcode) [] _, s, e, s', h => by
    simp only [SmackRep.expr] at h
    split at h <;> simp at h
  | .ConstantExpr _ (.BinaryOp opcode) [_] _, s, e, s', h => by
    simp only [SmackRep.expr] at h
    split at h <;> simp at h
  | .ConstantExpr _ (.BinaryOp opcode) (l :: r :: _) _, s, e, s', h => by
    simp only [SmackRep.expr] at h
    split at h
    · cases h
    · cases hl : SmackRep.expr dotEscape L s l with
      | none => simp [hl] at h
      | some a =>
        obtain ⟨el, s1⟩ := a
        simp only [hl] at h
        cases hr : SmackRep.expr dotEscape L s1 r with
        | none => simp [hr] at h
        | some b =>
          obtain ⟨er, s2⟩ := b
          simp only [hr, Option.some.injEq, Prod.mk.injEq] at h
          rw [← h.2]
          exact sameButCounters_trans _ _ _ (expr_frame dotEscape L l s el s1 hl)
            (expr_frame dotEscape L r s1 er s2 hr)
  | .ConstantExpr _ (.Other _) _ _, s, e, s', h => by simp [SmackRep.expr] at h
  | .ConstantInt bitWidth bits, s, e, s', h => by
    simp only [SmackRep.expr] at h
    split at h
    · cases h
      exact sameButCounters_refl s
    · simp only [Option.map_eq_some'] at h
      obtain ⟨a, _, h⟩ := h
      cases h
      exact sameButCounters_refl s
  | .ConstantFP _, s, e, s', h => by
    simp only [SmackRep.expr, litConstantFP, Option.some.injEq, Prod.mk.injEq] at h
    rw [← h.2]
    exact ⟨rfl, rfl, rfl, rfl, rfl⟩
  | .ConstantPointerNull _, s, e, s', h => by
    simp only [SmackRep.expr, Option.map_eq_some'] at h
    obtain ⟨a, _, h⟩ := h
    cases h
    exact sameButCounters_refl s
  | .ConstantAggregateZero _, s, e, s', h => by
    simp only [SmackRep.expr, Option.map_eq_some'] at h
    obtain ⟨a, _, h⟩ := h
    cases h
    exact sameButCounters_refl s
  | .UndefValue _, s, e, s', h => by
    simp only [SmackRep.expr, SmackRep.undef, Option.some.injEq, Prod.mk.injEq] at h
    rw [← h.2]
    exact ⟨rfl, rfl, rfl, rfl, rfl⟩
  | .OtherConstant _, s, e, s', h => by simp [SmackRep.expr] at h
theorem ptrArithLoop_frame (dotEscape : String → String) (L : DataLayout) :
    ∀ (ps : List Value) (ts : List LType) (s : SmackRep) (e e' : Expr) (s' : SmackRep),
      SmackRep.ptrArithLoop dotEscape L s e ps ts = some (e', s') → s.sameButCounters s'
  | [], ts, s, e, e', s', h => by
    simp only [SmackRep.ptrArithLoop, Option.some.injEq, Prod.mk.injEq] at h
    rw [← h.2]
    exact sameButCounters_refl s
  | _ :: _, [], s, e, e', s', h => by simp [SmackRep.ptrArithLoop] at h
  | idx :: ps, t :: ts, s, e, e', s', h => by
    have hseq : ∀ (et : LType),
        (match (match litConstant s idx with
               | some r => r
               | none => SmackRep.expr dotEscape L s idx) with
        | none => none
        | some (i, s1) =>
          SmackRep.ptrArithLoop dotEscape L s1 (paExpr e i (toInt32 (storageSize L et))) ps ts)
          = some (e', s') → s.sameButCounters s' := by
      intro et h
      cases hlit : litConstant s idx with
      | some r =>
        simp only [hlit] at h
        cases r with
        | none => simp at h
        | some q =>
          obtain ⟨i, s1⟩ := q
          simp only at h
          exact sameButCounters_trans _ _ _ (litConstant_frame s idx i s1 hlit)
            (ptrArithLoop_frame dotEscape L ps ts s1 _ e' s' h)
      | none =>
        simp only [hlit] at h
        cases hx : SmackRep.expr dotEscape L s idx with
        | none => simp [hx] at h
        | some q =>
          obtain ⟨i, s1⟩ := q
          simp only [hx] at h
          exact sameButCounters_trans _ _ _ (expr_frame dotEscape L idx s i s1 hx)
            (ptrArithLoop_frame dotEscape L ps ts s1 _ e' s' h)
    cases t with
    | structTy tag n sized =>
      simp only [SmackRep.ptrArithLoop] at h
      split at h
      · cases idx with
        | ConstantInt bitWidth bits =>
          simp only at h
          exact ptrArithLoop_frame dotEscape L ps ts s _ e' s' h
        | _ => simp at h
      · cases h
    | pointerTy elem =>
      simp only [SmackRep.ptrArithLoop, sequentialElementType] at h
      exact hseq _ h
    | arrayTy k elem =>
      simp only [SmackRep.ptrArithLoop, sequentialElementType] at h
      exact hseq _ h
    | _ => simp [SmackRep.ptrArithLoop, sequentialElementType] at h
end

theorem foldl_append_eq (l : List String) :
    ∀ acc : String, l.foldl (fun r s => r ++ s) acc = acc ++ String.join l := by
  induction l with
  | nil => intro acc; simp [String.join]
  | cons x xs ih =>
    intro acc
    simp only [List.foldl_cons, String.join]
    rw [ih (acc ++ x), ih ("" ++ x)]
    simp [String.append_assoc]

theorem string_join_cons (a : String) (l : List String) :
    String.join (a :: l) = a ++ String.join l := by
  have h := foldl_append_eq l ("" ++ a)
  simp only [String.empty_append] at h
  simpa only [String.join, List.foldl_cons, String.empty_append] using h

theorem hintLine_eq (r : Nat) (e : Expr) :
    "add_ptr_to_region(\"" ++ memReg r ++ "\", " ++ e.print ++ ")" ++ "\n"
      = "add_ptr_to_region(\"" ++ ("$M." ++ toString r) ++ "\", " ++ e.print ++ ")" ++ "\n" := rfl

theorem regionLine_eq (i : Nat) :
    "add_memory_region(\"" ++ memReg i
        ++ "\", \"" ++ getPtrType ++ "\", \"" ++ getPtrType ++ "\")" ++ "\n"
      = "add_memory_region(\"" ++ ("$M." ++ toString i) ++ "\", \"int\", \"int\")" ++ "\n" := by
  apply String.ext
  simp only [memReg, getPtrType, String.data_append, List.append_assoc]
  rfl

theorem undefLine_eq (i : Nat) :
    "add_undef('$u." ++ toString i ++ "', '" ++ getPtrType ++ "')" ++ "\n"
      = "add_undef('$u." ++ toString i ++ "', 'int')" ++ "\n" := by
  apply String.ext
  simp only [getPtrType, String.data_append, List.append_assoc]
  rfl

theorem preludeHints_eq (dotEscape : String → String) (L : DataLayout)
    (valueAt : ValuePtr → Value) :
    ∀ (its : List (ValuePtr × Nat)) (s : SmackRep),
      SmackRep.preludeHints dotEscape L valueAt s its
        = (SmackRep.exprs dotEscape L s (its.map fun it => valueAt it.1)).map (fun r =>
            (String.join ((List.zipWith (fun it e => (it.2, e)) its r.1).map fun h =>
              "add_ptr_to_region(\"" ++ ("$M." ++ toString h.1) ++ "\", " ++ h.2.print ++ ")"
                ++ "\n"), r.2))
  | [], s => by simp [SmackRep.preludeHints, SmackRep.exprs, String.join]
  | it :: rest, s => by
    simp only [SmackRep.preludeHints, SmackRep.exprs, List.map_cons]
    cases SmackRep.expr dotEscape L s (valueAt it.1) with
    | none => rfl
    | some q =>
      obtain ⟨e, s1⟩ := q
      simp only [preludeHints_eq dotEscape L valueAt rest s1]
      cases SmackRep.exprs dotEscape L s1 (rest.map fun it => valueAt it.1) with
      | none => rfl
      | some r =>
        simp only [Option.map_some', List.zipWith_cons_cons, List.map_cons, string_join_cons,
          hintLine_eq]

theorem exprs_length (dotEscape : String → String) (L : DataLayout) :
    ∀ (vs : List Value) (s : SmackRep) (es : List Expr) (s' : SmackRep),
      SmackRep.exprs dotEscape L s vs = some (es, s') → es.length = vs.length
  | [], s, es, s', h => by
    simp only [SmackRep.exprs, Option.some.injEq, Prod.mk.injEq] at h
    rw [← h.1]
    rfl
  | v :: vs, s, es, s', h => by
    simp only [SmackRep.exprs] at h
    cases hv : SmackRep.expr dotEscape L s v with
    | none => simp [hv] at h
    | some q =>
      obtain ⟨e, s1⟩ := q
      simp only [hv] at h
      cases hr : SmackRep.exprs dotEscape L s1 vs with
      | none => simp [hr] at h
      | some r =>
        obtain ⟨es1, s2⟩ := r
        simp only [hr, Option.some.injEq, Prod.mk.injEq] at h
        rw [← h.1]
        simp [exprs_length dotEscape L vs s1 es1 s2 hr]

theorem exprs_frame (dotEscape : String → String) (L : DataLayout) :
    ∀ (vs : List Value) (s : SmackRep) (es : List Expr) (s' : SmackRep),
      SmackRep.exprs dotEscape L s vs = some (es, s') → s.sameButCounters s'
  | [], s, es, s', h => by
    simp only [SmackRep.exprs, Option.some.injEq, Prod.mk.injEq] at h
    rw [← h.2]
    exact sameButCounters_refl s
  | v :: vs, s, es, s', h => by
    simp only [SmackRep.exprs] at h
    cases hv : SmackRep.expr dotEscape L s v with
    | none => simp [hv] at h
    | some q =>
      obtain ⟨e, s1⟩ := q
      simp only [hv] at h
      cases hr : SmackRep.exprs dotEscape L s1 vs with
      | none => simp [hr] at h
      | some r =>
        obtain ⟨es1, s2⟩ := r
        simp only [hr, Option.some.injEq, Prod.mk.injEq] at h
        rw [← h.2]
        exact sameButCounters_trans _ _ _ (expr_frame dotEscape L v s e s1 hv)
          (exprs_frame dotEscape L vs s1 es1 s2 hr)

theorem expr_named (dotEscape : String → String) (L : DataLayout) (s : SmackRep) (v : Value)
    (h : v.isNamed = true) : ∃ e, s.expr dotEscape L v = some (e, s) := by
  cases v with
  | GlobalValue name t =>
    cases name with
    | none => simp [Value.isNamed] at h
    | some n =>
      exact ⟨Expr.var (if isBplKeyword (EscapeString dotEscape n) then
          EscapeString dotEscape n ++ "_" else EscapeString dotEscape n),
        by simp only [SmackRep.expr, SmackRep.id, Option.map_some']⟩
  | Local name t =>
    cases name with
    | none => simp [Value.isNamed] at h
    | some n =>
      exact ⟨Expr.var (if isBplKeyword (EscapeString dotEscape n) then
          EscapeString dotEscape n ++ "_" else EscapeString dotEscape n),
        by simp only [SmackRep.expr, SmackRep.id, Option.map_some']⟩
  | _ => simp [Value.isNamed] at h

theorem exprs_named (dotEscape : String → String) (L : DataLayout) (s : SmackRep) :
    ∀ vs : List Value, (∀ v ∈ vs, v.isNamed = true) →
      ∃ es, SmackRep.exprs dotEscape L s vs = some (es, s)
  | [], _ => ⟨[], rfl⟩
  | v :: vs, h => by
    obtain ⟨e, he⟩ := expr_named dotEscape L s v (h v (List.mem_cons_self _ _))
    obtain ⟨es, hes⟩ := exprs_named dotEscape L s vs
      (fun x hx => h x (List.mem_cons_of_mem _ hx))
    exact ⟨e :: es, by simp only [SmackRep.exprs, he, hes]⟩

theorem getPrelude_eq (dotEscape : String → String) (L : DataLayout)
    (valueAt : ValuePtr → Value) (s : SmackRep) (es : List Expr) (s' : SmackRep)
    (h : SmackRep.exprs dotEscape L s (s.regionOfValue.map fun it => valueAt it.1)
      = some (es, s')) :
    s.getPrelude dotEscape L valueAt
      = some (preludeLayout s.memoryRegions.length
          (List.zipWith (fun it e => (it.2, e)) s.regionOfValue es)
          s'.uniqueUndefNum s.globalsBottom, s') := by
  have hb : s'.globalsBottom = s.globalsBottom := (exprs_frame dotEscape L _ s es s' h).2.2.2.1
  have hr : (fun i : Nat => "add_memory_region(\"" ++ memReg i
        ++ "\", \"" ++ getPtrType ++ "\", \"" ++ getPtrType ++ "\")" ++ "\n")
      = fun i : Nat => "add_memory_region(\"" ++ ("$M." ++ toString i)
        ++ "\", \"int\", \"int\")" ++ "\n" := funext regionLine_eq
  have hu : (fun i : Nat => "add_undef('$u." ++ toString i ++ "', '" ++ getPtrType ++ "')" ++ "\n")
      = fun i : Nat => "add_undef('$u." ++ toString i ++ "', 'int')" ++ "\n" :=
    funext undefLine_eq
  simp only [SmackRep.getPrelude, preludeHints_eq, h, Option.map_some', preludeLayout, hb, hr,
    hu]
  by_cases h0 : s'.uniqueUndefNum = 0
  · simp [h0]
  · have : s'.uniqueUndefNum > 0 := Nat.pos_of_ne_zero h0
    simp [h0, this]

theorem getPrelude_none (dotEscape : String → String) (L : DataLayout)
    (valueAt : ValuePtr → Value) (s : SmackRep)
    (h : SmackRep.exprs dotEscape L s (s.regionOfValue.map fun it => valueAt it.1) = none) :
    s.getPrelude dotEscape L valueAt = none := by
  simp only [SmackRep.getPrelude, preludeHints_eq, h, Option.map_none']

set_option maxRecDepth 100000 in
/-- Claim C33 fails as stated: a state with one region, one resolved value and
no placeholder issued, whose resolved value is an undefined pointer.  Lowering
the value for its hint draws `$u.0`, so the prelude has the section of the
undefined values with one declaration: it is the layout for one placeholder and
not the layout for none. -/
theorem getPrelude_counterexample :
    undefHintState.memoryRegions.length = 1
    ∧ undefHintState.regionOfValue.length = 1
    ∧ undefHintState.uniqueUndefNum = 0
    ∧ (undefHintState.getPrelude id sampleLayout undefValueAt).map Prod.fst
        = some ("\n# Memory region declarations: 1\n"
            ++ "add_memory_region(\"$M.0\", \"int\", \"int\")\n"
            ++ "add_ptr_to_region(\"$M.0\", VarExpr(\"$u.0\"))\n"
            ++ "\n"
            ++ "# Undefined values\n"
            ++ "add_undef('$u.0', 'int')\n"
            ++ "\n"
            ++ "add_constant(\"$GLOBALS_BOTTOM\", \"int\")\n"
            ++ "add_axiom(Eq(\"$GLOBALS_BOTTOM\", Num(0)))\n")
    ∧ (undefHintState.getPrelude id sampleLayout undefValueAt).map Prod.fst
        = some (preludeLayout 1 [(0, Expr.var "$u.0")] 1 0)
    ∧ (undefHintState.getPrelude id sampleLayout undefValueAt).map Prod.fst
        ≠ some (preludeLayout 1 [(0, Expr.var "$u.0")] 0 0) := by
  refine ⟨rfl, rfl, rfl, by decide, by decide, by decide⟩

/-- Claim C33, amended: when `getPrelude` returns, its text is, in this order,
the count `n` of the regions and the declarations of `$M.0` to `$M.(n-1)`, one
hint for every resolved value in the order of the map, naming the region of the
value and the expression the value lowers to, the declarations of `$u.0` to
`$u.(u-1)` for the counter `u` of undefined values as it stands after these
lowerings (no section when it is 0), the constant `$GLOBALS_BOTTOM` and the
axiom that equates it to `globalsBottom`; the lowerings leave the regions, the
resolved values and `globalsBottom` as they were.  When every resolved value is
a named global or local value, `getPrelude` returns, the state is unchanged and
`u` is the number of placeholders issued before the call. -/
theorem getPrelude_layout (dotEscape : String → String) (L : DataLayout)
    (valueAt : ValuePtr → Value) (s : SmackRep) :
    (∀ text s', s.getPrelude dotEscape L valueAt = some (text, s') →
      ∃ es : List Expr,
        SmackRep.exprs dotEscape L s (s.regionOfValue.map fun it => valueAt it.1)
          = some (es, s')
        ∧ es.length = s.regionOfValue.length
        ∧ text = preludeLayout s.memoryRegions.length
            (List.zipWith (fun it e => (it.2, e)) s.regionOfValue es)
            s'.uniqueUndefNum s.globalsBottom
        ∧ s.sameButCounters s')
    ∧ ((∀ it ∈ s.regionOfValue, (valueAt it.1).isNamed = true) →
        ∃ es : List Expr,
          es.length = s.regionOfValue.length
          ∧ s.getPrelude dotEscape L valueAt
            = some (preludeLayout s.memoryRegions.length
                (List.zipWith (fun it e => (it.2, e)) s.regionOfValue es)
                s.uniqueUndefNum s.globalsBottom, s)) := by
  constructor
  · intro text s' hrun
    cases he : SmackRep.exprs dotEscape L s (s.regionOfValue.map fun it => valueAt it.1) with
    | none =>
      rw [getPrelude_none dotEscape L valueAt s he] at hrun
      cases hrun
    | some r =>
      obtain ⟨es, s1⟩ := r
      rw [getPrelude_eq dotEscape L valueAt s es s1 he] at hrun
      simp only [Option.some.injEq, Prod.mk.injEq] at hrun
      obtain ⟨ht, hs⟩ := hrun
      subst hs
      refine ⟨es, rfl, ?_, ht.symm, exprs_frame dotEscape L _ s es s1 he⟩
      simpa using exprs_length dotEscape L _ s es s1 he
  · intro hn
    obtain ⟨es, hes⟩ := exprs_named dotEscape L s (s.regionOfValue.map fun it => valueAt it.1)
      (by
        intro v hv
        obtain ⟨it, hit, rfl⟩ := List.mem_map.1 hv
        exact hn it hit)
    refine ⟨es, ?_, getPrelude_eq dotEscape L valueAt s es s hes⟩
    simpa using exprs_length dotEscape L _ s es s hes

/-! ## The pruning pass -/

theorem whileLoop_succ (M : Module) :
    ∀ (fuel : Nat) (st r : PruneState), PruneFunctionPass.whileLoop M fuel st = some r →
      PruneFunctionPass.whileLoop M (fuel + 1) st = some r
  | 0, st, r, h => by
    simp only [PruneFunctionPass.whileLoop] at h ⊢
    split at h
    · cases h
    · rename_i h0
      rw [if_neg h0]
      exact h
  | fuel + 1, st, r, h => by
    rw [PruneFunctionPass.whileLoop] at h ⊢
    split at h
    · rename_i h0
      rw [if_pos h0]
      exact whileLoop_succ M fuel _ r h
    · rename_i h0
      rw [if_neg h0]
      exact h

theorem whileLoop_add (M : Module) (fuel : Nat) (st r : PruneState)
    (h : PruneFunctionPass.whileLoop M fuel st = some r) :
    ∀ k, PruneFunctionPass.whileLoop M (fuel + k) st = some r
  | 0 => h
  | k + 1 => whileLoop_succ M (fuel + k) st r (whileLoop_add M fuel st r h k)

/-- Claim C39, where the code departs from it: in the module in which `main`
calls `A` and `B` and both call the critical `SSL_CTX_new`, the pass, with any
number of iterations from 5 on, keeps the body of `A` and deletes the body of
`B`, although `B` is called by `main` and calls a critical function. -/
theorem prune_drops_reaching_function (k : Nat) :
    ∃ result : Module,
      PruneFunctionPass.runOnModule (5 + k) diamondModule = some (result, true)
      ∧ result.functions
          = [ { name := "main",
                body := some [.callInst (some "A"), .other, .callInst (some "B")] },
              { name := "A", body := some [.callInst (some "SSL_CTX_new"), .other] },
              { name := "B", body := none },
              { name := "SSL_CTX_new", body := none } ]
      ∧ some "SSL_CTX_new" ∈ PruneFunctionPass.critical diamondModule
      ∧ diamondModule.calls "main" "B"
      ∧ diamondModule.calls "B" "SSL_CTX_new"
      ∧ ¬ PruneFunctionPass.keepsReaching diamondModule result := by
  have hloop : PruneFunctionPass.whileLoop diamondModule 5
      (PruneFunctionPass.initialState diamondModule "main")
      = some { stack := [], seen := ["B", "SSL_CTX_new", "A", "main"],
               keepers := [some "A", some "main", none, some "SSL_CTX_new"] } := by
    decide
  have hcrit : some "SSL_CTX_new" ∈ PruneFunctionPass.critical diamondModule := by decide
  have h1 : diamondModule.calls "main" "B" := by
    show Instruction.callInst (some "B") ∈ diamondModule.insts "main"
    decide
  have h2 : diamondModule.calls "B" "SSL_CTX_new" := by
    show Instruction.callInst (some "SSL_CTX_new") ∈ diamondModule.insts "B"
    decide
  have hmain : diamondModule.getFunction "main" = some "main" := by decide
  refine ⟨_, ?_, rfl, hcrit, h1, h2, ?_⟩
  · simp only [PruneFunctionPass.runOnModule, hmain,
      whileLoop_add diamondModule 5 _ _ hloop k]
    decide
  · intro hkeep
    have hB := hkeep { name := "B", body := some [.callInst (some "SSL_CTX_new"), .other] }
      (by decide)
      (Or.inr ⟨Relation.ReflTransGen.single h1, "SSL_CTX_new", hcrit,
        Relation.ReflTransGen.single h2⟩)
    revert hB
    decide

theorem forInsts_spec (stack : List String) :
    ∀ (insts : List Instruction) (seen : List String) (keepers : List (Option String)),
      (∃ new, (PruneFunctionPass.forInsts stack insts seen keepers).seen = new ++ seen)
      ∧ (seen.Nodup → (PruneFunctionPass.forInsts stack insts seen keepers).seen.Nodup)
      ∧ (∀ x ∈ (PruneFunctionPass.forInsts stack insts seen keepers).seen,
          x ∈ seen ∨ Instruction.callInst (some x) ∈ insts)
      ∧ ((∃ c, (PruneFunctionPass.forInsts stack insts seen keepers).stack = stack ++ [c]
            ∧ c ∉ seen ∧ c ∈ (PruneFunctionPass.forInsts stack insts seen keepers).seen)
          ∨ (PruneFunctionPass.forInsts stack insts seen keepers).stack = stack.dropLast)
  | [], seen, keepers => ⟨⟨[], rfl⟩, fun h => h, fun x hx => Or.inl hx, Or.inr rfl⟩
  | .other :: rest, seen, keepers => by
    simp only [PruneFunctionPass.forInsts]
    obtain ⟨h1, h2, h3, h4⟩ := forInsts_spec stack rest seen keepers
    exact ⟨h1, h2, fun x hx => (h3 x hx).imp id (List.mem_cons_of_mem _), h4⟩
  | .callInst none :: rest, seen, keepers => by
    simp only [PruneFunctionPass.forInsts]
    obtain ⟨h1, h2, h3, h4⟩ := forInsts_spec stack rest seen keepers
    exact ⟨h1, h2, fun x hx => (h3 x hx).imp id (List.mem_cons_of_mem _), h4⟩
  | .callInst (some callee) :: rest, seen, keepers => by
    simp only [PruneFunctionPass.forInsts]
    by_cases hs : callee ∈ seen
    · rw [if_pos hs]
      obtain ⟨h1, h2, h3, h4⟩ := forInsts_spec stack rest seen keepers
      exact ⟨h1, h2, fun x hx => (h3 x hx).imp id (List.mem_cons_of_mem _), h4⟩
    · rw [if_neg hs, List.insert_of_not_mem hs]
      by_cases hk : some callee ∈ keepers
      · rw [if_pos hk]
        obtain ⟨⟨new, h1⟩, h2, h3, h4⟩ := forInsts_spec stack rest (callee :: seen)
          (stack.foldl (fun k f => k.insert (some f)) keepers)
        refine ⟨⟨new ++ [callee], by rw [h1]; simp⟩,
          fun hn => h2 (List.nodup_cons.2 ⟨hs, hn⟩), ?_, ?_⟩
        · intro x hx
          rcases h3 x hx with h | h
          · rcases List.mem_cons.1 h with rfl | h
            · exact Or.inr (List.mem_cons_self _ _)
            · exact Or.inl h
          · exact Or.inr (List.mem_cons_of_mem _ h)
        · rcases h4 with ⟨c, hc1, hc2, hc3⟩ | h
          · exact Or.inl ⟨c, hc1, fun hc => hc2 (List.mem_cons_of_mem _ hc), hc3⟩
          · exact Or.inr h
      · rw [if_neg hk]
        refine ⟨⟨[callee], rfl⟩, fun hn => List.nodup_cons.2 ⟨hs, hn⟩, ?_,
          Or.inl ⟨callee, rfl, hs, List.mem_cons_self _ _⟩⟩
        intro x hx
        rcases List.mem_cons.1 hx with rfl | h
        · exact Or.inr (List.mem_cons_self _ _)
        · exact Or.inl h

theorem insts_callees (M : Module) (F x : String)
    (h : Instruction.callInst (some x) ∈ M.insts F) : x ∈ M.callees := by
  unfold Module.insts at h
  cases hf : M.functions.find? (fun f => f.name == F) with
  | none => simp [hf] at h
  | some f =>
    simp only [hf] at h
    simp only [Module.callees, List.mem_flatMap, List.mem_filterMap]
    exact ⟨f, List.mem_of_find?_eq_some hf, Instruction.callInst (some x), h, rfl⟩

theorem iteration_spec (M : Module) (st : PruneState) (h0 : 0 < st.stack.length) :
    (∃ new, (PruneFunctionPass.iteration M st).seen = new ++ st.seen)
    ∧ (st.seen.Nodup → (PruneFunctionPass.iteration M st).seen.Nodup)
    ∧ (∀ x ∈ (PruneFunctionPass.iteration M st).seen, x ∈ st.seen ∨ x ∈ M.callees)
    ∧ ((∃ c, (PruneFunctionPass.iteration M st).stack = st.stack ++ [c]
          ∧ c ∉ st.seen ∧ c ∈ (PruneFunctionPass.iteration M st).seen)
        ∨ (PruneFunctionPass.iteration M st).stack = st.stack.dropLast) := by
  unfold PruneFunctionPass.iteration
  cases hl : st.stack.getLast? with
  | none =>
    rw [List.getLast?_eq_none_iff] at hl
    rw [hl] at h0
    cases h0
  | some F =>
    obtain ⟨h1, h2, h3, h4⟩ := forInsts_spec st.stack (M.insts F) st.seen st.keepers
    exact ⟨h1, h2, fun x hx => (h3 x hx).imp id (insts_callees M F x), h4⟩

theorem iteration_measure (M : Module) (U : List String) (st : PruneState)
    (hU : ∀ x ∈ M.callees, x ∈ U) (h0 : 0 < st.stack.length) (hn : st.seen.Nodup)
    (hs : ∀ x ∈ st.seen, x ∈ U) :
    (PruneFunctionPass.iteration M st).seen.Nodup
    ∧ (∀ x ∈ (PruneFunctionPass.iteration M st).seen, x ∈ U)
    ∧ 2 * (U.length - (PruneFunctionPass.iteration M st).seen.length)
        + (PruneFunctionPass.iteration M st).stack.length
      < 2 * (U.length - st.seen.length) + st.stack.length := by
  obtain ⟨⟨new, h1⟩, h2, h3, h4⟩ := iteration_spec M st h0
  have hn' := h2 hn
  have hs' : ∀ x ∈ (PruneFunctionPass.iteration M st).seen, x ∈ U := fun x hx =>
    (h3 x hx).elim (hs x) (hU x)
  have hle : (PruneFunctionPass.iteration M st).seen.length ≤ U.length :=
    (List.Nodup.subperm hn' (fun x hx => hs' x hx)).length_le
  have hlen : (PruneFunctionPass.iteration M st).seen.length = new.length + st.seen.length := by
    rw [h1, List.length_append]
  refine ⟨hn', hs', ?_⟩
  rcases h4 with ⟨c, hc1, hc2, hc3⟩ | h
  · have hnew : 0 < new.length := by
      rw [h1] at hc3
      rcases List.mem_append.1 hc3 with h | h
      · exact List.length_pos_of_mem h
      · exact absurd h hc2
    rw [hc1, List.length_append, List.length_singleton]
    omega
  · rw [h, List.length_dropLast]
    omega

theorem whileLoop_terminates (M : Module) (U : List String) (hU : ∀ x ∈ M.callees, x ∈ U) :
    ∀ (fuel : Nat) (st : PruneState), st.seen.Nodup → (∀ x ∈ st.seen, x ∈ U) →
      2 * (U.length - st.seen.length) + st.stack.length ≤ fuel →
      ∃ r, PruneFunctionPass.whileLoop M fuel st = some r ∧ r.stack = []
  | 0, st, _, _, hm => by
    have h0 : st.stack.length = 0 := by omega
    refine ⟨st, ?_, List.length_eq_zero.1 h0⟩
    simp [PruneFunctionPass.whileLoop, h0]
  | fuel + 1, st, hn, hs, hm => by
    rw [PruneFunctionPass.whileLoop]
    by_cases h0 : st.stack.length > 0
    · rw [if_pos h0]
      obtain ⟨hn', hs', hlt⟩ := iteration_measure M U st hU h0 hn hs
      exact whileLoop_terminates M U hU fuel _ hn' hs' (by omega)
    · rw [if_neg h0]
      exact ⟨st, rfl, List.length_eq_zero.1 (by omega)⟩

theorem pushes_fresh (M : Module) :
    ∀ (n : Nat) (st : PruneState),
      (PruneFunctionPass.pushes M n st).Nodup
      ∧ ∀ x ∈ PruneFunctionPass.pushes M n st, x ∉ st.seen
  | 0, st => by simp [PruneFunctionPass.pushes]
  | n + 1, st => by
    rw [PruneFunctionPass.pushes]
    by_cases h0 : st.stack.length > 0
    · rw [if_pos h0]
      obtain ⟨⟨new, h1⟩, _, _, h4⟩ := iteration_spec M st h0
      obtain ⟨ihn, ihf⟩ := pushes_fresh M n (PruneFunctionPass.iteration M st)
      have hmono : ∀ x, x ∈ st.seen → x ∈ (PruneFunctionPass.iteration M st).seen := by
        intro x hx
        rw [h1]
        exact List.mem_append_right _ hx
      rcases h4 with ⟨c, hc1, hc2, hc3⟩ | h
      · have hp : PruneFunctionPass.pushed st (PruneFunctionPass.iteration M st) = some c := by
          simp [PruneFunctionPass.pushed, hc1]
        rw [hp]
        simp only [Option.toList_some, List.singleton_append, List.nodup_cons, List.mem_cons]
        refine ⟨⟨fun hc => ihf c hc hc3, ihn⟩, ?_⟩
        rintro x (rfl | hx)
        · exact hc2
        · exact fun hxs => ihf x hx (hmono x hxs)
      · have hp : PruneFunctionPass.pushed st (PruneFunctionPass.iteration M st) = none := by
          simp [PruneFunctionPass.pushed, h, List.length_dropLast]
        rw [hp]
        simp only [Option.toList_none, List.nil_append]
        exact ⟨ihn, fun x hx hxs => ihf x hx (hmono x hxs)⟩
    · rw [if_neg h0]
      simp

/-- Claim C40: on every module and from every function `main`, the `while`
loop of the search comes to its end, with an empty stack, within twice the
number of direct calls of the module plus one iterations, and so the pass
returns whenever the module has a function `main`; an iteration entered with a
stack that is not empty either pushes one function that was not seen before,
and marks it seen, or pops the stack; and no function is pushed twice: the
functions pushed, `main` first, are pairwise different. -/
theorem search_terminates (M : Module) (main : String) (k : Nat) :
    (∃ r, PruneFunctionPass.whileLoop M (2 * M.callees.length + 1 + k)
        (PruneFunctionPass.initialState M main) = some r ∧ r.stack = [])
    ∧ ((M.getFunction "main").isSome = true →
        (PruneFunctionPass.runOnModule (2 * M.callees.length + 1 + k) M).isSome = true)
    ∧ (∀ st : PruneState, 0 < st.stack.length →
        (∃ c, c ∉ st.seen ∧ c ∈ (PruneFunctionPass.iteration M st).seen
            ∧ (PruneFunctionPass.iteration M st).stack = st.stack ++ [c])
          ∨ (PruneFunctionPass.iteration M st).stack = st.stack.dropLast)
    ∧ (∀ n, (main :: PruneFunctionPass.pushes M n
        (PruneFunctionPass.initialState M main)).Nodup) := by
  have hterm : ∀ m : String, ∃ r, PruneFunctionPass.whileLoop M (2 * M.callees.length + 1 + k)
      (PruneFunctionPass.initialState M m) = some r ∧ r.stack = [] := by
    intro m
    apply whileLoop_terminates M (m :: M.callees) (fun x hx => List.mem_cons_of_mem _ hx)
    · simp [PruneFunctionPass.initialState]
    · simp [PruneFunctionPass.initialState]
    · simp [PruneFunctionPass.initialState]
  refine ⟨hterm main, ?_, ?_, ?_⟩
  · intro hm
    obtain ⟨m, hm⟩ := Option.isSome_iff_exists.1 hm
    obtain ⟨r, hr, _⟩ := hterm m
    simp [PruneFunctionPass.runOnModule, hm, hr]
  · intro st h0
    rcases (iteration_spec M st h0).2.2.2 with ⟨c, hc1, hc2, hc3⟩ | h
    · exact Or.inl ⟨c, hc2, hc3, hc1⟩
    · exact Or.inr h
  · intro n
    obtain ⟨hn, hf⟩ := pushes_fresh M n (PruneFunctionPass.initialState M main)
    refine List.nodup_cons.2 ⟨fun hm => hf main hm ?_, hn⟩
    simp [PruneFunctionPass.initialState]

/-! ## Lowering does not read the buffer of static initializers -/

theorem litConstant_inits (x : List Stmt) (s : SmackRep) (v : Value) :
    litConstant { s with staticInits := x } v
      = (litConstant s v).map (fun o => o.map (fun r => (r.1, { r.2 with staticInits := x }))) := by
  cases v with
  | ConstantInt bitWidth bits =>
    simp only [litConstant, Option.map_some']
    cases litConstantInt width bitWidth bits <;> rfl
  | ConstantFP t => rfl
  | ConstantPointerNull t =>
    simp only [litConstant, Option.map_some']
    cases Expr.litW 0 width <;> rfl
  | _ => rfl

mutual
theorem expr_inits (dotEscape : String → String) (L : DataLayout) (x : List Stmt) :
    ∀ (v : Value) (s : SmackRep),
      SmackRep.expr dotEscape L { s with staticInits := x } v
        = (s.expr dotEscape L v).map (fun r => (r.1, { r.2 with staticInits := x }))
  | .GlobalValue name _, s => by
    simp only [SmackRep.expr]
    cases SmackRep.id dotEscape name <;> rfl
  | .Local none _, s => by simp [SmackRep.expr]
  | .Local (some n) _, s => by
    simp only [SmackRep.expr]
    cases SmackRep.id dotEscape (some n) <;> rfl
  | .ConstantExpr _ .GetElementPtr [] _, s => by simp [SmackRep.expr]
  | .ConstantExpr _ .GetElementPtr (p :: ps) gepTypes, s => by
    simp only [SmackRep.expr]
    split
    · rw [expr_inits dotEscape L x p s]
      cases SmackRep.expr dotEscape L s p with
      | none => rfl
      | some r =>
        obtain ⟨e1, s1⟩ := r
        simp only [Option.map_some']
        exact ptrArithLoop_inits dotEscape L x ps gepTypes s1 e1
    · rfl
  | .ConstantExpr _ .BitCast [] _, s => by simp [SmackRep.expr]
  | .ConstantExpr _ .BitCast (y :: _) _, s => by
    simp only [SmackRep.expr]
    exact expr_inits dotEscape L x y s
  | .ConstantExpr _ .IntToPtr [] _, s => by simp [SmackRep.expr]
  | .ConstantExpr _ .IntToPtr (y :: _) _, s => by
    simp only [SmackRep.expr]
    rw [expr_inits dotEscape L x y s]
    cases SmackRep.expr dotEscape L s y <;> rfl
  | .ConstantExpr _ .PtrToInt [] _, s => by simp [SmackRep.expr]
  | .ConstantExpr _ .PtrToInt (y :: _) _, s => by
    simp only [SmackRep.expr]
    rw [expr_inits dotEscape L x y s]
    cases SmackRep.expr dotEscape L s y <;> rfl
  | .ConstantExpr _ (.BinaryOp opcode) [] _, s => by
    simp only [SmackRep.expr]
    split <;> rfl
  | .ConstantExpr _ (.BinaryOp opcode) [_] _, s => by
    simp only [SmackRep.expr]
    split <;> rfl
  | .ConstantExpr _ (.BinaryOp opcode) (l :: r :: _) _, s => by
    simp only [SmackRep.expr]
    split
    · rfl
    · rw [expr_inits dotEscape L x l s]
      cases SmackRep.expr dotEscape L s l with
      | none => rfl
      | some a =>
        obtain ⟨el, s1⟩ := a
        simp only [Option.map_some']
        rw [expr_inits dotEscape L x r s1]
        cases SmackRep.expr dotEscape L s1 r with
        | none => rfl
        | some b => rfl
  | .ConstantExpr _ (.Other _) _ _, s => by simp [SmackRep.expr]
  | .ConstantInt bitWidth bits, s => by
    simp only [SmackRep.expr]
    split
    · rfl
    · cases litConstantInt width bitWidth bits <;> rfl
  | .ConstantFP _, s => by simp [SmackRep.expr, litConstantFP]
  | .ConstantPointerNull _, s => by
    simp only [SmackRep.expr]
    cases lit 0 <;> rfl
  | .ConstantAggregateZero _, s => by
    simp only [SmackRep.expr]
    cases lit 0 <;> rfl
  | .UndefValue _, s => by simp [SmackRep.expr, SmackRep.undef]
  | .OtherConstant _, s => by simp [SmackRep.expr]
theorem ptrArithLoop_inits (dotEscape : String → String) (L : DataLayout) (x : List Stmt) :
    ∀ (ps : List Value) (ts : List LType) (s : SmackRep) (e : Expr),
      SmackRep.ptrArithLoop dotEscape L { s with staticInits := x } e ps ts
        = (SmackRep.ptrArithLoop dotEscape L s e ps ts).map
            (fun r => (r.1, { r.2 with staticInits := x }))
  | [], ts, s, e => by simp [SmackRep.ptrArithLoop]
  | _ :: _, [], s, e => by simp [SmackRep.ptrArithLoop]
  | idx :: ps, t :: ts, s, e => by
    have hseq : ∀ (et : LType),
        (match (match litConstant { s with staticInits := x } idx with
               | some r => r
               | none => SmackRep.expr dotEscape L { s with staticInits := x } idx) with
        | none => none
        | some (i, s1) =>
          SmackRep.ptrArithLoop dotEscape L s1 (paExpr e i (toInt32 (storageSize L et))) ps ts)
        = (match (match litConstant s idx with
               | some r => r
               | none => SmackRep.expr dotEscape L s idx) with
        | none => none
        | some (i, s1) =>
          SmackRep.ptrArithLoop dotEscape L s1 (paExpr e i (toInt32 (storageSize L et))) ps
            ts).map (fun (r : Expr × SmackRep) => (r.1, { r.2 with staticInits := x })) := by
      intro et
      rw [litConstant_inits x s idx]
      cases hlit : litConstant s idx with
      | some r =>
        cases r with
        | none => rfl
        | some q =>
          obtain ⟨i, s1⟩ := q
          simp only [Option.map_some']
          exact ptrArithLoop_inits dotEscape L x ps ts s1 _
      | none =>
        simp only [Option.map_none']
        rw [expr_inits dotEscape L x idx s]
        cases SmackRep.expr dotEscape L s idx with
        | none => rfl
        | some q =>
          obtain ⟨i, s1⟩ := q
          simp only [Option.map_some']
          exact ptrArithLoop_inits dotEscape L x ps ts s1 _
    cases t with
    | structTy tag n sized =>
      simp only [SmackRep.ptrArithLoop]
      split
      · cases idx with
        | ConstantInt bitWidth bits =>
          simp only
          exact ptrArithLoop_inits dotEscape L x ps ts s _
        | _ => rfl
      · rfl
    | pointerTy elem =>
      simp only [SmackRep.ptrArithLoop, sequentialElementType]
      exact hseq _
    | arrayTy k elem =>
      simp only [SmackRep.ptrArithLoop, sequentialElementType]
      exact hseq _
    | _ => simp [SmackRep.ptrArithLoop, sequentialElementType]
end

/-! ## Whether a value lowers does not depend on the state -/

theorem litConstant_isSome (s t : SmackRep) (v : Value) :
    (litConstant s v).map (fun o => o.isSome) = (litConstant t v).map (fun o => o.isSome) := by
  cases v with
  | ConstantInt bitWidth bits =>
    simp only [litConstant, Option.map_some']
    cases litConstantInt width bitWidth bits <;> rfl
  | ConstantFP ty => simp only [litConstant, Option.map_some', Option.isSome_some]
  | ConstantPointerNull ty =>
    simp only [litConstant, Option.map_some']
    cases Expr.litW 0 width <;> rfl
  | _ => rfl

mutual
theorem expr_isSome (dotEscape : String → String) (L : DataLayout) :
    ∀ (v : Value) (s t : SmackRep),
      (s.expr dotEscape L v).isSome = (t.expr dotEscape L v).isSome
  | .GlobalValue name _, s, t => by
    simp only [SmackRep.expr]
    cases SmackRep.id dotEscape name <;> rfl
  | .Local none _, s, t => by simp [SmackRep.expr]
  | .Local (some n) _, s, t => by
    simp only [SmackRep.expr]
    cases SmackRep.id dotEscape (some n) <;> rfl
  | .ConstantExpr _ .GetElementPtr [] _, s, t => by simp [SmackRep.expr]
  | .ConstantExpr _ .GetElementPtr (p :: ps) gepTypes, s, t => by
    simp only [SmackRep.expr]
    split
    · have ih := expr_isSome dotEscape L p s t
      cases hs : SmackRep.expr dotEscape L s p with
      | none =>
        cases ht : SmackRep.expr dotEscape L t p with
        | none => rfl
        | some b => rw [hs, ht] at ih; cases ih
      | some a =>
        cases ht : SmackRep.expr dotEscape L t p with
        | none => rw [hs, ht] at ih; cases ih
        | some b =>
          obtain ⟨e1, s1⟩ := a
          obtain ⟨e2, t1⟩ := b
          exact ptrArithLoop_isSome dotEscape L ps gepTypes s1 t1 e1 e2
    · rfl
  | .ConstantExpr _ .BitCast [] _, s, t => by simp [SmackRep.expr]
  | .ConstantExpr _ .BitCast (y :: _) _, s, t => by
    simp only [SmackRep.expr]
    exact expr_isSome dotEscape L y s t
  | .ConstantExpr _ .IntToPtr [] _, s, t => by simp [SmackRep.expr]
  | .ConstantExpr _ .IntToPtr (y :: _) _, s, t => by
    simp only [SmackRep.expr, Option.isSome_map']
    exact expr_isSome dotEscape L y s t
  | .ConstantExpr _ .PtrToInt [] _, s, t => by simp [SmackRep.expr]
  | .ConstantExpr _ .PtrToInt (y :: _) _, s, t => by
    simp only [SmackRep.expr, Option.isSome_map']
    exact expr_isSome dotEscape L y s t
  | .ConstantExpr _ (.BinaryOp opcode) [] _, s, t => by simp only [SmackRep.expr]
  | .ConstantExpr _ (.BinaryOp opcode) [_] _, s, t => by simp only [SmackRep.expr]
  | .ConstantExpr _ (.BinaryOp opcode) (l :: r :: _) _, s, t => by
    simp only [SmackRep.expr]
    split
    · rfl
    · have ih := expr_isSome dotEscape L l s t
      cases hs : SmackRep.expr dotEscape L s l with
      | none =>
        cases ht : SmackRep.expr dotEscape L t l with
        | none => rfl
        | some b => rw [hs, ht] at ih; cases ih
      | some a =>
        cases ht : SmackRep.expr dotEscape L t l with
        | none => rw [hs, ht] at ih; cases ih
        | some b =>
          obtain ⟨e1, s1⟩ := a
          obtain ⟨e2, t1⟩ := b
          have ih2 := expr_isSome dotEscape L r s1 t1
          simp only
          cases hs2 : SmackRep.expr dotEscape L s1 r with
          | none =>
            cases ht2 : SmackRep.expr dotEscape L t1 r with
            | none => rfl
            | some b => rw [hs2, ht2] at ih2; cases ih2
          | some a =>
            cases ht2 : SmackRep.expr dotEscape L t1 r with
            | none => rw [hs2, ht2] at ih2; cases ih2
            | some b => rfl
  | .ConstantExpr _ (.Other _) _ _, s, t => by simp [SmackRep.expr]
  | .ConstantInt bitWidth bits, s, t => by
    simp only [SmackRep.expr]
    split
    · rfl
    · cases litConstantInt width bitWidth bits <;> rfl
  | .ConstantFP _, s, t => by simp [SmackRep.expr]
  | .ConstantPointerNull _, s, t => by
    simp only [SmackRep.expr]
    cases lit 0 <;> rfl
  | .ConstantAggregateZero _, s, t => by
    simp only [SmackRep.expr]
    cases lit 0 <;> rfl
  | .UndefValue _, s, t => by simp [SmackRep.expr]
  | .OtherConstant _, s, t => by simp [SmackRep.expr]
theorem ptrArithLoop_isSome (dotEscape : String → String) (L : DataLayout) :
    ∀ (ps : List Value) (ts : List LType) (s t : SmackRep) (e e' : Expr),
      (SmackRep.ptrArithLoop dotEscape L s e ps ts).isSome
        = (SmackRep.ptrArithLoop dotEscape L t e' ps ts).isSome
  | [], ts, s, t, e, e' => by simp [SmackRep.ptrArithLoop]
  | _ :: _, [], s, t, e, e' => by simp [SmackRep.ptrArithLoop]
  | idx :: ps, ty :: ts, s, t, e, e' => by
    have hseq : ∀ (et : LType),
        (match (match litConstant s idx with
               | some r => r
               | none => SmackRep.expr dotEscape L s idx) with
        | none => none
        | some (i, s1) =>
          SmackRep.ptrArithLoop dotEscape L s1 (paExpr e i (toInt32 (storageSize L et))) ps
            ts).isSome
        = (match (match litConstant t idx with
               | some r => r
               | none => SmackRep.expr dotEscape L t idx) with
        | none => none
        | some (i, s1) =>
          SmackRep.ptrArithLoop dotEscape L s1 (paExpr e' i (toInt32 (storageSize L et))) ps
            ts).isSome := by
      intro et
      have hl := litConstant_isSome s t idx
      have hx := expr_isSome dotEscape L idx s t
      have key : ∀ (a b : Option (Expr × SmackRep)), a.isSome = b.isSome →
          (match a with
            | none => none
            | some (i, s1) =>
              SmackRep.ptrArithLoop dotEscape L s1 (paExpr e i (toInt32 (storageSize L et))) ps
                ts).isSome
          = (match b with
            | none => none
            | some (i, s1) =>
              SmackRep.ptrArithLoop dotEscape L s1 (paExpr e' i (toInt32 (storageSize L et))) ps
                ts).isSome := by
        intro a b hab
        cases a with
        | none =>
          cases b with
          | none => rfl
          | some q => cases hab
        | some p =>
          cases b with
          | none => cases hab
          | some q =>
            obtain ⟨i, s1⟩ := p
            obtain ⟨j, t1⟩ := q
            exact ptrArithLoop_isSome dotEscape L ps ts s1 t1 _ _
      apply key
      cases hs : litConstant s idx with
      | none =>
        cases ht : litConstant t idx with
        | none => exact hx
        | some b => rw [hs, ht] at hl; cases hl
      | some a =>
        cases ht : litConstant t idx with
        | none => rw [hs, ht] at hl; cases hl
        | some b =>
          rw [hs, ht] at hl
          simpa using hl
    cases ty with
    | structTy tag n sized =>
      simp only [SmackRep.ptrArithLoop]
      split
      · cases idx with
        | ConstantInt bitWidth bits =>
          simp only
          exact ptrArithLoop_isSome dotEscape L ps ts s t _ _
        | _ => rfl
      · rfl
    | pointerTy elem =>
      simp only [SmackRep.ptrArithLoop, sequentialElementType]
      exact hseq _
    | arrayTy k elem =>
      simp only [SmackRep.ptrArithLoop, sequentialElementType]
      exact hseq _
    | _ => simp [SmackRep.ptrArithLoop, sequentialElementType]
end

/-! ## Sequences of lowerings -/

theorem exprs_append (dotEscape : String → String) (L : DataLayout) :
    ∀ (a b : List Value) (s : SmackRep),
      SmackRep.exprs dotEscape L s (a ++ b)
        = match SmackRep.exprs dotEscape L s a with
          | none => none
          | some (es, s1) =>
            (SmackRep.exprs dotEscape L s1 b).map (fun r => (es ++ r.1, r.2))
  | [], b, s => by
    simp only [List.nil_append, SmackRep.exprs]
    cases SmackRep.exprs dotEscape L s b <;> rfl
  | v :: a, b, s => by
    show SmackRep.exprs dotEscape L s (v :: (a ++ b)) = _
    simp only [SmackRep.exprs]
    cases SmackRep.expr dotEscape L s v with
    | none => rfl
    | some q =>
      obtain ⟨e, s1⟩ := q
      simp only
      rw [exprs_append dotEscape L a b s1]
      cases SmackRep.exprs dotEscape L s1 a with
      | none => rfl
      | some r =>
        obtain ⟨es, s2⟩ := r
        simp only
        cases SmackRep.exprs dotEscape L s2 b with
        | none => rfl
        | some r2 => rfl

theorem exprs_inits (dotEscape : String → String) (L : DataLayout) (x : List Stmt) :
    ∀ (vs : List Value) (s : SmackRep),
      SmackRep.exprs dotEscape L { s with staticInits := x } vs
        = (SmackRep.exprs dotEscape L s vs).map
            (fun r => (r.1, { r.2 with staticInits := x }))
  | [], s => rfl
  | v :: vs, s => by
    simp only [SmackRep.exprs]
    rw [expr_inits dotEscape L x v s]
    cases SmackRep.expr dotEscape L s v with
    | none => rfl
    | some q =>
      obtain ⟨e, s1⟩ := q
      simp only [Option.map_some']
      rw [exprs_inits dotEscape L x vs s1]
      cases SmackRep.exprs dotEscape L s1 vs with
      | none => rfl
      | some r => rfl

theorem exprs_none_iff (dotEscape : String → String) (L : DataLayout) :
    ∀ (vs : List Value) (s : SmackRep),
      SmackRep.exprs dotEscape L s vs = none ↔ ∃ v ∈ vs, s.expr dotEscape L v = none
  | [], s => by simp [SmackRep.exprs]
  | v :: vs, s => by
    simp only [SmackRep.exprs, List.mem_cons, exists_eq_or_imp]
    cases hv : SmackRep.expr dotEscape L s v with
    | none => simp
    | some q =>
      obtain ⟨e, s1⟩ := q
      have ih := exprs_none_iff dotEscape L vs s1
      have hst : ∀ w, SmackRep.expr dotEscape L s1 w = none ↔ SmackRep.expr dotEscape L s w = none := by
        intro w
        have := expr_isSome dotEscape L w s1 s
        cases h1 : SmackRep.expr dotEscape L s1 w <;> cases h2 : SmackRep.expr dotEscape L s w <;>
          simp [h1, h2] at this ⊢
      cases hr : SmackRep.exprs dotEscape L s1 vs with
      | none =>
        obtain ⟨w, hw, hn⟩ := ih.1 hr
        exact ⟨fun _ => Or.inr ⟨w, hw, (hst w).1 hn⟩, fun _ => by simp only [hr]⟩
      | some r =>
        simp only [hr]
        constructor
        · intro h
          cases h
        · rintro (h | ⟨w, hw, hn⟩)
          · cases h
          · have := ih.2 ⟨w, hw, (hst w).2 hn⟩
            rw [hr] at this
            cases this

/-! ## Static-initializer flattening with the lowering of the leaves -/

theorem addInit_leaf (dotEscape : String → String) (L : DataLayout)
    (valueAt : ValuePtr → Value) (region : Nat) (s : SmackRep) (addr : Expr) (ptr : ValuePtr) :
    (s.expr dotEscape L (valueAt ptr)).map (fun r =>
        ({ r.2 with staticInits := r.2.staticInits ++ [Stmt.assign1 (mem region addr) r.1] }
          : SmackRep))
      = (s.exprs dotEscape L [valueAt ptr]).map (fun r =>
          ({ r.2 with staticInits := (s.staticInits ++ List.zipWith
              (fun path e => Stmt.assign1 (mem region (applyPath addr path)) e)
              [[]] r.1) } : SmackRep)) := by
  simp only [SmackRep.exprs]
  cases hv : s.expr dotEscape L (valueAt ptr) with
  | none => rfl
  | some q =>
    obtain ⟨e, s1⟩ := q
    have hf : s1.staticInits = s.staticInits := (expr_frame dotEscape L _ s e s1 hv).2.2.2.2
    simp [hf, applyPath]

mutual
theorem addInit_exprs (dotEscape : String → String) (L : DataLayout)
    (valueAt : ValuePtr → Value) (region : Nat) :
    ∀ (c : Constant) (s : SmackRep) (addr : Expr), c.supported = true →
      s.addInit dotEscape L valueAt region addr c
        = (s.exprs dotEscape L (c.leaves.map valueAt)).map (fun r =>
            ({ r.2 with staticInits := (s.staticInits ++ List.zipWith
                (fun path e => Stmt.assign1 (mem region (applyPath addr path)) e)
                (c.leafPaths L) r.1) } : SmackRep))
  | .mk ptr ty elems, s, addr, h => by
    by_cases hi : isInt ty = true
    · simp only [SmackRep.addInit, hi, if_true, Constant.leaves, Constant.leafPaths,
        Bool.true_or, List.map_cons, List.map_nil]
      exact addInit_leaf dotEscape L valueAt region s addr ptr
    · by_cases hpt : ty.isPointerTy = true
      · simp only [SmackRep.addInit, hi, hpt, if_true, if_false, Constant.leaves,
          Constant.leafPaths, Bool.or_true, List.map_cons, List.map_nil, Bool.false_eq_true]
        exact addInit_leaf dotEscape L valueAt region s addr ptr
      · simp only [Constant.supported, hi, hpt, Bool.or_self, Bool.false_eq_true, if_false] at h
        cases ty with
        | arrayTy n elemTy =>
          simp only [Bool.and_eq_true, decide_eq_true_eq] at h
          simp only [SmackRep.addInit, Constant.leafPaths, Constant.leaves, hi, hpt, Bool.or_self,
            Bool.false_eq_true, if_false]
          exact addInitArray_exprs dotEscape L valueAt region elems (storageSize L elemTy) n 0
            s addr (by omega) h.2
        | structTy tag n sized =>
          simp only [Bool.and_eq_true, decide_eq_true_eq] at h
          simp only [SmackRep.addInit, Constant.leafPaths, Constant.leaves, hi, hpt, Bool.or_self,
            Bool.false_eq_true, if_false]
          exact addInitStruct_exprs dotEscape L valueAt region elems (.structTy tag n sized) n 0
            s addr (by omega) h.2
        | _ => simp at h
theorem addInitArray_exprs (dotEscape : String → String) (L : DataLayout)
    (valueAt : ValuePtr → Value) (region : Nat) :
    ∀ (elems : List Constant) (size n i : Nat) (s : SmackRep) (addr : Expr),
      n = i + elems.length → Constant.supportedList elems = true →
      SmackRep.addInitArray dotEscape L valueAt region addr size n i s elems
        = (s.exprs dotEscape L ((Constant.leavesOfList elems).map valueAt)).map (fun r =>
            ({ r.2 with staticInits := (s.staticInits ++ List.zipWith
                (fun path e => Stmt.assign1 (mem region (applyPath addr path)) e)
                (Constant.arrayPaths L size i elems) r.1) } : SmackRep))
  | [], size, n, i, s, addr, hn, _ => by
    have : ¬ i < n := by simp at hn; omega
    simp [SmackRep.addInitArray, this, Constant.arrayPaths, Constant.leavesOfList,
      SmackRep.exprs]
  | c :: cs, size, n, i, s, addr, hn, h => by
    have hlt : i < n := by simp at hn; omega
    simp only [Constant.supportedList, Bool.and_eq_true] at h
    have h1 := addInit_exprs dotEscape L valueAt region c s
      (pa addr (toInt32 i) (toInt32 size)) h.1
    simp only [SmackRep.addInitArray, hlt, if_true, h1, Constant.arrayPaths,
      Constant.leavesOfList, List.map_append, exprs_append]
    cases he : s.exprs dotEscape L (c.leaves.map valueAt) with
    | none => rfl
    | some r1 =>
      obtain ⟨es1, s1⟩ := r1
      have hlen : (c.leafPaths L).length = es1.length := by
        rw [leafPaths_length L c h.1, exprs_length dotEscape L _ s es1 s1 he, List.length_map]
      simp only [Option.map_some']
      rw [addInitArray_exprs dotEscape L valueAt region cs size n (i + 1) _ addr
        (by simp at hn; omega) h.2, exprs_inits]
      cases he2 : s1.exprs dotEscape L ((Constant.leavesOfList cs).map valueAt) with
      | none => rfl
      | some r2 =>
        obtain ⟨es2, s2⟩ := r2
        simp only [Option.map_some']
        rw [zipWith_append_of_length _ _ _ _ _ (by simpa using hlen), zipWith_map_cons,
          List.append_assoc]
        rfl
theorem addInitStruct_exprs (dotEscape : String → String) (L : DataLayout)
    (valueAt : ValuePtr → Value) (region : Nat) :
    ∀ (elems : List Constant) (st : LType) (n i : Nat) (s : SmackRep) (addr : Expr),
      n = i + elems.length → Constant.supportedList elems = true →
      SmackRep.addInitStruct dotEscape L valueAt region addr st n i s elems
        = (s.exprs dotEscape L ((Constant.leavesOfList elems).map valueAt)).map (fun r =>
            ({ r.2 with staticInits := (s.staticInits ++ List.zipWith
                (fun path e => Stmt.assign1 (mem region (applyPath addr path)) e)
                (Constant.structPaths L st i elems) r.1) } : SmackRep))
  | [], st, n, i, s, addr, hn, _ => by
    have : ¬ i < n := by simp at hn; omega
    simp [SmackRep.addInitStruct, this, Constant.structPaths, Constant.leavesOfList,
      SmackRep.exprs]
  | c :: cs, st, n, i, s, addr, hn, h => by
    have hlt : i < n := by simp at hn; omega
    simp only [Constant.supportedList, Bool.and_eq_true] at h
    have h1 := addInit_exprs dotEscape L valueAt region c s
      (pa addr (toInt32 (fieldOffset L st i)) 1) h.1
    simp only [SmackRep.addInitStruct, hlt, if_true, h1, Constant.structPaths,
      Constant.leavesOfList, List.map_append, exprs_append]
    cases he : s.exprs dotEscape L (c.leaves.map valueAt) with
    | none => rfl
    | some r1 =>
      obtain ⟨es1, s1⟩ := r1
      have hlen : (c.leafPaths L).length = es1.length := by
        rw [leafPaths_length L c h.1, exprs_length dotEscape L _ s es1 s1 he, List.length_map]
      simp only [Option.map_some']
      rw [addInitStruct_exprs dotEscape L valueAt region cs st n (i + 1) _ addr
        (by simp at hn; omega) h.2, exprs_inits]
      cases he2 : s1.exprs dotEscape L ((Constant.leavesOfList cs).map valueAt) with
      | none => rfl
      | some r2 =>
        obtain ⟨es2, s2⟩ := r2
        simp only [Option.map_some']
        rw [zipWith_append_of_length _ _ _ _ _ (by simpa using hlen), zipWith_map_cons,
          List.append_assoc]
        rfl
end

mutual
theorem addInit_unsupported (dotEscape : String → String) (L : DataLayout)
    (valueAt : ValuePtr → Value) (region : Nat) :
    ∀ (c : Constant) (s : SmackRep) (addr : Expr), c.complete = true →
      c.hasUnsupportedLeaf = true → s.addInit dotEscape L valueAt region addr c = none
  | .mk ptr ty elems, s, addr, hc, hu => by
    by_cases hleaf : (isInt ty || ty.isPointerTy) = true
    · simp [Constant.hasUnsupportedLeaf, hleaf] at hu
    · have hi : ¬ isInt ty = true := fun h => hleaf (by simp [h])
      have hpt : ¬ ty.isPointerTy = true := fun h => hleaf (by simp [h])
      simp only [Constant.complete, hleaf, if_false, Bool.false_eq_true] at hc
      simp only [Constant.hasUnsupportedLeaf, hleaf, if_false, Bool.false_eq_true] at hu
      cases ty with
      | arrayTy n elemTy =>
        simp only [Bool.and_eq_true, decide_eq_true_eq] at hc
        simp only [SmackRep.addInit, hi, hpt, if_false]
        exact addInitArray_unsupported dotEscape L valueAt region elems (storageSize L elemTy)
          n 0 s addr (by omega) hc.2 hu
      | structTy tag n sized =>
        simp only [Bool.and_eq_true, decide_eq_true_eq] at hc
        simp only [SmackRep.addInit, hi, hpt, if_false]
        exact addInitStruct_unsupported dotEscape L valueAt region elems (.structTy tag n sized)
          n 0 s addr (by omega) hc.2 hu
      | _ => simp [SmackRep.addInit, hi, hpt]
theorem addInitArray_unsupported (dotEscape : String → String) (L : DataLayout)
    (valueAt : ValuePtr → Value) (region : Nat) :
    ∀ (elems : List Constant) (size n i : Nat) (s : SmackRep) (addr : Expr),
      n = i + elems.length → Constant.completeList elems = true →
      Constant.anyUnsupportedLeaf elems = true →
      SmackRep.addInitArray dotEscape L valueAt region addr size n i s elems = none
  | [], size, n, i, s, addr, _, _, hu => by simp [Constant.anyUnsupportedLeaf] at hu
  | c :: cs, size, n, i, s, addr, hn, hc, hu => by
    have hlt : i < n := by simp at hn; omega
    simp only [Constant.completeList, Bool.and_eq_true] at hc
    simp only [Constant.anyUnsupportedLeaf, Bool.or_eq_true] at hu
    simp only [SmackRep.addInitArray, hlt, if_true]
    cases h1 : SmackRep.addInit dotEscape L valueAt s region
        (pa addr (toInt32 i) (toInt32 size)) c with
    | none => rfl
    | some s1 =>
      rcases hu with hu | hu
      · rw [addInit_unsupported dotEscape L valueAt region c s _ hc.1 hu] at h1
        cases h1
      · exact addInitArray_unsupported dotEscape L valueAt region cs size n (i + 1) s1 addr
          (by simp at hn; omega) hc.2 hu
theorem addInitStruct_unsupported (dotEscape : String → String) (L : DataLayout)
    (valueAt : ValuePtr → Value) (region : Nat) :
    ∀ (elems : List Constant) (st : LType) (n i : Nat) (s : SmackRep) (addr : Expr),
      n = i + elems.length → Constant.completeList elems = true →
      Constant.anyUnsupportedLeaf elems = true →
      SmackRep.addInitStruct dotEscape L valueAt region addr st n i s elems = none
  | [], st, n, i, s, addr, _, _, hu => by simp [Constant.anyUnsupportedLeaf] at hu
  | c :: cs, st, n, i, s, addr, hn, hc, hu => by
    have hlt : i < n := by simp at hn; omega
    simp only [Constant.completeList, Bool.and_eq_true] at hc
    simp only [Constant.anyUnsupportedLeaf, Bool.or_eq_true] at hu
    simp only [SmackRep.addInitStruct, hlt, if_true]
    cases h1 : SmackRep.addInit dotEscape L valueAt s region
        (pa addr (toInt32 (fieldOffset L st i)) 1) c with
    | none => rfl
    | some s1 =>
      rcases hu with hu | hu
      · rw [addInit_unsupported dotEscape L valueAt region c s _ hc.1 hu] at h1
        cases h1
      · exact addInitStruct_unsupported dotEscape L valueAt region cs st n (i + 1) s1 addr
          (by simp at hn; omega) hc.2 hu
end

mutual
theorem supported_of_complete :
    ∀ c : Constant, c.complete = true → c.hasUnsupportedLeaf = false → c.supported = true
  | .mk ptr ty elems, hc, hu => by
    by_cases hleaf : (isInt ty || ty.isPointerTy) = true
    · simp [Constant.supported, hleaf]
    · simp only [Constant.complete, hleaf, if_false, Bool.false_eq_true] at hc
      simp only [Constant.hasUnsupportedLeaf, hleaf, if_false, Bool.false_eq_true] at hu
      simp only [Constant.supported, hleaf, if_false, Bool.false_eq_true]
      cases ty with
      | arrayTy n elemTy =>
        simp only [Bool.and_eq_true, decide_eq_true_eq] at hc ⊢
        exact ⟨⟨hc.1.1, hc.1.2⟩, supportedList_of_complete elems hc.2 hu⟩
      | structTy tag n sized =>
        simp only [Bool.and_eq_true, decide_eq_true_eq] at hc ⊢
        exact ⟨hc.1, supportedList_of_complete elems hc.2 hu⟩
      | _ => simp at hu
theorem supportedList_of_complete :
    ∀ cs : List Constant, Constant.completeList cs = true →
      Constant.anyUnsupportedLeaf cs = false → Constant.supportedList cs = true
  | [], _, _ => rfl
  | c :: cs, hc, hu => by
    simp only [Constant.completeList, Bool.and_eq_true] at hc
    simp only [Constant.anyUnsupportedLeaf, Bool.or_eq_false_iff] at hu
    simp only [Constant.supportedList, Bool.and_eq_true]
    exact ⟨supported_of_complete c hc.1 hu.1, supportedList_of_complete cs hc.2 hu.2⟩
end

theorem addInit_none_iff (dotEscape : String → String) (L : DataLayout)
    (valueAt : ValuePtr → Value) (region : Nat) (c : Constant) (s : SmackRep) (addr : Expr)
    (hc : c.complete = true) :
    s.addInit dotEscape L valueAt region addr c = none
      ↔ (c.hasUnsupportedLeaf = true
          ∨ ∃ p ∈ c.leaves, s.expr dotEscape L (valueAt p) = none) := by
  cases hu : c.hasUnsupportedLeaf with
  | true =>
    simp only [true_or, iff_true]
    exact addInit_unsupported dotEscape L valueAt region c s addr hc hu
  | false =>
    have hs := supported_of_complete c hc hu
    rw [addInit_exprs dotEscape L valueAt region c s addr hs]
    simp only [Option.map_eq_none', Bool.false_eq_true, false_or]
    rw [exprs_none_iff]
    simp only [List.mem_map, exists_exists_and_eq_and]

/-! ## The offsets of the leaves -/

theorem pathOffset_cons (step : Int × Int) (p : List (Int × Int)) :
    pathOffset (step :: p) = step.1 * step.2 + pathOffset p := rfl

theorem offsets_shift (k : Int × Int) (paths : List (List (Int × Int)))
    (h : (paths.map pathOffset).Pairwise (· < ·)) :
    ((paths.map (fun path => k :: path)).map pathOffset).Pairwise (· < ·) := by
  rw [List.map_map]
  rw [List.pairwise_map] at h ⊢
  refine h.imp ?_
  intro a b hab
  simp only [Function.comp, pathOffset_cons]
  omega

theorem offsets_append (l₁ l₂ : List (List (Int × Int))) (m : Int)
    (h₁ : (l₁.map pathOffset).Pairwise (· < ·)) (h₂ : (l₂.map pathOffset).Pairwise (· < ·))
    (hlo : ∀ p ∈ l₁, pathOffset p < m) (hhi : ∀ p ∈ l₂, m ≤ pathOffset p) :
    ((l₁ ++ l₂).map pathOffset).Pairwise (· < ·) := by
  rw [List.map_append, List.pairwise_append]
  refine ⟨h₁, h₂, ?_⟩
  intro a ha b hb
  obtain ⟨p, hp, rfl⟩ := List.mem_map.1 ha
  obtain ⟨q, hq, rfl⟩ := List.mem_map.1 hb
  have := hlo p hp
  have := hhi q hq
  omega

theorem laidOutStruct_head (L : DataLayout) (st : LType) (total : Nat) :
    ∀ (cs : List Constant) (c : Constant) (i : Nat),
      Constant.laidOutStruct L st total i (c :: cs) = true →
      fieldOffset L st i + storageSize L c.type ≤ total
  | [], c, i, h => by
    simp only [Constant.laidOutStruct, Bool.and_eq_true, decide_eq_true_eq, List.length_nil,
      if_true] at h
    exact h.1.1
  | c' :: cs, c, i, h => by
    simp only [Constant.laidOutStruct, Bool.and_eq_true, decide_eq_true_eq, List.length_cons,
      Nat.add_one_ne_zero, if_false] at h
    have := laidOutStruct_head L st total cs c' (i + 1)
      (by simp only [Constant.laidOutStruct, Bool.and_eq_true, decide_eq_true_eq]; exact h.2)
    omega

mutual
theorem leafOffsets_sorted (L : DataLayout) :
    ∀ c : Constant, c.supported = true → c.laidOut L = true →
      storageSize L c.type < 2147483648 →
      ((c.leafPaths L).map pathOffset).Pairwise (· < ·)
        ∧ ∀ p ∈ c.leafPaths L, 0 ≤ pathOffset p ∧ pathOffset p < (storageSize L c.type : Int)
  | .mk ptr ty elems, hs, hl, hb => by
    by_cases hleaf : (isInt ty || ty.isPointerTy) = true
    · simp only [Constant.laidOut, hleaf, if_true, decide_eq_true_eq] at hl
      simp only [Constant.leafPaths, hleaf, if_true, Constant.type, List.map_cons, List.map_nil,
        List.pairwise_singleton, List.mem_singleton, forall_eq, pathOffset, true_and]
      omega
    · simp only [Constant.supported, hleaf, if_false, Bool.false_eq_true] at hs
      simp only [Constant.laidOut, hleaf, if_false, Bool.false_eq_true] at hl
      simp only [Constant.type] at hb ⊢
      cases ty with
      | arrayTy n elemTy =>
        simp only [Bool.and_eq_true, decide_eq_true_eq] at hs hl
        simp only [Constant.leafPaths, hleaf, if_false, Bool.false_eq_true]
        have hn : n = elems.length := hs.1.1
        have hb' : (0 + elems.length) * storageSize L elemTy < 2147483648 := by
          rw [Nat.zero_add, ← hn]
          omega
        obtain ⟨h1, h2⟩ := arrayOffsets_sorted L elemTy elems 0 hs.2 hl.2 hb'
        refine ⟨h1, fun p hp => ?_⟩
        obtain ⟨h3, h4⟩ := h2 p hp
        have h5 : ((0 + elems.length : Nat) : Int) * (storageSize L elemTy : Int)
            ≤ (storageSize L (LType.arrayTy n elemTy) : Int) := by
          rw [Nat.zero_add, ← hn]
          exact_mod_cast hl.1
        simp only [Nat.cast_zero, zero_mul] at h3
        exact ⟨h3, lt_of_lt_of_le h4 h5⟩
      | structTy tag n sized =>
        simp only [Bool.and_eq_true, decide_eq_true_eq] at hs
        simp only [Constant.leafPaths, hleaf, if_false, Bool.false_eq_true]
        obtain ⟨h1, h2⟩ := structOffsets_sorted L (.structTy tag n sized)
          (storageSize L (.structTy tag n sized)) elems 0 hs.2 hl hb
        refine ⟨h1, fun p hp => ?_⟩
        obtain ⟨h3, h4⟩ := h2 p hp
        exact ⟨le_trans (Int.natCast_nonneg _) h3, h4⟩
      | _ => simp at hs
theorem arrayOffsets_sorted (L : DataLayout) (elemTy : LType) :
    ∀ (elems : List Constant) (i : Nat), Constant.supportedList elems = true →
      Constant.laidOutArray L elemTy elems = true →
      (i + elems.length) * storageSize L elemTy < 2147483648 →
      ((Constant.arrayPaths L (storageSize L elemTy) i elems).map pathOffset).Pairwise (· < ·)
        ∧ ∀ p ∈ Constant.arrayPaths L (storageSize L elemTy) i elems,
            (i : Int) * (storageSize L elemTy : Int) ≤ pathOffset p
              ∧ pathOffset p < ((i + elems.length : Nat) : Int) * (storageSize L elemTy : Int)
  | [], i, _, _, _ => by simp [Constant.arrayPaths]
  | c :: cs, i, hs, hl, hb => by
    simp only [Constant.supportedList, Bool.and_eq_true] at hs
    simp only [Constant.laidOutArray, Bool.and_eq_true, decide_eq_true_eq] at hl
    obtain ⟨⟨hty, hlc⟩, hlcs⟩ := hl
    simp only [List.length_cons] at hb ⊢
    have hS : storageSize L c.type < 2147483648 := by
      rw [hty]
      have : storageSize L elemTy ≤ (i + (cs.length + 1)) * storageSize L elemTy :=
        Nat.le_mul_of_pos_left _ (by omega)
      omega
    obtain ⟨hc1, hc2⟩ := leafOffsets_sorted L c hs.1 hlc hS
    rw [hty] at hc2
    obtain ⟨hr1, hr2⟩ := arrayOffsets_sorted L elemTy cs (i + 1) hs.2 hlcs
      (by rw [show i + 1 + cs.length = i + (cs.length + 1) by omega]; exact hb)
    have hstep : ∀ p ∈ c.leafPaths L,
        pathOffset ((toInt32 i, toInt32 (storageSize L elemTy)) :: p)
          = (i : Int) * (storageSize L elemTy : Int) + pathOffset p := by
      intro p hp
      obtain ⟨h0, h1⟩ := hc2 p hp
      have hpos : 0 < storageSize L elemTy := by omega
      have hi : i < 2147483648 := by
        have : i + (cs.length + 1) ≤ (i + (cs.length + 1)) * storageSize L elemTy :=
          Nat.le_mul_of_pos_right _ hpos
        omega
      have hS' : storageSize L elemTy < 2147483648 := by rw [← hty]; exact hS
      rw [pathOffset_cons, toInt32_of_lt i hi, toInt32_of_lt _ hS']
    have hcast : ((i + 1 : Nat) : Int) * (storageSize L elemTy : Int)
        = (i : Int) * (storageSize L elemTy : Int) + (storageSize L elemTy : Int) := by
      push_cast
      ring
    have hcast2 : ((i + (cs.length + 1) : Nat) : Int) * (storageSize L elemTy : Int)
        = ((i + 1 + cs.length : Nat) : Int) * (storageSize L elemTy : Int) := by
      rw [show i + (cs.length + 1) = i + 1 + cs.length by omega]
    have hmono : ((i + 1 : Nat) : Int) * (storageSize L elemTy : Int)
        ≤ ((i + 1 + cs.length : Nat) : Int) * (storageSize L elemTy : Int) := by
      apply mul_le_mul_of_nonneg_right
      · exact_mod_cast Nat.le_add_right _ _
      · exact Int.natCast_nonneg _
    simp only [Constant.arrayPaths]
    constructor
    · apply offsets_append _ _ (((i + 1 : Nat) : Int) * (storageSize L elemTy : Int))
        (offsets_shift _ _ hc1) hr1
      · intro p hp
        obtain ⟨q, hq, rfl⟩ := List.mem_map.1 hp
        rw [hstep q hq, hcast]
        have := (hc2 q hq).2
        omega
      · intro p hp
        exact (hr2 p hp).1
    · intro p hp
      rcases List.mem_append.1 hp with hp | hp
      · obtain ⟨q, hq, rfl⟩ := List.mem_map.1 hp
        rw [hstep q hq, hcast2]
        have h1 := (hc2 q hq).1
        have h2 := (hc2 q hq).2
        rw [hcast] at hmono
        omega
      · obtain ⟨h1, h2⟩ := hr2 p hp
        rw [hcast2]
        rw [hcast] at h1
        have : (0 : Int) ≤ (storageSize L elemTy : Int) := Int.natCast_nonneg _
        exact ⟨by omega, h2⟩
theorem structOffsets_sorted (L : DataLayout) (st : LType) (total : Nat) :
    ∀ (elems : List Constant) (i : Nat), Constant.supportedList elems = true →
      Constant.laidOutStruct L st total i elems = true → total < 2147483648 →
      ((Constant.structPaths L st i elems).map pathOffset).Pairwise (· < ·)
        ∧ ∀ p ∈ Constant.structPaths L st i elems,
            (fieldOffset L st i : Int) ≤ pathOffset p ∧ pathOffset p < (total : Int)
  | [], i, _, _, _ => by simp [Constant.structPaths]
  | c :: cs, i, hs, hl, hb => by
    have hhead := laidOutStruct_head L st total cs c i hl
    simp only [Constant.supportedList, Bool.and_eq_true] at hs
    simp only [Constant.laidOutStruct, Bool.and_eq_true, decide_eq_true_eq] at hl
    obtain ⟨⟨hnext, hlc⟩, hlcs⟩ := hl
    obtain ⟨hc1, hc2⟩ := leafOffsets_sorted L c hs.1 hlc (by omega)
    obtain ⟨hr1, hr2⟩ := structOffsets_sorted L st total cs (i + 1) hs.2 hlcs hb
    have hstep : ∀ p : List (Int × Int),
        pathOffset ((toInt32 (fieldOffset L st i), (1 : Int)) :: p)
          = (fieldOffset L st i : Int) + pathOffset p := by
      intro p
      rw [pathOffset_cons, toInt32_of_lt _ (by omega)]
      simp
    simp only [Constant.structPaths]
    constructor
    · by_cases hcs : cs.length = 0
      · have : cs = [] := List.length_eq_zero.1 hcs
        subst this
        simp only [Constant.structPaths, List.append_nil]
        exact offsets_shift _ _ hc1
      · rw [if_neg hcs] at hnext
        apply offsets_append _ _ ((fieldOffset L st (i + 1) : Nat) : Int)
          (offsets_shift _ _ hc1) hr1
        · intro p hp
          obtain ⟨q, hq, rfl⟩ := List.mem_map.1 hp
          rw [hstep q]
          have := (hc2 q hq).2
          omega
        · intro p hp
          exact (hr2 p hp).1
    · intro p hp
      rcases List.mem_append.1 hp with hp | hp
      · obtain ⟨q, hq, rfl⟩ := List.mem_map.1 hp
        rw [hstep q]
        have h1 := (hc2 q hq).1
        have h2 := (hc2 q hq).2
        omega
      · obtain ⟨h1, h2⟩ := hr2 p hp
        refine ⟨?_, h2⟩
        have hne : ¬ cs.length = 0 := by
          intro h0
          have : cs = [] := List.length_eq_zero.1 h0
          subst this
          simp [Constant.structPaths] at hp
        rw [if_neg hne] at hnext
        omega
end

/-! ## Static-initializer flattening -/

/-- Claim C12 fails as stated: the `i32` initializer whose value is the constant
expression `trunc (i64 ptrtoint (i8* @g to i64) to i32)` is built from one
integer scalar, its one scalar leaf, and `addInit` buffers no assignment for
it: `expr` aborts on the constant expression, and the call with it. -/
theorem addInit_flattening_counterexample :
    intLeaf.supported = true
    ∧ intLeaf.leaves.length = 1
    ∧ (SmackRep.init.addInit id sampleLayout truncValueAt 0 (Expr.var "g") intLeaf).isNone
        = true := by
  decide

/-- Claim C12, amended: for an initializer built from integer and pointer
scalars, arrays and structs whose scalar leaves, lowered with `expr` one after
the other in depth-first, left-to-right order, give the expressions `es`
(`expr` aborts on none of them), `addInit` succeeds and appends to the buffer
exactly one assignment per leaf, in that order; the assignment for a leaf
writes the expression of the leaf into the map of the region at the address
reached from `addr` by one `$pa` step per enclosing array (element index,
`storageSize` of the element type) or struct (`fieldOffset` of the field, 1);
apart from the buffer only the counters of the placeholders change.  When the
data layout lays the initializer out without overlap and its size fits an
`int`, the offsets of the leaves are ascending and inside the initializer, and
the addresses of different leaves are different. -/
theorem addInit_flattening (dotEscape : String → String) (L : DataLayout)
    (valueAt : ValuePtr → Value) (s : SmackRep) (region : Nat) (addr : Expr) (c : Constant)
    (es : List Expr) (s' : SmackRep) (hs : c.supported = true)
    (hv : s.exprs dotEscape L (c.leaves.map valueAt) = some (es, s')) :
    s.addInit dotEscape L valueAt region addr c
        = some { s' with staticInits := (s.staticInits ++ List.zipWith
            (fun a e => Stmt.assign [Expr.sel (Expr.var (memReg region)) [a]] [e])
            ((c.leafPaths L).map (applyPath addr)) es) }
    ∧ es.length = c.leaves.length
    ∧ (c.leafPaths L).length = c.leaves.length
    ∧ s.sameButCounters s'
    ∧ (c.laidOut L = true → storageSize L c.type < 2147483648 →
        ((c.leafPaths L).map pathOffset).Pairwise (· < ·)
          ∧ (∀ o ∈ (c.leafPaths L).map pathOffset, 0 ≤ o ∧ o < (storageSize L c.type : Int))
          ∧ ((c.leafPaths L).map (applyPath addr)).Nodup) := by
  refine ⟨?_, ?_, leafPaths_length L c hs, exprs_frame dotEscape L _ s es s' hv, ?_⟩
  · rw [addInit_exprs dotEscape L valueAt region c s addr hs, hv]
    simp only [Option.map_some', List.zipWith_map_left]
    rfl
  · simpa using exprs_length dotEscape L _ s es s' hv
  · intro hl hb
    obtain ⟨h1, h2⟩ := leafOffsets_sorted L c hs hl hb
    refine ⟨h1, ?_, ?_⟩
    · intro o ho
      obtain ⟨p, hp, rfl⟩ := List.mem_map.1 ho
      exact h2 p hp
    · have hnd : ((c.leafPaths L).map pathOffset).Nodup := h1.imp (fun {a b} h => ne_of_lt h)
      exact (List.Nodup.of_map pathOffset hnd).map (applyPath_injective addr)

/-- Claim C12 on an array of two structs of two `i32` fields whose first fields
hold the same constant `undef`: four assignments at the offsets 0, 4, 8 and 12,
the two undefined leaves written as the different placeholders `$u.0` and
`$u.1`. -/
theorem addInit_flattening_witness :
    twoStructs.leaves = [7, 8, 7, 10]
    ∧ twoStructs.laidOut packedLayout = true
    ∧ (twoStructs.leafPaths packedLayout).map pathOffset = [0, 4, 8, 12]
    ∧ SmackRep.init.addInit id packedLayout undefAtSeven 0 (Expr.var "arr") twoStructs
        = some { ({ SmackRep.init with uniqueUndefNum := 2 } : SmackRep) with
            staticInits := (SmackRep.init.staticInits ++ List.zipWith
              (fun a e => Stmt.assign [Expr.sel (Expr.var (memReg 0)) [a]] [e])
              ((twoStructs.leafPaths packedLayout).map (applyPath (Expr.var "arr")))
              [Expr.var "$u.0", Expr.lit .Num 8, Expr.var "$u.1", Expr.lit .Num 10]) } :=
  ⟨by decide, by decide, by decide,
    (addInit_flattening id packedLayout undefAtSeven SmackRep.init 0 (Expr.var "arr") twoStructs
      [Expr.var "$u.0", Expr.lit .Num 8, Expr.var "$u.1", Expr.lit .Num 10]
      { SmackRep.init with uniqueUndefNum := 2 } (by decide) rfl).1⟩

/-! ## Failure of the static-initializer expansion -/

/-- Claim C35 fails as stated: the pointer initializer whose value is a
`blockaddress` constant holds no value of a type other than integer, pointer,
array and struct, and `addInit` fails on it: `expr` aborts on the constant. -/
theorem addInit_failure_counterexample :
    pointerLeaf.complete = true
    ∧ pointerLeaf.hasUnsupportedLeaf = false
    ∧ (SmackRep.init.addInit id sampleLayout blockAddressValueAt 0 (Expr.var "g")
        pointerLeaf).isNone = true := by
  decide

/-- Claim C35, amended: for an initializer whose aggregates hold the elements
their types announce, `addInit` fails exactly when the initializer holds a
value whose type is none of integer, pointer, array and struct, or an integer
or pointer leaf on which `expr` aborts (whether `expr` aborts on a value does
not depend on the state); it fails on a floating-point value; an array without
elements and a struct without fields leave the state as it is. -/
theorem addInit_failure (dotEscape : String → String) (L : DataLayout)
    (valueAt : ValuePtr → Value) (s : SmackRep) (region : Nat) (addr : Expr) (c : Constant)
    (hc : c.complete = true) :
    (s.addInit dotEscape L valueAt region addr c = none
      ↔ (c.hasUnsupportedLeaf = true
          ∨ ∃ p ∈ c.leaves, s.expr dotEscape L (valueAt p) = none))
    ∧ (∀ (t : SmackRep) (v : Value),
        (t.expr dotEscape L v).isSome = (s.expr dotEscape L v).isSome)
    ∧ (∀ ptr bits elems,
        s.addInit dotEscape L valueAt region addr
          (Constant.mk ptr (LType.floatingPointTy bits) elems) = none)
    ∧ (∀ ptr elem,
        s.addInit dotEscape L valueAt region addr (Constant.mk ptr (LType.arrayTy 0 elem) [])
          = some s)
    ∧ (∀ ptr tag sized,
        s.addInit dotEscape L valueAt region addr
          (Constant.mk ptr (LType.structTy tag 0 sized) []) = some s) := by
  refine ⟨addInit_none_iff dotEscape L valueAt region c s addr hc,
    fun t v => expr_isSome dotEscape L v t s, ?_, ?_, ?_⟩
  · intro ptr bits elems
    simp [SmackRep.addInit, isInt, LType.isIntegerTy, LType.isPointerTy]
  · intro ptr elem
    simp [SmackRep.addInit, isInt, LType.isIntegerTy, LType.isPointerTy, SmackRep.addInitArray]
  · intro ptr tag sized
    simp [SmackRep.addInit, isInt, LType.isIntegerTy, LType.isPointerTy, SmackRep.addInitStruct]

/-- Claim C35 on the struct `{ i32 41, float }`: `addInit` fails on it. -/
theorem addInit_failure_witness :
    structWithFloat.hasUnsupportedLeaf = true
      ∧ SmackRep.init.addInit id sampleLayout intValueAt 0 (Expr.var "g") structWithFloat
          = none :=
  ⟨by decide,
    (addInit_failure id sampleLayout intValueAt SmackRep.init 0 (Expr.var "g") structWithFloat
      (by decide)).1.2 (Or.inl (by decide))⟩

/-! ## Calls to variadic functions with the lowering of the operands -/

theorem callArgs_exprs (dotEscape : String → String) (L : DataLayout) (fn : Function) :
    ∀ (vs : List Value) (s : SmackRep) (i : Nat),
      SmackRep.callArgs dotEscape L (some fn) s i vs
        = (s.exprs dotEscape L vs).map (fun r =>
            (List.zipWith
              (fun v e => if fn.isVarArg && isFloat v.type then Expr.fn FP2SI [e] else e)
              vs r.1, r.2))
  | [], s, i => rfl
  | v :: vs, s, i => by
    simp only [SmackRep.callArgs, SmackRep.exprs, SmackRep.arg, SmackRep.fp2si]
    by_cases hc : (fn.isVarArg && isFloat v.type) = true
    · simp only [hc, if_true]
      cases SmackRep.expr dotEscape L s v with
      | none => rfl
      | some q =>
        obtain ⟨e, s1⟩ := q
        simp only [Option.map_some']
        rw [callArgs_exprs dotEscape L fn vs s1 (i + 1)]
        cases SmackRep.exprs dotEscape L s1 vs with
        | none => rfl
        | some r =>
          have hc' := hc
          simp only [Bool.and_eq_true] at hc'
          simp [hc', Expr.fn1]
    · simp only [hc, if_false, Bool.false_eq_true]
      cases SmackRep.expr dotEscape L s v with
      | none => rfl
      | some q =>
        obtain ⟨e, s1⟩ := q
        simp only
        rw [callArgs_exprs dotEscape L fn vs s1 (i + 1)]
        cases SmackRep.exprs dotEscape L s1 vs with
        | none => rfl
        | some r =>
          have hc' := hc
          simp only [Bool.and_eq_true] at hc'
          simp [hc']

theorem call_callArgs (dotEscape : String → String) (L : DataLayout)
    (valueAt : ValuePtr → Value) (s : SmackRep) (program : Program) (uniqueId : Nat)
    (fn : Function) (ci : CallInst) (st : Stmt) (p : Program) (f1 : Function) (u1 : Nat)
    (s1 : SmackRep)
    (h : s.call dotEscape L valueAt program uniqueId (some fn) ci = some (st, p, f1, u1, s1)) :
    SmackRep.callArgs dotEscape L (some fn) s 0 (ci.operands.dropLast.map valueAt)
      = some (st.args, s1) := by
  unfold SmackRep.call at h
  generalize List.map valueAt ci.operands.dropLast = vs at h ⊢
  simp only at h
  cases hid : SmackRep.id dotEscape fn.name with
  | none => simp [hid] at h
  | some name =>
    simp only [hid] at h
    cases hargs : SmackRep.callArgs dotEscape L (some fn) s 0 vs with
    | none => simp [hargs] at h
    | some r =>
      obtain ⟨args, s2⟩ := r
      simp only [hargs] at h
      split at h
      · cases h
      · rename_i rets _
        split at h
        · match args, rets, h with
          | [a], r :: _, h =>
            simp only [Option.some.injEq, Prod.mk.injEq] at h
            obtain ⟨h1, _, _, _, h5⟩ := h
            subst h1 h5
            rfl
        · split at h
          · match args, h with
            | [a], h =>
              simp only [Option.some.injEq, Prod.mk.injEq] at h
              obtain ⟨h1, _, _, _, h5⟩ := h
              subst h1 h5
              rfl
          · split at h
            · cases hp : proc dotEscape uniqueId fn (toInt32 args.length) with
              | none => simp [hp] at h
              | some q =>
                obtain ⟨d, fn1, u2⟩ := q
                simp only [hp, Option.some.injEq, Prod.mk.injEq] at h
                obtain ⟨h1, _, _, _, h5⟩ := h
                subst h1 h5
                rfl
            · simp only [Option.some.injEq, Prod.mk.injEq] at h
              obtain ⟨h1, _, _, _, h5⟩ := h
              subst h1 h5
              rfl

/-- Claim C32: `arg(f, pos, v)` is the float-to-signed-integer conversion of
`expr(v)` when `f` is a resolved variadic callee and `v` is floating-point
typed, and `expr(v)` in every other case, with the state that `expr(v)` leaves
(the two expressions differ); hence the arguments of a call statement that
`call` builds for a variadic callee are, operand by operand, the expressions
that `expr` gives to the operands lowered one after the other, each under the
conversion when its operand is floating-point typed. -/
theorem variadic_float_arguments (dotEscape : String → String) (L : DataLayout)
    (s : SmackRep) (f : Option Function) (pos : Nat) (v : Value) :
    ((∃ fn, f = some fn ∧ fn.isVarArg = true) ∧ isFloat v.type = true →
        s.arg dotEscape L f pos v
          = (s.expr dotEscape L v).map (fun r => (Expr.fn "$fp2si" [r.1], r.2)))
    ∧ (¬ ((∃ fn, f = some fn ∧ fn.isVarArg = true) ∧ isFloat v.type = true) →
        s.arg dotEscape L f pos v = s.expr dotEscape L v)
    ∧ (∀ e : Expr, Expr.fn "$fp2si" [e] ≠ e)
    ∧ (∀ (valueAt : ValuePtr → Value) program uniqueId fn ci st p f1 u1 s1,
        fn.isVarArg = true →
        s.call dotEscape L valueAt program uniqueId (some fn) ci = some (st, p, f1, u1, s1) →
        ∃ es : List Expr,
          s.exprs dotEscape L (ci.operands.dropLast.map valueAt) = some (es, s1)
          ∧ es.length = ci.operands.dropLast.length
          ∧ st.args = List.zipWith
              (fun q e => if isFloat (valueAt q).type then Expr.fn "$fp2si" [e] else e)
              ci.operands.dropLast es) := by
  refine ⟨?_, ?_, ?_, ?_⟩
  · rintro ⟨⟨fn, rfl, hva⟩, hfl⟩
    simp only [SmackRep.arg, SmackRep.fp2si, hva, hfl, FP2SI, Bool.and_self, if_true]
    rfl
  · intro hn
    cases f with
    | none => rfl
    | some fn =>
      by_cases hva : fn.isVarArg = true
      · have hfl : ¬ isFloat v.type = true := fun hfl => hn ⟨⟨fn, rfl, hva⟩, hfl⟩
        simp [SmackRep.arg, hva, hfl]
      · simp [SmackRep.arg, hva]
  · intro e h
    have := congrArg sizeOf h
    simp at this
    omega
  · intro valueAt program uniqueId fn ci st p f1 u1 s1 hva hcall
    have h1 := call_callArgs dotEscape L valueAt s program uniqueId fn ci st p f1 u1 s1 hcall
    rw [callArgs_exprs dotEscape L fn] at h1
    have hzip : ∀ es : List Expr,
        List.zipWith
            (fun v e => if fn.isVarArg && isFloat v.type then Expr.fn FP2SI [e] else e)
            (List.map valueAt ci.operands.dropLast) es
          = List.zipWith
            (fun q e => if isFloat (valueAt q).type then Expr.fn "$fp2si" [e] else e)
            ci.operands.dropLast es := by
      intro es
      rw [List.zipWith_map_left]
      simp [hva, FP2SI]
    have hlen : ∀ (es : List Expr) (s2 : SmackRep),
        s.exprs dotEscape L (List.map valueAt ci.operands.dropLast) = some (es, s2) →
        es.length = ci.operands.dropLast.length := by
      intro es s2 he
      rw [exprs_length dotEscape L _ s es s2 he, List.length_map]
    revert h1 hzip hlen
    generalize List.map valueAt ci.operands.dropLast = vs
    intro h1 hzip hlen
    cases he : s.exprs dotEscape L vs with
    | none => rw [he] at h1; cases h1
    | some r =>
      obtain ⟨es, s2⟩ := r
      rw [he] at h1
      simp only [Option.map_some', Option.some.injEq, Prod.mk.injEq] at h1
      obtain ⟨h2, h3⟩ := h1
      subst h3
      exact ⟨es, rfl, hlen es s2 he, by rw [← h2, hzip es]⟩

/-- Claim C32 on the call `foo(1.5, 1.5)` of a variadic `foo`, both operands the
same constant: the arguments are the conversions of two different
floating-point placeholders. -/
theorem variadic_float_arguments_witness :
    (SmackRep.init.call id sampleLayout doubleValueAt Program.empty 0 (some fooFn)
        (voidCall [10, 10])).map (fun r => r.1.args)
      = some [Expr.fn "$fp2si" [Expr.fn "$fp" [Expr.lit .Num 0]],
              Expr.fn "$fp2si" [Expr.fn "$fp" [Expr.lit .Num 1]]]
    ∧ ∃ es : List Expr,
        SmackRep.init.exprs id sampleLayout ((voidCall [10, 10]).operands.dropLast.map
            doubleValueAt)
          = some (es, { SmackRep.init with uniqueFpNum := 2 })
        ∧ es.length = (voidCall [10, 10]).operands.dropLast.length
        ∧ Stmt.args (Stmt.call "foo#2"
              [Expr.fn "$fp2si" [Expr.fn "$fp" [Expr.lit .Num 0]],
               Expr.fn "$fp2si" [Expr.fn "$fp" [Expr.lit .Num 1]]] [] [])
            = List.zipWith
              (fun q e => if isFloat (doubleValueAt q).type then Expr.fn "$fp2si" [e] else e)
              (voidCall [10, 10]).operands.dropLast es :=
  ⟨rfl,
    (variadic_float_arguments id sampleLayout SmackRep.init (some fooFn) 0
      (doubleValueAt 10)).2.2.2 doubleValueAt Program.empty 0 fooFn (voidCall [10, 10])
      (Stmt.call "foo#2"
        [Expr.fn "$fp2si" [Expr.fn "$fp" [Expr.lit .Num 0]],
         Expr.fn "$fp2si" [Expr.fn "$fp" [Expr.lit .Num 1]]] [] [])
      _ _ _ { SmackRep.init with uniqueFpNum := 2 } rfl rfl⟩

/-! ## A scalar global with its initial value -/

end smack
